import Mathlib

/-!
# t-SNE engine of tapkee: a shallow embedding and its verified properties

Source: `include/tapkee/external/barnes_hut_sne/tsne.hpp` (class `tsne::TSNE`).

Modelling conventions
* C arrays are lists; `rd a i` is the read `a[i]` and `List.set` the write
  `a[i] = v`.  A read outside the list gives `0`; on the valid inputs the
  theorems are about, every read and write is inside the array.
* `int` indices are natural numbers (sizes are assumed to fit an `int`).
* `ScalarType` is modelled by the rationals: the arithmetic is exact.
  Where the code calls `exp` and `log`, the scalar type is a parameter (a
  linearly ordered field) and the two functions are parameters as well.
* The program instantiates `ScalarType` with `double`.  Where a statement
  depends on the rounding of binary64, the section "Binary64 arithmetic"
  repeats the code with rounded operations (`fl`); where it depends on a
  division by zero, `computeExactGradientChecked` repeats the code with
  checked divisions.  The statements say which arithmetic they are about.
* `for (int i = lo; i < hi; i++) body` is `forLoop lo hi body`, a left fold
  of the body over `lo, lo+1, ..., hi-1`.
* `malloc` gives an array of zeros of the requested length (the code
  overwrites every cell before it is read), `calloc` gives zeros.
-/

namespace tsne

/-! ## Arrays and loops -/

/-- Array read `a[i]`. -/
def rd {α : Type} [Zero α] (a : List α) (i : Nat) : α := a.getD i 0

/-- In-place increment `a[i]++`. -/
def incr (a : List Nat) (i : Nat) : List Nat := a.set i (rd a i + 1)

/-- The loop `for (int i = lo; i < hi; i++) s = body s i`. -/
def forLoop {σ : Type} (lo hi : Nat) (body : σ → Nat → σ) (s : σ) : σ :=
  (List.range' lo (hi - lo)).foldl body s

/-! ## Sparse row-compressed matrices -/

/-- The three arrays `row_P`, `col_P`, `val_P` of a sparse matrix. -/
structure Csr where
  row_P : List Nat
  col_P : List Nat
  val_P : List ℚ
deriving DecidableEq, Repr

/-- The array positions `row_P[n], ..., row_P[n+1]-1` that hold row `n`. -/
def rowIdx (row_P : List Nat) (n : Nat) : List Nat :=
  List.range' (rd row_P n) (rd row_P (n + 1) - rd row_P n)

/-- The stored entries `(row, column, weight)` of an `N`-row matrix, row by
row in array order. -/
def entries (N : Nat) (M : Csr) : List (Nat × Nat × ℚ) :=
  (List.range N).flatMap fun n =>
    (rowIdx M.row_P n).map fun i => (n, rd M.col_P i, rd M.val_P i)

/-- A well-formed sparse matrix with `N` rows: `row_P` has `N+1` offsets
starting at `0` and non-decreasing, `col_P` and `val_P` have `row_P[N]` cells,
every column index is below `N`, and no column occurs twice in a row. -/
def Valid (N : Nat) (M : Csr) : Prop :=
  M.row_P.length = N + 1 ∧ rd M.row_P 0 = 0 ∧
  (∀ n, n < N → rd M.row_P n ≤ rd M.row_P (n + 1)) ∧
  M.col_P.length = rd M.row_P N ∧ M.val_P.length = rd M.row_P N ∧
  (∀ i, i < rd M.row_P N → rd M.col_P i < N) ∧
  (∀ n, n < N → ((rowIdx M.row_P n).map (rd M.col_P)).Nodup)

instance (N : Nat) (M : Csr) : Decidable (Valid N M) := by
  unfold Valid; infer_instance

/-! ## `TSNE::symmetrizeMatrix` -/

/-- Lines 226-231 (and 273-278): the scan of row `c` for column `n`,
"check whether element (col_P[i], n) is present". -/
def isPresent (row_P col_P : List Nat) (n c : Nat) : Bool :=
  forLoop (rd row_P c) (rd row_P (c + 1))
    (fun present m => if rd col_P m = n then true else present) false

/-- Lines 225-238: the body of the counting pass for the entry at position
`i` of row `n`. -/
def countEntry (row_P col_P : List Nat) (n : Nat) (row_counts : List Nat) (i : Nat) :
    List Nat :=
  if isPresent row_P col_P n (rd col_P i) then incr row_counts n
  else incr (incr row_counts n) (rd col_P i)

/-- Lines 215-240: `row_counts` after the counting pass. -/
def rowCounts (row_P col_P : List Nat) (N : Nat) : List Nat :=
  forLoop 0 N
    (fun rc n => forLoop (rd row_P n) (rd row_P (n + 1)) (countEntry row_P col_P n) rc)
    (List.replicate N 0)

/-- Lines 241-243: `no_elem`, the sum of the row counts. -/
def noElem (row_counts : List Nat) (N : Nat) : Nat :=
  forLoop 0 N (fun s n => s + rd row_counts n) 0

/-- Lines 246, 256-258: the row offsets of the symmetric matrix. -/
def symRowP (row_counts : List Nat) (N : Nat) : List Nat :=
  forLoop 0 N (fun sr n => sr.set (n + 1) (rd sr n + rd row_counts n))
    ((List.replicate (N + 1) 0).set 0 0)

/-- The mutable state of the fill pass. -/
structure FillState where
  sym_col_P : List Nat
  sym_val_P : List ℚ
  offset : List Nat
deriving DecidableEq, Repr

/-- Lines 274-287: one step of the inner scan of the fill pass, at position
`m` of row `col_P[i]`; the state is the flag `present` and the two output
arrays. -/
def fillScan (col_P : List Nat) (val_P : List ℚ) (sym_row_P offset : List Nat)
    (n i : Nat) (s : Bool × List Nat × List ℚ) (m : Nat) : Bool × List Nat × List ℚ :=
  if rd col_P m = n then
    if n ≤ rd col_P i then
      (true,
       (s.2.1.set (rd sym_row_P n + rd offset n) (rd col_P i)).set
          (rd sym_row_P (rd col_P i) + rd offset (rd col_P i)) n,
       (s.2.2.set (rd sym_row_P n + rd offset n) (rd val_P i + rd val_P m)).set
          (rd sym_row_P (rd col_P i) + rd offset (rd col_P i)) (rd val_P i + rd val_P m))
    else (true, s.2.1, s.2.2)
  else s

/-- Lines 270-305: the body of the fill pass for the entry at position `i`
of row `n`. -/
def fillEntry (row_P col_P : List Nat) (val_P : List ℚ) (sym_row_P : List Nat) (n : Nat)
    (st : FillState) (i : Nat) : FillState :=
  let c := rd col_P i
  let s := forLoop (rd row_P c) (rd row_P (c + 1))
    (fillScan col_P val_P sym_row_P st.offset n i) (false, st.sym_col_P, st.sym_val_P)
  let present := s.1
  let sc := if !present then
      (s.2.1.set (rd sym_row_P n + rd st.offset n) c).set (rd sym_row_P c + rd st.offset c) n
    else s.2.1
  let sv := if !present then
      (s.2.2.set (rd sym_row_P n + rd st.offset n) (rd val_P i)).set
        (rd sym_row_P c + rd st.offset c) (rd val_P i)
    else s.2.2
  let off := if !present || (present && decide (n ≤ c)) then
      (if c ≠ n then incr (incr st.offset n) c else incr st.offset n)
    else st.offset
  { sym_col_P := sc, sym_val_P := sv, offset := off }

/-- Lines 261-306: the fill pass. -/
def fillPass (row_P col_P : List Nat) (val_P : List ℚ) (sym_row_P : List Nat)
    (no_elem N : Nat) : FillState :=
  forLoop 0 N
    (fun st n => forLoop (rd row_P n) (rd row_P (n + 1))
      (fillEntry row_P col_P val_P sym_row_P n) st)
    { sym_col_P := List.replicate no_elem 0, sym_val_P := List.replicate no_elem 0,
      offset := List.replicate N 0 }

/-- Lines 308-310: "divide the result by two". -/
def halve (sym_val_P : List ℚ) (no_elem : Nat) : List ℚ :=
  forLoop 0 no_elem (fun sv i => sv.set i (rd sv i / 2)) sym_val_P

/-- Lines 207-325: `symmetrizeMatrix`; the result is the matrix the three
pointers `_row_P`, `_col_P`, `_val_P` are redirected to. -/
def symmetrizeMatrix (M : Csr) (N : Nat) : Csr :=
  let row_counts := rowCounts M.row_P M.col_P N
  let no_elem := noElem row_counts N
  let sym_row_P := symRowP row_counts N
  let st := fillPass M.row_P M.col_P M.val_P sym_row_P no_elem N
  { row_P := sym_row_P, col_P := st.sym_col_P, val_P := halve st.sym_val_P no_elem }


/-! ## `TSNE::zeroMean` -/

/-- Lines 495-526: `zeroMean`; the result is the array `X` after the call. -/
def zeroMean (X : List ℚ) (N D : Nat) : List ℚ :=
  let mean := forLoop 0 N
    (fun mean n => forLoop 0 D (fun mean d => mean.set d (rd mean d + rd X (n * D + d))) mean)
    (List.replicate D 0)
  let mean := forLoop 0 D (fun mean d => mean.set d (rd mean d / (N : ℚ))) mean
  forLoop 0 N
    (fun X n => forLoop 0 D (fun X d => X.set (n * D + d) (rd X (n * D + d) - rd mean d)) X) X

/-! ## `TSNE::computeSquaredEuclideanDistance` -/

/-- Lines 940-969: `computeSquaredEuclideanDistance`; the result is the array `DD` after
the call.  `DD_map` and `X_map` are column-major views (Eigen's default storage order):
`DD_map(n, m)` is `DD[m * N + n]` and `X_map(d, n)` is `X[n * D + d]`.  The statement
`DD_map.noalias() = -2.0 * X_map.transpose() * X_map` assigns every coefficient of the
product to `DD_map`. -/
def computeSquaredEuclideanDistance (X : List ℚ) (N D : Nat) (DD : List ℚ) : List ℚ :=
  let dataSums := forLoop 0 N
    (fun dataSums n => forLoop 0 D
      (fun dataSums d => dataSums.set n (rd dataSums n + rd X (n * D + d) * rd X (n * D + d)))
      dataSums)
    (List.replicate N 0)
  let DD := forLoop 0 N
    (fun DD n => forLoop 0 N (fun DD m => DD.set (n * N + m) (rd dataSums n + rd dataSums m)) DD)
    DD
  forLoop 0 N
    (fun DD m => forLoop 0 N
      (fun DD n => DD.set (m * N + n)
        (forLoop 0 D (fun acc d => acc + (-2 * rd X (n * D + d)) * rd X (m * D + d)) 0))
      DD)
    DD

/-! ## `TSNE::computeExactGradient` and `TSNE::computeGradient` -/

/-- Lines 357-413: `computeExactGradient`; the result is the array `dC` after the call.
The two divisions (lines 386 and 399) are the total division of the rationals, for which
`x / 0 = 0`; `computeExactGradientChecked` is the same code with both divisions checked. -/
def computeExactGradient (P Y : List ℚ) (N D : Nat) (dC : List ℚ) : List ℚ :=
  let dC := forLoop 0 (N * D) (fun dC i => dC.set i 0) dC
  let DD := computeSquaredEuclideanDistance Y N D (List.replicate (N * N) 0)
  let qs := forLoop 0 N
    (fun qs n => forLoop 0 N
      (fun (qs : List ℚ × ℚ) m =>
        if n ≠ m then
          let Q := qs.1.set (n * N + m) (1 / (1 + rd DD (n * N + m)))
          (Q, qs.2 + rd Q (n * N + m))
        else qs)
      qs)
    (List.replicate (N * N) 0, 0)
  let Q := qs.1
  let sum_Q := qs.2
  forLoop 0 N
    (fun dC n => forLoop 0 N
      (fun dC m =>
        if n ≠ m then
          let mult := (rd P (n * N + m) - rd Q (n * N + m) / sum_Q) * rd Q (n * N + m)
          forLoop 0 D
            (fun dC d => dC.set (n * D + d)
              (rd dC (n * D + d) + (rd Y (n * D + d) - rd Y (m * D + d)) * mult))
            dC
        else dC)
      dC)
    dC

/-- The two `QuadTree` operations called by `computeGradient`; `quadtree.hpp` is not part
of the sources at hand, so they are parameters.  `computeEdgeForces row_P col_P val_P Y N
pos_f` is `pos_f` after the call; `computeNonEdgeForces Y N n theta k (neg_f, sum_Q)` is
the pair after the call that writes `neg_f + k` and `sum_Q`. -/
structure QuadTreeOps where
  computeEdgeForces : List Nat → List Nat → List ℚ → List ℚ → Nat → List ℚ → List ℚ
  computeNonEdgeForces : List ℚ → Nat → Nat → ℚ → Nat → List ℚ × ℚ → List ℚ × ℚ

/-- Lines 328-355: `computeGradient`; the result is the array `dC` after the call. -/
def computeGradient (qt : QuadTreeOps) (inp_row_P inp_col_P : List Nat) (inp_val_P Y : List ℚ)
    (N D : Nat) (dC : List ℚ) (theta : ℚ) : List ℚ :=
  let pos_f := qt.computeEdgeForces inp_row_P inp_col_P inp_val_P Y N (List.replicate (N * D) 0)
  let ns := forLoop 0 N (fun ns n => qt.computeNonEdgeForces Y N n theta (n * D) ns)
    (List.replicate (N * D) 0, 0)
  forLoop 0 (N * D) (fun dC i => dC.set i (rd pos_f i - rd ns.1 i / ns.2)) dC

/-! ## `TSNE::computeGaussianPerplexity`: the bandwidth search

The three copies of the search loop (dense, lines 543-598; `K` neighbours, lines 659-713;
threshold, lines 761-816 and 859-914) have the same control structure.  The scalar type
is a linearly ordered field `α`; `exp`, `log`, `DBL_MIN` and `DBL_MAX` are parameters. -/

/-- The variables of one bandwidth search; `P` is the array the kernel row is written to
(`P` in the dense version, `cur_P` in the others) and `H` the entropy computed last. -/
structure Search (α : Type) where
  found : Bool
  beta : α
  min_beta : α
  max_beta : α
  iter : Nat
  sum_P : α
  H : α
  P : List α

/-- Lines 571-597 (and 686-712): the tolerance test, the update of `beta`, `min_beta`,
`max_beta`, and `iter++`, given the kernel row `P`, its sum `sum_P` and entropy `H`; exact
arithmetic (`betaStepD` is the same code in binary64). -/
def betaStep {α : Type} [LinearOrderedField α] (log : α → α) (DBL_MAX perplexity : α)
    (s : Search α) (P : List α) (sum_P H : α) : Search α :=
  let tol : α := 1 / 100000
  let Hdiff := H - log perplexity
  if Hdiff < tol ∧ -Hdiff < tol then
    { s with found := true, iter := s.iter + 1, sum_P := sum_P, H := H, P := P }
  else if Hdiff > 0 then
    { found := s.found
      min_beta := s.beta
      max_beta := s.max_beta
      beta := if s.max_beta = DBL_MAX ∨ s.max_beta = -DBL_MAX then s.beta * 2
              else (s.beta + s.max_beta) / 2
      iter := s.iter + 1, sum_P := sum_P, H := H, P := P }
  else
    { found := s.found
      min_beta := s.min_beta
      max_beta := s.beta
      beta := if s.min_beta = -DBL_MAX ∨ s.min_beta = DBL_MAX then s.beta / 2
              else (s.beta + s.min_beta) / 2
      iter := s.iter + 1, sum_P := sum_P, H := H, P := P }

/-- The loop `while (!found && iter < 200) body`, unrolled `fuel` times. -/
def searchLoop {α : Type} (body : Search α → Search α) : Nat → Search α → Search α
  | 0, s => s
  | fuel + 1, s => if !s.found && decide (s.iter < 200) then searchLoop body fuel (body s) else s

/-- Lines 544-549: the initial values of the search variables. -/
def searchInit {α : Type} [LinearOrderedField α] (DBL_MAX : α) (P : List α) : Search α :=
  { found := false, beta := 1, min_beta := -DBL_MAX, max_beta := DBL_MAX, iter := 0,
    sum_P := 0, H := 0, P := P }

/-- Lines 556-597: the body of the dense search loop for row `n`. -/
def denseBody {α : Type} [LinearOrderedField α] (exp log : α → α) (DBL_MIN DBL_MAX : α)
    (DD : List α) (N n : Nat) (perplexity : α) (s : Search α) : Search α :=
  let P := forLoop 0 N (fun P m => P.set (n * N + m) (exp (-s.beta * rd DD (n * N + m)))) s.P
  let P := P.set (n * N + n) DBL_MIN
  let sum_P := forLoop 0 N (fun sum_P m => sum_P + rd P (n * N + m)) DBL_MIN
  let H := forLoop 0 N (fun H m => H + s.beta * (rd DD (n * N + m) * rd P (n * N + m))) 0
  let H := H / sum_P + log sum_P
  betaStep log DBL_MAX perplexity s P sum_P H

/-- Lines 543-598: the dense search for row `n`, started on the array `P`. -/
def denseSearch {α : Type} [LinearOrderedField α] (exp log : α → α) (DBL_MIN DBL_MAX : α)
    (DD : List α) (N n : Nat) (perplexity : α) (P : List α) : Search α :=
  searchLoop (denseBody exp log DBL_MIN DBL_MAX DD N n perplexity) 200 (searchInit DBL_MAX P)

/-- Lines 540-603: the dense calibration of row `n`: the search, then "row normalize P". -/
def denseRow {α : Type} [LinearOrderedField α] (exp log : α → α) (DBL_MIN DBL_MAX : α)
    (DD : List α) (N : Nat) (perplexity : α) (P : List α) (n : Nat) : List α :=
  let s := denseSearch exp log DBL_MIN DBL_MAX DD N n perplexity P
  forLoop 0 N (fun P m => P.set (n * N + m) (rd P (n * N + m) / s.sum_P)) s.P

/-- Lines 672-712: the body of the `K`-neighbour search loop; `distances` holds the
`K + 1` distances returned by the tree search (`vptree.hpp`, not in the sources at hand). -/
def knnBody {α : Type} [LinearOrderedField α] (exp log : α → α) (DBL_MIN DBL_MAX : α)
    (distances : List α) (K : Nat) (perplexity : α) (s : Search α) : Search α :=
  let cur_P := forLoop 0 K (fun cur_P m => cur_P.set m (exp (-s.beta * rd distances (m + 1)))) s.P
  let sum_P := forLoop 0 K (fun sum_P m => sum_P + rd cur_P m) DBL_MIN
  let H := forLoop 0 K (fun H m => H + s.beta * (rd distances (m + 1) * rd cur_P m)) 0
  let H := H / sum_P + log sum_P
  betaStep log DBL_MAX perplexity s cur_P sum_P H

/-- Lines 659-713: the `K`-neighbour search, started on the array `cur_P`. -/
def knnSearch {α : Type} [LinearOrderedField α] (exp log : α → α) (DBL_MIN DBL_MAX : α)
    (distances : List α) (K : Nat) (perplexity : α) (cur_P : List α) : Search α :=
  searchLoop (knnBody exp log DBL_MIN DBL_MAX distances K perplexity) 200
    (searchInit DBL_MAX cur_P)

/-- Lines 659-717: the `K`-neighbour calibration of one point: the search, then
"row-normalize current row of P". -/
def knnRow {α : Type} [LinearOrderedField α] (exp log : α → α) (DBL_MIN DBL_MAX : α)
    (distances : List α) (K : Nat) (perplexity : α) (cur_P : List α) : List α :=
  let s := knnSearch exp log DBL_MIN DBL_MAX distances K perplexity cur_P
  forLoop 0 K (fun cur_P m => cur_P.set m (rd cur_P m / s.sum_P)) s.P

/-- Lines 528-608: the dense `computeGaussianPerplexity`; the result is the array `P`
after the call. -/
def computeGaussianPerplexity (exp log : ℚ → ℚ) (DBL_MIN DBL_MAX : ℚ) (X : List ℚ) (N D : Nat)
    (P : List ℚ) (perplexity : ℚ) : List ℚ :=
  let DD := computeSquaredEuclideanDistance X N D (List.replicate (N * N) 0)
  forLoop 0 N (denseRow exp log DBL_MIN DBL_MAX DD N perplexity) P

/-! ## `TSNE::run` -/

/-- Lines 53-56: `sign`. -/
def sign (x : ℚ) : ℚ := if x = 0 then 0 else if x < 0 then -1 else 1

/-- The learning parameters of `run` (line 71). -/
def max_iter : Nat := 1000

/-- The iteration after which the exaggeration ends (line 71). -/
def stop_lying_iter : Nat := 250

/-- The iteration after which the momentum is switched (line 71). -/
def mom_switch_iter : Nat := 250

/-- The momentum of the late iterations (line 72). -/
def final_momentum : ℚ := 8 / 10

/-- The learning rate (line 73). -/
def eta : ℚ := 200

/-- Lines 100-107: "symmetrize input similarities" of the exact mode, on the array
`P.data()`. -/
def symmetrizeDense (P : List ℚ) (N : Nat) : List ℚ :=
  forLoop 0 N
    (fun P n => forLoop (n + 1) N
      (fun P m =>
        let P := P.set (n * N + m) (rd P (n * N + m) + rd P (m * N + n))
        P.set (m * N + n) (rd P (n * N + m)))
      P)
    P

/-- Lines 99-108: the exact-mode weights after `P.array() /= P.array().sum()`, from the
matrix `P` returned by the dense `computeGaussianPerplexity`; exact arithmetic
(`exactAffinitiesD` is the same code in binary64). -/
def exactAffinities (P : List ℚ) (N : Nat) : List ℚ :=
  let P := symmetrizeDense P N
  P.map (· / P.sum)

/-- Lines 119-124: the approximate-mode matrix after symmetrization and normalization,
from the matrix `M` returned by the `K`-neighbour `computeGaussianPerplexity`. -/
def approxAffinities (M : Csr) (N : Nat) : Csr :=
  let M := symmetrizeMatrix M N
  let sum_P := forLoop 0 (rd M.row_P N) (fun sum_P i => sum_P + rd M.val_P i) 0
  { row_P := M.row_P, col_P := M.col_P,
    val_P := forLoop 0 (rd M.row_P N) (fun val_P i => val_P.set i (rd val_P i / sum_P))
      M.val_P }

/-- Lines 128-129: "lie about the P-values", exact mode; exact arithmetic (`lieExactD` is
the same code in binary64). -/
def lieExact (P : List ℚ) : List ℚ := P.map (· * 12)

/-- Lines 130-134: "lie about the P-values", approximate mode. -/
def lieApprox (row_P : List Nat) (val_P : List ℚ) (N : Nat) : List ℚ :=
  forLoop 0 (rd row_P N) (fun val_P i => val_P.set i (rd val_P i * 12)) val_P

/-- The variables of the main loop of `run`: the dense weights `P.data()` (exact mode),
the sparse weights `val_P` (approximate mode), the solution `Y`, the gradient `dY`, the
velocity `uY`, the gains and the momentum. -/
structure RunState where
  P : List ℚ
  val_P : List ℚ
  Y : List ℚ
  dY : List ℚ
  uY : List ℚ
  gains : List ℚ
  momentum : ℚ

/-- Lines 146-181: one iteration of the main loop (the progress report of lines 184-192
changes no variable and is left out). -/
def runIter (exact : Bool) (qt : QuadTreeOps) (row_P col_P : List Nat) (N no_dims : Nat)
    (theta : ℚ) (st : RunState) (iter : Nat) : RunState :=
  let dY := if exact then computeExactGradient st.P st.Y N no_dims st.dY
    else computeGradient qt row_P col_P st.val_P st.Y N no_dims st.dY theta
  let gains := forLoop 0 (N * no_dims)
    (fun gains i => gains.set i
      (if sign (rd dY i) ≠ sign (rd st.uY i) then rd gains i + 2 / 10 else rd gains i * (8 / 10)))
    st.gains
  let gains := forLoop 0 (N * no_dims)
    (fun gains i => if rd gains i < 1 / 100 then gains.set i (1 / 100) else gains) gains
  let uY := forLoop 0 (N * no_dims)
    (fun uY i => uY.set i (st.momentum * rd uY i - eta * rd gains i * rd dY i)) st.uY
  let Y := forLoop 0 (N * no_dims) (fun Y i => Y.set i (rd Y i + rd uY i)) st.Y
  let Y := zeroMean Y N no_dims
  let P := if iter = stop_lying_iter ∧ exact then st.P.map (· / 12) else st.P
  let val_P := if iter = stop_lying_iter ∧ ¬ exact then
      forLoop 0 (rd row_P N) (fun val_P i => val_P.set i (rd val_P i / 12)) st.val_P
    else st.val_P
  let momentum := if iter = mom_switch_iter then final_momentum else st.momentum
  { P := P, val_P := val_P, Y := Y, dY := dY, uY := uY, gains := gains, momentum := momentum }

/-- Lines 143-193: the variables at the start of iteration `iter` of the main loop, the
loop being entered in the state `st`. -/
def runLoop (exact : Bool) (qt : QuadTreeOps) (row_P col_P : List Nat) (N no_dims : Nat)
    (theta : ℚ) (st : RunState) (iter : Nat) : RunState :=
  forLoop 0 iter (runIter exact qt row_P col_P N no_dims theta) st

/-- Lines 75-139: the state in which the main loop is entered in exact mode; `P` is the
matrix returned by the dense `computeGaussianPerplexity`, `Y` the random initial
solution and `dY` the content of the freshly constructed gradient matrix. -/
def runInitExact (P : List ℚ) (N no_dims : Nat) (Y dY : List ℚ) : RunState :=
  { P := lieExact (exactAffinities P N), val_P := [], Y := Y, dY := dY,
    uY := List.replicate (N * no_dims) 0, gains := List.replicate (N * no_dims) 1,
    momentum := 5 / 10 }

/-- Lines 75-139: the state in which the main loop is entered in approximate mode; `M` is
the matrix returned by the `K`-neighbour `computeGaussianPerplexity`. -/
def runInitApprox (M : Csr) (N no_dims : Nat) (Y dY : List ℚ) : RunState :=
  { P := [], val_P := lieApprox (approxAffinities M N).row_P (approxAffinities M N).val_P N,
    Y := Y, dY := dY,
    uY := List.replicate (N * no_dims) 0, gains := List.replicate (N * no_dims) 1,
    momentum := 5 / 10 }

/-! ## Predicates and sample inputs of the statements -/

/-- A matrix in which every stored entry `(i, j, w)` has a stored entry `(j, i, w)`. -/
def Symmetric (N : Nat) (M : Csr) : Prop :=
  ∀ t ∈ entries N M, (t.2.1, t.1, t.2.2) ∈ entries N M

instance (N : Nat) (M : Csr) : Decidable (Symmetric N M) := by
  unfold Symmetric; infer_instance

/-- Input with the single directed entry `(0, 1)` of weight `1`. -/
def oneWayInput : Csr := ⟨[0, 1, 1], [1], [1]⟩

/-- Input with rows `0 -> {1, 2}`, `1 -> {0}`, `2 -> {}`. -/
def sampleInput : Csr := ⟨[0, 2, 3, 3], [1, 2, 0], [1, 2, 3]⟩

/-- Input with diagonal entries: rows `0 -> {0, 1}`, `1 -> {0, 1, 2}`, `2 -> {2}`. -/
def diagInput : Csr := ⟨[0, 2, 5, 6], [0, 1, 0, 1, 2, 2], [1, 2, 3, 4, 5, 1 / 3]⟩

/-- A symmetric input with a diagonal entry. -/
def symmetricInput : Csr := ⟨[0, 2, 3], [0, 1, 0], [5, 1 / 3, 1 / 3]⟩

/-! ## Entry-level description of the symmetrization (used in the proofs)

The stored entries of the input form a list `T` of triples
`(row, column, weight)`.  `emit T t` lists the output entries (before the
final halving) that the fill pass writes while it handles the input entry
`t`; `symSpec T` collects them in the order of the fill pass. -/

/-- The stored entry at `(c, n)`, the reverse of an entry at `(n, c)`. -/
def mate (T : List (Nat × Nat × ℚ)) (n c : Nat) : Option (Nat × Nat × ℚ) :=
  T.find? fun u => decide (u.1 = c ∧ u.2.1 = n)

/-- Output entries written while the fill pass handles the input entry `t`. -/
def emit (T : List (Nat × Nat × ℚ)) (t : Nat × Nat × ℚ) : List (Nat × Nat × ℚ) :=
  match mate T t.1 t.2.1 with
  | none => [(t.1, t.2.1, t.2.2), (t.2.1, t.1, t.2.2)]
  | some u =>
    if t.1 < t.2.1 then [(t.1, t.2.1, t.2.2 + u.2.2), (t.2.1, t.1, t.2.2 + u.2.2)]
    else if t.1 = t.2.1 then [(t.1, t.2.1, t.2.2 + u.2.2)]
    else []

/-- All output entries, before halving, in the order the fill pass writes them. -/
def symSpec (T : List (Nat × Nat × ℚ)) : List (Nat × Nat × ℚ) := T.flatMap (emit T)

/-- Halving of the weight of an entry. -/
def half (e : Nat × Nat × ℚ) : Nat × Nat × ℚ := (e.1, e.2.1, e.2.2 / 2)

/-- The `(row, column)` position of an entry. -/
def pos (e : Nat × Nat × ℚ) : Nat × Nat := (e.1, e.2.1)

/-! ## Further auxiliary definitions for the proofs -/

/-- The reverse entry of `t`, or `t` itself when there is none. -/
def mateOf (T : List (Nat × Nat × ℚ)) (t : Nat × Nat × ℚ) : Nat × Nat × ℚ :=
  (mate T t.1 t.2.1).getD t

/-- Rows incremented by the counting pass while it handles the input entry `t`. -/
def targets (T : List (Nat × Nat × ℚ)) (t : Nat × Nat × ℚ) : List Nat :=
  if (mate T t.1 t.2.1).isSome then [t.1] else [t.1, t.2.1]

/-- The pairs `(n, i)` visited by the two nested loops over the stored entries. -/
def steps (row_P : List Nat) (N : Nat) : List (Nat × Nat) :=
  (List.range N).flatMap fun n => (rowIdx row_P n).map fun i => (n, i)

/-- One write of the fill pass: the entry `e` goes to the next free cell of
row `e.1`, whose fill count is incremented. -/
def push (sym_row_P : List Nat) (st : FillState) (e : Nat × Nat × ℚ) : FillState :=
  { sym_col_P := st.sym_col_P.set (rd sym_row_P e.1 + rd st.offset e.1) e.2.1
    sym_val_P := st.sym_val_P.set (rd sym_row_P e.1 + rd st.offset e.1) e.2.2
    offset := incr st.offset e.1 }

/-- The entries of row `r`, in order. -/
def rowOf (E : List (Nat × Nat × ℚ)) (r : Nat) : List (Nat × Nat × ℚ) :=
  E.filter fun e => decide (e.1 = r)

/-- The fill-pass invariant: when the entries `done` have been written, the fill count of
every row is the number of its entries in `done`, and the cells of the row hold them in
order. -/
def FillInv (sr : List Nat) (N L : Nat) (done : List (Nat × Nat × ℚ)) (st : FillState) : Prop :=
  st.offset.length = N ∧ st.sym_col_P.length = L ∧ st.sym_val_P.length = L ∧
  (∀ r, r < N → rd st.offset r = (rowOf done r).length) ∧
  (∀ r, r < N → ∀ j, j < (rowOf done r).length →
    rd st.sym_col_P (rd sr r + j) = rd ((rowOf done r).map (·.2.1)) j ∧
    rd st.sym_val_P (rd sr r + j) = rd ((rowOf done r).map (·.2.2)) j)

/-- The sum `rc[0] + ... + rc[k-1]`. -/
def psum (rc : List Nat) (k : Nat) : Nat := ((List.range k).map (rd rc)).sum

/-- The output entries of the fill pass, row by row, after halving. -/
def symEntries (N : Nat) (T : List (Nat × Nat × ℚ)) : List (Nat × Nat × ℚ) :=
  (List.range N).flatMap fun r => (rowOf (symSpec T) r).map half

/-! ## `TSNE::run`: normalization of the input -/

/-- Eigen's `maxCoeff()`: the largest coefficient of a non-empty matrix. -/
def maxCoeff (X : List ℚ) : ℚ :=
  match X with
  | [] => 0
  | x :: xs => xs.foldl max x

/-- Lines 88-89: `zeroMean(X.data(), N, D); X.array() /= X.maxCoeff();`. -/
def normalizeInput (X : List ℚ) (N D : Nat) : List ℚ :=
  let X := zeroMean X N D
  X.map (· / maxCoeff X)

/-! ## `TSNE::computeGaussianPerplexity`: the builders -/

/-- Lines 539-603: the loop over the rows of the dense `computeGaussianPerplexity`, on
the distance matrix `DD`. -/
def denseRows {α : Type} [LinearOrderedField α] (exp log : α → α) (DBL_MIN DBL_MAX : α)
    (DD : List α) (N : Nat) (perplexity : α) (P : List α) : List α :=
  forLoop 0 N (denseRow exp log DBL_MIN DBL_MAX DD N perplexity) P

/-- The value of `DBL_MIN` for IEEE doubles, `2^-1022`. -/
def dbl_min {α : Type} [LinearOrderedField α] : α := 1 / 2 ^ 1022

/-- The value of `DBL_MAX` for IEEE doubles, `(2 - 2^-52) * 2^1023`. -/
def dbl_max {α : Type} [LinearOrderedField α] : α := 2 ^ 1024 - 2 ^ 971

/-- A row `n` of an `N x N` array as the dense calibration leaves it: non-negative
cells whose sum is `1 - DBL_MIN / sum_P` for a normalizer `sum_P ≥ 2 * DBL_MIN`. -/
def CalibratedRow {α : Type} [LinearOrderedField α] (DBL_MIN : α) (A : List α) (N n : Nat) :
    Prop :=
  (∀ m, m < N → 0 ≤ rd A (n * N + m)) ∧
  ∃ sum_P, 2 * DBL_MIN ≤ sum_P ∧
    (∑ m ∈ Finset.range N, rd A (n * N + m)) = 1 - DBL_MIN / sum_P

/-- The effects of the `K`-neighbour `computeGaussianPerplexity`: the lines it prints and
the arrays `*_row_P`, `*_col_P`, `*_val_P` it leaves. -/
structure KnnOutput where
  printed : List String
  row_P : List Nat
  col_P : List Nat
  val_P : List ℚ
deriving DecidableEq, Repr

/-- Lines 649-723: the body of the loop over the points. `search n` stands for the call
`tree->search(obj_X[n], K + 1, &indices, &distances)` of the vantage-point tree and gives
`(indices, distances)`; the state is `(cur_P, col_P, val_P)`. -/
def knnPoint (exp log : ℚ → ℚ) (DBL_MIN DBL_MAX : ℚ) (search : Nat → List Nat × List ℚ)
    (perplexity : ℚ) (K : Nat) (row_P : List Nat)
    (st : List ℚ × List Nat × List ℚ) (n : Nat) : List ℚ × List Nat × List ℚ :=
  let indices := (search n).1
  let distances := (search n).2
  let cur_P := knnRow exp log DBL_MIN DBL_MAX distances K perplexity st.1
  let col_P := forLoop 0 K (fun col_P m => col_P.set (rd row_P n + m) (rd indices (m + 1))) st.2.1
  let val_P := forLoop 0 K (fun val_P m => val_P.set (rd row_P n + m) (rd cur_P m)) st.2.2
  (cur_P, col_P, val_P)

/-- Lines 610-733: the `K`-neighbour overload of `computeGaussianPerplexity` (the source
overloads the name of the dense builder). The allocations are taken to succeed and the
vantage-point tree is the parameter `search`. -/
def computeGaussianPerplexityKnn (exp log : ℚ → ℚ) (DBL_MIN DBL_MAX : ℚ)
    (search : Nat → List Nat × List ℚ) (N : Nat) (perplexity : ℚ) (K : Nat) : KnnOutput :=
  let printed : List String :=
    if perplexity > (K : ℚ) then ["Perplexity should be lower than K!\n"] else []
  let row_P : List Nat := List.replicate (N + 1) 0
  let col_P : List Nat := List.replicate (N * K) 0
  let val_P : List ℚ := List.replicate (N * K) 0
  let cur_P : List ℚ := List.replicate (N - 1) 0
  let row_P := row_P.set 0 0
  let row_P := forLoop 0 N (fun row_P n => row_P.set (n + 1) (rd row_P n + K)) row_P
  let st := forLoop 0 N (knnPoint exp log DBL_MIN DBL_MAX search perplexity K row_P)
    (cur_P, col_P, val_P)
  { printed := printed, row_P := row_P, col_P := st.2.1, val_P := st.2.2 }

/-! ## `methods.hpp`: `DynamicImplementation::embedUsing`

The dispatch of `tapkee::tapkee_internal` over the reduction methods. The enumeration,
the traits, the callbacks and the implementations of the methods are declared in other
headers: here they are the fields of `Implementation`. -/

/-- The values of `DimensionReductionMethod`: the twenty enumerators named by the `switch`
of `embedUsing` (lines 54-73), and every other value of that type. -/
inductive DimensionReductionMethod where
  | KernelLocallyLinearEmbedding
  | KernelLocalTangentSpaceAlignment
  | DiffusionMap
  | MultidimensionalScaling
  | LandmarkMultidimensionalScaling
  | Isomap
  | LandmarkIsomap
  | NeighborhoodPreservingEmbedding
  | LinearLocalTangentSpaceAlignment
  | HessianLocallyLinearEmbedding
  | LaplacianEigenmaps
  | LocalityPreservingProjections
  | PCA
  | KernelPCA
  | RandomProjection
  | StochasticProximityEmbedding
  | PassThru
  | FactorAnalysis
  | tDistributedStochasticNeighborEmbedding
  | ManifoldSculpting
  | unhandled (value : Nat)
deriving DecidableEq, Repr

/-- The exceptions that leave `embedUsing`: the two it throws itself (lines 28, 35, 39,
43) and whatever `embed()` of an implementation throws. -/
inductive EmbedError where
  | cancelled_exception
  | unsupported_method_error (what : String)
  | implementation_error (what : String)
deriving DecidableEq, Repr

/-- The observable steps of `embedUsing`, in the order of the statements of the macro
`tapkee_method_handle` (lines 30-50). -/
inductive Event where
  | timed_context (X : DimensionReductionMethod)
  | check_kernel (X : DimensionReductionMethod)
  | check_distance (X : DimensionReductionMethod)
  | check_features (X : DimensionReductionMethod)
  | construct (X : DimensionReductionMethod)
  | embed (X : DimensionReductionMethod)
deriving DecidableEq, Repr

/-- What `embedUsing` reads from its object and its template arguments:
`this->context.is_cancelled()`, `is_dummy<...Callback>::value` of the three callback
types, `MethodTraits<X>::needs_...` and the result of `X##Implementation(self).embed()`
(a value, or an exception). -/
structure Implementation (TapkeeOutput : Type) where
  is_cancelled : Bool
  kernel_is_dummy : Bool
  distance_is_dummy : Bool
  features_is_dummy : Bool
  needs_kernel : DimensionReductionMethod → Bool
  needs_distance : DimensionReductionMethod → Bool
  needs_features : DimensionReductionMethod → Bool
  embed : DimensionReductionMethod → Except EmbedError TapkeeOutput

/-- A run of `embedUsing`: the steps taken, and the value returned or the exception
thrown. -/
structure Run (TapkeeOutput : Type) where
  trace : List Event
  result : Except EmbedError TapkeeOutput

/-- Lines 30-50: the macro `tapkee_method_handle(X)`, the body of `case X:`. -/
def tapkee_method_handle {TapkeeOutput : Type} (self : Implementation TapkeeOutput)
    (X : DimensionReductionMethod) : Run TapkeeOutput :=
  let trace := [Event.timed_context X, Event.check_kernel X]
  if self.needs_kernel X && self.kernel_is_dummy then
    { trace := trace
      result := Except.error (EmbedError.unsupported_method_error ("Kernel callback is missed")) }
  else
    let trace := trace ++ [Event.check_distance X]
    if self.needs_distance X && self.distance_is_dummy then
      { trace := trace
        result :=
          Except.error (EmbedError.unsupported_method_error ("Distance callback is missed")) }
    else
      let trace := trace ++ [Event.check_features X]
      if self.needs_features X && self.features_is_dummy then
        { trace := trace
          result :=
            Except.error (EmbedError.unsupported_method_error ("Features callback is missed")) }
      else
        { trace := trace ++ [Event.construct X, Event.embed X]
          result := self.embed X }

/-- Lines 25-79: `DynamicImplementation::embedUsing`; `default` is `TapkeeOutput()`. -/
def embedUsing {TapkeeOutput : Type} [Inhabited TapkeeOutput]
    (self : Implementation TapkeeOutput) (method : DimensionReductionMethod) :
    Run TapkeeOutput :=
  if self.is_cancelled then
    { trace := [], result := Except.error EmbedError.cancelled_exception }
  else
    match method with
    | .KernelLocallyLinearEmbedding =>
      tapkee_method_handle self .KernelLocallyLinearEmbedding
    | .KernelLocalTangentSpaceAlignment =>
      tapkee_method_handle self .KernelLocalTangentSpaceAlignment
    | .DiffusionMap => tapkee_method_handle self .DiffusionMap
    | .MultidimensionalScaling => tapkee_method_handle self .MultidimensionalScaling
    | .LandmarkMultidimensionalScaling =>
      tapkee_method_handle self .LandmarkMultidimensionalScaling
    | .Isomap => tapkee_method_handle self .Isomap
    | .LandmarkIsomap => tapkee_method_handle self .LandmarkIsomap
    | .NeighborhoodPreservingEmbedding =>
      tapkee_method_handle self .NeighborhoodPreservingEmbedding
    | .LinearLocalTangentSpaceAlignment =>
      tapkee_method_handle self .LinearLocalTangentSpaceAlignment
    | .HessianLocallyLinearEmbedding =>
      tapkee_method_handle self .HessianLocallyLinearEmbedding
    | .LaplacianEigenmaps => tapkee_method_handle self .LaplacianEigenmaps
    | .LocalityPreservingProjections =>
      tapkee_method_handle self .LocalityPreservingProjections
    | .PCA => tapkee_method_handle self .PCA
    | .KernelPCA => tapkee_method_handle self .KernelPCA
    | .RandomProjection => tapkee_method_handle self .RandomProjection
    | .StochasticProximityEmbedding =>
      tapkee_method_handle self .StochasticProximityEmbedding
    | .PassThru => tapkee_method_handle self .PassThru
    | .FactorAnalysis => tapkee_method_handle self .FactorAnalysis
    | .tDistributedStochasticNeighborEmbedding =>
      tapkee_method_handle self .tDistributedStochasticNeighborEmbedding
    | .ManifoldSculpting => tapkee_method_handle self .ManifoldSculpting
    | .unhandled _ => { trace := [], result := Except.ok default }

/-- The method is one of the twenty the `switch` of `embedUsing` handles. -/
def handled (method : DimensionReductionMethod) : Bool :=
  match method with
  | .unhandled _ => false
  | _ => true

/-- A sample object: not cancelled, dummy kernel callback, real distance and features
callbacks; the kernel methods need the kernel, the others the distance. -/
def sampleImplementation (cancelled : Bool) : Implementation (List ℚ) :=
  { is_cancelled := cancelled
    kernel_is_dummy := true
    distance_is_dummy := false
    features_is_dummy := false
    needs_kernel := fun X => decide (X = .KernelPCA) || decide (X = .DiffusionMap)
    needs_distance := fun X => decide (X = .Isomap)
    needs_features := fun X => decide (X = .PCA)
    embed := fun X => if X = .PassThru then Except.ok [1, 2] else Except.ok [3] }

/-! ## `computeExactGradient` in two pieces (proof devices) -/

/-- Lines 379-390 of `computeExactGradient`: the pair `(Q, sum_Q)` after the loops that
fill the `Q`-matrix from the matrix `DD`. -/
def gradientQ (DD : List ℚ) (N : Nat) : List ℚ × ℚ :=
  forLoop 0 N
    (fun qs n => forLoop 0 N
      (fun (qs : List ℚ × ℚ) m =>
        if n ≠ m then
          let Q := qs.1.set (n * N + m) (1 / (1 + rd DD (n * N + m)))
          (Q, qs.2 + rd Q (n * N + m))
        else qs)
      qs)
    (List.replicate (N * N) 0, 0)

/-- Lines 393-406 of `computeExactGradient`: the loops that accumulate the gradient, from
`Q` and `sum_Q`. -/
def gradientLoops (P Y Q : List ℚ) (sum_Q : ℚ) (N D : Nat) (dC : List ℚ) : List ℚ :=
  forLoop 0 N
    (fun dC n => forLoop 0 N
      (fun dC m =>
        if n ≠ m then
          let mult := (rd P (n * N + m) - rd Q (n * N + m) / sum_Q) * rd Q (n * N + m)
          forLoop 0 D
            (fun dC d => dC.set (n * D + d)
              (rd dC (n * D + d) + (rd Y (n * D + d) - rd Y (m * D + d)) * mult))
            dC
        else dC)
      dC)
    dC

/-! ## The fill pass of `symmetrizeMatrix` with a record of its writes -/

/-- Lines 273-287: one step of the inner scan of the fill pass, at position `m` of row
`col_P[i]`, as a record of the indices at which it writes `sym_col_P` (and `sym_val_P`,
at the same indices); the state is the flag `present` and the record. -/
def scanSlots (col_P sym_row_P offset : List Nat) (n i : Nat) (s : Bool × List Nat)
    (m : Nat) : Bool × List Nat :=
  if rd col_P m = n then
    if n ≤ rd col_P i then
      (true, s.2 ++ [rd sym_row_P n + rd offset n,
        rd sym_row_P (rd col_P i) + rd offset (rd col_P i)])
    else (true, s.2)
  else s

/-- Lines 270-298: the indices at which the body of the fill pass writes `sym_col_P` and
`sym_val_P` for the entry at position `i` of row `n`, with the fill counts `offset`. -/
def entrySlots (row_P col_P sym_row_P offset : List Nat) (n i : Nat) : List Nat :=
  let c := rd col_P i
  let s := forLoop (rd row_P c) (rd row_P (c + 1)) (scanSlots col_P sym_row_P offset n i)
    (false, [])
  if !s.1 then s.2 ++ [rd sym_row_P n + rd offset n, rd sym_row_P c + rd offset c] else s.2

/-- Lines 261-306: the fill pass, together with the record of its steps: one triple
`(n, i, indices written)` for every step `(n, i)` of the two outer loops. -/
def fillPassLog (row_P col_P : List Nat) (val_P : List ℚ) (sym_row_P : List Nat)
    (no_elem N : Nat) : FillState × List (Nat × Nat × List Nat) :=
  forLoop 0 N
    (fun s n => forLoop (rd row_P n) (rd row_P (n + 1))
      (fun (s : FillState × List (Nat × Nat × List Nat)) i =>
        (fillEntry row_P col_P val_P sym_row_P n s.1 i,
          s.2 ++ [(n, i, entrySlots row_P col_P sym_row_P s.1.offset n i)]))
      s)
    ({ sym_col_P := List.replicate no_elem 0, sym_val_P := List.replicate no_elem 0,
       offset := List.replicate N 0 }, [])

/-- The steps of a record that write the index `s`. -/
def writers (log : List (Nat × Nat × List Nat)) (s : Nat) : List (Nat × Nat × List Nat) :=
  log.filter fun e => decide (s ∈ e.2.2)

/-- The indices written by a sequence of `push`es that starts with the fill counts `off`. -/
def pushSlots (sr : List Nat) : List Nat → List (Nat × Nat × ℚ) → List Nat
  | _, [] => []
  | off, e :: es => (rd sr e.1 + rd off e.1) :: pushSlots sr (incr off e.1) es

/-- The index `s` lies in the filled part of some row: `sr[r] ≤ s < sr[r] + off[r]`. -/
def Filled (sr off : List Nat) (N s : Nat) : Prop :=
  ∃ r, r < N ∧ rd sr r ≤ s ∧ s < rd sr r + rd off r

/-! ## The equidistant row of the calibration witness -/

/-- The value `H` that the body of the dense search computes at bandwidth `beta` for the
row of squared distances `[0, 1, 1, 1]`: the kernel row is `[DBL_MIN, e, e, e]` with
`e = exp (-beta)`, its sum with the initial `DBL_MIN` is `2 * DBL_MIN + 3 * e`. -/
def equidistantH {α : Type} [LinearOrderedField α] (exp log : α → α) (DBL_MIN beta : α) : α :=
  beta * (3 * exp (-beta)) / (2 * DBL_MIN + 3 * exp (-beta))
    + log (2 * DBL_MIN + 3 * exp (-beta))

/-- A `4 x 4` matrix of squared distances whose row `0` is `[0, 1, 1, 1]`. -/
def equidistantDD {α : Type} [LinearOrderedField α] : List α :=
  [0, 1, 1, 1, 1, 0, 1, 1, 1, 1, 0, 1, 1, 1, 1, 0]

/-! ## The bracket of the bandwidth search -/

/-- The shapes of the search variables `beta`, `min_beta`, `max_beta`: the initial values;
`k` doublings with `max_beta` still at its sentinel; `k` halvings with `min_beta` still at
its sentinel; or both bounds set, with `beta` their midpoint. -/
def Bracket {α : Type} [LinearOrderedField α] (DBL_MAX : α) (s : Search α) : Prop :=
  (s.beta = 1 ∧ s.min_beta = -DBL_MAX ∧ s.max_beta = DBL_MAX) ∨
  (∃ k, 1 ≤ k ∧ k ≤ s.iter ∧ s.beta = 2 ^ k ∧ s.min_beta = 2 ^ (k - 1) ∧
    s.max_beta = DBL_MAX) ∨
  (∃ k, 1 ≤ k ∧ k ≤ s.iter ∧ s.beta = (1 / 2) ^ k ∧ s.max_beta = (1 / 2) ^ (k - 1) ∧
    s.min_beta = -DBL_MAX) ∨
  (0 < s.min_beta ∧ s.min_beta < s.max_beta ∧ s.max_beta ≤ 2 ^ 200 ∧
    s.beta = (s.min_beta + s.max_beta) / 2)

/-- A sample loop body over ℚ: the dense body for row `0` of the distances `[0, 1, 1, 0]`
with the stand-ins `exp = 1`, `log = 0`, whose entropy value is always too high. -/
def sampleBody : Search ℚ → Search ℚ :=
  denseBody (fun _ => 1) (fun _ => 0) (1 / 1000) dbl_max [0, 1, 1, 0] 2 0 2

/-! ## `TSNE::evaluateError` (exact) -/

/-- Lines 415-459: the exact `evaluateError(P, Y, N)`; the distance matrix is computed by
`computeSquaredEuclideanDistance(Y, N, 2, DD)` (line 425). -/
def evaluateError (log : ℚ → ℚ) (DBL_MIN : ℚ) (P Y : List ℚ) (N : Nat) : ℚ :=
  let DD := computeSquaredEuclideanDistance Y N 2 (List.replicate (N * N) 0)
  let qs := forLoop 0 N
    (fun qs n => forLoop 0 N
      (fun (qs : List ℚ × ℚ) m =>
        if n ≠ m then
          let Q := qs.1.set (n * N + m) (1 / (1 + rd DD (n * N + m)))
          (Q, qs.2 + rd Q (n * N + m))
        else (qs.1.set (n * N + m) DBL_MIN, qs.2))
      qs)
    (List.replicate (N * N) 0, DBL_MIN)
  let Q := forLoop 0 (N * N) (fun Q i => Q.set i (rd Q i / qs.2)) qs.1
  forLoop 0 N
    (fun C n => forLoop 0 N
      (fun C m => C + rd P (n * N + m)
        * log ((rd P (n * N + m) + 1 / 1000000000) / (rd Q (n * N + m) + 1 / 1000000000)))
      C)
    0

/-! ## The indices used by the `K`-neighbour builder -/

/-- Lines 673-721: the indices used by the loops `for (m = 0; m < K; m++)` in the body
for the point `n`, one item `(n, m, m + 1, row_P[n] + m)` per `m`: `cur_P[m]`,
`distances[m + 1]` and `indices[m + 1]`, `col_P[row_P[n] + m]` and
`val_P[row_P[n] + m]`. -/
def knnPointIndices (K : Nat) (row_P : List Nat) (acc : List (Nat × Nat × Nat × Nat))
    (n : Nat) : List (Nat × Nat × Nat × Nat) :=
  forLoop 0 K (fun acc m => acc ++ [(n, m, m + 1, rd row_P n + m)]) acc

/-- Lines 649-723: the indices used in the loop over all points. -/
def knnIndices (N K : Nat) (row_P : List Nat) : List (Nat × Nat × Nat × Nat) :=
  forLoop 0 N (knnPointIndices K row_P) []

/-- A sample neighbour search for 3 points: all points, the query first, with the
distances `0, 1, 4`. -/
def sampleSearch (n : Nat) : List Nat × List ℚ :=
  ([n, (n + 1) % 3, (n + 2) % 3], [0, 1, 4])

/-! ## `TSNE::computeGaussianPerplexity` with a threshold -/

/-- Lines 752-758 (and 850-856): the squared distance from the point `n` to the point
`m`, written to `DD[m]`; the state is the pair of the arrays `buff` and `DD`. -/
def thresholdDistance (X : List ℚ) (D n : Nat) (s : List ℚ × List ℚ) (m : Nat) :
    List ℚ × List ℚ :=
  let buff := forLoop 0 D (fun buff d => buff.set d (rd X (n * D + d))) s.1
  let buff := forLoop 0 D (fun buff d => buff.set d (rd buff d - rd X (m * D + d))) buff
  let DD := s.2.set m 0
  let DD := forLoop 0 D (fun DD d => DD.set m (rd DD m + rd buff d * rd buff d)) DD
  (buff, DD)

/-- Lines 750-759 (and 848-857): the squared distances from the point `n` to all
points. -/
def thresholdDistances (X : List ℚ) (N D n : Nat) (s : List ℚ × List ℚ) : List ℚ × List ℚ :=
  forLoop 0 N (thresholdDistance X D n) s

/-- Lines 774-815 (and 872-913): the body of the search loop of the threshold builder for
the point `n`, on the distances `DD[0..N-1]`. -/
def thresholdBody {α : Type} [LinearOrderedField α] (exp log : α → α) (DBL_MIN DBL_MAX : α)
    (DD : List α) (N n : Nat) (perplexity : α) (s : Search α) : Search α :=
  let cur_P := forLoop 0 N (fun cur_P m => cur_P.set m (exp (-s.beta * rd DD m))) s.P
  let cur_P := cur_P.set n DBL_MIN
  let sum_P := forLoop 0 N (fun sum_P m => sum_P + rd cur_P m) DBL_MIN
  let H := forLoop 0 N (fun H m => H + s.beta * (rd DD m * rd cur_P m)) 0
  let H := H / sum_P + log sum_P
  betaStep log DBL_MAX perplexity s cur_P sum_P H

/-- Lines 761-820 (and 859-918): the search for the point `n`, started on the array
`cur_P`, then "row-normalize". -/
def thresholdRow {α : Type} [LinearOrderedField α] (exp log : α → α) (DBL_MIN DBL_MAX : α)
    (DD : List α) (N n : Nat) (perplexity : α) (cur_P : List α) : List α :=
  let s := searchLoop (thresholdBody exp log DBL_MIN DBL_MAX DD N n perplexity) 200
    (searchInit DBL_MAX cur_P)
  forLoop 0 N (fun cur_P m => cur_P.set m (rd cur_P m / s.sum_P)) s.P

/-- Lines 746-826: the body of the first pass for the point `n`; the state is
`((buff, DD, cur_P), total_count)`. -/
def thresholdCount (exp log : ℚ → ℚ) (DBL_MIN DBL_MAX : ℚ) (X : List ℚ) (N D : Nat)
    (perplexity threshold : ℚ) (s : (List ℚ × List ℚ × List ℚ) × Nat) (n : Nat) :
    (List ℚ × List ℚ × List ℚ) × Nat :=
  let bd := thresholdDistances X N D n (s.1.1, s.1.2.1)
  let cur_P := thresholdRow exp log DBL_MIN DBL_MAX bd.2 N n perplexity s.1.2.2
  let total_count := forLoop 0 N
    (fun total_count m => if rd cur_P m > threshold / (N : ℚ) then total_count + 1
      else total_count)
    s.2
  ((bd.1, bd.2, cur_P), total_count)

/-- The variables of the second pass; `writes` records the values of `count` at which
lines 923-924 write `col_P` and `val_P`. -/
structure ThresholdState where
  buff : List ℚ
  DD : List ℚ
  cur_P : List ℚ
  count : Nat
  row_P : List Nat
  col_P : List Nat
  val_P : List ℚ
  writes : List Nat
deriving DecidableEq, Repr

/-- Lines 919-927: the body of the loop that stores the entries above the threshold. -/
def thresholdStore (threshold : ℚ) (N : Nat) (st : ThresholdState) (m : Nat) :
    ThresholdState :=
  if rd st.cur_P m > threshold / (N : ℚ) then
    { st with
      col_P := st.col_P.set st.count m
      val_P := st.val_P.set st.count (rd st.cur_P m)
      count := st.count + 1
      writes := st.writes ++ [st.count] }
  else st

/-- Lines 844-929: the body of the second pass for the point `n`. -/
def thresholdFill (exp log : ℚ → ℚ) (DBL_MIN DBL_MAX : ℚ) (X : List ℚ) (N D : Nat)
    (perplexity threshold : ℚ) (st : ThresholdState) (n : Nat) : ThresholdState :=
  let bd := thresholdDistances X N D n (st.buff, st.DD)
  let cur_P := thresholdRow exp log DBL_MIN DBL_MAX bd.2 N n perplexity st.cur_P
  let st := forLoop 0 N (thresholdStore threshold N)
    { st with buff := bd.1, DD := bd.2, cur_P := cur_P }
  { st with row_P := st.row_P.set (n + 1) st.count }

/-- Lines 731-938: the threshold overload of `computeGaussianPerplexity`; the result is
`total_count` (the allocated length of `col_P` and `val_P`) and the variables after the
second pass. The allocations are taken to succeed. -/
def computeGaussianPerplexityThreshold (exp log : ℚ → ℚ) (DBL_MIN DBL_MAX : ℚ) (X : List ℚ)
    (N D : Nat) (perplexity threshold : ℚ) : Nat × ThresholdState :=
  let p1 := forLoop 0 N (thresholdCount exp log DBL_MIN DBL_MAX X N D perplexity threshold)
    ((List.replicate D 0, List.replicate N 0, List.replicate N 0), 0)
  let total_count := p1.2
  let st := forLoop 0 N (thresholdFill exp log DBL_MIN DBL_MAX X N D perplexity threshold)
    { buff := p1.1.1, DD := p1.1.2.1, cur_P := p1.1.2.2, count := 0
      row_P := (List.replicate (N + 1) 0).set 0 0
      col_P := List.replicate total_count 0
      val_P := List.replicate total_count 0
      writes := [] }
  (total_count, st)

/-- The row of normalized similarities of the point `n`, computed on fresh arrays. -/
def thresholdRowOf (exp log : ℚ → ℚ) (DBL_MIN DBL_MAX : ℚ) (X : List ℚ) (N D : Nat)
    (perplexity : ℚ) (n : Nat) : List ℚ :=
  thresholdRow exp log DBL_MIN DBL_MAX
    (thresholdDistances X N D n (List.replicate D 0, List.replicate N 0)).2 N n perplexity
    (List.replicate N 0)

/-- The columns `m` of row `n` whose normalized similarity is above `threshold / N`, in
increasing order. -/
def selected (exp log : ℚ → ℚ) (DBL_MIN DBL_MAX : ℚ) (X : List ℚ) (N D : Nat)
    (perplexity threshold : ℚ) (n : Nat) : List Nat :=
  (List.range N).filter fun m =>
    decide (rd (thresholdRowOf exp log DBL_MIN DBL_MAX X N D perplexity n) m
      > threshold / (N : ℚ))

/-- A stand-in for `exp` over ℚ with two values: `0` below `-1`, and `1` otherwise. -/
def stepExp (x : ℚ) : ℚ := if x < -1 then 0 else 1

/-! ## `computeExactGradient` with checked divisions -/

/-- The quotient `a / b` of the exact arithmetic: it has no value when the divisor is
zero (binary64 division gives an infinity or a NaN there, not a number). -/
def checkedDiv (a b : ℚ) : Option ℚ := if b = 0 then none else some (a / b)

/-- Lines 357-413: `computeExactGradient` with the two divisions of lines 386 and 399
checked; the result is the array `dC` after the call, or `none` when one of the divisions
that the code performs has a zero divisor. -/
def computeExactGradientChecked (P Y : List ℚ) (N D : Nat) (dC : List ℚ) : Option (List ℚ) :=
  let dC := forLoop 0 (N * D) (fun dC i => dC.set i 0) dC
  let DD := computeSquaredEuclideanDistance Y N D (List.replicate (N * N) 0)
  let qs := forLoop 0 N
    (fun qs n => forLoop 0 N
      (fun (qs : Option (List ℚ × ℚ)) m =>
        if n ≠ m then
          qs.bind (fun qs => (checkedDiv 1 (1 + rd DD (n * N + m))).map (fun q =>
            let Q := qs.1.set (n * N + m) q
            (Q, qs.2 + rd Q (n * N + m))))
        else qs)
      qs)
    (some (List.replicate (N * N) 0, 0))
  qs.bind (fun qs =>
    let Q := qs.1
    let sum_Q := qs.2
    forLoop 0 N
      (fun dC n => forLoop 0 N
        (fun (dC : Option (List ℚ)) m =>
          if n ≠ m then
            dC.bind (fun dC => (checkedDiv (rd Q (n * N + m)) sum_Q).map (fun r =>
              let mult := (rd P (n * N + m) - r) * rd Q (n * N + m)
              forLoop 0 D
                (fun dC d => dC.set (n * D + d)
                  (rd dC (n * D + d) + (rd Y (n * D + d) - rd Y (m * D + d)) * mult))
                dC))
          else dC)
        dC)
      (some dC))

/-! ## Binary64 arithmetic

The definitions above compute in exact arithmetic.  The program instantiates `ScalarType`
with `double`; the definitions of this section repeat some of its statements with the
IEEE 754 binary64 operations: a `double` is a rational number that `fl` leaves unchanged,
and each operation `+ - * /` of the code is the exact operation followed by `fl`
(rounding to nearest, ties to even).  Overflow, infinities, NaN and the sign of zero are
outside this model; the statements about it only involve values far below `2^1024`. -/

/-- The quotient `n / d` of two naturals rounded to the nearest natural, ties to the even
one. -/
def roundNearestEven (n d : Nat) : Nat :=
  let f := n / d
  let r := n % d
  if 2 * r < d then f else if d < 2 * r then f + 1 else if f % 2 = 0 then f else f + 1

/-- Binary search for the binary logarithm of `n`: `k` is a lower bound, and the bits
`2^(i-1), ..., 2, 1` of the result are still to be decided. -/
def log2Search (n : Nat) : Nat → Nat → Nat
  | 0, k => k
  | i + 1, k => if 2 ^ (k + 2 ^ i) ≤ n then log2Search n i (k + 2 ^ i) else log2Search n i k

/-- The binary logarithm of a natural number `0 < n < 2^65536`, rounded down. -/
def log2Floor (n : Nat) : Nat := log2Search n 16 0

/-- The exponent `e` of the unit in the last place of the binary64 numbers next to `a / b`
(`a, b > 0`): `2^(e+52) ≤ a / b < 2^(e+53)` for the normal numbers, and `e = -1074` for the
subnormal ones. -/
def ulpExponent (a b : Nat) : Int :=
  let k : Int := (log2Floor a : Int) - (log2Floor b : Int)
  let k := if 0 ≤ k then (if a < b * 2 ^ k.toNat then k - 1 else k)
    else (if a * 2 ^ (-k).toNat < b then k - 1 else k)
  max (k - 52) (-1074)

/-- Rounding of a rational number to binary64: the nearest multiple of `2^e`, `e` the
exponent of the unit in the last place, ties to the even multiple. -/
def fl (q : ℚ) : ℚ :=
  let a := q.num.natAbs
  let b := q.den
  if a = 0 then 0 else
  let e := ulpExponent a b
  let v : ℚ :=
    if 0 ≤ e then ((roundNearestEven a (b * 2 ^ e.toNat) * 2 ^ e.toNat : ℕ) : ℚ)
    else ((roundNearestEven (a * 2 ^ (-e).toNat) b : ℕ) : ℚ) / ((2 ^ (-e).toNat : ℕ) : ℚ)
  if q < 0 then -v else v

/-- The binary64 sum `x + y`. -/
def fadd (x y : ℚ) : ℚ := fl (x + y)

/-- The binary64 difference `x - y`. -/
def fsub (x y : ℚ) : ℚ := fl (x - y)

/-- The binary64 product `x * y`. -/
def fmul (x y : ℚ) : ℚ := fl (x * y)

/-- The binary64 quotient `x / y` (`y ≠ 0`). -/
def fdiv (x y : ℚ) : ℚ := fl (x / y)

/-- Lines 571-597 (and 686-712) in binary64: the tolerance test, the update of `beta`,
`min_beta`, `max_beta`, and `iter++`. -/
def betaStepD (log : ℚ → ℚ) (DBL_MAX perplexity : ℚ) (s : Search ℚ) (P : List ℚ)
    (sum_P H : ℚ) : Search ℚ :=
  let tol : ℚ := fl (1 / 100000)
  let Hdiff := fsub H (log perplexity)
  if Hdiff < tol ∧ -Hdiff < tol then
    { s with found := true, iter := s.iter + 1, sum_P := sum_P, H := H, P := P }
  else if Hdiff > 0 then
    { found := s.found
      min_beta := s.beta
      max_beta := s.max_beta
      beta := if s.max_beta = DBL_MAX ∨ s.max_beta = -DBL_MAX then fmul s.beta 2
              else fdiv (fadd s.beta s.max_beta) 2
      iter := s.iter + 1, sum_P := sum_P, H := H, P := P }
  else
    { found := s.found
      min_beta := s.min_beta
      max_beta := s.beta
      beta := if s.min_beta = -DBL_MAX ∨ s.min_beta = DBL_MAX then fdiv s.beta 2
              else fdiv (fadd s.beta s.min_beta) 2
      iter := s.iter + 1, sum_P := sum_P, H := H, P := P }

/-- Lines 556-597 in binary64: the body of the dense search loop for row `n`; `exp` and
`log` are the two functions of the C library, from doubles to doubles. -/
def denseBodyD (exp log : ℚ → ℚ) (DBL_MIN DBL_MAX : ℚ) (DD : List ℚ) (N n : Nat)
    (perplexity : ℚ) (s : Search ℚ) : Search ℚ :=
  let P := forLoop 0 N
    (fun P m => P.set (n * N + m) (exp (fmul (-s.beta) (rd DD (n * N + m))))) s.P
  let P := P.set (n * N + n) DBL_MIN
  let sum_P := forLoop 0 N (fun sum_P m => fadd sum_P (rd P (n * N + m))) DBL_MIN
  let H := forLoop 0 N
    (fun H m => fadd H (fmul s.beta (fmul (rd DD (n * N + m)) (rd P (n * N + m))))) 0
  let H := fadd (fdiv H sum_P) (log sum_P)
  betaStepD log DBL_MAX perplexity s P sum_P H

/-- Lines 543-598 in binary64: the dense search for row `n`, started on the array `P`. -/
def denseSearchD (exp log : ℚ → ℚ) (DBL_MIN DBL_MAX : ℚ) (DD : List ℚ) (N n : Nat)
    (perplexity : ℚ) (P : List ℚ) : Search ℚ :=
  searchLoop (denseBodyD exp log DBL_MIN DBL_MAX DD N n perplexity) 200 (searchInit DBL_MAX P)

/-- Lines 540-603 in binary64: the dense calibration of row `n`: the search, then "row
normalize P". -/
def denseRowD (exp log : ℚ → ℚ) (DBL_MIN DBL_MAX : ℚ) (DD : List ℚ) (N : Nat)
    (perplexity : ℚ) (P : List ℚ) (n : Nat) : List ℚ :=
  let s := denseSearchD exp log DBL_MIN DBL_MAX DD N n perplexity P
  forLoop 0 N (fun P m => P.set (n * N + m) (fdiv (rd P (n * N + m)) s.sum_P)) s.P

/-- A loop body of the binary64 search whose entropy is too high in every iteration but
the second (a sequence of entropy comparisons `>, <, >, >, ...`). -/
def bracketBodyD (s : Search ℚ) : Search ℚ :=
  betaStepD (fun _ => 0) dbl_max 1 s s.P 0 (if s.iter = 1 then -1 else 1)

/-- The same sequence of entropy comparisons in exact arithmetic. -/
def bracketBody (s : Search ℚ) : Search ℚ :=
  betaStep (fun _ => 0) dbl_max 1 s s.P 0 (if s.iter = 1 then -1 else 1)

/-- Lines 540-604 in binary64: the dense calibration of all rows, from the distance matrix
`DD`; the result is the array `P`. -/
def denseRowsD (exp log : ℚ → ℚ) (DBL_MIN DBL_MAX : ℚ) (DD : List ℚ) (N : Nat)
    (perplexity : ℚ) (P : List ℚ) : List ℚ :=
  forLoop 0 N (denseRowD exp log DBL_MIN DBL_MAX DD N perplexity) P

/-- A stand-in for `log` on doubles: about `log (2 * DBL_MIN)` below `1`, and `0` from `1`
on. -/
def stepLog (x : ℚ) : ℚ := if x < 1 then -708 else 0

/-- The squared distances of two points that are `2^120` apart. -/
def farDD : List ℚ := [0, ((2 ^ 240 : ℕ) : ℚ), ((2 ^ 240 : ℕ) : ℚ), 0]

/-! ## The entropy of a row -/

/-- The Shannon entropy `-Σ p log p` of the cells `P[lo], ..., P[lo + K - 1]` (a notion of
the statements: the code computes no such sum of the normalized row). -/
def shannonEntropy {α : Type} [LinearOrderedField α] (log : α → α) (P : List α)
    (lo K : Nat) : α :=
  -∑ m ∈ Finset.range K, rd P (lo + m) * log (rd P (lo + m))

/-! ## Entry-level facts -/

theorem eq_of_pos_eq {T : List (Nat × Nat × ℚ)} (h : (T.map pos).Nodup) {t u : Nat × Nat × ℚ}
    (ht : t ∈ T) (hu : u ∈ T) (e1 : t.1 = u.1) (e2 : t.2.1 = u.2.1) : t = u :=
  List.inj_on_of_nodup_map h ht hu (by simp [pos, e1, e2])

theorem mate_some {T : List (Nat × Nat × ℚ)} {n c : Nat} {u : Nat × Nat × ℚ}
    (h : mate T n c = some u) : u ∈ T ∧ u.1 = c ∧ u.2.1 = n := by
  unfold mate at h
  refine ⟨List.mem_of_find?_eq_some h, ?_⟩
  simpa using List.find?_some h

theorem mate_none {T : List (Nat × Nat × ℚ)} {n c : Nat} :
    mate T n c = none ↔ ∀ u ∈ T, ¬ (u.1 = c ∧ u.2.1 = n) := by
  unfold mate
  simp [List.find?_eq_none]

theorem mate_of_mem {T : List (Nat × Nat × ℚ)} (hT : (T.map pos).Nodup) {u : Nat × Nat × ℚ}
    (hu : u ∈ T) : mate T u.2.1 u.1 = some u := by
  cases h : mate T u.2.1 u.1 with
  | none => exact absurd ⟨rfl, rfl⟩ (mate_none.1 h u hu)
  | some w =>
    obtain ⟨hw, h1, h2⟩ := mate_some h
    rw [eq_of_pos_eq hT hw hu h1 h2]

theorem mateOf_spec {T : List (Nat × Nat × ℚ)} {t : Nat × Nat × ℚ}
    (h : (mate T t.1 t.2.1).isSome) :
    mateOf T t ∈ T ∧ (mateOf T t).1 = t.2.1 ∧ (mateOf T t).2.1 = t.1 ∧
      mate T t.1 t.2.1 = some (mateOf T t) := by
  unfold mateOf
  cases h' : mate T t.1 t.2.1 with
  | none => simp [h'] at h
  | some w =>
    obtain ⟨hw, h1, h2⟩ := mate_some h'
    simp [hw, h1, h2]

theorem mateOf_mateOf {T : List (Nat × Nat × ℚ)} (hT : (T.map pos).Nodup) {t : Nat × Nat × ℚ}
    (ht : t ∈ T) (h : (mate T t.1 t.2.1).isSome) :
    (mate T (mateOf T t).1 (mateOf T t).2.1).isSome ∧ mateOf T (mateOf T t) = t := by
  obtain ⟨-, h1, h2, -⟩ := mateOf_spec h
  have := mate_of_mem hT ht
  rw [← h1, ← h2] at this
  constructor
  · rw [this]; rfl
  · have e : mateOf T (mateOf T t) = (mate T (mateOf T t).1 (mateOf T t).2.1).getD (mateOf T t) := rfl
    rw [e, this]; rfl

/-- Sums over the entries below the diagonal that have a reverse entry are sums over the
reverse entries of those above the diagonal. -/
theorem sum_mate_swap {A : Type} [AddCommMonoid A] {T : List (Nat × Nat × ℚ)}
    (hT : (T.map pos).Nodup) (F : Nat × Nat × ℚ → A) :
    (T.map fun t => if (mate T t.1 t.2.1).isSome ∧ t.1 < t.2.1 then F (mateOf T t) else 0).sum
      = (T.map fun t => if (mate T t.1 t.2.1).isSome ∧ t.2.1 < t.1 then F t else 0).sum := by
  have hnd : T.Nodup := List.Nodup.of_map _ hT
  rw [← List.sum_toFinset _ hnd, ← List.sum_toFinset _ hnd, ← Finset.sum_filter,
    ← Finset.sum_filter]
  refine Finset.sum_nbij' (mateOf T) (mateOf T) ?_ ?_ ?_ ?_ ?_
  · intro t ht
    simp only [Finset.mem_filter, List.mem_toFinset] at ht ⊢
    obtain ⟨ht, hs, hlt⟩ := ht
    obtain ⟨h0, h1, h2, -⟩ := mateOf_spec hs
    exact ⟨h0, (mateOf_mateOf hT ht hs).1, by omega⟩
  · intro t ht
    simp only [Finset.mem_filter, List.mem_toFinset] at ht ⊢
    obtain ⟨ht, hs, hlt⟩ := ht
    obtain ⟨h0, h1, h2, -⟩ := mateOf_spec hs
    exact ⟨h0, (mateOf_mateOf hT ht hs).1, by omega⟩
  · intro t ht
    simp only [Finset.mem_filter, List.mem_toFinset] at ht
    exact (mateOf_mateOf hT ht.1 ht.2.1).2
  · intro t ht
    simp only [Finset.mem_filter, List.mem_toFinset] at ht
    exact (mateOf_mateOf hT ht.1 ht.2.1).2
  · intro t _; rfl

theorem count_emit_pointwise (T : List (Nat × Nat × ℚ)) (r : Nat) (t : Nat × Nat × ℚ) :
    ((emit T t).map (·.1)).count r
        + (if (mate T t.1 t.2.1).isSome ∧ t.2.1 < t.1 then (if t.1 = r then 1 else 0) else 0)
      = (targets T t).count r
        + (if (mate T t.1 t.2.1).isSome ∧ t.1 < t.2.1 then
            (if (mateOf T t).1 = r then 1 else 0) else 0) := by
  unfold emit targets
  cases h : mate T t.1 t.2.1 with
  | none => simp
  | some u =>
    have hs : (mate T t.1 t.2.1).isSome := by rw [h]; rfl
    obtain ⟨-, h1, -, -⟩ := mateOf_spec hs
    rw [h1]
    rcases Nat.lt_trichotomy t.1 t.2.1 with hlt | heq | hgt
    · simp [hlt, Nat.lt_asymm hlt, List.count_cons]
      omega
    · simp [heq, List.count_cons]
    · have h3 : ¬ t.1 < t.2.1 := Nat.lt_asymm hgt
      have h4 : ¬ t.1 = t.2.1 := by omega
      simp [hgt, h3, h4, List.count_cons]

theorem count_symSpec (T : List (Nat × Nat × ℚ)) (hT : (T.map pos).Nodup) (r : Nat) :
    ((symSpec T).map (·.1)).count r = (T.flatMap (targets T)).count r := by
  have e1 : ((symSpec T).map (·.1)).count r
      = (T.map fun t => ((emit T t).map (·.1)).count r).sum := by
    unfold symSpec
    rw [List.map_flatMap, List.count_flatMap]; rfl
  have e2 : (T.flatMap (targets T)).count r = (T.map fun t => (targets T t).count r).sum := by
    rw [List.count_flatMap]; rfl
  have key : (T.map fun t => ((emit T t).map (·.1)).count r
        + (if (mate T t.1 t.2.1).isSome ∧ t.2.1 < t.1 then (if t.1 = r then 1 else 0) else 0)).sum
      = (T.map fun t => (targets T t).count r
        + (if (mate T t.1 t.2.1).isSome ∧ t.1 < t.2.1 then
            (if (mateOf T t).1 = r then 1 else 0) else 0)).sum := by
    congr 1
    exact List.map_congr_left fun t _ => count_emit_pointwise T r t
  rw [List.sum_map_add, List.sum_map_add,
    sum_mate_swap hT (fun u => if u.1 = r then 1 else 0)] at key
  rw [e1, e2]
  exact Nat.add_right_cancel key

theorem sum_flatMap_map {α β : Type} (l : List α) (f : α → List β) (g : β → ℚ) :
    ((l.flatMap f).map g).sum = (l.map fun a => ((f a).map g).sum).sum := by
  induction l with
  | nil => rfl
  | cons a l ih => simp [List.flatMap_cons, ih]

theorem sum_emit_pointwise (T : List (Nat × Nat × ℚ)) (hT : (T.map pos).Nodup)
    (t : Nat × Nat × ℚ) (ht : t ∈ T) :
    ((emit T t).map fun e => e.2.2 / 2).sum
        + (if (mate T t.1 t.2.1).isSome ∧ t.2.1 < t.1 then t.2.2 else 0)
      = t.2.2 + (if (mate T t.1 t.2.1).isSome ∧ t.1 < t.2.1 then (mateOf T t).2.2 else 0) := by
  have hm : mateOf T t = (mate T t.1 t.2.1).getD t := rfl
  unfold emit
  cases h : mate T t.1 t.2.1 with
  | none => simp
  | some u =>
    rw [hm, h]
    rcases Nat.lt_trichotomy t.1 t.2.1 with hlt | heq | hgt
    · simp [hlt, Nat.lt_asymm hlt]
    · have h5 := mate_of_mem hT ht
      have h7 := h
      rw [heq] at h7 h5
      have hu : u = t := by rw [h5] at h7; simpa using h7.symm
      simp [heq, hu]
    · have h3 : ¬ t.1 < t.2.1 := Nat.lt_asymm hgt
      have h4 : ¬ t.1 = t.2.1 := by omega
      simp [hgt, h3, h4]

theorem sum_symSpec (T : List (Nat × Nat × ℚ)) (hT : (T.map pos).Nodup) :
    ((symSpec T).map fun e => e.2.2 / 2).sum = (T.map (·.2.2)).sum := by
  have key : (T.map fun t => ((emit T t).map fun e => e.2.2 / 2).sum
        + (if (mate T t.1 t.2.1).isSome ∧ t.2.1 < t.1 then t.2.2 else 0)).sum
      = (T.map fun t => t.2.2
        + (if (mate T t.1 t.2.1).isSome ∧ t.1 < t.2.1 then (mateOf T t).2.2 else 0)).sum := by
    congr 1
    exact List.map_congr_left fun t ht => sum_emit_pointwise T hT t ht
  rw [List.sum_map_add, List.sum_map_add, sum_mate_swap hT (fun u => u.2.2)] at key
  unfold symSpec
  rw [sum_flatMap_map]
  exact add_right_cancel key

theorem swap_mem_emit {T : List (Nat × Nat × ℚ)} {t e : Nat × Nat × ℚ} (h : e ∈ emit T t) :
    (e.2.1, e.1, e.2.2) ∈ emit T t := by
  unfold emit at h ⊢
  cases hm : mate T t.1 t.2.1 with
  | none =>
    rw [hm] at h
    simp only [List.mem_cons, List.mem_singleton, List.not_mem_nil, or_false] at h ⊢
    rcases h with rfl | rfl <;> simp
  | some u =>
    rw [hm] at h
    simp only at h ⊢
    split_ifs at h ⊢ with h1 h2
    · simp only [List.mem_cons, List.mem_singleton, List.not_mem_nil, or_false] at h ⊢
      rcases h with rfl | rfl <;> simp
    · simp only [List.mem_cons, List.mem_singleton, List.not_mem_nil, or_false] at h ⊢
      subst h; simp [h2]
    · simp at h

theorem swap_mem_symSpec {T : List (Nat × Nat × ℚ)} {e : Nat × Nat × ℚ} (h : e ∈ symSpec T) :
    (e.2.1, e.1, e.2.2) ∈ symSpec T := by
  unfold symSpec at h ⊢
  rw [List.mem_flatMap] at h ⊢
  obtain ⟨t, ht, he⟩ := h
  exact ⟨t, ht, swap_mem_emit he⟩

theorem mem_emit {T : List (Nat × Nat × ℚ)} {t e : Nat × Nat × ℚ} (h : e ∈ emit T t) :
    (pos e = pos t ∨ pos e = (t.2.1, t.1)) ∧
      ((mate T t.1 t.2.1).isSome → t.1 ≤ t.2.1) ∧
      (e.2.2 = t.2.2 + (if (mate T t.1 t.2.1).isSome then (mateOf T t).2.2 else 0)) := by
  have hm : mateOf T t = (mate T t.1 t.2.1).getD t := rfl
  unfold emit at h
  cases hc : mate T t.1 t.2.1 with
  | none =>
    rw [hc] at h
    simp only [List.mem_cons, List.mem_singleton, List.not_mem_nil, or_false] at h
    rcases h with rfl | rfl <;> simp [pos]
  | some u =>
    rw [hc] at h
    rw [hm, hc]
    simp only at h
    split_ifs at h with h1 h2
    · simp only [List.mem_cons, List.mem_singleton, List.not_mem_nil, or_false] at h
      rcases h with rfl | rfl <;> simp [pos, Nat.le_of_lt h1]
    · simp only [List.mem_cons, List.mem_singleton, List.not_mem_nil, or_false] at h
      subst h; simp [pos, h2]
    · simp at h

theorem nodup_pos_emit {T : List (Nat × Nat × ℚ)} (hT : (T.map pos).Nodup)
    {t : Nat × Nat × ℚ} (ht : t ∈ T) : ((emit T t).map pos).Nodup := by
  unfold emit
  cases hc : mate T t.1 t.2.1 with
  | none =>
    have hne : t.1 ≠ t.2.1 := by
      intro heq
      have h5 := mate_of_mem hT ht
      rw [← heq] at h5
      rw [← heq, h5] at hc
      cases hc
    simp [pos, hne]
  | some u =>
    simp only
    split_ifs with h1 h2
    · have : t.1 ≠ t.2.1 := by omega
      simp [pos, this]
    · simp
    · simp

theorem nodup_pos_symSpec {T : List (Nat × Nat × ℚ)} (hT : (T.map pos).Nodup) :
    ((symSpec T).map pos).Nodup := by
  unfold symSpec
  rw [List.map_flatMap, List.nodup_flatMap]
  refine ⟨fun t ht => nodup_pos_emit hT ht, ?_⟩
  refine List.Nodup.pairwise_of_forall_ne (List.Nodup.of_map _ hT) ?_
  intro t ht t' ht' hne p hp hp'
  rw [List.mem_map] at hp hp'
  obtain ⟨e, he, rfl⟩ := hp
  obtain ⟨e', he', hpe⟩ := hp'
  obtain ⟨h1, h2, -⟩ := mem_emit he
  obtain ⟨h1', h2', -⟩ := mem_emit he'
  rw [hpe] at h1'
  have key : ∀ {a b : Nat × Nat × ℚ}, a ∈ T → b ∈ T → pos a = (b.2.1, b.1) →
      ((mate T a.1 a.2.1).isSome → a.1 ≤ a.2.1) → ((mate T b.1 b.2.1).isSome → b.1 ≤ b.2.1) →
      a = b := by
    intro a b ha hb hab hma hmb
    simp only [pos, Prod.mk.injEq] at hab
    have ma := mate_of_mem hT ha
    have mb := mate_of_mem hT hb
    rw [hab.1, hab.2] at ma
    rw [← hab.1, ← hab.2] at mb
    have l1 := hma (by rw [mb]; rfl)
    have l2 := hmb (by rw [ma]; rfl)
    exact eq_of_pos_eq hT ha hb (by omega) (by omega)
  rcases h1 with h1 | h1 <;> rcases h1' with h1' | h1'
  · exact hne (eq_of_pos_eq hT ht ht' (by simpa [pos] using congrArg Prod.fst (h1.symm.trans h1'))
      (by simpa [pos] using congrArg Prod.snd (h1.symm.trans h1')))
  · exact hne (key ht ht' (h1.symm.trans h1') h2 h2')
  · exact hne (key ht' ht (h1'.symm.trans h1) h2' h2).symm
  · have := h1.symm.trans h1'
    simp only [Prod.mk.injEq] at this
    exact hne (eq_of_pos_eq hT ht ht' this.2 this.1)

theorem mem_symSpec_of_mutual {T : List (Nat × Nat × ℚ)} (hT : (T.map pos).Nodup)
    {n m : Nat} {a b : ℚ} (h1 : (n, m, a) ∈ T) (h2 : (m, n, b) ∈ T) (hne : n ≠ m) :
    (n, m, a + b) ∈ symSpec T ∧ (m, n, a + b) ∈ symSpec T := by
  have m1 : mate T n m = some (m, n, b) := mate_of_mem hT h2
  have m2 : mate T m n = some (n, m, a) := mate_of_mem hT h1
  unfold symSpec
  simp only [List.mem_flatMap]
  rcases Nat.lt_or_gt_of_ne hne with hlt | hgt
  · have : emit T (n, m, a) = [(n, m, a + b), (m, n, a + b)] := by
      unfold emit; simp [m1, hlt]
    exact ⟨⟨_, h1, by simp [this]⟩, ⟨_, h1, by simp [this]⟩⟩
  · have : emit T (m, n, b) = [(m, n, b + a), (n, m, b + a)] := by
      unfold emit; simp [m2, hgt]
    rw [add_comm a b]
    exact ⟨⟨_, h2, by simp [this]⟩, ⟨_, h2, by simp [this]⟩⟩

theorem mem_symSpec_of_single {T : List (Nat × Nat × ℚ)}
    {n m : Nat} {w : ℚ} (h1 : (n, m, w) ∈ T) (h2 : ∀ b, (m, n, b) ∉ T) :
    (n, m, w) ∈ symSpec T ∧ (m, n, w) ∈ symSpec T := by
  have m1 : mate T n m = none := by
    rw [mate_none]
    rintro ⟨x, y, b⟩ hu ⟨rfl, rfl⟩
    exact h2 b hu
  have : emit T (n, m, w) = [(n, m, w), (m, n, w)] := by
    unfold emit; simp [m1]
  unfold symSpec
  simp only [List.mem_flatMap]
  exact ⟨⟨_, h1, by simp [this]⟩, ⟨_, h1, by simp [this]⟩⟩

theorem mem_half_symSpec_iff {T : List (Nat × Nat × ℚ)} (hT : (T.map pos).Nodup)
    (hsym : ∀ t ∈ T, (t.2.1, t.1, t.2.2) ∈ T) (x : Nat × Nat × ℚ) :
    x ∈ (symSpec T).map half ↔ x ∈ T := by
  constructor
  · intro hx
    rw [List.mem_map] at hx
    obtain ⟨e, he, rfl⟩ := hx
    unfold symSpec at he
    rw [List.mem_flatMap] at he
    obtain ⟨t, ht, he⟩ := he
    obtain ⟨h1, -, h3⟩ := mem_emit he
    have hs := hsym t ht
    have hm : mate T t.1 t.2.1 = some (t.2.1, t.1, t.2.2) := mate_of_mem hT hs
    have hmo : mateOf T t = (t.2.1, t.1, t.2.2) := by
      have : mateOf T t = (mate T t.1 t.2.1).getD t := rfl
      rw [this, hm]; rfl
    rw [hm, hmo] at h3
    simp only [Option.isSome_some, if_true] at h3
    have hv : e.2.2 / 2 = t.2.2 := by rw [h3]; ring
    obtain ⟨e1, e2, e3⟩ := e
    obtain ⟨t1, t2, t3⟩ := t
    simp only [pos, Prod.mk.injEq] at h1 hv hs ⊢
    simp only [half]
    rcases h1 with ⟨rfl, rfl⟩ | ⟨rfl, rfl⟩
    · rw [hv]; exact ht
    · rw [hv]; exact hs
  · intro hx
    obtain ⟨n, c, v⟩ := x
    have hs := hsym _ hx
    simp only at hs
    rw [List.mem_map]
    refine ⟨(n, c, v + v), ?_, by simp [half]⟩
    by_cases hne : n = c
    · subst hne
      have hm : mate T n n = some (n, n, v) := mate_of_mem hT hx
      have : emit T (n, n, v) = [(n, n, v + v)] := by
        unfold emit; simp [hm]
      unfold symSpec
      rw [List.mem_flatMap]
      exact ⟨_, hx, by simp [this]⟩
    · exact (mem_symSpec_of_mutual hT hx hs hne).1

theorem mem_symSpec_lt {T : List (Nat × Nat × ℚ)} {N : Nat}
    (hN : ∀ t ∈ T, t.1 < N ∧ t.2.1 < N) {e : Nat × Nat × ℚ} (he : e ∈ symSpec T) :
    e.1 < N ∧ e.2.1 < N := by
  unfold symSpec at he
  rw [List.mem_flatMap] at he
  obtain ⟨t, ht, he⟩ := he
  obtain ⟨h1, -, -⟩ := mem_emit he
  have := hN t ht
  simp only [pos, Prod.mk.injEq] at h1
  rcases h1 with h1 | h1 <;> omega

/-! ## Arrays and loops: basic facts -/

theorem rd_eq_getElem {α : Type} [Zero α] (a : List α) (i : Nat) (h : i < a.length) :
    rd a i = a[i] := by
  simp [rd, List.getD_eq_getElem?_getD, List.getElem?_eq_getElem h]

theorem rd_of_le {α : Type} [Zero α] (a : List α) (i : Nat) (h : a.length ≤ i) :
    rd a i = 0 := by
  simp [rd, List.getD_eq_getElem?_getD, List.getElem?_eq_none h]

theorem rd_set {α : Type} [Zero α] (a : List α) (i j : Nat) (v : α) :
    rd (a.set i v) j = if i = j ∧ i < a.length then v else rd a j := by
  simp only [rd, List.getD_eq_getElem?_getD, List.getElem?_set]
  by_cases h : i = j
  · subst h
    by_cases h2 : i < a.length
    · simp [h2]
    · simp [h2, List.getElem?_eq_none (Nat.le_of_not_lt h2)]
  · simp [h]

theorem rd_set_ne {α : Type} [Zero α] (a : List α) {i j : Nat} (v : α) (h : i ≠ j) :
    rd (a.set i v) j = rd a j := by
  rw [rd_set]; simp [h]

theorem rd_set_eq {α : Type} [Zero α] (a : List α) {i : Nat} (v : α) (h : i < a.length) :
    rd (a.set i v) i = v := by
  rw [rd_set]; simp [h]

theorem rd_replicate {α : Type} [Zero α] (n i : Nat) : rd (List.replicate n (0 : α)) i = 0 := by
  by_cases h : i < n
  · rw [rd_eq_getElem _ _ (by simpa using h)]; simp
  · exact rd_of_le _ _ (by simpa using h)

theorem length_incr (a : List Nat) (i : Nat) : (incr a i).length = a.length := by
  simp [incr]

theorem rd_incr (a : List Nat) (i j : Nat) :
    rd (incr a i) j = if i = j ∧ i < a.length then rd a j + 1 else rd a j := by
  unfold incr
  rw [rd_set]
  by_cases h : i = j
  · subst h; rfl
  · simp [h]

theorem map_rd_range {α : Type} [Zero α] (a : List α) :
    (List.range a.length).map (rd a) = a := by
  apply List.ext_getElem
  · simp
  · intro n h1 h2
    simp [rd_eq_getElem a n h2]

theorem foldl_flatMap {α β σ : Type} (l : List α) (f : α → List β) (g : σ → β → σ) (s : σ) :
    (l.flatMap f).foldl g s = l.foldl (fun s a => (f a).foldl g s) s := by
  induction l generalizing s with
  | nil => rfl
  | cons a l ih => simp [List.flatMap_cons, List.foldl_append, ih]

theorem forLoop_rows {σ : Type} (row_P : List Nat) (N : Nat) (body : Nat → σ → Nat → σ)
    (s : σ) :
    forLoop 0 N (fun s n => forLoop (rd row_P n) (rd row_P (n + 1)) (body n) s) s
      = (steps row_P N).foldl (fun s p => body p.1 s p.2) s := by
  unfold forLoop steps
  rw [foldl_flatMap, Nat.sub_zero, ← List.range_eq_range']
  congr 1
  funext s n
  rw [List.foldl_map]
  rfl

theorem entries_eq_map_steps (N : Nat) (M : Csr) :
    entries N M = (steps M.row_P N).map fun p => (p.1, rd M.col_P p.2, rd M.val_P p.2) := by
  unfold entries steps
  rw [List.map_flatMap]
  congr 1
  funext n
  rw [List.map_map]
  rfl

/-! ## Stored entries of a valid matrix -/

theorem mem_rowIdx {row_P : List Nat} {n i : Nat} :
    i ∈ rowIdx row_P n ↔ rd row_P n ≤ i ∧ i < rd row_P (n + 1) := by
  unfold rowIdx
  rw [List.mem_range'_1]
  omega

theorem mem_steps {row_P : List Nat} {N : Nat} {p : Nat × Nat} :
    p ∈ steps row_P N ↔ p.1 < N ∧ rd row_P p.1 ≤ p.2 ∧ p.2 < rd row_P (p.1 + 1) := by
  unfold steps
  simp only [List.mem_flatMap, List.mem_range, List.mem_map, mem_rowIdx]
  constructor
  · rintro ⟨n, hn, i, hi, rfl⟩
    exact ⟨hn, hi⟩
  · rintro ⟨hn, hi⟩
    exact ⟨p.1, hn, p.2, hi, rfl⟩

theorem mem_entries {N : Nat} {M : Csr} {t : Nat × Nat × ℚ} :
    t ∈ entries N M ↔ ∃ i, t.1 < N ∧ rd M.row_P t.1 ≤ i ∧ i < rd M.row_P (t.1 + 1) ∧
      rd M.col_P i = t.2.1 ∧ rd M.val_P i = t.2.2 := by
  rw [entries_eq_map_steps, List.mem_map]
  constructor
  · rintro ⟨p, hp, rfl⟩
    rw [mem_steps] at hp
    exact ⟨p.2, hp.1, hp.2.1, hp.2.2, rfl, rfl⟩
  · rintro ⟨i, h1, h2, h3, h4, h5⟩
    refine ⟨(t.1, i), mem_steps.2 ⟨h1, h2, h3⟩, ?_⟩
    simp [h4, h5]

theorem row_le_of_mono {row_P : List Nat} {N : Nat}
    (hmono : ∀ n, n < N → rd row_P n ≤ rd row_P (n + 1)) :
    ∀ k, k ≤ N → ∀ n, n ≤ k → rd row_P n ≤ rd row_P k := by
  intro k
  induction k with
  | zero => intro _ n hn; simp [Nat.le_zero.1 hn]
  | succ k ih =>
    intro hk n hn
    rcases Nat.eq_or_lt_of_le hn with h | h
    · rw [h]
    · exact Nat.le_trans (ih (by omega) n (by omega)) (hmono k (by omega))

theorem Valid.lt {N : Nat} {M : Csr} (h : Valid N M) {t : Nat × Nat × ℚ}
    (ht : t ∈ entries N M) : t.1 < N ∧ t.2.1 < N := by
  obtain ⟨-, -, hmono, -, -, hcol, -⟩ := h
  rw [mem_entries] at ht
  obtain ⟨i, h1, h2, h3, h4, -⟩ := ht
  refine ⟨h1, ?_⟩
  rw [← h4]
  apply hcol
  have := row_le_of_mono hmono N (Nat.le_refl _) (t.1 + 1) (by omega)
  omega

theorem Valid.nodup_pos {N : Nat} {M : Csr} (h : Valid N M) :
    ((entries N M).map pos).Nodup := by
  obtain ⟨-, -, -, -, -, -, hnd⟩ := h
  unfold entries
  rw [List.map_flatMap, List.nodup_flatMap]
  constructor
  · intro n hn
    rw [List.mem_range] at hn
    rw [List.map_map]
    have : (pos ∘ fun i => (n, rd M.col_P i, rd M.val_P i)) = (fun c => (n, c)) ∘ rd M.col_P := by
      funext i; rfl
    rw [this, ← List.map_map]
    exact (hnd n hn).map (fun a b hab => by simpa using hab)
  · refine List.Nodup.pairwise_of_forall_ne (List.nodup_range N) ?_
    intro a _ b _ hab p hp hp'
    simp only [List.mem_map] at hp hp'
    obtain ⟨x, ⟨i, -, rfl⟩, rfl⟩ := hp
    obtain ⟨y, ⟨j, -, rfl⟩, hy⟩ := hp'
    simp only [pos, Prod.mk.injEq] at hy
    exact hab hy.1.symm

/-! ## The passes of `symmetrizeMatrix`, entry by entry -/

theorem mate_isSome_iff {T : List (Nat × Nat × ℚ)} {n c : Nat} :
    (mate T n c).isSome ↔ ∃ u ∈ T, u.1 = c ∧ u.2.1 = n := by
  unfold mate
  rw [List.find?_isSome]
  simp

theorem foldl_present (p : Nat → Prop) [DecidablePred p] (l : List Nat) (b : Bool) :
    l.foldl (fun present m => if p m then true else present) b = (b || l.any fun m => decide (p m)) := by
  induction l generalizing b with
  | nil => simp
  | cons a l ih =>
    rw [List.foldl_cons, ih]
    by_cases h : p a <;> simp [h]

theorem isPresent_eq_any (row_P col_P : List Nat) (n c : Nat) :
    isPresent row_P col_P n c = (rowIdx row_P c).any fun m => decide (rd col_P m = n) := by
  unfold isPresent forLoop rowIdx
  rw [foldl_present]
  simp

theorem isPresent_eq_mate {N : Nat} {M : Csr} {n c : Nat} (hc : c < N) :
    isPresent M.row_P M.col_P n c = (mate (entries N M) n c).isSome := by
  rw [isPresent_eq_any, Bool.eq_iff_iff, mate_isSome_iff, List.any_eq_true]
  constructor
  · rintro ⟨m, hm, hcol⟩
    rw [mem_rowIdx] at hm
    refine ⟨(c, n, rd M.val_P m), mem_entries.2 ⟨m, hc, hm.1, hm.2, ?_, rfl⟩, rfl, rfl⟩
    simpa using hcol
  · rintro ⟨u, hu, rfl, rfl⟩
    obtain ⟨m, -, h2, h3, h4, -⟩ := mem_entries.1 hu
    exact ⟨m, mem_rowIdx.2 ⟨h2, h3⟩, by simpa using h4⟩

theorem foldl_fillScan_none (col_P : List Nat) (val_P : List ℚ) (sr off : List Nat)
    (n i : Nat) (l : List Nat) (hl : ∀ m ∈ l, rd col_P m ≠ n) (s : Bool × List Nat × List ℚ) :
    l.foldl (fillScan col_P val_P sr off n i) s = s := by
  induction l generalizing s with
  | nil => rfl
  | cons a l ih =>
    rw [List.foldl_cons]
    have h1 : fillScan col_P val_P sr off n i s a = s := by
      unfold fillScan
      rw [if_neg (hl a (List.mem_cons_self _ _))]
    rw [h1]
    exact ih (fun m hm => hl m (List.mem_cons_of_mem _ hm)) s

theorem foldl_fillScan_some (col_P : List Nat) (val_P : List ℚ) (sr off : List Nat)
    (n i : Nat) (l : List Nat) (hnd : (l.map (rd col_P)).Nodup) (m : Nat) (hm : m ∈ l)
    (hcol : rd col_P m = n) (s : Bool × List Nat × List ℚ) :
    l.foldl (fillScan col_P val_P sr off n i) s = fillScan col_P val_P sr off n i s m := by
  induction l generalizing s with
  | nil => simp at hm
  | cons a l ih =>
    rw [List.foldl_cons]
    rw [List.map_cons, List.nodup_cons] at hnd
    rcases List.mem_cons.1 hm with rfl | hm'
    · apply foldl_fillScan_none
      intro x hx hxn
      exact hnd.1 (by rw [hcol, ← hxn]; exact List.mem_map_of_mem _ hx)
    · have hane : rd col_P a ≠ n := by
        intro han
        exact hnd.1 (by rw [han, ← hcol]; exact List.mem_map_of_mem _ hm')
      have h1 : fillScan col_P val_P sr off n i s a = s := by
        unfold fillScan
        rw [if_neg hane]
      rw [h1]
      exact ih hnd.2 hm' s

theorem set_set_same {α : Type} (l : List α) (i : Nat) (a b : α) :
    (l.set i a).set i b = l.set i b := by
  simp

theorem fillEntry_eq_push {N : Nat} {M : Csr} (h : Valid N M) (sr : List Nat)
    (st : FillState) {p : Nat × Nat} (hp : p ∈ steps M.row_P N) :
    fillEntry M.row_P M.col_P M.val_P sr p.1 st p.2
      = (emit (entries N M) (p.1, rd M.col_P p.2, rd M.val_P p.2)).foldl (push sr) st := by
  obtain ⟨n, i⟩ := p
  have hT := h.nodup_pos
  have ht : (n, rd M.col_P i, rd M.val_P i) ∈ entries N M := by
    rw [entries_eq_map_steps]
    exact List.mem_map_of_mem (fun p => (p.1, rd M.col_P p.2, rd M.val_P p.2)) hp
  have hc : rd M.col_P i < N := (h.lt ht).2
  have hnd := h.2.2.2.2.2.2 (rd M.col_P i) hc
  simp only
  unfold fillEntry forLoop
  simp only
  rw [show List.range' (rd M.row_P (rd M.col_P i))
      (rd M.row_P (rd M.col_P i + 1) - rd M.row_P (rd M.col_P i))
      = rowIdx M.row_P (rd M.col_P i) from rfl]
  cases hm : mate (entries N M) n (rd M.col_P i) with
  | none =>
    have hno : ∀ m ∈ rowIdx M.row_P (rd M.col_P i), rd M.col_P m ≠ n := by
      intro m hmem hcol
      rw [mate_none] at hm
      rw [mem_rowIdx] at hmem
      exact hm (rd M.col_P i, n, rd M.val_P m)
        (mem_entries.2 ⟨m, hc, hmem.1, hmem.2, hcol, rfl⟩) ⟨rfl, rfl⟩
    have hne : rd M.col_P i ≠ n := by
      intro heq
      rw [mem_steps] at hp
      exact hno i (by rw [heq]; exact mem_rowIdx.2 hp.2) heq
    rw [foldl_fillScan_none _ _ _ _ _ _ _ hno]
    unfold emit
    simp only [hm, List.foldl_cons, List.foldl_nil, push]
    simp [hne, rd_incr, Ne.symm hne]
  | some u =>
    obtain ⟨hu, hu1, hu2⟩ := mate_some hm
    obtain ⟨m, -, hm2, hm3, hm4, hm5⟩ := mem_entries.1 hu
    rw [hu1] at hm2 hm3
    rw [hu2] at hm4
    rw [foldl_fillScan_some _ _ _ _ _ _ _ hnd m (mem_rowIdx.2 ⟨hm2, hm3⟩) hm4]
    unfold emit fillScan
    simp only [hm, hm4, if_true]
    rcases Nat.lt_trichotomy n (rd M.col_P i) with hlt | heq | hgt
    · have hne : rd M.col_P i ≠ n := by omega
      simp only [hlt, Nat.le_of_lt hlt, if_true, List.foldl_cons, List.foldl_nil, push]
      simp [hne, rd_incr, Ne.symm hne, hm5]
    · simp only [← heq, Nat.lt_irrefl, if_false, if_true, Nat.le_refl, List.foldl_cons,
        List.foldl_nil, push]
      simp [hm5]
    · have hne : rd M.col_P i ≠ n := by omega
      have hnlt : ¬ n < rd M.col_P i := by omega
      have hnle : ¬ n ≤ rd M.col_P i := by omega
      simp [hnlt, hnle, Ne.symm hne]

/-! ## The fill-pass invariant -/

theorem rowOf_append (E F : List (Nat × Nat × ℚ)) (r : Nat) :
    rowOf (E ++ F) r = rowOf E r ++ rowOf F r := by
  simp [rowOf]

theorem rowOf_single_eq (e : Nat × Nat × ℚ) : rowOf [e] e.1 = [e] := by
  simp [rowOf]

theorem rowOf_single_ne (e : Nat × Nat × ℚ) {r : Nat} (h : e.1 ≠ r) : rowOf [e] r = [] := by
  simp [rowOf, h]

theorem length_rowOf (E : List (Nat × Nat × ℚ)) (r : Nat) :
    (rowOf E r).length = (E.map (·.1)).count r := by
  induction E with
  | nil => rfl
  | cons e E ih =>
    by_cases h : e.1 = r
    · simp [rowOf, h, List.filter_cons] at ih ⊢
      exact ih
    · simp [rowOf, h, List.filter_cons, List.count_cons] at ih ⊢
      exact ih

theorem rd_append_left {α : Type} [Zero α] (l l' : List α) {j : Nat} (h : j < l.length) :
    rd (l ++ l') j = rd l j := by
  unfold rd; exact List.getD_append _ _ _ _ h

theorem rd_append_length {α : Type} [Zero α] (l : List α) (a : α) :
    rd (l ++ [a]) l.length = a := by
  unfold rd; rw [List.getD_append_right _ _ _ _ (Nat.le_refl _)]; simp

theorem fillInv_push {sr : List Nat} {N L : Nat} {done : List (Nat × Nat × ℚ)}
    {st : FillState} (hinv : FillInv sr N L done st) (e : Nat × Nat × ℚ) (he : e.1 < N)
    (cap : Nat → Nat) (hsr : ∀ r, r < N → rd sr (r + 1) = rd sr r + cap r)
    (hL : rd sr N = L)
    (hcap : ∀ r, r < N → (rowOf (done ++ [e]) r).length ≤ cap r) :
    FillInv sr N L (done ++ [e]) (push sr st e) := by
  obtain ⟨h1, h2, h3, h4, h5⟩ := hinv
  have hmono : ∀ k, k ≤ N → ∀ n, n ≤ k → rd sr n ≤ rd sr k :=
    row_le_of_mono (fun n hn => by rw [hsr n hn]; omega)
  have hoff : rd st.offset e.1 = (rowOf done e.1).length := h4 _ he
  have hcap_e := hcap _ he
  rw [rowOf_append, rowOf_single_eq, List.length_append, List.length_singleton] at hcap_e
  have hslot : rd sr e.1 + rd st.offset e.1 < L := by
    have := hmono N (Nat.le_refl _) (e.1 + 1) he
    have := hsr _ he
    omega
  refine ⟨by simp [push, length_incr, h1], by simp [push, h2], by simp [push, h3], ?_, ?_⟩
  · intro r hr
    simp only [push]
    rw [rd_incr, rowOf_append, List.length_append, h4 r hr]
    by_cases hre : e.1 = r
    · subst hre; simp [rowOf_single_eq, h1, he]
    · simp [hre, rowOf_single_ne e hre]
  · intro r hr j hj
    simp only [push]
    rw [rowOf_append] at hj ⊢
    by_cases hre : e.1 = r
    · subst hre
      rw [rowOf_single_eq] at hj ⊢
      rw [List.length_append, List.length_singleton] at hj
      rw [List.map_append, List.map_append, List.map_singleton, List.map_singleton, hoff]
      rcases Nat.eq_or_lt_of_le (Nat.le_of_lt_succ hj) with hj' | hj'
      · subst hj'
        rw [rd_set_eq _ _ (by rw [h2, ← hoff]; exact hslot),
          rd_set_eq _ _ (by rw [h3, ← hoff]; exact hslot)]
        have l1 := rd_append_length ((rowOf done e.1).map (·.2.1)) e.2.1
        have l2 := rd_append_length ((rowOf done e.1).map (·.2.2)) e.2.2
        rw [List.length_map] at l1 l2
        exact ⟨l1.symm, l2.symm⟩
      · rw [rd_set_ne _ _ (by omega), rd_set_ne _ _ (by omega),
          rd_append_left _ _ (by simpa using hj'), rd_append_left _ _ (by simpa using hj')]
        exact h5 _ he j hj'
    · rw [rowOf_single_ne e hre, List.append_nil] at hj ⊢
      have hcap_r := hcap r hr
      rw [rowOf_append, rowOf_single_ne e hre, List.append_nil] at hcap_r
      have hne : rd sr e.1 + rd st.offset e.1 ≠ rd sr r + j := by
        rw [hoff]
        rcases Nat.lt_or_gt_of_ne hre with hlt | hgt
        · have := hmono r (Nat.le_of_lt hr) (e.1 + 1) hlt
          have := hsr _ he
          omega
        · have := hmono e.1 (Nat.le_of_lt he) (r + 1) hgt
          have := hsr _ hr
          omega
      rw [rd_set_ne _ _ hne, rd_set_ne _ _ hne]
      exact h5 r hr j hj

theorem length_rowOf_append_le (E F : List (Nat × Nat × ℚ)) (r : Nat) :
    (rowOf E r).length ≤ (rowOf (E ++ F) r).length := by
  rw [rowOf_append, List.length_append]; omega

theorem fillInv_foldl {sr : List Nat} {N L : Nat} (todo : List (Nat × Nat × ℚ)) :
    ∀ (done : List (Nat × Nat × ℚ)) (st : FillState), FillInv sr N L done st →
      (∀ e ∈ todo, e.1 < N) →
      (∀ r, r < N → rd sr (r + 1) = rd sr r + (rowOf (done ++ todo) r).length) →
      rd sr N = L →
      FillInv sr N L (done ++ todo) (todo.foldl (push sr) st) := by
  induction todo with
  | nil => intro done st hinv _ _ _; simpa using hinv
  | cons e todo ih =>
    intro done st hinv hlt hsr hL
    have happ : done ++ e :: todo = (done ++ [e]) ++ todo := by simp
    rw [List.foldl_cons, happ]
    apply ih
    · refine fillInv_push hinv e (hlt e (List.mem_cons_self _ _))
        (fun r => (rowOf (done ++ e :: todo) r).length) hsr hL ?_
      intro r _
      rw [happ]
      exact length_rowOf_append_le _ _ _
    · exact fun x hx => hlt x (List.mem_cons_of_mem _ hx)
    · rw [← happ]; exact hsr
    · exact hL

/-! ## The counting pass, the row offsets and the halving -/

theorem ext_rd {α : Type} [Zero α] {l₁ l₂ : List α} (hlen : l₁.length = l₂.length)
    (h : ∀ j, j < l₁.length → rd l₁ j = rd l₂ j) : l₁ = l₂ := by
  apply List.ext_getElem hlen
  intro n h1 h2
  have := h n h1
  rwa [rd_eq_getElem _ _ h1, rd_eq_getElem _ _ h2] at this

theorem foldl_incr (l : List Nat) :
    ∀ a : List Nat, (∀ x ∈ l, x < a.length) →
      (l.foldl incr a).length = a.length ∧ ∀ r, rd (l.foldl incr a) r = rd a r + l.count r := by
  induction l with
  | nil => intro a _; simp
  | cons x l ih =>
    intro a hx
    rw [List.foldl_cons]
    have hlen := length_incr a x
    obtain ⟨h1, h2⟩ := ih (incr a x) (fun y hy => by
      rw [hlen]; exact hx y (List.mem_cons_of_mem _ hy))
    refine ⟨by rw [h1, hlen], fun r => ?_⟩
    rw [h2, rd_incr, List.count_cons]
    have hxl := hx x (List.mem_cons_self _ _)
    by_cases hxr : x = r
    · subst hxr; simp [hxl]; omega
    · simp [hxr]

theorem countEntry_eq {N : Nat} {M : Csr} (h : Valid N M) (rc : List Nat) {p : Nat × Nat}
    (hp : p ∈ steps M.row_P N) :
    countEntry M.row_P M.col_P p.1 rc p.2
      = (targets (entries N M) (p.1, rd M.col_P p.2, rd M.val_P p.2)).foldl incr rc := by
  have ht : (p.1, rd M.col_P p.2, rd M.val_P p.2) ∈ entries N M := by
    rw [entries_eq_map_steps]
    exact List.mem_map_of_mem (fun p => (p.1, rd M.col_P p.2, rd M.val_P p.2)) hp
  have hc : rd M.col_P p.2 < N := (h.lt ht).2
  unfold countEntry targets
  rw [isPresent_eq_mate hc]
  cases hm : (mate (entries N M) p.1 (rd M.col_P p.2)).isSome <;> simp

theorem foldl_steps_eq_flatMap {σ β : Type} {N : Nat} {M : Csr} (body : Nat → σ → Nat → σ)
    (f : Nat × Nat × ℚ → List β) (g : σ → β → σ) (s : σ)
    (hbody : ∀ s p, p ∈ steps M.row_P N →
      body p.1 s p.2 = (f (p.1, rd M.col_P p.2, rd M.val_P p.2)).foldl g s) :
    (steps M.row_P N).foldl (fun s p => body p.1 s p.2) s
      = ((entries N M).flatMap f).foldl g s := by
  rw [entries_eq_map_steps, foldl_flatMap, List.foldl_map]
  exact List.foldl_ext _ _ _ (fun s p hp => hbody s p hp)

theorem rowCounts_eq {N : Nat} {M : Csr} (h : Valid N M) :
    rowCounts M.row_P M.col_P N
      = ((entries N M).flatMap (targets (entries N M))).foldl incr (List.replicate N 0) := by
  unfold rowCounts
  rw [forLoop_rows]
  exact foldl_steps_eq_flatMap _ _ _ _ (fun rc p hp => countEntry_eq h rc hp)

theorem fillPass_eq {N : Nat} {M : Csr} (h : Valid N M) (sr : List Nat) (L : Nat) :
    fillPass M.row_P M.col_P M.val_P sr L N
      = (symSpec (entries N M)).foldl (push sr)
          { sym_col_P := List.replicate L 0, sym_val_P := List.replicate L 0,
            offset := List.replicate N 0 } := by
  unfold fillPass symSpec
  rw [forLoop_rows]
  exact foldl_steps_eq_flatMap _ _ _ _ (fun st p hp => fillEntry_eq_push h sr st hp)

theorem mem_targets {T : List (Nat × Nat × ℚ)} {t : Nat × Nat × ℚ} {x : Nat}
    (hx : x ∈ targets T t) : x = t.1 ∨ x = t.2.1 := by
  unfold targets at hx
  split_ifs at hx <;> simp at hx <;> tauto

theorem rowCounts_spec {N : Nat} {M : Csr} (h : Valid N M) :
    (rowCounts M.row_P M.col_P N).length = N ∧
      ∀ r, rd (rowCounts M.row_P M.col_P N) r = (rowOf (symSpec (entries N M)) r).length := by
  rw [rowCounts_eq h]
  have hlt : ∀ x ∈ (entries N M).flatMap (targets (entries N M)),
      x < (List.replicate N 0).length := by
    intro x hx
    rw [List.mem_flatMap] at hx
    obtain ⟨t, ht, hx⟩ := hx
    have := h.lt ht
    rw [List.length_replicate]
    rcases mem_targets hx with rfl | rfl <;> omega
  obtain ⟨h1, h2⟩ := foldl_incr _ _ hlt
  refine ⟨by rw [h1, List.length_replicate], fun r => ?_⟩
  rw [h2, rd_replicate, Nat.zero_add, length_rowOf, count_symSpec _ h.nodup_pos]

theorem psum_succ (rc : List Nat) (k : Nat) : psum rc (k + 1) = psum rc k + rd rc k := by
  simp [psum, List.range_succ]

theorem forLoop_zero_succ {σ : Type} (k : Nat) (body : σ → Nat → σ) (s : σ) :
    forLoop 0 (k + 1) body s = body (forLoop 0 k body s) k := by
  unfold forLoop
  simp only [Nat.sub_zero, ← List.range_eq_range']
  rw [List.range_succ, List.foldl_append]
  rfl

theorem noElem_eq (rc : List Nat) (N : Nat) : noElem rc N = psum rc N := by
  unfold noElem
  induction N with
  | zero => rfl
  | succ k ih => rw [forLoop_zero_succ, ih, psum_succ]

theorem symRowP_loop (rc : List Nat) (N : Nat) (init : List Nat) (hlen : init.length = N + 1)
    (h0 : rd init 0 = 0) :
    ∀ k, k ≤ N →
      (forLoop 0 k (fun sr n => sr.set (n + 1) (rd sr n + rd rc n)) init).length = N + 1 ∧
      ∀ j, j ≤ k → rd (forLoop 0 k (fun sr n => sr.set (n + 1) (rd sr n + rd rc n)) init) j
        = psum rc j := by
  intro k
  induction k with
  | zero =>
    intro _
    refine ⟨by simpa [forLoop] using hlen, fun j hj => ?_⟩
    rw [Nat.le_zero.1 hj]
    simpa [forLoop, psum] using h0
  | succ k ih =>
    intro hk
    obtain ⟨h1, h2⟩ := ih (by omega)
    rw [forLoop_zero_succ]
    refine ⟨by rw [List.length_set, h1], fun j hj => ?_⟩
    rw [rd_set, h1]
    by_cases hjk : k + 1 = j
    · subst hjk
      rw [if_pos ⟨rfl, by omega⟩, h2 k (Nat.le_refl _), psum_succ]
    · rw [if_neg (fun hh => hjk hh.1)]
      exact h2 j (by omega)

theorem symRowP_spec (rc : List Nat) (N : Nat) :
    (symRowP rc N).length = N + 1 ∧ ∀ j, j ≤ N → rd (symRowP rc N) j = psum rc j :=
  symRowP_loop rc N _ (by simp) (by rw [rd_set_eq _ _ (by simp)]) N (Nat.le_refl _)

theorem halve_loop (sv : List ℚ) :
    ∀ k, (forLoop 0 k (fun sv i => sv.set i (rd sv i / 2)) sv).length = sv.length ∧
      ∀ j, rd (forLoop 0 k (fun sv i => sv.set i (rd sv i / 2)) sv) j
        = if j < k then rd sv j / 2 else rd sv j := by
  intro k
  induction k with
  | zero => simp [forLoop]
  | succ k ih =>
    obtain ⟨h1, h2⟩ := ih
    rw [forLoop_zero_succ]
    refine ⟨by simp [h1], fun j => ?_⟩
    rw [rd_set, h2, h2, h1]
    by_cases hjk : k = j
    · subst hjk
      by_cases hl : k < sv.length
      · simp [hl]
      · simp [hl, rd_of_le sv k (Nat.le_of_not_lt hl)]
    · have : (j < k + 1) ↔ j < k := by omega
      simp [hjk, this]

theorem halve_eq (sv : List ℚ) (L : Nat) (h : sv.length = L) :
    halve sv L = sv.map (· / 2) := by
  unfold halve
  obtain ⟨h1, h2⟩ := halve_loop sv L
  apply ext_rd (by rw [h1, List.length_map])
  intro j hj
  rw [h1] at hj
  rw [h2, if_pos (by omega), rd_eq_getElem _ _ hj,
    rd_eq_getElem _ _ (by simpa using hj)]
  simp

/-! ## The output of `symmetrizeMatrix` -/

theorem rd_map_div (l : List ℚ) (i : Nat) : rd (l.map (· / 2)) i = rd l i / 2 := by
  unfold rd
  have := @List.getD_map ℚ ℚ l 0 i (fun x : ℚ => x / 2)
  simpa using this

theorem fill_spec {N : Nat} {M : Csr} (h : Valid N M) :
    FillInv (symRowP (rowCounts M.row_P M.col_P N) N) N
      (noElem (rowCounts M.row_P M.col_P N) N) (symSpec (entries N M))
      (fillPass M.row_P M.col_P M.val_P (symRowP (rowCounts M.row_P M.col_P N) N)
        (noElem (rowCounts M.row_P M.col_P N) N) N) := by
  obtain ⟨hrc1, hrc2⟩ := rowCounts_spec h
  obtain ⟨hsr1, hsr2⟩ := symRowP_spec (rowCounts M.row_P M.col_P N) N
  rw [fillPass_eq h]
  have := @fillInv_foldl (symRowP (rowCounts M.row_P M.col_P N) N) N
    (noElem (rowCounts M.row_P M.col_P N) N) (symSpec (entries N M)) []
    { sym_col_P := List.replicate (noElem (rowCounts M.row_P M.col_P N) N) 0,
      sym_val_P := List.replicate (noElem (rowCounts M.row_P M.col_P N) N) 0,
      offset := List.replicate N 0 }
    ⟨by simp, by simp, by simp, fun r _ => by simp [rd_replicate, rowOf],
      fun r _ j hj => by simp [rowOf] at hj⟩
    (fun e he => (mem_symSpec_lt (fun t ht => h.lt ht) he).1)
    (fun r hr => by
      rw [hsr2 (r + 1) hr, hsr2 r (Nat.le_of_lt hr), psum_succ, hrc2, List.nil_append])
    (by rw [hsr2 N (Nat.le_refl _), noElem_eq])
  simpa using this

theorem rowIdx_symRowP {N : Nat} {M : Csr} (h : Valid N M) {r : Nat} (hr : r < N) :
    rowIdx (symRowP (rowCounts M.row_P M.col_P N) N) r
      = List.range' (rd (symRowP (rowCounts M.row_P M.col_P N) N) r)
          (rowOf (symSpec (entries N M)) r).length := by
  obtain ⟨-, hrc2⟩ := rowCounts_spec h
  obtain ⟨-, hsr2⟩ := symRowP_spec (rowCounts M.row_P M.col_P N) N
  unfold rowIdx
  rw [hsr2 (r + 1) hr, hsr2 r (Nat.le_of_lt hr), psum_succ, hrc2, Nat.add_sub_cancel_left]

theorem entries_symmetrizeMatrix {N : Nat} {M : Csr} (h : Valid N M) :
    entries N (symmetrizeMatrix M N) = symEntries N (entries N M) := by
  obtain ⟨-, h2, h3, -, h5⟩ := fill_spec h
  unfold symEntries
  rw [entries]
  apply List.flatMap_congr
  intro r hr
  rw [List.mem_range] at hr
  simp only [symmetrizeMatrix]
  rw [rowIdx_symRowP h hr, halve_eq _ _ h3]
  apply List.ext_getElem (by simp)
  intro j hj1 hj2
  have hj : j < (rowOf (symSpec (entries N M)) r).length := by simpa using hj2
  obtain ⟨hc, hv⟩ := h5 r hr j hj
  have hmem := List.getElem_mem hj
  have hrow : ((rowOf (symSpec (entries N M)) r)[j]).1 = r := by
    have := List.of_mem_filter hmem
    simpa using this
  rw [List.getElem_map, List.getElem_map, List.getElem_range', Nat.one_mul, rd_map_div, hc, hv,
    rd_eq_getElem _ _ (by simpa using hj), rd_eq_getElem _ _ (by simpa using hj)]
  simp [half, hrow]

theorem mem_symEntries {N : Nat} {T : List (Nat × Nat × ℚ)}
    (hN : ∀ t ∈ T, t.1 < N ∧ t.2.1 < N) {x : Nat × Nat × ℚ} :
    x ∈ symEntries N T ↔ x ∈ (symSpec T).map half := by
  unfold symEntries
  simp only [List.mem_flatMap, List.mem_range, List.mem_map, rowOf, List.mem_filter,
    decide_eq_true_eq]
  constructor
  · rintro ⟨r, -, e, ⟨he, -⟩, rfl⟩
    exact ⟨e, he, rfl⟩
  · rintro ⟨e, he, rfl⟩
    exact ⟨e.1, (mem_symSpec_lt hN he).1, e, ⟨he, rfl⟩, rfl⟩

theorem steps_snd {row_P : List Nat} {N : Nat} (h0 : rd row_P 0 = 0)
    (hmono : ∀ n, n < N → rd row_P n ≤ rd row_P (n + 1)) :
    ∀ k, k ≤ N → (steps row_P k).map (·.2) = List.range (rd row_P k) := by
  intro k
  induction k with
  | zero => intro _; simp [steps, h0]
  | succ k ih =>
    intro hk
    have hstep : steps row_P (k + 1) = steps row_P k ++ (rowIdx row_P k).map fun i => (k, i) := by
      simp [steps, List.range_succ, List.flatMap_append]
    rw [hstep, List.map_append, ih (by omega), List.map_map]
    have : ((fun x : Nat × Nat => x.2) ∘ fun i => (k, i)) = id := by funext i; rfl
    rw [this, List.map_id, rowIdx, List.range_eq_range', List.range_eq_range']
    have hm := hmono k (by omega)
    have := List.range'_append 0 (rd row_P k) (rd row_P (k + 1) - rd row_P k) 1
    rw [Nat.zero_add, Nat.one_mul] at this
    rw [this]
    congr 1
    omega

theorem exists_row {row_P : List Nat} {N : Nat} (h0 : rd row_P 0 = 0)
    (hmono : ∀ n, n < N → rd row_P n ≤ rd row_P (n + 1)) {i : Nat} (hi : i < rd row_P N) :
    ∃ n, n < N ∧ rd row_P n ≤ i ∧ i < rd row_P (n + 1) := by
  have hmem : i ∈ (steps row_P N).map (·.2) := by
    rw [steps_snd h0 hmono N (Nat.le_refl _)]
    exact List.mem_range.2 hi
  rw [List.mem_map] at hmem
  obtain ⟨p, hp, rfl⟩ := hmem
  exact ⟨p.1, mem_steps.1 hp⟩

theorem Valid.map_val {N : Nat} {M : Csr} (h : Valid N M) :
    (entries N M).map (·.2.2) = M.val_P := by
  obtain ⟨-, h0, hmono, -, hval, -, -⟩ := h
  rw [entries_eq_map_steps, List.map_map]
  have : ((fun x : Nat × Nat × ℚ => x.2.2) ∘ fun p : Nat × Nat => (p.1, rd M.col_P p.2, rd M.val_P p.2))
      = rd M.val_P ∘ (·.2) := by funext p; rfl
  rw [this, ← List.map_map, steps_snd h0 hmono N (Nat.le_refl _), ← hval]
  exact map_rd_range _

theorem pos_half (e : Nat × Nat × ℚ) : pos (half e) = pos e := rfl

theorem nodup_pos_symEntries {N : Nat} {T : List (Nat × Nat × ℚ)} (hT : (T.map pos).Nodup) :
    ((symEntries N T).map pos).Nodup := by
  unfold symEntries
  rw [List.map_flatMap, List.nodup_flatMap]
  constructor
  · intro r _
    rw [List.map_map]
    have : pos ∘ half = pos := by funext e; rfl
    rw [this]
    exact ((List.filter_sublist _).map pos).nodup (nodup_pos_symSpec hT)
  · refine List.Nodup.pairwise_of_forall_ne (List.nodup_range N) ?_
    intro a _ b _ hab p hp hp'
    simp only [List.mem_map, rowOf, List.mem_filter, decide_eq_true_eq] at hp hp'
    obtain ⟨x, ⟨e, ⟨-, he⟩, rfl⟩, rfl⟩ := hp
    obtain ⟨y, ⟨e', ⟨-, he'⟩, rfl⟩, hy⟩ := hp'
    simp only [pos, half, Prod.mk.injEq] at hy
    exact hab (by omega)

theorem symEntries_perm {N : Nat} {T : List (Nat × Nat × ℚ)} (hT : (T.map pos).Nodup)
    (hN : ∀ t ∈ T, t.1 < N ∧ t.2.1 < N) :
    (symEntries N T).Perm ((symSpec T).map half) := by
  rw [List.perm_ext_iff_of_nodup (List.Nodup.of_map _ (nodup_pos_symEntries hT))]
  · exact fun x => mem_symEntries hN
  · apply List.Nodup.of_map pos
    rw [List.map_map]
    have : pos ∘ half = pos := by funext e; rfl
    rw [this]
    exact nodup_pos_symSpec hT

theorem nodup_row_of_nodup_pos {N : Nat} {M : Csr} (h : ((entries N M).map pos).Nodup)
    {n : Nat} (hn : n < N) : ((rowIdx M.row_P n).map (rd M.col_P)).Nodup := by
  unfold entries at h
  rw [List.map_flatMap, List.nodup_flatMap] at h
  have := h.1 n (List.mem_range.2 hn)
  rw [List.map_map] at this
  have e : (pos ∘ fun i => (n, rd M.col_P i, rd M.val_P i)) = (fun c => (n, c)) ∘ rd M.col_P := by
    funext i; rfl
  rw [e, ← List.map_map] at this
  exact List.Nodup.of_map _ this

theorem valid_symmetrizeMatrix {N : Nat} {M : Csr} (h : Valid N M) :
    Valid N (symmetrizeMatrix M N) := by
  obtain ⟨-, h2, h3, -, -⟩ := fill_spec h
  obtain ⟨hsr1, hsr2⟩ := symRowP_spec (rowCounts M.row_P M.col_P N) N
  have hent := entries_symmetrizeMatrix h
  have h0 : rd (symmetrizeMatrix M N).row_P 0 = 0 := by
    simp only [symmetrizeMatrix]
    rw [hsr2 0 (Nat.zero_le _)]; rfl
  have hmono : ∀ n, n < N →
      rd (symmetrizeMatrix M N).row_P n ≤ rd (symmetrizeMatrix M N).row_P (n + 1) := by
    intro n hn
    simp only [symmetrizeMatrix]
    rw [hsr2 (n + 1) hn, hsr2 n (Nat.le_of_lt hn), psum_succ]
    omega
  have hL : rd (symmetrizeMatrix M N).row_P N = noElem (rowCounts M.row_P M.col_P N) N := by
    simp only [symmetrizeMatrix]
    rw [hsr2 N (Nat.le_refl _), noElem_eq]
  refine ⟨hsr1, h0, hmono, ?_, ?_, ?_, ?_⟩
  · rw [hL]; exact h2
  · rw [hL]
    simp only [symmetrizeMatrix]
    rw [halve_eq _ _ h3, List.length_map, h3]
  · intro i hi
    obtain ⟨n, hn, hi1, hi2⟩ := exists_row h0 hmono hi
    have hmem : (n, rd (symmetrizeMatrix M N).col_P i, rd (symmetrizeMatrix M N).val_P i)
        ∈ entries N (symmetrizeMatrix M N) := mem_entries.2 ⟨i, hn, hi1, hi2, rfl, rfl⟩
    rw [hent, mem_symEntries (fun t ht => h.lt ht), List.mem_map] at hmem
    obtain ⟨e, he, heq⟩ := hmem
    have := (mem_symSpec_lt (fun t ht => h.lt ht) he).2
    simp only [half, Prod.mk.injEq] at heq
    omega
  · intro n hn
    apply nodup_row_of_nodup_pos _ hn
    rw [hent]
    exact nodup_pos_symEntries h.nodup_pos

/-! ## Symmetrization: symmetry, weights, mass, idempotence (C1-C5) -/

theorem swap_mem_entries_symmetrizeMatrix {N : Nat} {M : Csr} (h : Valid N M) {i j : Nat}
    {w : ℚ} (hmem : (i, j, w) ∈ entries N (symmetrizeMatrix M N)) :
    (j, i, w) ∈ entries N (symmetrizeMatrix M N) := by
  rw [entries_symmetrizeMatrix h, mem_symEntries (fun t ht => h.lt ht), List.mem_map] at hmem ⊢
  obtain ⟨e, he, heq⟩ := hmem
  refine ⟨(e.2.1, e.1, e.2.2), swap_mem_symSpec he, ?_⟩
  simp only [half, Prod.mk.injEq] at heq ⊢
  exact ⟨heq.2.1, heq.1, heq.2.2⟩

/-- C1: for every valid CSR input, every entry `(i, j, w)` stored in the output of
`symmetrizeMatrix` has a stored entry `(j, i, w)` with the same weight. -/
theorem symmetrizeMatrix_symmetric (N : Nat) (M : Csr) (h : Valid N M) (i j : Nat) (w : ℚ)
    (hmem : (i, j, w) ∈ entries N (symmetrizeMatrix M N)) :
    (j, i, w) ∈ entries N (symmetrizeMatrix M N) :=
  swap_mem_entries_symmetrizeMatrix h hmem

theorem symmetrizeMatrix_symmetric_witness :
    Valid 3 sampleInput ∧ (0, 2, (1 : ℚ)) ∈ entries 3 (symmetrizeMatrix sampleInput 3) ∧
      (2, 0, (1 : ℚ)) ∈ entries 3 (symmetrizeMatrix sampleInput 3) :=
  ⟨by decide, by decide!, symmetrizeMatrix_symmetric 3 sampleInput (by decide) 0 2 1 (by decide!)⟩

theorem unique_weight {N : Nat} {M : Csr} (h : Valid N M) {n m : Nat} {w w' : ℚ}
    (h1 : (n, m, w) ∈ entries N M) (h2 : (n, m, w') ∈ entries N M) : w = w' := by
  have := eq_of_pos_eq h.nodup_pos h1 h2 rfl rfl
  simpa using this

/-- C2: if a valid input stores `(n, m)` with weight `a` and `(m, n)` with weight `b`,
`n ≠ m`, the output stores `(n, m)` and `(m, n)`, each with weight `(a + b) / 2` and no
other weight. -/
theorem symmetrizeMatrix_mutual (N : Nat) (M : Csr) (h : Valid N M) (n m : Nat) (a b : ℚ)
    (hnm : (n, m, a) ∈ entries N M) (hmn : (m, n, b) ∈ entries N M) (hne : n ≠ m) :
    (n, m, (a + b) / 2) ∈ entries N (symmetrizeMatrix M N) ∧
    (m, n, (a + b) / 2) ∈ entries N (symmetrizeMatrix M N) ∧
    (∀ w, (n, m, w) ∈ entries N (symmetrizeMatrix M N) → w = (a + b) / 2) ∧
    (∀ w, (m, n, w) ∈ entries N (symmetrizeMatrix M N) → w = (a + b) / 2) := by
  have hv := valid_symmetrizeMatrix h
  obtain ⟨h1, h2⟩ := mem_symSpec_of_mutual h.nodup_pos hnm hmn hne
  have e1 : (n, m, (a + b) / 2) ∈ entries N (symmetrizeMatrix M N) := by
    rw [entries_symmetrizeMatrix h, mem_symEntries (fun t ht => h.lt ht)]
    exact List.mem_map.2 ⟨_, h1, rfl⟩
  have e2 : (m, n, (a + b) / 2) ∈ entries N (symmetrizeMatrix M N) := by
    rw [entries_symmetrizeMatrix h, mem_symEntries (fun t ht => h.lt ht)]
    exact List.mem_map.2 ⟨_, h2, rfl⟩
  exact ⟨e1, e2, fun w hw => unique_weight hv hw e1, fun w hw => unique_weight hv hw e2⟩

theorem symmetrizeMatrix_mutual_witness :
    Valid 3 sampleInput ∧ (0, 1, (1 : ℚ)) ∈ entries 3 sampleInput ∧
      (1, 0, (3 : ℚ)) ∈ entries 3 sampleInput ∧
      (0, 1, ((1 : ℚ) + 3) / 2) ∈ entries 3 (symmetrizeMatrix sampleInput 3) :=
  ⟨by decide, by decide!, by decide!,
    (symmetrizeMatrix_mutual 3 sampleInput (by decide) 0 1 1 3 (by decide!) (by decide!)
      (by decide)).1⟩

/-- C3, as stated, fails: for the input with the single directed entry `(0, 1)` of
weight `1`, the output stores `(0, 1)` and `(1, 0)` with weight `1/2`, not `1`. -/
theorem symmetrizeMatrix_oneway_counterexample :
    Valid 2 oneWayInput ∧ entries 2 oneWayInput = [(0, 1, 1)] ∧
      entries 2 (symmetrizeMatrix oneWayInput 2) = [(0, 1, 1 / 2), (1, 0, 1 / 2)] ∧
      ¬ ((0, 1, (1 : ℚ)) ∈ entries 2 (symmetrizeMatrix oneWayInput 2) ∧
         (1, 0, (1 : ℚ)) ∈ entries 2 (symmetrizeMatrix oneWayInput 2)) :=
  ⟨by decide, by decide!, by decide!, by decide!⟩

/-- C3 (amended): if a valid input stores `(n, m)` with weight `w` and no entry at
`(m, n)`, the output stores `(n, m)` and `(m, n)`, each with weight `w / 2` and no other
weight. -/
theorem symmetrizeMatrix_oneway (N : Nat) (M : Csr) (h : Valid N M) (n m : Nat) (w : ℚ)
    (hnm : (n, m, w) ∈ entries N M) (hmn : ∀ b, (m, n, b) ∉ entries N M) :
    (n, m, w / 2) ∈ entries N (symmetrizeMatrix M N) ∧
    (m, n, w / 2) ∈ entries N (symmetrizeMatrix M N) ∧
    (∀ v, (n, m, v) ∈ entries N (symmetrizeMatrix M N) → v = w / 2) ∧
    (∀ v, (m, n, v) ∈ entries N (symmetrizeMatrix M N) → v = w / 2) := by
  have hv := valid_symmetrizeMatrix h
  obtain ⟨h1, h2⟩ := mem_symSpec_of_single hnm hmn
  have e1 : (n, m, w / 2) ∈ entries N (symmetrizeMatrix M N) := by
    rw [entries_symmetrizeMatrix h, mem_symEntries (fun t ht => h.lt ht)]
    exact List.mem_map.2 ⟨_, h1, rfl⟩
  have e2 : (m, n, w / 2) ∈ entries N (symmetrizeMatrix M N) := by
    rw [entries_symmetrizeMatrix h, mem_symEntries (fun t ht => h.lt ht)]
    exact List.mem_map.2 ⟨_, h2, rfl⟩
  exact ⟨e1, e2, fun v hv' => unique_weight hv hv' e1, fun v hv' => unique_weight hv hv' e2⟩

theorem symmetrizeMatrix_oneway_witness :
    Valid 2 oneWayInput ∧ (0, 1, (1 : ℚ)) ∈ entries 2 oneWayInput ∧
      (∀ b, (1, 0, b) ∉ entries 2 oneWayInput) ∧
      (0, 1, (1 : ℚ) / 2) ∈ entries 2 (symmetrizeMatrix oneWayInput 2) ∧
      (1, 0, (1 : ℚ) / 2) ∈ entries 2 (symmetrizeMatrix oneWayInput 2) :=
  have hno : ∀ b, (1, 0, b) ∉ entries 2 oneWayInput := by
    intro b hb
    have e : entries 2 oneWayInput = [(0, 1, 1)] := by decide!
    rw [e] at hb
    simp at hb
  have hw := symmetrizeMatrix_oneway 2 oneWayInput (by decide) 0 1 1 (by decide!) hno
  ⟨by decide, by decide!, hno, hw.1, hw.2.1⟩

theorem sum_val_symmetrizeMatrix {N : Nat} {M : Csr} (h : Valid N M) :
    (symmetrizeMatrix M N).val_P.sum = M.val_P.sum := by
  rw [← (valid_symmetrizeMatrix h).map_val, ← h.map_val, entries_symmetrizeMatrix h,
    ((symEntries_perm h.nodup_pos (fun t ht => h.lt ht)).map _).sum_eq, List.map_map,
    ← sum_symSpec _ h.nodup_pos]
  rfl

/-- C4: for every valid CSR input (diagonal entries allowed), the weights stored in the
output of `symmetrizeMatrix` have the same sum as the weights stored in the input, both
as the sum of the array `val_P` and as the sum over the stored entries. -/
theorem symmetrizeMatrix_sum (N : Nat) (M : Csr) (h : Valid N M) :
    (symmetrizeMatrix M N).val_P.sum = M.val_P.sum ∧
    ((entries N (symmetrizeMatrix M N)).map (·.2.2)).sum = ((entries N M).map (·.2.2)).sum := by
  refine ⟨sum_val_symmetrizeMatrix h, ?_⟩
  rw [(valid_symmetrizeMatrix h).map_val, h.map_val]
  exact sum_val_symmetrizeMatrix h

theorem symmetrizeMatrix_sum_witness :
    Valid 3 diagInput ∧
      (symmetrizeMatrix diagInput 3).val_P = [1, 5 / 2, 5 / 2, 4, 5 / 2, 5 / 2, 1 / 3] ∧
      (symmetrizeMatrix diagInput 3).val_P.sum = diagInput.val_P.sum :=
  ⟨by decide, by decide!, (symmetrizeMatrix_sum 3 diagInput (by decide)).1⟩

theorem entries_perm_of_symmetric {N : Nat} {M : Csr} (h : Valid N M) (hs : Symmetric N M) :
    (entries N (symmetrizeMatrix M N)).Perm (entries N M) := by
  rw [List.perm_ext_iff_of_nodup (List.Nodup.of_map _ (valid_symmetrizeMatrix h).nodup_pos)
    (List.Nodup.of_map _ h.nodup_pos)]
  intro x
  rw [entries_symmetrizeMatrix h, mem_symEntries (fun t ht => h.lt ht)]
  exact mem_half_symSpec_iff h.nodup_pos hs x

/-- C5: for a valid CSR input that is already symmetric, the output of `symmetrizeMatrix`
stores exactly the entries of the input (same rows, columns and weights, possibly in
another order), and applying `symmetrizeMatrix` to that output stores exactly the same
entries again: two applications give the same weights as one. -/
theorem symmetrizeMatrix_idempotent (N : Nat) (M : Csr) (h : Valid N M) (hs : Symmetric N M) :
    (entries N (symmetrizeMatrix M N)).Perm (entries N M) ∧
    (entries N (symmetrizeMatrix (symmetrizeMatrix M N) N)).Perm
      (entries N (symmetrizeMatrix M N)) := by
  have h1 := entries_perm_of_symmetric h hs
  refine ⟨h1, entries_perm_of_symmetric (valid_symmetrizeMatrix h) ?_⟩
  intro t ht
  exact swap_mem_entries_symmetrizeMatrix h ht

theorem symmetrizeMatrix_idempotent_witness :
    Valid 2 symmetricInput ∧ Symmetric 2 symmetricInput ∧
      (entries 2 (symmetrizeMatrix symmetricInput 2)).Perm (entries 2 symmetricInput) ∧
      (entries 2 (symmetrizeMatrix (symmetrizeMatrix symmetricInput 2) 2)).Perm
        (entries 2 (symmetrizeMatrix symmetricInput 2)) :=
  ⟨by decide, by decide!, symmetrizeMatrix_idempotent 2 symmetricInput (by decide) (by decide!)⟩

/-! ## Loops that update an array cell by cell -/

theorem forLoop_set {α : Type} [Zero α] (b : Nat) (g : Nat → α → α) (a : List α) :
    ∀ D, (forLoop 0 D (fun a d => a.set (b + d) (g d (rd a (b + d)))) a).length = a.length ∧
      ∀ j, rd (forLoop 0 D (fun a d => a.set (b + d) (g d (rd a (b + d)))) a) j
        = if b ≤ j ∧ j < b + D ∧ j < a.length then g (j - b) (rd a j) else rd a j := by
  intro D
  induction D with
  | zero =>
    refine ⟨by simp [forLoop], fun j => ?_⟩
    rw [if_neg (by omega)]
    simp [forLoop]
  | succ D ih =>
    obtain ⟨h1, h2⟩ := ih
    rw [forLoop_zero_succ]
    refine ⟨by rw [List.length_set, h1], fun j => ?_⟩
    rw [rd_set, h1, h2 j, h2 (b + D)]
    by_cases hj : b + D = j
    · subst hj
      by_cases hl : b + D < a.length
      · rw [if_pos ⟨rfl, hl⟩, if_neg (by omega), if_pos ⟨by omega, by omega, hl⟩,
          Nat.add_sub_cancel_left]
      · rw [if_neg (by omega), if_neg (by omega), if_neg (by omega)]
    · rw [if_neg (by omega)]
      by_cases hc : b ≤ j ∧ j < b + D ∧ j < a.length
      · rw [if_pos hc, if_pos ⟨hc.1, by omega, hc.2.2⟩]
      · rw [if_neg hc, if_neg (by omega)]

theorem forLoop_set0 {α : Type} [Zero α] (g : Nat → α → α) (a : List α) (D : Nat) :
    (forLoop 0 D (fun a d => a.set d (g d (rd a d))) a).length = a.length ∧
      ∀ j, rd (forLoop 0 D (fun a d => a.set d (g d (rd a d))) a) j
        = if j < D ∧ j < a.length then g j (rd a j) else rd a j := by
  have := forLoop_set 0 g a D
  simp only [Nat.zero_add, Nat.zero_le, true_and, Nat.sub_zero] at this
  exact this

theorem idx_lt {N D n d : Nat} (hn : n < N) (hd : d < D) : n * D + d < N * D := by
  have := Nat.mul_le_mul_right D (Nat.succ_le_of_lt hn)
  rw [Nat.succ_mul] at this
  omega

theorem idx_row {D n k d : Nat} (hd : d < D) :
    (k * D ≤ n * D + d ∧ n * D + d < k * D + D) ↔ n = k := by
  constructor
  · rintro ⟨h1, h2⟩
    rcases Nat.lt_trichotomy n k with h | h | h
    · have := idx_lt h hd
      omega
    · exact h
    · have := Nat.mul_le_mul_right D (Nat.succ_le_of_lt h)
      rw [Nat.succ_mul] at this
      omega
  · rintro rfl
    omega

theorem forLoop_rows_set {α : Type} [Zero α] (D : Nat) (g : Nat → Nat → α → α) (a : List α) :
    ∀ k, (forLoop 0 k (fun a n => forLoop 0 D
        (fun a d => a.set (n * D + d) (g n d (rd a (n * D + d)))) a) a).length = a.length ∧
      ∀ n d, d < D → rd (forLoop 0 k (fun a n => forLoop 0 D
        (fun a d => a.set (n * D + d) (g n d (rd a (n * D + d)))) a) a) (n * D + d)
        = if n < k ∧ n * D + d < a.length then g n d (rd a (n * D + d)) else rd a (n * D + d) := by
  intro k
  induction k with
  | zero =>
    refine ⟨by simp [forLoop], fun n d _ => ?_⟩
    rw [if_neg (by omega)]
    simp [forLoop]
  | succ k ih =>
    obtain ⟨h1, h2⟩ := ih
    rw [forLoop_zero_succ]
    obtain ⟨l1, l2⟩ := forLoop_set (k * D) (g k) (forLoop 0 k (fun a n => forLoop 0 D
        (fun a d => a.set (n * D + d) (g n d (rd a (n * D + d)))) a) a) D
    refine ⟨by rw [l1, h1], fun n d hd => ?_⟩
    rw [l2, h1, h2 n d hd]
    by_cases hnk : n = k
    · subst hnk
      by_cases hl : n * D + d < a.length
      · rw [if_pos ⟨by omega, by omega, hl⟩, if_neg (by omega), if_pos ⟨by omega, hl⟩,
          Nat.add_sub_cancel_left]
      · rw [if_neg (by omega), if_neg (by omega), if_neg (by omega)]
    · have hnot : ¬ (k * D ≤ n * D + d ∧ n * D + d < k * D + D ∧ n * D + d < a.length) := by
        intro hh
        exact hnk ((idx_row hd).1 ⟨hh.1, hh.2.1⟩)
      rw [if_neg hnot]
      by_cases hc : n < k ∧ n * D + d < a.length
      · rw [if_pos hc, if_pos ⟨by omega, hc.2⟩]
      · rw [if_neg hc, if_neg (by omega)]

/-! ## `zeroMean` (C6) -/

theorem zeroMean_mean (X : List ℚ) (D : Nat) :
    ∀ k, (forLoop 0 k (fun mean n => forLoop 0 D
        (fun mean d => mean.set d (rd mean d + rd X (n * D + d))) mean)
        (List.replicate D 0)).length = D ∧
      ∀ d, d < D → rd (forLoop 0 k (fun mean n => forLoop 0 D
        (fun mean d => mean.set d (rd mean d + rd X (n * D + d))) mean)
        (List.replicate D 0)) d = ∑ n ∈ Finset.range k, rd X (n * D + d) := by
  intro k
  induction k with
  | zero =>
    refine ⟨by simp [forLoop], fun d _ => ?_⟩
    simp [forLoop, rd_replicate]
  | succ k ih =>
    obtain ⟨h1, h2⟩ := ih
    rw [forLoop_zero_succ]
    obtain ⟨l1, l2⟩ := forLoop_set0 (fun d v => v + rd X (k * D + d)) (forLoop 0 k
      (fun mean n => forLoop 0 D (fun mean d => mean.set d (rd mean d + rd X (n * D + d))) mean)
      (List.replicate D 0)) D
    refine ⟨by rw [l1, h1], fun d hd => ?_⟩
    rw [l2, h1, if_pos ⟨hd, hd⟩, h2 d hd, Finset.sum_range_succ]

/-- The array `X` after `zeroMean`: every coefficient is lowered by the mean of its
dimension. -/
theorem zeroMean_spec (X : List ℚ) (N D : Nat) (hlen : X.length = N * D) :
    (zeroMean X N D).length = N * D ∧
    ∀ n d, n < N → d < D → rd (zeroMean X N D) (n * D + d)
      = rd X (n * D + d) - (∑ k ∈ Finset.range N, rd X (k * D + d)) / (N : ℚ) := by
  obtain ⟨m1, m2⟩ := zeroMean_mean X D N
  obtain ⟨d1, d2⟩ := forLoop_set0 (fun _ v => v / (N : ℚ)) (forLoop 0 N
      (fun mean n => forLoop 0 D (fun mean d => mean.set d (rd mean d + rd X (n * D + d))) mean)
      (List.replicate D 0)) D
  obtain ⟨x1, x2⟩ := forLoop_rows_set D (fun _ d v => v - rd (forLoop 0 D
      (fun mean d => mean.set d (rd mean d / (N : ℚ))) (forLoop 0 N
      (fun mean n => forLoop 0 D (fun mean d => mean.set d (rd mean d + rd X (n * D + d))) mean)
      (List.replicate D 0))) d) X N
  unfold zeroMean
  refine ⟨by rw [x1, hlen], fun n d hn hd => ?_⟩
  rw [x2 n d hd, if_pos ⟨hn, by rw [hlen]; exact idx_lt hn hd⟩, d2, m1, if_pos ⟨hd, hd⟩,
    m2 d hd]

theorem zeroMean_sum (X : List ℚ) (N D : Nat) (hN : 0 < N) (hlen : X.length = N * D)
    (d : Nat) (hd : d < D) : ∑ n ∈ Finset.range N, rd (zeroMean X N D) (n * D + d) = 0 := by
  obtain ⟨-, h⟩ := zeroMean_spec X N D hlen
  rw [Finset.sum_congr rfl (fun n hn => h n d (Finset.mem_range.1 hn) hd),
    Finset.sum_sub_distrib, Finset.sum_const, Finset.card_range, nsmul_eq_mul]
  have : (N : ℚ) ≠ 0 := by exact_mod_cast Nat.pos_iff_ne_zero.1 hN
  field_simp

theorem runLoop_succ (exact : Bool) (qt : QuadTreeOps) (row_P col_P : List Nat)
    (N no_dims : Nat) (theta : ℚ) (st : RunState) (iter : Nat) :
    runLoop exact qt row_P col_P N no_dims theta st (iter + 1)
      = runIter exact qt row_P col_P N no_dims theta
          (runLoop exact qt row_P col_P N no_dims theta st iter) iter :=
  forLoop_zero_succ iter _ st

theorem forLoop_inv {σ : Type} (Q : σ → Prop) (body : σ → Nat → σ)
    (hbody : ∀ s i, Q s → Q (body s i)) (lo hi : Nat) (s : σ) (hs : Q s) :
    Q (forLoop lo hi body s) := by
  unfold forLoop
  generalize List.range' lo (hi - lo) = l
  induction l generalizing s with
  | nil => exact hs
  | cons a l ih => exact ih _ (hbody s a hs)

theorem forLoop_add (f : Nat → ℚ) (a : ℚ) :
    ∀ k, forLoop 0 k (fun s i => s + f i) a = a + ((List.range k).map f).sum := by
  intro k
  induction k with
  | zero => simp [forLoop]
  | succ k ih => rw [forLoop_zero_succ, ih, List.range_succ]; simp [add_assoc]

theorem length_fillScan (col_P : List Nat) (val_P : List ℚ) (sr off : List Nat) (n i L : Nat)
    (s : Bool × List Nat × List ℚ) (m : Nat) (h : s.2.1.length = L ∧ s.2.2.length = L) :
    (fillScan col_P val_P sr off n i s m).2.1.length = L ∧
      (fillScan col_P val_P sr off n i s m).2.2.length = L := by
  unfold fillScan
  split_ifs <;> simp [h.1, h.2]

theorem length_fillEntry (row_P col_P : List Nat) (val_P : List ℚ) (sr : List Nat) (n L : Nat)
    (st : FillState) (i : Nat) (h : st.sym_col_P.length = L ∧ st.sym_val_P.length = L) :
    (fillEntry row_P col_P val_P sr n st i).sym_col_P.length = L ∧
      (fillEntry row_P col_P val_P sr n st i).sym_val_P.length = L := by
  have hs := forLoop_inv (fun s : Bool × List Nat × List ℚ => s.2.1.length = L ∧ s.2.2.length = L)
    (fillScan col_P val_P sr st.offset n i)
    (fun s m hs => length_fillScan col_P val_P sr st.offset n i L s m hs)
    (rd row_P (rd col_P i)) (rd row_P (rd col_P i + 1)) (false, st.sym_col_P, st.sym_val_P) h
  unfold fillEntry
  simp only
  split_ifs <;> simp [hs.1, hs.2]

theorem length_fillPass (row_P col_P : List Nat) (val_P : List ℚ) (sr : List Nat) (L N : Nat) :
    (fillPass row_P col_P val_P sr L N).sym_col_P.length = L ∧
      (fillPass row_P col_P val_P sr L N).sym_val_P.length = L := by
  unfold fillPass
  apply forLoop_inv (fun st : FillState => st.sym_col_P.length = L ∧ st.sym_val_P.length = L)
  · intro st n hst
    apply forLoop_inv (fun st : FillState => st.sym_col_P.length = L ∧ st.sym_val_P.length = L)
    · exact fun st i hst => length_fillEntry row_P col_P val_P sr n L st i hst
    · exact hst
  · simp

theorem length_val_symmetrizeMatrix (M : Csr) (N : Nat) :
    (symmetrizeMatrix M N).val_P.length = rd (symmetrizeMatrix M N).row_P N := by
  simp only [symmetrizeMatrix]
  rw [halve_eq _ _ (length_fillPass _ _ _ _ _ _).2, List.length_map,
    (length_fillPass _ _ _ _ _ _).2, (symRowP_spec _ N).2 N (Nat.le_refl _), noElem_eq]

theorem forLoop_succ_hi {σ : Type} (lo hi : Nat) (h : lo ≤ hi) (body : σ → Nat → σ) (s : σ) :
    forLoop lo (hi + 1) body s = body (forLoop lo hi body s) hi := by
  unfold forLoop
  have e : hi + 1 - lo = 1 + (hi - lo) := by omega
  rw [e, ← List.range'_append lo (hi - lo) 1 1, List.foldl_append]
  have e2 : lo + 1 * (hi - lo) = hi := by omega
  rw [e2]
  rfl

theorem forLoop_self {σ : Type} (lo : Nat) (body : σ → Nat → σ) (s : σ) :
    forLoop lo lo body s = s := by
  simp [forLoop]

theorem idx_inj {N a b c d : Nat} (hb : b < N) (hd : d < N) (h : a * N + b = c * N + d) :
    a = c ∧ b = d := by
  have hac : a = c := (idx_row hb).1 ⟨by omega, by omega⟩
  subst hac
  exact ⟨rfl, by omega⟩

theorem symmetrizeDense_inner (P : List ℚ) (N n : Nat) (hn : n < N) (Pc : List ℚ)
    (hlen : Pc.length = N * N)
    (hPc : ∀ a b, a < N → b < N → rd Pc (a * N + b)
      = if a ≠ b ∧ (a < n ∨ b < n) then rd P (a * N + b) + rd P (b * N + a)
        else rd P (a * N + b)) :
    ∀ j, n + 1 ≤ j → j ≤ N →
      (forLoop (n + 1) j (fun P m =>
        (P.set (n * N + m) (rd P (n * N + m) + rd P (m * N + n))).set (m * N + n)
          (rd (P.set (n * N + m) (rd P (n * N + m) + rd P (m * N + n))) (n * N + m)))
        Pc).length = N * N ∧
      ∀ a b, a < N → b < N →
        rd (forLoop (n + 1) j (fun P m =>
          (P.set (n * N + m) (rd P (n * N + m) + rd P (m * N + n))).set (m * N + n)
            (rd (P.set (n * N + m) (rd P (n * N + m) + rd P (m * N + n))) (n * N + m)))
          Pc) (a * N + b)
        = if a ≠ b ∧ (a < n ∨ b < n ∨ (a = n ∧ b < j) ∨ (b = n ∧ a < j)) then
            rd P (a * N + b) + rd P (b * N + a)
          else rd P (a * N + b) := by
  intro j hj
  induction j, hj using Nat.le_induction with
  | base =>
    intro _
    rw [forLoop_self]
    refine ⟨hlen, fun a b ha hb => ?_⟩
    rw [hPc a b ha hb]
    by_cases hc : a ≠ b ∧ (a < n ∨ b < n)
    · rw [if_pos hc, if_pos ⟨hc.1, by omega⟩]
    · rw [if_neg hc, if_neg (by omega)]
  | succ j hj ih =>
    intro hjN
    obtain ⟨h1, h2⟩ := ih (by omega)
    rw [forLoop_succ_hi _ _ hj]
    generalize forLoop (n + 1) j _ Pc = R at h1 h2 ⊢
    have hnj : n * N + j < N * N := idx_lt hn (by omega)
    have hjn : j * N + n < N * N := idx_lt (by omega) hn
    have hne : n * N + j ≠ j * N + n := by
      intro h
      have := idx_inj (by omega) hn h
      omega
    have r1 : rd R (n * N + j) = rd P (n * N + j) := by
      rw [h2 n j hn (by omega), if_neg (by omega)]
    have r2 : rd R (j * N + n) = rd P (j * N + n) := by
      rw [h2 j n (by omega) hn, if_neg (by omega)]
    refine ⟨by simp [h1], fun a b ha hb => ?_⟩
    rw [rd_set, rd_set_eq _ _ (by rw [h1]; exact hnj), List.length_set, h1, rd_set, h1, r1, r2,
      h2 a b ha hb]
    by_cases c1 : j * N + n = a * N + b
    · obtain ⟨rfl, rfl⟩ := idx_inj hn hb c1
      rw [if_pos ⟨rfl, hjn⟩, if_pos ⟨by omega, by omega⟩, add_comm]
    · rw [if_neg (fun hh => c1 hh.1)]
      by_cases c2 : n * N + j = a * N + b
      · obtain ⟨rfl, rfl⟩ := idx_inj (by omega) hb c2
        rw [if_pos ⟨rfl, hnj⟩, if_pos ⟨by omega, by omega⟩]
      · rw [if_neg (fun hh => c2 hh.1)]
        have hab : ¬ (a = j ∧ b = n) := by rintro ⟨rfl, rfl⟩; exact c1 rfl
        have hab' : ¬ (a = n ∧ b = j) := by rintro ⟨rfl, rfl⟩; exact c2 rfl
        by_cases hc : a ≠ b ∧ (a < n ∨ b < n ∨ (a = n ∧ b < j) ∨ (b = n ∧ a < j))
        · rw [if_pos hc, if_pos ⟨hc.1, by omega⟩]
        · rw [if_neg hc, if_neg (by omega)]

theorem symmetrizeDense_outer (P : List ℚ) (N : Nat) (hlen : P.length = N * N) :
    ∀ k, k ≤ N →
      (forLoop 0 k (fun P n => forLoop (n + 1) N (fun P m =>
        (P.set (n * N + m) (rd P (n * N + m) + rd P (m * N + n))).set (m * N + n)
          (rd (P.set (n * N + m) (rd P (n * N + m) + rd P (m * N + n))) (n * N + m))) P)
        P).length = N * N ∧
      ∀ a b, a < N → b < N →
        rd (forLoop 0 k (fun P n => forLoop (n + 1) N (fun P m =>
          (P.set (n * N + m) (rd P (n * N + m) + rd P (m * N + n))).set (m * N + n)
            (rd (P.set (n * N + m) (rd P (n * N + m) + rd P (m * N + n))) (n * N + m))) P)
          P) (a * N + b)
        = if a ≠ b ∧ (a < k ∨ b < k) then rd P (a * N + b) + rd P (b * N + a)
          else rd P (a * N + b) := by
  intro k
  induction k with
  | zero =>
    intro _
    refine ⟨by simpa [forLoop] using hlen, fun a b _ _ => ?_⟩
    rw [if_neg (by omega)]
    simp [forLoop]
  | succ k ih =>
    intro hk
    obtain ⟨h1, h2⟩ := ih (by omega)
    rw [forLoop_zero_succ]
    obtain ⟨l1, l2⟩ := symmetrizeDense_inner P N k (by omega) _ h1 h2 N (by omega) (Nat.le_refl _)
    refine ⟨l1, fun a b ha hb => ?_⟩
    rw [l2 a b ha hb]
    by_cases hc : a ≠ b ∧ (a < k + 1 ∨ b < k + 1)
    · rw [if_pos hc, if_pos ⟨hc.1, by omega⟩]
    · rw [if_neg hc, if_neg (by omega)]

theorem symmetrizeDense_spec (P : List ℚ) (N : Nat) (hlen : P.length = N * N) :
    (symmetrizeDense P N).length = N * N ∧
    ∀ n m, n < N → m < N → rd (symmetrizeDense P N) (n * N + m)
      = if n ≠ m then rd P (n * N + m) + rd P (m * N + n) else rd P (n * N + m) := by
  obtain ⟨h1, h2⟩ := symmetrizeDense_outer P N hlen N (Nat.le_refl _)
  refine ⟨h1, fun n m hn hm => ?_⟩
  have := h2 n m hn hm
  unfold symmetrizeDense
  rw [this]
  by_cases hc : n ≠ m
  · rw [if_pos hc, if_pos ⟨hc, Or.inl hn⟩]
  · rw [if_neg hc, if_neg (fun hh => hc hh.1)]

/-! ## The bandwidth search (C10) -/

theorem searchLoop_inv {α : Type} (body : Search α → Search α) (R : Search α → Prop)
    (hR : ∀ s, R s → s.found = false → s.iter < 200 → R (body s)) :
    ∀ fuel s, R s → R (searchLoop body fuel s) := by
  intro fuel
  induction fuel with
  | zero => intro s hs; exact hs
  | succ fuel ih =>
    intro s hs
    unfold searchLoop
    by_cases hc : (!s.found && decide (s.iter < 200)) = true
    · rw [if_pos hc]
      simp only [Bool.and_eq_true, Bool.not_eq_true', decide_eq_true_eq] at hc
      exact ih _ (hR s hs hc.1 hc.2)
    · rw [if_neg hc]; exact hs

theorem searchLoop_exit {α : Type} (body : Search α → Search α)
    (hiter : ∀ s, (body s).iter = s.iter + 1) :
    ∀ fuel s, 200 ≤ fuel + s.iter →
      (searchLoop body fuel s).found = true ∨ 200 ≤ (searchLoop body fuel s).iter := by
  intro fuel
  induction fuel with
  | zero => intro s hs; right; simpa [searchLoop] using hs
  | succ fuel ih =>
    intro s hs
    unfold searchLoop
    by_cases hc : (!s.found && decide (s.iter < 200)) = true
    · rw [if_pos hc]
      exact ih _ (by rw [hiter]; omega)
    · rw [if_neg hc]
      simp only [Bool.and_eq_true, Bool.not_eq_true', decide_eq_true_eq, not_and, not_lt] at hc
      cases hf : s.found with
      | true => left; rfl
      | false => right; exact hc hf

theorem searchLoop_pos {α : Type} (body : Search α → Search α)
    (hiter : ∀ s, (body s).iter = s.iter + 1) (fuel : Nat) (s : Search α)
    (hf : s.found = false) (hi : s.iter < 200) :
    s.iter + 1 ≤ (searchLoop body (fuel + 1) s).iter := by
  unfold searchLoop
  rw [if_pos (by simp [hf, hi])]
  have := searchLoop_inv body (fun t => s.iter + 1 ≤ t.iter)
    (fun t ht _ _ => by
      show s.iter + 1 ≤ (body t).iter
      have ht' : s.iter + 1 ≤ t.iter := ht
      rw [hiter]; omega) fuel (body s) (by
      show s.iter + 1 ≤ (body s).iter
      rw [hiter])
  exact this

theorem betaStep_iter {α : Type} [LinearOrderedField α] (log : α → α) (DBL_MAX perplexity : α)
    (s : Search α) (P : List α) (sum_P H : α) :
    (betaStep log DBL_MAX perplexity s P sum_P H).iter = s.iter + 1 := by
  unfold betaStep
  simp only
  split_ifs <;> rfl

theorem betaStep_out {α : Type} [LinearOrderedField α] (log : α → α) (DBL_MAX perplexity : α)
    (s : Search α) (P : List α) (sum_P H : α) :
    (betaStep log DBL_MAX perplexity s P sum_P H).P = P ∧
    (betaStep log DBL_MAX perplexity s P sum_P H).sum_P = sum_P ∧
    (betaStep log DBL_MAX perplexity s P sum_P H).H = H := by
  unfold betaStep
  simp only
  split_ifs <;> exact ⟨rfl, rfl, rfl⟩

theorem betaStep_found {α : Type} [LinearOrderedField α] (log : α → α)
    (DBL_MAX perplexity : α) (s : Search α) (P : List α) (sum_P H : α) (hs : s.found = false) :
    (betaStep log DBL_MAX perplexity s P sum_P H).found = true →
      |(betaStep log DBL_MAX perplexity s P sum_P H).H - log perplexity| < 1 / 100000 := by
  unfold betaStep
  simp only
  by_cases h1 : H - log perplexity < 1 / 100000 ∧ -(H - log perplexity) < 1 / 100000
  · rw [if_pos h1]
    intro _
    rw [abs_lt]
    exact ⟨by linarith [h1.2], h1.1⟩
  · rw [if_neg h1]
    intro hf
    exfalso
    split_ifs at hf <;> simp [hs] at hf

/-- What the search loop guarantees for any loop body built on `betaStep`. -/
theorem searchLoop_spec {α : Type} [LinearOrderedField α] (log : α → α)
    (DBL_MAX perplexity : α) (body : Search α → Search α)
    (hbody : ∀ s, ∃ P sum_P H, body s = betaStep log DBL_MAX perplexity s P sum_P H)
    (P : List α) :
    1 ≤ (searchLoop body 200 (searchInit DBL_MAX P)).iter ∧
    (searchLoop body 200 (searchInit DBL_MAX P)).iter ≤ 200 ∧
    ((searchLoop body 200 (searchInit DBL_MAX P)).found = true ∨
      (searchLoop body 200 (searchInit DBL_MAX P)).iter = 200) ∧
    ((searchLoop body 200 (searchInit DBL_MAX P)).iter < 200 →
      (searchLoop body 200 (searchInit DBL_MAX P)).found = true) ∧
    ((searchLoop body 200 (searchInit DBL_MAX P)).found = true →
      |(searchLoop body 200 (searchInit DBL_MAX P)).H - log perplexity| < 1 / 100000) := by
  have hiter : ∀ s, (body s).iter = s.iter + 1 := by
    intro s
    obtain ⟨P', sum_P, H, h⟩ := hbody s
    rw [h, betaStep_iter]
  have hinv := searchLoop_inv body
    (fun s => s.iter ≤ 200 ∧ (s.found = true → |s.H - log perplexity| < 1 / 100000))
    (fun s _ hf hi => by
      obtain ⟨P', sum_P, H, h⟩ := hbody s
      rw [h]
      exact ⟨by rw [betaStep_iter]; omega, betaStep_found log DBL_MAX perplexity s P' sum_P H hf⟩)
    200 (searchInit DBL_MAX P) ⟨by simp [searchInit], by simp [searchInit]⟩
  have hexit := searchLoop_exit body hiter 200 (searchInit DBL_MAX P) (by omega)
  have hpos := searchLoop_pos body hiter 199 (searchInit DBL_MAX P) rfl (by simp [searchInit])
  refine ⟨by simpa [searchInit] using hpos, hinv.1, ?_, ?_, hinv.2⟩
  · rcases hexit with h | h
    · exact Or.inl h
    · exact Or.inr (Nat.le_antisymm hinv.1 h)
  · intro hlt
    rcases hexit with h | h
    · exact h
    · omega

theorem denseBody_eq {α : Type} [LinearOrderedField α] (exp log : α → α)
    (DBL_MIN DBL_MAX : α) (DD : List α) (N n : Nat) (perplexity : α) (s : Search α) :
    ∃ P sum_P H, denseBody exp log DBL_MIN DBL_MAX DD N n perplexity s
      = betaStep log DBL_MAX perplexity s P sum_P H :=
  ⟨_, _, _, rfl⟩

theorem knnBody_eq {α : Type} [LinearOrderedField α] (exp log : α → α)
    (DBL_MIN DBL_MAX : α) (distances : List α) (K : Nat) (perplexity : α) (s : Search α) :
    ∃ P sum_P H, knnBody exp log DBL_MIN DBL_MAX distances K perplexity s
      = betaStep log DBL_MAX perplexity s P sum_P H :=
  ⟨_, _, _, rfl⟩

theorem denseRow_rd {α : Type} [LinearOrderedField α] (exp log : α → α)
    (DBL_MIN DBL_MAX : α) (DD : List α) (N : Nat) (perplexity : α) (P : List α) (n m : Nat)
    (hm : m < N) :
    rd (denseRow exp log DBL_MIN DBL_MAX DD N perplexity P n) (n * N + m)
      = rd (denseSearch exp log DBL_MIN DBL_MAX DD N n perplexity P).P (n * N + m)
        / (denseSearch exp log DBL_MIN DBL_MAX DD N n perplexity P).sum_P := by
  unfold denseRow
  simp only
  rw [(forLoop_set (n * N)
    (fun _ v => v / (denseSearch exp log DBL_MIN DBL_MAX DD N n perplexity P).sum_P) _ N).2]
  split_ifs with h
  · rfl
  · rw [rd_of_le _ _ (by omega), zero_div]

theorem knnRow_rd {α : Type} [LinearOrderedField α] (exp log : α → α)
    (DBL_MIN DBL_MAX : α) (distances : List α) (K : Nat) (perplexity : α) (cur_P : List α)
    (m : Nat) (hm : m < K) :
    rd (knnRow exp log DBL_MIN DBL_MAX distances K perplexity cur_P) m
      = rd (knnSearch exp log DBL_MIN DBL_MAX distances K perplexity cur_P).P m
        / (knnSearch exp log DBL_MIN DBL_MAX distances K perplexity cur_P).sum_P := by
  unfold knnRow
  simp only
  rw [(forLoop_set0
    (fun _ v => v / (knnSearch exp log DBL_MIN DBL_MAX distances K perplexity cur_P).sum_P)
    _ K).2]
  split_ifs with h
  · rfl
  · rw [rd_of_le _ _ (by omega), zero_div]

/-- C10: in the dense and in the `K`-neighbour `computeGaussianPerplexity`, for every row
and every input, the search loop ends after at least one and at most 200 iterations, with
`found` set or with `iter = 200`; it ends before 200 iterations only with `found` set, and
`found` is set only when the entropy `H` computed last satisfies
`|H - log(perplexity)| < 1e-5`; in every case, converged or not, the row returned is the
last kernel row divided by its `sum_P`. -/
theorem calibration_bounded {α : Type} [LinearOrderedField α] (exp log : α → α)
    (DBL_MIN DBL_MAX perplexity : α) :
    (∀ (DD P : List α) (N n : Nat),
      1 ≤ (denseSearch exp log DBL_MIN DBL_MAX DD N n perplexity P).iter ∧
      (denseSearch exp log DBL_MIN DBL_MAX DD N n perplexity P).iter ≤ 200 ∧
      ((denseSearch exp log DBL_MIN DBL_MAX DD N n perplexity P).found = true ∨
        (denseSearch exp log DBL_MIN DBL_MAX DD N n perplexity P).iter = 200) ∧
      ((denseSearch exp log DBL_MIN DBL_MAX DD N n perplexity P).iter < 200 →
        (denseSearch exp log DBL_MIN DBL_MAX DD N n perplexity P).found = true) ∧
      ((denseSearch exp log DBL_MIN DBL_MAX DD N n perplexity P).found = true →
        |(denseSearch exp log DBL_MIN DBL_MAX DD N n perplexity P).H - log perplexity|
          < 1 / 100000) ∧
      (∀ m, m < N →
        rd (denseRow exp log DBL_MIN DBL_MAX DD N perplexity P n) (n * N + m)
          = rd (denseSearch exp log DBL_MIN DBL_MAX DD N n perplexity P).P (n * N + m)
            / (denseSearch exp log DBL_MIN DBL_MAX DD N n perplexity P).sum_P)) ∧
    (∀ (distances cur_P : List α) (K : Nat),
      1 ≤ (knnSearch exp log DBL_MIN DBL_MAX distances K perplexity cur_P).iter ∧
      (knnSearch exp log DBL_MIN DBL_MAX distances K perplexity cur_P).iter ≤ 200 ∧
      ((knnSearch exp log DBL_MIN DBL_MAX distances K perplexity cur_P).found = true ∨
        (knnSearch exp log DBL_MIN DBL_MAX distances K perplexity cur_P).iter = 200) ∧
      ((knnSearch exp log DBL_MIN DBL_MAX distances K perplexity cur_P).iter < 200 →
        (knnSearch exp log DBL_MIN DBL_MAX distances K perplexity cur_P).found = true) ∧
      ((knnSearch exp log DBL_MIN DBL_MAX distances K perplexity cur_P).found = true →
        |(knnSearch exp log DBL_MIN DBL_MAX distances K perplexity cur_P).H - log perplexity|
          < 1 / 100000) ∧
      (∀ m, m < K →
        rd (knnRow exp log DBL_MIN DBL_MAX distances K perplexity cur_P) m
          = rd (knnSearch exp log DBL_MIN DBL_MAX distances K perplexity cur_P).P m
            / (knnSearch exp log DBL_MIN DBL_MAX distances K perplexity cur_P).sum_P)) := by
  constructor
  · intro DD P N n
    obtain ⟨h1, h2, h3, h4, h5⟩ := searchLoop_spec log DBL_MAX perplexity
      (denseBody exp log DBL_MIN DBL_MAX DD N n perplexity)
      (denseBody_eq exp log DBL_MIN DBL_MAX DD N n perplexity) P
    exact ⟨h1, h2, h3, h4, h5,
      fun m hm => denseRow_rd exp log DBL_MIN DBL_MAX DD N perplexity P n m hm⟩
  · intro distances cur_P K
    obtain ⟨h1, h2, h3, h4, h5⟩ := searchLoop_spec log DBL_MAX perplexity
      (knnBody exp log DBL_MIN DBL_MAX distances K perplexity)
      (knnBody_eq exp log DBL_MIN DBL_MAX distances K perplexity) cur_P
    exact ⟨h1, h2, h3, h4, h5,
      fun m hm => knnRow_rd exp log DBL_MIN DBL_MAX distances K perplexity cur_P m hm⟩

theorem calibration_bounded_witness :
    (denseSearch (fun _ => (1 : ℚ)) (fun _ => 0) (1 / 1000) 1000 [0, 1, 1, 0] 2 0 2
        [0, 0, 0, 0]).iter = 200 ∧
    (denseSearch (fun _ => (1 : ℚ)) (fun _ => 0) (1 / 1000) 1000 [0, 1, 1, 0] 2 0 2
        [0, 0, 0, 0]).found = false ∧
    denseRow (fun _ => (1 : ℚ)) (fun _ => 0) (1 / 1000) 1000 [0, 1, 1, 0] 2 2 [0, 0, 0, 0] 0
      = [1 / 1002, 500 / 501, 0, 0] ∧
    (denseSearch (fun _ => (1 : ℚ)) (fun _ => 0) (1 / 1000) 1000 [0, 0, 0, 0] 2 0 2
        [0, 0, 0, 0]).iter = 1 ∧
    (1 < 2 → rd (denseRow (fun _ => (1 : ℚ)) (fun _ => 0) (1 / 1000) 1000 [0, 1, 1, 0] 2 2
        [0, 0, 0, 0] 0) (0 * 2 + 1)
      = rd (denseSearch (fun _ => (1 : ℚ)) (fun _ => 0) (1 / 1000) 1000 [0, 1, 1, 0] 2 0 2
          [0, 0, 0, 0]).P (0 * 2 + 1)
        / (denseSearch (fun _ => (1 : ℚ)) (fun _ => 0) (1 / 1000) 1000 [0, 1, 1, 0] 2 0 2
          [0, 0, 0, 0]).sum_P) :=
  ⟨by decide!, by decide!, by decide!, by decide!,
    ((calibration_bounded (fun _ => (1 : ℚ)) (fun _ => 0) (1 / 1000) 1000 2).1
      [0, 1, 1, 0] [0, 0, 0, 0] 2 0).2.2.2.2.2 1⟩

/-! ## Dense symmetrization of calibrated matrices (C8) and squared distances (C9) -/

theorem denseBody_one (exp log : ℚ → ℚ) (DBL_MIN DBL_MAX : ℚ) (DD : List ℚ) (perplexity : ℚ)
    (s : Search ℚ) (hs : s.P.length = 1) :
    (denseBody exp log DBL_MIN DBL_MAX DD 1 0 perplexity s).P = [DBL_MIN] ∧
    (denseBody exp log DBL_MIN DBL_MAX DD 1 0 perplexity s).sum_P = DBL_MIN + DBL_MIN := by
  obtain ⟨x, hx⟩ := List.length_eq_one.1 hs
  unfold denseBody
  simp only
  obtain ⟨h1, h2, -⟩ := betaStep_out log DBL_MAX perplexity s
    ((forLoop 0 1 (fun P m => P.set (0 * 1 + m) (exp (-s.beta * rd DD (0 * 1 + m)))) s.P).set
      (0 * 1 + 0) DBL_MIN)
    (forLoop 0 1 (fun sum_P m => sum_P + rd
      ((forLoop 0 1 (fun P m => P.set (0 * 1 + m) (exp (-s.beta * rd DD (0 * 1 + m)))) s.P).set
        (0 * 1 + 0) DBL_MIN) (0 * 1 + m)) DBL_MIN)
    (forLoop 0 1 (fun H m => H + s.beta * (rd DD (0 * 1 + m) * rd
      ((forLoop 0 1 (fun P m => P.set (0 * 1 + m) (exp (-s.beta * rd DD (0 * 1 + m)))) s.P).set
        (0 * 1 + 0) DBL_MIN) (0 * 1 + m))) 0
      / (forLoop 0 1 (fun sum_P m => sum_P + rd
        ((forLoop 0 1 (fun P m => P.set (0 * 1 + m) (exp (-s.beta * rd DD (0 * 1 + m)))) s.P).set
          (0 * 1 + 0) DBL_MIN) (0 * 1 + m)) DBL_MIN)
      + log (forLoop 0 1 (fun sum_P m => sum_P + rd
        ((forLoop 0 1 (fun P m => P.set (0 * 1 + m) (exp (-s.beta * rd DD (0 * 1 + m)))) s.P).set
          (0 * 1 + 0) DBL_MIN) (0 * 1 + m)) DBL_MIN))
  rw [h1, h2, hx]
  simp [forLoop, rd]

/-- For a single point the dense calibration returns the matrix `[1/2]`, whatever `exp`,
`log` and the input are, as long as `DBL_MIN` is not zero. -/
theorem computeGaussianPerplexity_one (exp log : ℚ → ℚ) (DBL_MIN DBL_MAX : ℚ)
    (hmin : DBL_MIN ≠ 0) (X : List ℚ) (D : Nat) (p perplexity : ℚ) :
    computeGaussianPerplexity exp log DBL_MIN DBL_MAX X 1 D [p] perplexity = [1 / 2] := by
  unfold computeGaussianPerplexity
  simp only
  generalize computeSquaredEuclideanDistance X 1 D (List.replicate (1 * 1) 0) = DD
  have hinv := searchLoop_inv (denseBody exp log DBL_MIN DBL_MAX DD 1 0 perplexity)
    (fun s => s.P.length = 1 ∧ (1 ≤ s.iter → s.P = [DBL_MIN] ∧ s.sum_P = DBL_MIN + DBL_MIN))
    (fun s hs _ _ => by
      obtain ⟨h1, h2⟩ := denseBody_one exp log DBL_MIN DBL_MAX DD perplexity s hs.1
      exact ⟨by rw [h1]; rfl, fun _ => ⟨h1, h2⟩⟩)
    200 (searchInit DBL_MAX [p]) ⟨rfl, fun h => by simp [searchInit] at h⟩
  have hpos := (searchLoop_spec log DBL_MAX perplexity
    (denseBody exp log DBL_MIN DBL_MAX DD 1 0 perplexity)
    (denseBody_eq exp log DBL_MIN DBL_MAX DD 1 0 perplexity) [p]).1
  obtain ⟨hP, hsum⟩ := hinv.2 hpos
  have hrow : denseRow exp log DBL_MIN DBL_MAX DD 1 perplexity [p] 0 = [1 / 2] := by
    unfold denseRow denseSearch
    simp only
    rw [hP, hsum]
    have : DBL_MIN / (DBL_MIN + DBL_MIN) = 1 / 2 := by
      rw [← two_mul, div_eq_iff (mul_ne_zero two_ne_zero hmin)]
      ring
    simp only [forLoop, Nat.sub_zero, List.range'_one, List.foldl_cons, List.foldl_nil, rd,
      Nat.zero_mul, Nat.add_zero, List.getD_cons_zero, List.set_cons_zero, this]
  simp only [forLoop, Nat.sub_zero, List.range'_one, List.foldl_cons, List.foldl_nil]
  exact hrow

/-- C8, as stated, fails on the diagonal: for a single point the dense calibrator returns
the matrix `[1/2]`, and the symmetrization loop leaves it unchanged, so the entry at
`(0, 0)` is `1/2` and not `P[0] + P[0] = 1`. -/
theorem symmetrizeDense_diagonal_counterexample :
    (∀ (exp log : ℚ → ℚ) (DBL_MAX perplexity p : ℚ) (X : List ℚ) (D : Nat),
      computeGaussianPerplexity exp log (1 / 2 ^ 1022) DBL_MAX X 1 D [p] perplexity = [1 / 2]) ∧
    symmetrizeDense [1 / 2] 1 = [1 / 2] ∧
    ¬ (rd (symmetrizeDense [1 / 2] 1) (0 * 1 + 0)
        = rd [(1 : ℚ) / 2] (0 * 1 + 0) + rd [(1 : ℚ) / 2] (0 * 1 + 0)) :=
  ⟨fun exp log DBL_MAX perplexity p X D =>
      computeGaussianPerplexity_one exp log _ DBL_MAX (by norm_num) X D p perplexity,
    by decide!, by decide!⟩

/-- C8 (amended): for every `N x N` matrix `P`, the matrix `P'` left by the symmetrization
loop of `run` has `P'[n*N+m] = P[n*N+m] + P[m*N+n]` for all `n ≠ m` below `N`, keeps the
diagonal, `P'[n*N+n] = P[n*N+n]`, and is symmetric. -/
theorem symmetrizeDense_offdiag (N : Nat) (P : List ℚ) (hlen : P.length = N * N) (n m : Nat)
    (hn : n < N) (hm : m < N) :
    (n ≠ m → rd (symmetrizeDense P N) (n * N + m) = rd P (n * N + m) + rd P (m * N + n)) ∧
    rd (symmetrizeDense P N) (n * N + n) = rd P (n * N + n) ∧
    rd (symmetrizeDense P N) (n * N + m) = rd (symmetrizeDense P N) (m * N + n) := by
  obtain ⟨-, h⟩ := symmetrizeDense_spec P N hlen
  refine ⟨fun hne => by rw [h n m hn hm, if_pos hne], by rw [h n n hn hn, if_neg (by simp)], ?_⟩
  rw [h n m hn hm, h m n hm hn]
  by_cases hne : n = m
  · subst hne; rfl
  · rw [if_pos hne, if_pos (Ne.symm hne), add_comm]

theorem symmetrizeDense_offdiag_witness :
    symmetrizeDense [1, 2, 3, 4, 5, 6, 7, 8, 9] 3 = [1, 6, 10, 6, 5, 14, 10, 14, 9] ∧
    rd (symmetrizeDense [1, 2, 3, 4, 5, 6, 7, 8, 9] 3) (0 * 3 + 2)
      = rd (symmetrizeDense [1, 2, 3, 4, 5, 6, 7, 8, 9] 3) (2 * 3 + 0) :=
  ⟨by decide!,
    (symmetrizeDense_offdiag 3 [1, 2, 3, 4, 5, 6, 7, 8, 9] (by decide) 0 2 (by decide)
      (by decide)).2.2⟩

/-- The array `DD` after `computeSquaredEuclideanDistance`: every cell holds `-2` times
the inner product of the two points; the sums of squares written first are overwritten. -/
theorem computeSquaredEuclideanDistance_spec (X : List ℚ) (N D : Nat) (DD : List ℚ)
    (hlen : DD.length = N * N) (m n : Nat) (hm : m < N) (hn : n < N) :
    rd (computeSquaredEuclideanDistance X N D DD) (m * N + n)
      = -2 * ((List.range D).map fun d => rd X (n * D + d) * rd X (m * D + d)).sum := by
  unfold computeSquaredEuclideanDistance
  simp only
  generalize forLoop 0 N (fun dataSums n => forLoop 0 D
      (fun dataSums d => dataSums.set n (rd dataSums n + rd X (n * D + d) * rd X (n * D + d)))
      dataSums) (List.replicate N 0) = dataSums
  obtain ⟨l1, -⟩ := forLoop_rows_set N (fun n m _ => rd dataSums n + rd dataSums m) DD N
  obtain ⟨-, l2⟩ := forLoop_rows_set N
    (fun m n _ => forLoop 0 D (fun acc d => acc + (-2 * rd X (n * D + d)) * rd X (m * D + d)) 0)
    (forLoop 0 N (fun DD n => forLoop 0 N
      (fun DD m => DD.set (n * N + m) (rd dataSums n + rd dataSums m)) DD) DD) N
  rw [l2 m n hn, if_pos ⟨hm, by rw [l1, hlen]; exact idx_lt hm hn⟩, forLoop_add, zero_add]
  generalize List.range D = l
  induction l with
  | nil => simp
  | cons d l ih => simp only [List.map_cons, List.sum_cons, ih]; ring

/-- C9 fails on the code: for the single point `x = (1)` the matrix is `[-2]`, not `[0]`,
and for the points `(0)` and `(1)` it is `[0, 0, 0, -2]`, not `[0, 1, 1, 0]`: the cells
hold `-2 x_n.x_m`, the sums `|x_n|^2 + |x_m|^2` written before are overwritten. -/
theorem computeSquaredEuclideanDistance_overwrites :
    computeSquaredEuclideanDistance [1] 1 1 [0] = [-2] ∧
    computeSquaredEuclideanDistance [0, 1] 2 1 [0, 0, 0, 0] = [0, 0, 0, -2] ∧
    rd (computeSquaredEuclideanDistance [0, 1] 2 1 [0, 0, 0, 0]) (0 * 2 + 1)
      ≠ (rd [(0 : ℚ), 1] (0 * 1 + 0) - rd [(0 : ℚ), 1] (1 * 1 + 0)) ^ 2 :=
  ⟨by decide!, by decide!, by decide!⟩

/-! ## Calibrated rows (C12) -/

theorem forLoop_acc {α : Type} [AddCommMonoid α] (f : Nat → α) (a : α) :
    ∀ k, forLoop 0 k (fun s i => s + f i) a = a + ∑ i ∈ Finset.range k, f i := by
  intro k
  induction k with
  | zero => simp [forLoop]
  | succ k ih => rw [forLoop_zero_succ, ih, Finset.sum_range_succ, add_assoc]

theorem denseBody_out {α : Type} [LinearOrderedField α] (exp log : α → α)
    (DBL_MIN DBL_MAX : α) (DD : List α) (N n : Nat) (perplexity : α) (s : Search α) :
    (denseBody exp log DBL_MIN DBL_MAX DD N n perplexity s).P
      = (forLoop 0 N (fun P m => P.set (n * N + m) (exp (-s.beta * rd DD (n * N + m)))) s.P).set
          (n * N + n) DBL_MIN ∧
    (denseBody exp log DBL_MIN DBL_MAX DD N n perplexity s).sum_P
      = forLoop 0 N (fun sum_P m => sum_P + rd
          ((forLoop 0 N (fun P m => P.set (n * N + m) (exp (-s.beta * rd DD (n * N + m))))
            s.P).set (n * N + n) DBL_MIN) (n * N + m)) DBL_MIN ∧
    (denseBody exp log DBL_MIN DBL_MAX DD N n perplexity s).H
      = forLoop 0 N (fun H m => H + s.beta * (rd DD (n * N + m) * rd
          ((forLoop 0 N (fun P m => P.set (n * N + m) (exp (-s.beta * rd DD (n * N + m))))
            s.P).set (n * N + n) DBL_MIN) (n * N + m))) 0
        / forLoop 0 N (fun sum_P m => sum_P + rd
          ((forLoop 0 N (fun P m => P.set (n * N + m) (exp (-s.beta * rd DD (n * N + m))))
            s.P).set (n * N + n) DBL_MIN) (n * N + m)) DBL_MIN
        + log (forLoop 0 N (fun sum_P m => sum_P + rd
          ((forLoop 0 N (fun P m => P.set (n * N + m) (exp (-s.beta * rd DD (n * N + m))))
            s.P).set (n * N + n) DBL_MIN) (n * N + m)) DBL_MIN) := by
  unfold denseBody
  exact betaStep_out _ _ _ _ _ _ _

/-- The kernel row, its sum and the other cells after one pass of the dense loop body. -/
theorem denseBody_row {α : Type} [LinearOrderedField α] (exp log : α → α)
    (DBL_MIN DBL_MAX : α) (DD : List α) (N n : Nat) (perplexity : α) (s : Search α)
    (hn : n < N) (hlen : s.P.length = N * N) :
    (denseBody exp log DBL_MIN DBL_MAX DD N n perplexity s).P.length = N * N ∧
    (∀ m, m < N → rd (denseBody exp log DBL_MIN DBL_MAX DD N n perplexity s).P (n * N + m)
      = if m = n then DBL_MIN else exp (-s.beta * rd DD (n * N + m))) ∧
    (∀ j, ¬ (n * N ≤ j ∧ j < n * N + N) →
      rd (denseBody exp log DBL_MIN DBL_MAX DD N n perplexity s).P j = rd s.P j) ∧
    (denseBody exp log DBL_MIN DBL_MAX DD N n perplexity s).sum_P
      = DBL_MIN + ∑ m ∈ Finset.range N,
          rd (denseBody exp log DBL_MIN DBL_MAX DD N n perplexity s).P (n * N + m) := by
  obtain ⟨hP, hsum, -⟩ := denseBody_out exp log DBL_MIN DBL_MAX DD N n perplexity s
  obtain ⟨l1, r1⟩ := forLoop_set (n * N) (fun m _ => exp (-s.beta * rd DD (n * N + m))) s.P N
  refine ⟨by rw [hP, List.length_set, l1, hlen], fun m hm => ?_, fun j hj => ?_, ?_⟩
  · rw [hP, rd_set, l1, hlen, r1]
    have hb : n * N + m < N * N := idx_lt hn hm
    by_cases hmn : m = n
    · subst hmn
      rw [if_pos ⟨rfl, hb⟩, if_pos rfl]
    · rw [if_neg (by omega), if_neg hmn, if_pos ⟨by omega, by omega, by omega⟩,
        Nat.add_sub_cancel_left]
  · rw [hP, rd_set_ne _ _ (by omega), r1, if_neg (by omega)]
  · rw [hsum, ← hP, forLoop_acc]

theorem denseSearch_row {α : Type} [LinearOrderedField α] (exp log : α → α)
    (DBL_MIN DBL_MAX : α) (hexp : ∀ x, 0 ≤ exp x) (hmin : 0 < DBL_MIN) (DD : List α)
    (N n : Nat) (perplexity : α) (P : List α) (hn : n < N) (hlen : P.length = N * N) :
    (denseSearch exp log DBL_MIN DBL_MAX DD N n perplexity P).P.length = N * N ∧
    (∀ j, ¬ (n * N ≤ j ∧ j < n * N + N) →
      rd (denseSearch exp log DBL_MIN DBL_MAX DD N n perplexity P).P j = rd P j) ∧
    (∀ m, m < N → 0 ≤ rd (denseSearch exp log DBL_MIN DBL_MAX DD N n perplexity P).P (n * N + m)) ∧
    rd (denseSearch exp log DBL_MIN DBL_MAX DD N n perplexity P).P (n * N + n) = DBL_MIN ∧
    (denseSearch exp log DBL_MIN DBL_MAX DD N n perplexity P).sum_P
      = DBL_MIN + ∑ m ∈ Finset.range N,
          rd (denseSearch exp log DBL_MIN DBL_MAX DD N n perplexity P).P (n * N + m) := by
  have hinv := searchLoop_inv (denseBody exp log DBL_MIN DBL_MAX DD N n perplexity)
    (fun s => s.P.length = N * N ∧
      (∀ j, ¬ (n * N ≤ j ∧ j < n * N + N) → rd s.P j = rd P j) ∧
      (1 ≤ s.iter → (∀ m, m < N → 0 ≤ rd s.P (n * N + m)) ∧ rd s.P (n * N + n) = DBL_MIN ∧
        s.sum_P = DBL_MIN + ∑ m ∈ Finset.range N, rd s.P (n * N + m)))
    (fun s hs _ _ => by
      obtain ⟨h1, h2, h3, h4⟩ := denseBody_row exp log DBL_MIN DBL_MAX DD N n perplexity s hn hs.1
      refine ⟨h1, fun j hj => by rw [h3 j hj]; exact hs.2.1 j hj, fun _ => ⟨fun m hm => ?_, ?_, h4⟩⟩
      · rw [h2 m hm]
        split_ifs
        · exact le_of_lt hmin
        · exact hexp _
      · rw [h2 n hn, if_pos rfl])
    200 (searchInit DBL_MAX P) ⟨hlen, fun _ _ => rfl, fun h => by simp [searchInit] at h⟩
  have hpos := (searchLoop_spec log DBL_MAX perplexity
    (denseBody exp log DBL_MIN DBL_MAX DD N n perplexity)
    (denseBody_eq exp log DBL_MIN DBL_MAX DD N n perplexity) P).1
  obtain ⟨a, b, c⟩ := hinv
  obtain ⟨c1, c2, c3⟩ := c hpos
  exact ⟨a, b, c1, c2, c3⟩

theorem denseRow_spec {α : Type} [LinearOrderedField α] (exp log : α → α)
    (DBL_MIN DBL_MAX : α) (hexp : ∀ x, 0 ≤ exp x) (hmin : 0 < DBL_MIN) (DD : List α)
    (N n : Nat) (perplexity : α) (P : List α) (hn : n < N) (hlen : P.length = N * N) :
    (denseRow exp log DBL_MIN DBL_MAX DD N perplexity P n).length = N * N ∧
    (∀ j, ¬ (n * N ≤ j ∧ j < n * N + N) →
      rd (denseRow exp log DBL_MIN DBL_MAX DD N perplexity P n) j = rd P j) ∧
    CalibratedRow DBL_MIN (denseRow exp log DBL_MIN DBL_MAX DD N perplexity P n) N n := by
  obtain ⟨s1, s2, s3, s4, s5⟩ :=
    denseSearch_row exp log DBL_MIN DBL_MAX hexp hmin DD N n perplexity P hn hlen
  have hrow := denseRow_rd exp log DBL_MIN DBL_MAX DD N perplexity P n
  have hge : 2 * DBL_MIN ≤ (denseSearch exp log DBL_MIN DBL_MAX DD N n perplexity P).sum_P := by
    have h : rd (denseSearch exp log DBL_MIN DBL_MAX DD N n perplexity P).P (n * N + n)
        ≤ ∑ m ∈ Finset.range N,
          rd (denseSearch exp log DBL_MIN DBL_MAX DD N n perplexity P).P (n * N + m) :=
      Finset.single_le_sum (fun m hm => s3 m (Finset.mem_range.1 hm)) (Finset.mem_range.2 hn)
    rw [s4] at h
    rw [s5, two_mul]
    exact add_le_add_left h _
  have hpos : 0 < (denseSearch exp log DBL_MIN DBL_MAX DD N n perplexity P).sum_P := by
    linarith
  refine ⟨?_, fun j hj => ?_, fun m hm => ?_, _, hge, ?_⟩
  · unfold denseRow
    simp only
    rw [(forLoop_set (n * N) (fun _ v => v / _) _ N).1, s1]
  · unfold denseRow
    simp only
    rw [(forLoop_set (n * N) (fun _ v => v / _) _ N).2, if_neg (by omega), s2 j hj]
  · rw [hrow m hm]
    exact div_nonneg (s3 m hm) (le_of_lt hpos)
  · rw [Finset.sum_congr rfl (fun m hm => hrow m (Finset.mem_range.1 hm)), ← Finset.sum_div,
      eq_sub_iff_add_eq, ← add_div, div_eq_one_iff_eq (ne_of_gt hpos), add_comm]
    exact s5.symm

theorem calibratedRow_congr {α : Type} [LinearOrderedField α] (DBL_MIN : α) (A B : List α)
    (N n : Nat) (h : ∀ m, m < N → rd B (n * N + m) = rd A (n * N + m))
    (hA : CalibratedRow DBL_MIN A N n) : CalibratedRow DBL_MIN B N n := by
  obtain ⟨h1, σ, h2, h3⟩ := hA
  refine ⟨fun m hm => by rw [h m hm]; exact h1 m hm, σ, h2, ?_⟩
  rw [Finset.sum_congr rfl (fun m hm => h m (Finset.mem_range.1 hm))]
  exact h3

theorem calibratedRow_bounds {α : Type} [LinearOrderedField α] (DBL_MIN : α) (hmin : 0 < DBL_MIN)
    (A : List α) (N n : Nat) (hA : CalibratedRow DBL_MIN A N n) :
    1 / 2 ≤ ∑ m ∈ Finset.range N, rd A (n * N + m) ∧
    ∑ m ∈ Finset.range N, rd A (n * N + m) < 1 := by
  obtain ⟨-, σ, h2, h3⟩ := hA
  have hσ : 0 < σ := by linarith
  rw [h3]
  constructor
  · have : DBL_MIN / σ ≤ 1 / 2 := by
      rw [div_le_div_iff₀ hσ (by norm_num)]
      linarith
    linarith
  · have : 0 < DBL_MIN / σ := div_pos hmin hσ
    linarith

theorem denseRows_spec {α : Type} [LinearOrderedField α] (exp log : α → α)
    (DBL_MIN DBL_MAX : α) (hexp : ∀ x, 0 ≤ exp x) (hmin : 0 < DBL_MIN) (DD : List α)
    (N : Nat) (perplexity : α) (P : List α) (hlen : P.length = N * N) :
    ∀ k, k ≤ N →
      (forLoop 0 k (denseRow exp log DBL_MIN DBL_MAX DD N perplexity) P).length = N * N ∧
      ∀ n, n < k → CalibratedRow DBL_MIN
        (forLoop 0 k (denseRow exp log DBL_MIN DBL_MAX DD N perplexity) P) N n := by
  intro k
  induction k with
  | zero =>
    intro _
    exact ⟨by simpa [forLoop] using hlen, fun n hn => absurd hn (Nat.not_lt_zero n)⟩
  | succ k ih =>
    intro hk
    obtain ⟨l, r⟩ := ih (by omega)
    rw [forLoop_zero_succ]
    obtain ⟨l', f', c'⟩ := denseRow_spec exp log DBL_MIN DBL_MAX hexp hmin DD N k perplexity
      (forLoop 0 k (denseRow exp log DBL_MIN DBL_MAX DD N perplexity) P) (by omega) l
    refine ⟨l', fun n hn => ?_⟩
    rcases Nat.eq_or_lt_of_le (Nat.le_of_lt_succ hn) with h | h
    · rw [h]; exact c'
    · refine calibratedRow_congr DBL_MIN _ _ N n (fun m hm => f' _ ?_) (r n h)
      intro hh
      have := (idx_row hm).1 hh
      omega

theorem fl_zero : fl 0 = 0 := by decide!

theorem fmul_zero_right (x : ℚ) : fmul x 0 = 0 := by
  unfold fmul
  rw [mul_zero, fl_zero]

theorem fmul_zero_left (x : ℚ) : fmul 0 x = 0 := by
  unfold fmul
  rw [zero_mul, fl_zero]

theorem fdiv_zero_left (x : ℚ) : fdiv 0 x = 0 := by
  unfold fdiv
  rw [zero_div, fl_zero]

theorem fadd_zero_left (x : ℚ) : fadd 0 x = fl x := by
  unfold fadd
  rw [zero_add]

theorem forLoop_two {σ : Type} (f : σ → Nat → σ) (x : σ) : forLoop 0 2 f x = f (f x 0) 1 :=
  rfl

theorem betaStepD_iter (log : ℚ → ℚ) (DBL_MAX perplexity : ℚ) (s : Search ℚ) (P : List ℚ)
    (sum_P H : ℚ) : (betaStepD log DBL_MAX perplexity s P sum_P H).iter = s.iter + 1 := by
  unfold betaStepD
  simp only
  split_ifs <;> rfl

/-- In binary64 the product `-2^-k * 2^240` is at most `-1000` for `k < 200`. -/
theorem far_product : ∀ k, k < 200 →
    fmul (-(1 / ((2 ^ k : ℕ) : ℚ))) ((2 ^ 240 : ℕ) : ℚ) ≤ -1000 := by
  decide!

/-- Halving `2^-k` is exact in binary64 for `k < 200`. -/
theorem far_halve : ∀ k, k < 200 →
    fdiv (1 / ((2 ^ k : ℕ) : ℚ)) 2 = 1 / ((2 ^ (k + 1) : ℕ) : ℚ) := by
  decide!

/-- One pass of the binary64 loop body for row `0` of the far pair while `beta = 2^-k`: the
kernel value underflows to `0`, the entropy is too low, `beta` is halved. -/
theorem denseBodyD_far (exp log : ℚ → ℚ) (hexp : ∀ x, x ≤ -1000 → exp x = 0)
    (hlog : fsub (fl (log (2 * dbl_min))) (log 1) ≤ -1) (k : Nat) (hk : k < 200)
    (s : Search ℚ) (hf : s.found = false) (hb : s.beta = 1 / ((2 ^ k : ℕ) : ℚ))
    (hmin : s.min_beta = -dbl_max) (hi : s.iter = k) (a b c d : ℚ) (hP : s.P = [a, b, c, d]) :
    denseBodyD exp log dbl_min dbl_max farDD 2 0 1 s
      = { found := false, beta := 1 / ((2 ^ (k + 1) : ℕ) : ℚ), min_beta := -dbl_max,
          max_beta := 1 / ((2 ^ k : ℕ) : ℚ), iter := k + 1, sum_P := 2 * dbl_min,
          H := fl (log (2 * dbl_min)), P := [dbl_min, 0, c, d] } := by
  have f2 : fadd (fadd dbl_min dbl_min) 0 = 2 * dbl_min := by decide!
  have f3 : fadd (fadd 0 0) 0 = 0 := by decide!
  have ftol : fl (1 / 100000) < 1 := by decide!
  have hP1 : (forLoop 0 2
      (fun P m => P.set (0 * 2 + m) (exp (fmul (-s.beta) (rd farDD (0 * 2 + m))))) s.P).set
        (0 * 2 + 0) dbl_min
      = [dbl_min, 0, c, d] := by
    rw [forLoop_two, hP, hb]
    show [dbl_min, exp (fmul (-(1 / ((2 ^ k : ℕ) : ℚ))) ((2 ^ 240 : ℕ) : ℚ)), c, d] = _
    rw [hexp _ (far_product k hk)]
  unfold denseBodyD
  simp only []
  rw [hP1, forLoop_two, forLoop_two]
  have e1 : fadd (fadd dbl_min (rd [dbl_min, 0, c, d] (0 * 2 + 0)))
      (rd [dbl_min, 0, c, d] (0 * 2 + 1)) = 2 * dbl_min := f2
  have e2 : fadd (fadd 0 (fmul s.beta (fmul (rd farDD (0 * 2 + 0))
        (rd [dbl_min, 0, c, d] (0 * 2 + 0)))))
      (fmul s.beta (fmul (rd farDD (0 * 2 + 1)) (rd [dbl_min, 0, c, d] (0 * 2 + 1)))) = 0 := by
    have g1 : fmul (rd farDD (0 * 2 + 0)) (rd [dbl_min, 0, c, d] (0 * 2 + 0)) = 0 :=
      fmul_zero_left _
    have g2 : fmul (rd farDD (0 * 2 + 1)) (rd [dbl_min, 0, c, d] (0 * 2 + 1)) = 0 :=
      fmul_zero_right _
    rw [g1, g2, fmul_zero_right]
    exact f3
  rw [e1, e2, fdiv_zero_left, fadd_zero_left]
  unfold betaStepD
  simp only []
  have h1 : ¬ (fsub (fl (log (2 * dbl_min))) (log 1) < fl (1 / 100000) ∧
      -fsub (fl (log (2 * dbl_min))) (log 1) < fl (1 / 100000)) := by
    intro h
    linarith [h.2]
  have h2 : ¬ fsub (fl (log (2 * dbl_min))) (log 1) > 0 := by
    intro h
    linarith
  rw [if_neg h1, if_neg h2, if_pos (Or.inl hmin), hf, hmin, hi, hb, far_halve k hk]

/-- The binary64 search for row `0` of the far pair runs through all 200 iterations
without success and ends with the kernel row `[DBL_MIN, 0]` and `sum_P = 2 * DBL_MIN`. -/
theorem denseSearchD_far (exp log : ℚ → ℚ) (hexp : ∀ x, x ≤ -1000 → exp x = 0)
    (hlog : fsub (fl (log (2 * dbl_min))) (log 1) ≤ -1) (a b c d : ℚ) :
    (denseSearchD exp log dbl_min dbl_max farDD 2 0 1 [a, b, c, d]).found = false ∧
    (denseSearchD exp log dbl_min dbl_max farDD 2 0 1 [a, b, c, d]).iter = 200 ∧
    (denseSearchD exp log dbl_min dbl_max farDD 2 0 1 [a, b, c, d]).P = [dbl_min, 0, c, d] ∧
    (denseSearchD exp log dbl_min dbl_max farDD 2 0 1 [a, b, c, d]).sum_P = 2 * dbl_min := by
  have hiter : ∀ s, (denseBodyD exp log dbl_min dbl_max farDD 2 0 1 s).iter = s.iter + 1 := by
    intro s
    unfold denseBodyD
    exact betaStepD_iter _ _ _ _ _ _ _
  have hinv := searchLoop_inv (denseBodyD exp log dbl_min dbl_max farDD 2 0 1)
    (fun s => s.found = false ∧ s.iter ≤ 200 ∧ s.beta = 1 / ((2 ^ s.iter : ℕ) : ℚ) ∧
      s.min_beta = -dbl_max ∧ (∃ a b, s.P = [a, b, c, d]) ∧
      (1 ≤ s.iter → s.P = [dbl_min, 0, c, d] ∧ s.sum_P = 2 * dbl_min))
    (fun s hs hf hi => by
      obtain ⟨-, -, hb, hmin, ⟨a', b', hP⟩, -⟩ := hs
      rw [denseBodyD_far exp log hexp hlog s.iter hi s hf hb hmin rfl a' b' c d hP]
      exact ⟨rfl, by show s.iter + 1 ≤ 200; omega, rfl, rfl, ⟨_, _, rfl⟩, fun _ => ⟨rfl, rfl⟩⟩)
    200 (searchInit dbl_max [a, b, c, d])
    ⟨rfl, by simp [searchInit], by simp [searchInit], rfl, ⟨a, b, rfl⟩,
      fun h => by simp [searchInit] at h⟩
  have hexit := searchLoop_exit (denseBodyD exp log dbl_min dbl_max farDD 2 0 1) hiter 200
    (searchInit dbl_max [a, b, c, d]) (by omega)
  obtain ⟨i1, i2, -, -, -, i6⟩ := hinv
  have h200 : (searchLoop (denseBodyD exp log dbl_min dbl_max farDD 2 0 1) 200
      (searchInit dbl_max [a, b, c, d])).iter = 200 := by
    rcases hexit with h | h
    · rw [i1] at h; exact absurd h (by simp)
    · omega
  obtain ⟨j1, j2⟩ := i6 (by omega)
  exact ⟨i1, h200, j1, j2⟩

/-- The row that the binary64 calibration writes for row `0` of the far pair. -/
theorem denseRowD_far (exp log : ℚ → ℚ) (hexp : ∀ x, x ≤ -1000 → exp x = 0)
    (hlog : fsub (fl (log (2 * dbl_min))) (log 1) ≤ -1) (a b c d : ℚ) :
    denseRowD exp log dbl_min dbl_max farDD 2 1 [a, b, c, d] 0 = [1 / 2, 0, c, d] := by
  obtain ⟨-, -, hP, hs⟩ := denseSearchD_far exp log hexp hlog a b c d
  unfold denseRowD
  simp only []
  rw [hP, hs, forLoop_two]
  show [fdiv dbl_min (2 * dbl_min), fdiv 0 (2 * dbl_min), c, d] = _
  rw [fdiv_zero_left]
  have h : fdiv dbl_min (2 * dbl_min) = 1 / 2 := by decide!
  rw [h]

/-- One pass of the binary64 loop body for row `1` of the far pair while `beta = 2^-k`. -/
theorem denseBodyD_far_one (exp log : ℚ → ℚ) (hexp : ∀ x, x ≤ -1000 → exp x = 0)
    (hlog : fsub (fl (log (2 * dbl_min))) (log 1) ≤ -1) (k : Nat) (hk : k < 200)
    (s : Search ℚ) (hf : s.found = false) (hb : s.beta = 1 / ((2 ^ k : ℕ) : ℚ))
    (hmin : s.min_beta = -dbl_max) (hi : s.iter = k) (a b c d : ℚ) (hP : s.P = [a, b, c, d]) :
    denseBodyD exp log dbl_min dbl_max farDD 2 1 1 s
      = { found := false, beta := 1 / ((2 ^ (k + 1) : ℕ) : ℚ), min_beta := -dbl_max,
          max_beta := 1 / ((2 ^ k : ℕ) : ℚ), iter := k + 1, sum_P := 2 * dbl_min,
          H := fl (log (2 * dbl_min)), P := [a, b, 0, dbl_min] } := by
  have f2 : fadd (fadd dbl_min 0) dbl_min = 2 * dbl_min := by decide!
  have f3 : fadd (fadd 0 0) 0 = 0 := by decide!
  have ftol : fl (1 / 100000) < 1 := by decide!
  have hP1 : (forLoop 0 2
      (fun P m => P.set (1 * 2 + m) (exp (fmul (-s.beta) (rd farDD (1 * 2 + m))))) s.P).set
        (1 * 2 + 1) dbl_min
      = [a, b, 0, dbl_min] := by
    rw [forLoop_two, hP, hb]
    show [a, b, exp (fmul (-(1 / ((2 ^ k : ℕ) : ℚ))) ((2 ^ 240 : ℕ) : ℚ)), dbl_min] = _
    rw [hexp _ (far_product k hk)]
  unfold denseBodyD
  simp only []
  rw [hP1, forLoop_two, forLoop_two]
  have e1 : fadd (fadd dbl_min (rd [a, b, 0, dbl_min] (1 * 2 + 0)))
      (rd [a, b, 0, dbl_min] (1 * 2 + 1)) = 2 * dbl_min := f2
  have e2 : fadd (fadd 0 (fmul s.beta (fmul (rd farDD (1 * 2 + 0))
        (rd [a, b, 0, dbl_min] (1 * 2 + 0)))))
      (fmul s.beta (fmul (rd farDD (1 * 2 + 1)) (rd [a, b, 0, dbl_min] (1 * 2 + 1)))) = 0 := by
    have g1 : fmul (rd farDD (1 * 2 + 0)) (rd [a, b, 0, dbl_min] (1 * 2 + 0)) = 0 :=
      fmul_zero_right _
    have g2 : fmul (rd farDD (1 * 2 + 1)) (rd [a, b, 0, dbl_min] (1 * 2 + 1)) = 0 :=
      fmul_zero_left _
    rw [g1, g2, fmul_zero_right]
    exact f3
  rw [e1, e2, fdiv_zero_left, fadd_zero_left]
  unfold betaStepD
  simp only []
  have h1 : ¬ (fsub (fl (log (2 * dbl_min))) (log 1) < fl (1 / 100000) ∧
      -fsub (fl (log (2 * dbl_min))) (log 1) < fl (1 / 100000)) := by
    intro h
    linarith [h.2]
  have h2 : ¬ fsub (fl (log (2 * dbl_min))) (log 1) > 0 := by
    intro h
    linarith
  rw [if_neg h1, if_neg h2, if_pos (Or.inl hmin), hf, hmin, hi, hb, far_halve k hk]

theorem denseSearchD_far_one (exp log : ℚ → ℚ) (hexp : ∀ x, x ≤ -1000 → exp x = 0)
    (hlog : fsub (fl (log (2 * dbl_min))) (log 1) ≤ -1) (a b c d : ℚ) :
    (denseSearchD exp log dbl_min dbl_max farDD 2 1 1 [a, b, c, d]).found = false ∧
    (denseSearchD exp log dbl_min dbl_max farDD 2 1 1 [a, b, c, d]).iter = 200 ∧
    (denseSearchD exp log dbl_min dbl_max farDD 2 1 1 [a, b, c, d]).P = [a, b, 0, dbl_min] ∧
    (denseSearchD exp log dbl_min dbl_max farDD 2 1 1 [a, b, c, d]).sum_P = 2 * dbl_min := by
  have hiter : ∀ s, (denseBodyD exp log dbl_min dbl_max farDD 2 1 1 s).iter = s.iter + 1 := by
    intro s
    unfold denseBodyD
    exact betaStepD_iter _ _ _ _ _ _ _
  have hinv := searchLoop_inv (denseBodyD exp log dbl_min dbl_max farDD 2 1 1)
    (fun s => s.found = false ∧ s.iter ≤ 200 ∧ s.beta = 1 / ((2 ^ s.iter : ℕ) : ℚ) ∧
      s.min_beta = -dbl_max ∧ (∃ c d, s.P = [a, b, c, d]) ∧
      (1 ≤ s.iter → s.P = [a, b, 0, dbl_min] ∧ s.sum_P = 2 * dbl_min))
    (fun s hs hf hi => by
      obtain ⟨-, -, hb, hmin, ⟨c', d', hP⟩, -⟩ := hs
      rw [denseBodyD_far_one exp log hexp hlog s.iter hi s hf hb hmin rfl a b c' d' hP]
      exact ⟨rfl, by show s.iter + 1 ≤ 200; omega, rfl, rfl, ⟨_, _, rfl⟩, fun _ => ⟨rfl, rfl⟩⟩)
    200 (searchInit dbl_max [a, b, c, d])
    ⟨rfl, by simp [searchInit], by simp [searchInit], rfl, ⟨c, d, rfl⟩,
      fun h => by simp [searchInit] at h⟩
  have hexit := searchLoop_exit (denseBodyD exp log dbl_min dbl_max farDD 2 1 1) hiter 200
    (searchInit dbl_max [a, b, c, d]) (by omega)
  obtain ⟨i1, i2, -, -, -, i6⟩ := hinv
  have h200 : (searchLoop (denseBodyD exp log dbl_min dbl_max farDD 2 1 1) 200
      (searchInit dbl_max [a, b, c, d])).iter = 200 := by
    rcases hexit with h | h
    · rw [i1] at h; exact absurd h (by simp)
    · omega
  obtain ⟨j1, j2⟩ := i6 (by omega)
  exact ⟨i1, h200, j1, j2⟩

theorem denseRowD_far_one (exp log : ℚ → ℚ) (hexp : ∀ x, x ≤ -1000 → exp x = 0)
    (hlog : fsub (fl (log (2 * dbl_min))) (log 1) ≤ -1) (a b c d : ℚ) :
    denseRowD exp log dbl_min dbl_max farDD 2 1 [a, b, c, d] 1 = [a, b, 0, 1 / 2] := by
  obtain ⟨-, -, hP, hs⟩ := denseSearchD_far_one exp log hexp hlog a b c d
  unfold denseRowD
  simp only []
  rw [hP, hs, forLoop_two]
  show [a, b, fdiv 0 (2 * dbl_min), fdiv dbl_min (2 * dbl_min)] = _
  rw [fdiv_zero_left]
  have h : fdiv dbl_min (2 * dbl_min) = 1 / 2 := by decide!
  rw [h]

/-- The matrix that the binary64 calibration writes for the far pair: each row is
`[1/2, 0]` up to the order of its two cells. -/
theorem denseRowsD_far (exp log : ℚ → ℚ) (hexp : ∀ x, x ≤ -1000 → exp x = 0)
    (hlog : fsub (fl (log (2 * dbl_min))) (log 1) ≤ -1) (a b c d : ℚ) :
    denseRowsD exp log dbl_min dbl_max farDD 2 1 [a, b, c, d] = [1 / 2, 0, 0, 1 / 2] := by
  unfold denseRowsD
  rw [forLoop_two, denseRowD_far exp log hexp hlog, denseRowD_far_one exp log hexp hlog]

/-- C12, as stated, fails, in the program's binary64 arithmetic and in exact arithmetic:
for two points whose squared distance is `2^240` (`N = 2`, perplexity `1`) every kernel
value `exp(-beta * 2^240)` of the 200 iterations (`beta = 1, 1/2, ..., 2^-199`) underflows
to `0`, so the search ends without success with the kernel row `[DBL_MIN, 0]` and
`sum_P = 2 * DBL_MIN`, and the calibrated matrix is `[1/2, 0, 0, 1/2]`: each row sums to
`1/2`, not to `1`.  This holds for every C library whose `exp` underflows to `0` below
`-1000` and whose `log(2 * DBL_MIN) - log(1)`, about `-707.7`, is computed as at most
`-1`; the stand-ins `stepExp` and `stepLog` are such functions.  In exact arithmetic
(real `exp` and `log`) row `0` of the same input does not sum to `1` either. -/
theorem calibrated_row_sum_counterexample :
    (∀ exp log : ℚ → ℚ, (∀ x, x ≤ -1000 → exp x = 0) →
      fsub (fl (log (2 * dbl_min))) (log 1) ≤ -1 →
      denseRowsD exp log dbl_min dbl_max farDD 2 1 [0, 0, 0, 0] = [1 / 2, 0, 0, 1 / 2]) ∧
    denseRowsD stepExp stepLog dbl_min dbl_max farDD 2 1 [0, 0, 0, 0] = [1 / 2, 0, 0, 1 / 2] ∧
    fadd (rd [1 / 2, 0, 0, 1 / 2] (0 * 2 + 0)) (rd [1 / 2, 0, 0, 1 / 2] (0 * 2 + 1)) = 1 / 2 ∧
    ∑ m ∈ Finset.range 2, rd ([1 / 2, 0, 0, 1 / 2] : List ℚ) (0 * 2 + m) = 1 / 2 ∧
    ¬ (∑ m ∈ Finset.range 2,
        rd (denseRows Real.exp Real.log dbl_min dbl_max [0, 2 ^ 240, 2 ^ 240, 0] 2 1
          [0, 0, 0, 0]) (0 * 2 + m) = 1) := by
  refine ⟨fun exp log hexp hlog => denseRowsD_far exp log hexp hlog 0 0 0 0,
    denseRowsD_far stepExp stepLog
      (fun x hx => by unfold stepExp; rw [if_pos (by linarith)]) (by decide!) 0 0 0 0,
    by decide!, by decide!, ?_⟩
  have h := (denseRows_spec Real.exp Real.log dbl_min dbl_max
    (fun x => le_of_lt (Real.exp_pos x)) (by unfold dbl_min; positivity)
    [0, 2 ^ 240, 2 ^ 240, 0] 2 1 [0, 0, 0, 0] rfl 2 (Nat.le_refl _)).2 0 (by norm_num)
  have hb := (calibratedRow_bounds dbl_min (by unfold dbl_min; positivity) _ 2 0 h).2
  exact ne_of_lt hb

/-- C12 (amended): in exact arithmetic, for every `N`, every input, every row `n < N` and
every non-negative `exp`, the row `P[n*N .. n*N+N-1]` written by the dense `computeGaussianPerplexity` has
non-negative entries whose sum is `1 - DBL_MIN / sum_P` for a normalizer
`sum_P ≥ 2 * DBL_MIN`: the sum is at least `1/2` and less than `1`. -/
theorem calibrated_row_sum (exp log : ℚ → ℚ) (DBL_MIN DBL_MAX : ℚ) (hexp : ∀ x, 0 ≤ exp x)
    (hmin : 0 < DBL_MIN) (X : List ℚ) (N D : Nat) (P : List ℚ) (perplexity : ℚ)
    (hlen : P.length = N * N) (n : Nat) (hn : n < N) :
    (∀ m, m < N →
      0 ≤ rd (computeGaussianPerplexity exp log DBL_MIN DBL_MAX X N D P perplexity) (n * N + m)) ∧
    (∃ sum_P, 2 * DBL_MIN ≤ sum_P ∧
      ∑ m ∈ Finset.range N,
        rd (computeGaussianPerplexity exp log DBL_MIN DBL_MAX X N D P perplexity) (n * N + m)
        = 1 - DBL_MIN / sum_P) ∧
    1 / 2 ≤ ∑ m ∈ Finset.range N,
      rd (computeGaussianPerplexity exp log DBL_MIN DBL_MAX X N D P perplexity) (n * N + m) ∧
    ∑ m ∈ Finset.range N,
      rd (computeGaussianPerplexity exp log DBL_MIN DBL_MAX X N D P perplexity) (n * N + m) < 1 := by
  have h := (denseRows_spec exp log DBL_MIN DBL_MAX hexp hmin
    (computeSquaredEuclideanDistance X N D (List.replicate (N * N) 0)) N perplexity P hlen N
    (Nat.le_refl _)).2 n hn
  have hb := calibratedRow_bounds DBL_MIN hmin _ N n h
  exact ⟨h.1, h.2, hb.1, hb.2⟩

theorem calibrated_row_sum_witness :
    computeGaussianPerplexity (fun _ => 1) (fun _ => 0) (1 / 1000) 1000 [0, 1] 2 1 [0, 0, 0, 0] 2
      = [1 / 1002, 500 / 501, 500 / 501, 1 / 1002] ∧
    ∑ m ∈ Finset.range 2,
      rd (computeGaussianPerplexity (fun _ => 1) (fun _ => 0) (1 / 1000) 1000 [0, 1] 2 1
        [0, 0, 0, 0] 2) (0 * 2 + m) < 1 :=
  ⟨by decide!,
    (calibrated_row_sum (fun _ => 1) (fun _ => 0) (1 / 1000) 1000 (fun _ => by norm_num)
      (by norm_num) [0, 1] 2 1 [0, 0, 0, 0] 2 rfl 0 (by decide)).2.2.2⟩

/-! ## The diagnostic of the `K`-neighbour builder (C13) -/

theorem computeGaussianPerplexityKnn_row_P (exp log : ℚ → ℚ) (DBL_MIN DBL_MAX : ℚ)
    (search : Nat → List Nat × List ℚ) (N : Nat) (perplexity : ℚ) (K : Nat) :
    (computeGaussianPerplexityKnn exp log DBL_MIN DBL_MAX search N perplexity K).row_P.length
      = N + 1 ∧
    ∀ n, n ≤ N →
      rd (computeGaussianPerplexityKnn exp log DBL_MIN DBL_MAX search N perplexity K).row_P n
        = n * K := by
  have key : ∀ k, k ≤ N →
      (forLoop 0 k (fun (row_P : List Nat) n => row_P.set (n + 1) (rd row_P n + K))
        ((List.replicate (N + 1) 0).set 0 0)).length = N + 1 ∧
      (∀ n, n ≤ k →
        rd (forLoop 0 k (fun (row_P : List Nat) n => row_P.set (n + 1) (rd row_P n + K))
          ((List.replicate (N + 1) 0).set 0 0)) n = n * K) := by
    intro k
    induction k with
    | zero =>
      intro _
      refine ⟨by simp [forLoop], fun n hn => ?_⟩
      have : n = 0 := by omega
      subst this
      simp [forLoop, rd]
    | succ k ih =>
      intro hk
      obtain ⟨l, r⟩ := ih (by omega)
      rw [forLoop_zero_succ]
      refine ⟨by simpa using l, fun n hn => ?_⟩
      rw [rd_set]
      split_ifs with h
      · rw [r k (Nat.le_refl _), ← h.1]; ring
      · have : n ≤ k := by
          rcases Nat.eq_or_lt_of_le hn with e | e
          · exact absurd ⟨e.symm, by omega⟩ h
          · omega
        exact r n this
  exact key N (Nat.le_refl _)

/-- C13: the `K`-neighbour `computeGaussianPerplexity` prints its diagnostic exactly when
`perplexity > K`; the builder returns its three arrays in every case (row offsets
`n * K`), and for `perplexity = K`, which is not less than `K`, it prints nothing. -/
theorem computeGaussianPerplexityKnn_diagnostic (exp log : ℚ → ℚ) (DBL_MIN DBL_MAX : ℚ)
    (search : Nat → List Nat × List ℚ) (N : Nat) (perplexity : ℚ) (K : Nat) :
    (computeGaussianPerplexityKnn exp log DBL_MIN DBL_MAX search N perplexity K).printed
      = (if perplexity > (K : ℚ) then ["Perplexity should be lower than K!\n"] else []) ∧
    (computeGaussianPerplexityKnn exp log DBL_MIN DBL_MAX search N (K : ℚ) K).printed = [] ∧
    (computeGaussianPerplexityKnn exp log DBL_MIN DBL_MAX search N perplexity K).row_P
      = (List.range (N + 1)).map (· * K) ∧
    (computeGaussianPerplexityKnn exp log DBL_MIN DBL_MAX search N 5 5).printed = [] ∧
    (computeGaussianPerplexityKnn exp log DBL_MIN DBL_MAX search N 6 5).printed
      = ["Perplexity should be lower than K!\n"] := by
  refine ⟨rfl, ?_, ?_, ?_, ?_⟩
  · simp [computeGaussianPerplexityKnn]
  · obtain ⟨l, r⟩ := computeGaussianPerplexityKnn_row_P exp log DBL_MIN DBL_MAX search N
      perplexity K
    apply List.ext_getElem
    · simp [l]
    · intro i h1 h2
      have hi : i ≤ N := by simp [l] at h1; omega
      have := r i hi
      rw [rd_eq_getElem _ _ h1] at this
      simp [this]
  · simp [computeGaussianPerplexityKnn]
  · simp [computeGaussianPerplexityKnn]
    norm_num

/-! ## The adaptive gains (C16) -/

theorem set_rd_self {α : Type} [Zero α] (l : List α) (i : Nat) : l.set i (rd l i) = l := by
  apply ext_rd (by simp)
  intro j _
  rw [rd_set]
  split_ifs with h
  · rw [h.1]
  · rfl

theorem forLoop_floor (c : ℚ) (a : List ℚ) (L : Nat) :
    forLoop 0 L (fun gains i => if rd gains i < c then gains.set i c else gains) a
      = forLoop 0 L (fun gains i => gains.set i (max c (rd gains i))) a := by
  congr 1
  funext gains i
  by_cases h : rd gains i < c
  · rw [if_pos h, max_eq_left (le_of_lt h)]
  · rw [if_neg h, max_eq_right (not_lt.1 h), set_rd_self]

theorem runIter_gains (exact : Bool) (qt : QuadTreeOps) (row_P col_P : List Nat)
    (N no_dims : Nat) (theta : ℚ) (st : RunState) (iter : Nat) :
    (runIter exact qt row_P col_P N no_dims theta st iter).gains.length = st.gains.length ∧
    ∀ i, i < N * no_dims → i < st.gains.length →
      rd (runIter exact qt row_P col_P N no_dims theta st iter).gains i
        = max (1 / 100)
            (if sign (rd (runIter exact qt row_P col_P N no_dims theta st iter).dY i)
                ≠ sign (rd st.uY i)
              then rd st.gains i + 2 / 10 else rd st.gains i * (8 / 10)) := by
  simp only [runIter]
  rw [forLoop_floor]
  obtain ⟨l1, r1⟩ := forLoop_set0
    (fun i v => if sign (rd (if exact = true then computeExactGradient st.P st.Y N no_dims st.dY
        else computeGradient qt row_P col_P st.val_P st.Y N no_dims st.dY theta) i)
          ≠ sign (rd st.uY i) then v + 2 / 10 else v * (8 / 10)) st.gains (N * no_dims)
  obtain ⟨l2, r2⟩ := forLoop_set0 (fun _ v => max (1 / 100 : ℚ) v)
    (forLoop 0 (N * no_dims) (fun gains i => gains.set i
      (if sign (rd (if exact = true then computeExactGradient st.P st.Y N no_dims st.dY
        else computeGradient qt row_P col_P st.val_P st.Y N no_dims st.dY theta) i)
          ≠ sign (rd st.uY i) then rd gains i + 2 / 10 else rd gains i * (8 / 10))) st.gains)
    (N * no_dims)
  refine ⟨by rw [l2, l1], fun i hi hlen => ?_⟩
  rw [r2 i, if_pos ⟨hi, by rw [l1]; exact hlen⟩, r1 i, if_pos ⟨hi, hlen⟩]

theorem runLoop_gains (exact : Bool) (qt : QuadTreeOps) (row_P col_P : List Nat)
    (N no_dims : Nat) (theta : ℚ) (st : RunState) (hlen : st.gains.length = N * no_dims)
    (h0 : ∀ i, i < N * no_dims → 1 / 100 ≤ rd st.gains i) :
    ∀ iter, (runLoop exact qt row_P col_P N no_dims theta st iter).gains.length = N * no_dims ∧
      ∀ i, i < N * no_dims →
        1 / 100 ≤ rd (runLoop exact qt row_P col_P N no_dims theta st iter).gains i := by
  intro iter
  induction iter with
  | zero => simpa [runLoop, forLoop] using And.intro hlen h0
  | succ k ih =>
    obtain ⟨l, -⟩ := ih
    obtain ⟨l', r'⟩ := runIter_gains exact qt row_P col_P N no_dims theta
      (runLoop exact qt row_P col_P N no_dims theta st k) k
    rw [runLoop_succ]
    refine ⟨by rw [l', l], fun i hi => ?_⟩
    rw [r' i hi (by rw [l]; exact hi)]
    exact le_max_left _ _

theorem rd_replicate_one (n i : Nat) (h : i < n) : rd (List.replicate n (1 : ℚ)) i = 1 := by
  rw [rd_eq_getElem _ _ (by simpa using h)]
  simp

/-- C16: `sign` maps `0` to `0`, negative numbers to `-1` and positive numbers to `1`; in
every iteration of the main loop and for every element `i`, the new gain is
`max(0.01, g')`, where `g' = gain + 0.2` if the sign of the gradient just computed differs
from the sign of the velocity of the previous iteration and `g' = 0.8 * gain` otherwise;
so, starting from gains all equal to `1` (in either mode), every gain is at least `0.01`
at every iteration. -/
theorem adaptive_gain (N no_dims : Nat) (qt : QuadTreeOps) (theta : ℚ) :
    (∀ x : ℚ, sign x = if x = 0 then 0 else if x < 0 then -1 else 1) ∧
    (∀ (exact : Bool) (row_P col_P : List Nat) (st : RunState) (iter i : Nat),
      i < N * no_dims → i < st.gains.length →
      rd (runIter exact qt row_P col_P N no_dims theta st iter).gains i
        = max (1 / 100)
            (if sign (rd (runIter exact qt row_P col_P N no_dims theta st iter).dY i)
                ≠ sign (rd st.uY i)
              then rd st.gains i + 2 / 10 else rd st.gains i * (8 / 10))) ∧
    (∀ (P Y dY : List ℚ) (row_P col_P : List Nat) (iter i : Nat), i < N * no_dims →
      1 / 100 ≤ rd (runLoop true qt row_P col_P N no_dims theta
        (runInitExact P N no_dims Y dY) iter).gains i) ∧
    (∀ (M : Csr) (Y dY : List ℚ) (row_P col_P : List Nat) (iter i : Nat), i < N * no_dims →
      1 / 100 ≤ rd (runLoop false qt row_P col_P N no_dims theta
        (runInitApprox M N no_dims Y dY) iter).gains i) := by
  refine ⟨fun x => rfl, ?_, ?_, ?_⟩
  · intro exact row_P col_P st iter i hi hlen
    exact (runIter_gains exact qt row_P col_P N no_dims theta st iter).2 i hi hlen
  · intro P Y dY row_P col_P iter i hi
    refine (runLoop_gains true qt row_P col_P N no_dims theta (runInitExact P N no_dims Y dY)
      (by simp [runInitExact]) (fun j hj => ?_) iter).2 i hi
    have : (runInitExact P N no_dims Y dY).gains = List.replicate (N * no_dims) 1 := rfl
    rw [this, rd_replicate_one _ _ hj]
    norm_num
  · intro M Y dY row_P col_P iter i hi
    refine (runLoop_gains false qt row_P col_P N no_dims theta (runInitApprox M N no_dims Y dY)
      (by simp [runInitApprox]) (fun j hj => ?_) iter).2 i hi
    have : (runInitApprox M N no_dims Y dY).gains = List.replicate (N * no_dims) 1 := rfl
    rw [this, rd_replicate_one _ _ hj]
    norm_num

theorem adaptive_gain_witness :
    (runIter true ⟨fun _ _ _ _ _ f => f, fun _ _ _ _ _ s => s⟩ [] [] 2 1 0
        { P := [0, 6, 6, 0], val_P := [], Y := [1, -1], dY := [0, 0], uY := [0, 0],
          gains := [1 / 100, 1], momentum := 1 / 2 } 0).gains = [21 / 100, 6 / 5] ∧
    (0 < 2 * 1 → 0 < 2 →
      rd (runIter true ⟨fun _ _ _ _ _ f => f, fun _ _ _ _ _ s => s⟩ [] [] 2 1 0
        { P := [0, 6, 6, 0], val_P := [], Y := [1, -1], dY := [0, 0], uY := [1, 1],
          gains := [1 / 100, 1], momentum := 1 / 2 } 0).gains 0 = max (1 / 100) (1 / 100 * (8 / 10))) :=
  ⟨by decide!, fun h1 h2 => by
    have := (adaptive_gain 2 1 ⟨fun _ _ _ _ _ f => f, fun _ _ _ _ _ s => s⟩ 0).2.1 true [] []
      { P := [0, 6, 6, 0], val_P := [], Y := [1, -1], dY := [0, 0], uY := [1, 1],
        gains := [1 / 100, 1], momentum := 1 / 2 } 0 0 h1 h2
    rw [this]
    decide!⟩

/-! ## Normalization of the input (C17) -/

theorem foldl_max_spec (xs : List ℚ) :
    ∀ a : ℚ, a ≤ xs.foldl max a ∧ (∀ x ∈ xs, x ≤ xs.foldl max a) ∧
      (xs.foldl max a = a ∨ xs.foldl max a ∈ xs) := by
  induction xs with
  | nil => intro a; simp
  | cons y ys ih =>
    intro a
    obtain ⟨h1, h2, h3⟩ := ih (max a y)
    rw [List.foldl_cons]
    refine ⟨le_trans (le_max_left a y) h1, ?_, ?_⟩
    · intro x hx
      rcases List.mem_cons.1 hx with rfl | hx
      · exact le_trans (le_max_right a x) h1
      · exact h2 x hx
    · rcases h3 with h3 | h3
      · rw [h3]
        rcases max_choice a y with h | h
        · left; exact h
        · right; rw [h]; exact List.mem_cons_self _ _
      · right; exact List.mem_cons_of_mem _ h3

theorem maxCoeff_spec (X : List ℚ) (hX : X ≠ []) :
    (∀ x ∈ X, x ≤ maxCoeff X) ∧ maxCoeff X ∈ X := by
  cases X with
  | nil => exact absurd rfl hX
  | cons x xs =>
    obtain ⟨h1, h2, h3⟩ := foldl_max_spec xs x
    refine ⟨fun y hy => ?_, ?_⟩
    · rcases List.mem_cons.1 hy with rfl | hy
      · exact h1
      · exact h2 y hy
    · rcases h3 with h3 | h3
      · show xs.foldl max x ∈ x :: xs
        rw [h3]; exact List.mem_cons_self _ _
      · exact List.mem_cons_of_mem _ h3

theorem rd_mem {α : Type} [Zero α] (l : List α) (i : Nat) (h : i < l.length) : rd l i ∈ l := by
  rw [rd_eq_getElem l i h]
  exact List.getElem_mem h

theorem exists_rd_of_mem {α : Type} [Zero α] (l : List α) (x : α) (h : x ∈ l) :
    ∃ i, i < l.length ∧ rd l i = x := by
  obtain ⟨i, hi, rfl⟩ := List.getElem_of_mem h
  exact ⟨i, hi, rd_eq_getElem l i hi⟩

theorem rd_map_div_const (l : List ℚ) (c : ℚ) (i : Nat) : rd (l.map (· / c)) i = rd l i / c := by
  unfold rd
  have := @List.getD_map ℚ ℚ l 0 i (fun x : ℚ => x / c)
  simpa using this

theorem maxCoeff_zeroMean_pos (X : List ℚ) (N D : Nat) (hN : 1 ≤ N) (hlen : X.length = N * D)
    (hne : ∃ n d, n < N ∧ d < D ∧ rd (zeroMean X N D) (n * D + d) ≠ 0) :
    0 < maxCoeff (zeroMean X N D) := by
  obtain ⟨n, d, hn, hd, hnd⟩ := hne
  obtain ⟨zlen, -⟩ := zeroMean_spec X N D hlen
  have hZ : zeroMean X N D ≠ [] := by
    intro h
    rw [h] at zlen
    have := idx_lt hn hd
    simp at zlen
    omega
  obtain ⟨hmax, -⟩ := maxCoeff_spec _ hZ
  by_contra hpos
  have hle : ∀ k ∈ Finset.range N, rd (zeroMean X N D) (k * D + d) ≤ 0 := by
    intro k hk
    have hk' := Finset.mem_range.1 hk
    exact le_trans (hmax _ (rd_mem _ _ (by rw [zlen]; exact idx_lt hk' hd))) (not_lt.1 hpos)
  have hsum := zeroMean_sum X N D hN hlen d hd
  have := (Finset.sum_eq_zero_iff_of_nonpos hle).1 hsum n (Finset.mem_range.2 hn)
  exact hnd this

/-- C17, as stated, fails: for the three one-dimensional points `0, 3, 3` the centred
data is `-2, 1, 1`, its largest coefficient is `1`, and the normalized data is
`-2, 1, 1`: the coefficient `-2` has absolute value above `1`. -/
theorem normalizeInput_abs_counterexample :
    zeroMean [0, 3, 3] 3 1 = [-2, 1, 1] ∧ maxCoeff (zeroMean [0, 3, 3] 3 1) = 1 ∧
    normalizeInput [0, 3, 3] 3 1 = [-2, 1, 1] ∧
    ¬ (|rd (normalizeInput [0, 3, 3] 3 1) 0| ≤ 1) :=
  ⟨by decide!, by decide!, by decide!, by decide!⟩

/-- C17 (amended): in exact arithmetic, after the normalization step of `run`, for every
input `X` of `N ≥ 1`
points with at least one non-zero centred coefficient, the centred data has been divided
by its largest coefficient, which is positive; every feature dimension of `X` has mean
`0`, every coefficient is at most `1`, and the value `1` is attained. -/
theorem normalizeInput_spec (X : List ℚ) (N D : Nat) (hN : 1 ≤ N) (hlen : X.length = N * D)
    (hne : ∃ n d, n < N ∧ d < D ∧ rd (zeroMean X N D) (n * D + d) ≠ 0) :
    0 < maxCoeff (zeroMean X N D) ∧
    (∀ i, i < N * D →
      rd (normalizeInput X N D) i = rd (zeroMean X N D) i / maxCoeff (zeroMean X N D)) ∧
    (∀ d, d < D → (∑ n ∈ Finset.range N, rd (normalizeInput X N D) (n * D + d)) / (N : ℚ) = 0) ∧
    (∀ i, i < N * D → rd (normalizeInput X N D) i ≤ 1) ∧
    (∃ i, i < N * D ∧ rd (normalizeInput X N D) i = 1) := by
  have hpos := maxCoeff_zeroMean_pos X N D hN hlen hne
  obtain ⟨zlen, -⟩ := zeroMean_spec X N D hlen
  have hZ : zeroMean X N D ≠ [] := by
    intro h
    rw [h] at hpos
    simp [maxCoeff] at hpos
  obtain ⟨hmax, hmem⟩ := maxCoeff_spec _ hZ
  have hrd : ∀ i, rd (normalizeInput X N D) i
      = rd (zeroMean X N D) i / maxCoeff (zeroMean X N D) :=
    fun i => rd_map_div_const _ _ i
  refine ⟨hpos, fun i _ => hrd i, fun d hd => ?_, fun i hi => ?_, ?_⟩
  · rw [Finset.sum_congr rfl (fun n _ => hrd (n * D + d)), ← Finset.sum_div,
      zeroMean_sum X N D hN hlen d hd, zero_div, zero_div]
  · rw [hrd i, div_le_one hpos]
    exact hmax _ (rd_mem _ _ (by rw [zlen]; exact hi))
  · obtain ⟨i, hi, hval⟩ := exists_rd_of_mem _ _ hmem
    exact ⟨i, by rw [← zlen]; exact hi, by rw [hrd i, hval, div_self (ne_of_gt hpos)]⟩

theorem normalizeInput_spec_witness :
    1 ≤ 3 ∧ normalizeInput [0, 3, 3, 0, 6, 0] 3 2 = [-1, 2 / 3, 0, -1 / 3, 1, -1 / 3] ∧
    0 < maxCoeff (zeroMean [0, 3, 3, 0, 6, 0] 3 2) :=
  ⟨by decide, by decide!,
    (normalizeInput_spec [0, 3, 3, 0, 6, 0] 3 2 (by decide) (by decide)
      ⟨0, 0, by decide, by decide, by decide!⟩).1⟩

/-! ## The phase switch of the optimizer (C19) -/

theorem embedUsing_handled {TapkeeOutput : Type} [Inhabited TapkeeOutput]
    (self : Implementation TapkeeOutput) (X : DimensionReductionMethod)
    (hc : self.is_cancelled = false) (hX : handled X = true) :
    embedUsing self X = tapkee_method_handle self X := by
  cases X
  all_goals first | (simp [embedUsing, hc]; done) | simp [handled] at hX

/-- C14: for every method value and every combination of dummy or real callbacks, if
the context is cancelled then `embedUsing` throws `cancelled_exception` and takes no
other step: no capability check, no construction of an implementation, no `embed()`. -/
theorem embedUsing_cancelled {TapkeeOutput : Type} [Inhabited TapkeeOutput]
    (self : Implementation TapkeeOutput) (method : DimensionReductionMethod)
    (hc : self.is_cancelled = true) :
    (embedUsing self method).result = Except.error EmbedError.cancelled_exception ∧
    (embedUsing self method).trace = [] := by
  simp [embedUsing, hc]

theorem embedUsing_cancelled_witness :
    (embedUsing (sampleImplementation true) .PassThru).result
      = Except.error EmbedError.cancelled_exception ∧
    (embedUsing (sampleImplementation true) .PassThru).trace = [] ∧
    (embedUsing (sampleImplementation false) .PassThru).result = Except.ok [1, 2] :=
  ⟨(embedUsing_cancelled (sampleImplementation true) .PassThru rfl).1,
    (embedUsing_cancelled (sampleImplementation true) .PassThru rfl).2, rfl⟩

/-- C15: for every method `X` handled by `embedUsing` and a context that is not
cancelled: if `X` needs a kernel, distance or features callback whose type is the dummy
one, `embedUsing` throws `unsupported_method_error` (for the first missing one, in the
order kernel, distance, features) and no implementation is constructed or run; if every
needed callback is present, the implementation of `X` is constructed, its `embed()` runs
and `embedUsing` returns (or throws) exactly what `embed()` does. -/
theorem embedUsing_capability {TapkeeOutput : Type} [Inhabited TapkeeOutput]
    (self : Implementation TapkeeOutput) (X : DimensionReductionMethod)
    (hc : self.is_cancelled = false) (hX : handled X = true) :
    (((self.needs_kernel X && self.kernel_is_dummy) ||
        (self.needs_distance X && self.distance_is_dummy) ||
        (self.needs_features X && self.features_is_dummy)) = true →
      (embedUsing self X).result
        = Except.error (EmbedError.unsupported_method_error
            (if (self.needs_kernel X && self.kernel_is_dummy) = true then
              ("Kernel callback is missed")
            else if (self.needs_distance X && self.distance_is_dummy) = true then
              ("Distance callback is missed")
            else ("Features callback is missed"))) ∧
      ∀ Y, Event.construct Y ∉ (embedUsing self X).trace ∧
        Event.embed Y ∉ (embedUsing self X).trace) ∧
    (((self.needs_kernel X && self.kernel_is_dummy) ||
        (self.needs_distance X && self.distance_is_dummy) ||
        (self.needs_features X && self.features_is_dummy)) = false →
      (embedUsing self X).result = self.embed X ∧
      (embedUsing self X).trace
        = [Event.timed_context X, Event.check_kernel X, Event.check_distance X,
            Event.check_features X, Event.construct X, Event.embed X]) := by
  rw [embedUsing_handled self X hc hX]
  unfold tapkee_method_handle
  cases h1 : (self.needs_kernel X && self.kernel_is_dummy) <;>
  cases h2 : (self.needs_distance X && self.distance_is_dummy) <;>
  cases h3 : (self.needs_features X && self.features_is_dummy) <;>
  simp

theorem embedUsing_capability_witness :
    (embedUsing (sampleImplementation false) .KernelPCA).result
      = Except.error (EmbedError.unsupported_method_error ("Kernel callback is missed")) ∧
    (embedUsing (sampleImplementation false) .KernelPCA).trace
      = [Event.timed_context .KernelPCA, Event.check_kernel .KernelPCA] ∧
    (embedUsing (sampleImplementation false) .Isomap).result = Except.ok [3] :=
  ⟨((embedUsing_capability (sampleImplementation false) .KernelPCA rfl rfl).1 rfl).1,
    rfl,
    ((embedUsing_capability (sampleImplementation false) .Isomap rfl rfl).2 rfl).1⟩

/-! ## The exact gradient (C20) -/

theorem qInner_spec (f : Nat → ℚ) (N n : Nat) (hn : n < N) (Q : List ℚ) (s : ℚ)
    (hQ : Q.length = N * N) :
    ∀ j, j ≤ N →
      forLoop 0 j
        (fun (qs : List ℚ × ℚ) m =>
          if n ≠ m then
            (qs.1.set (n * N + m) (f m), qs.2 + rd (qs.1.set (n * N + m) (f m)) (n * N + m))
          else qs)
        (Q, s)
      = (forLoop 0 j (fun Q m => Q.set (n * N + m)
            (if n ≠ m then f m else rd Q (n * N + m))) Q,
          s + ∑ m ∈ Finset.range j, if n ≠ m then f m else 0) := by
  intro j
  induction j with
  | zero => intro _; simp [forLoop]
  | succ j ih =>
    intro hj
    rw [forLoop_zero_succ, forLoop_zero_succ, ih (by omega), Finset.sum_range_succ]
    have hl := (forLoop_set (n * N) (fun m old => if n ≠ m then f m else old) Q j).1
    beta_reduce at hl
    by_cases h : n = j
    · subst h
      simp [set_rd_self]
    · simp only [ne_eq, h, not_false_eq_true, if_true]
      rw [rd_set_eq _ _ (by rw [hl, hQ]; exact idx_lt hn (by omega))]
      rw [add_assoc]

theorem qOuter_spec (f : Nat → Nat → ℚ) (N : Nat) (Q : List ℚ) (s : ℚ)
    (hQ : Q.length = N * N) :
    ∀ k, k ≤ N →
      forLoop 0 k
        (fun qs n => forLoop 0 N
          (fun (qs : List ℚ × ℚ) m =>
            if n ≠ m then
              (qs.1.set (n * N + m) (f n m),
                qs.2 + rd (qs.1.set (n * N + m) (f n m)) (n * N + m))
            else qs)
          qs)
        (Q, s)
      = (forLoop 0 k (fun Q n => forLoop 0 N (fun Q m => Q.set (n * N + m)
            (if n ≠ m then f n m else rd Q (n * N + m))) Q) Q,
          s + ∑ n ∈ Finset.range k, ∑ m ∈ Finset.range N, if n ≠ m then f n m else 0) := by
  intro k
  induction k with
  | zero => intro _; simp [forLoop]
  | succ k ih =>
    intro hk
    rw [forLoop_zero_succ, forLoop_zero_succ, ih (by omega), Finset.sum_range_succ]
    have hl := (forLoop_rows_set N (fun n m old => if n ≠ m then f n m else old) Q k).1
    beta_reduce at hl
    rw [qInner_spec (f k) N k (by omega) _ _ (by rw [hl, hQ]) N (Nat.le_refl _), add_assoc]

theorem qOuter_rd (f : Nat → Nat → ℚ) (N : Nat) (n m : Nat) (hn : n < N) (hm : m < N) :
    rd (forLoop 0 N (fun Q n => forLoop 0 N (fun Q m => Q.set (n * N + m)
        (if n ≠ m then f n m else rd Q (n * N + m))) Q) (List.replicate (N * N) (0 : ℚ)))
      (n * N + m) = if n ≠ m then f n m else 0 := by
  have h := (forLoop_rows_set N (fun n m old => if n ≠ m then f n m else old)
    (List.replicate (N * N) (0 : ℚ)) N).2 n m hm
  beta_reduce at h
  rw [h, if_pos ⟨hn, by simpa using idx_lt hn hm⟩, rd_replicate]

theorem gradRow_spec (c : Nat → Nat → ℚ) (D n : Nat) (dC : List ℚ) :
    ∀ k,
      (forLoop 0 k (fun dC m =>
        if n ≠ m then
          forLoop 0 D (fun dC d => dC.set (n * D + d) (rd dC (n * D + d) + c m d)) dC
        else dC) dC).length = dC.length ∧
      ∀ j, rd (forLoop 0 k (fun dC m =>
        if n ≠ m then
          forLoop 0 D (fun dC d => dC.set (n * D + d) (rd dC (n * D + d) + c m d)) dC
        else dC) dC) j
        = if n * D ≤ j ∧ j < n * D + D ∧ j < dC.length then
            rd dC j + ∑ m ∈ Finset.range k, (if n ≠ m then c m (j - n * D) else 0)
          else rd dC j := by
  intro k
  induction k with
  | zero => simp [forLoop]
  | succ k ih =>
    obtain ⟨l, r⟩ := ih
    rw [forLoop_zero_succ]
    by_cases h : n = k
    · rw [if_neg (by simpa using h)]
      refine ⟨l, fun j => ?_⟩
      have h0 : (if n ≠ k then c k (j - n * D) else 0) = 0 := if_neg (by simpa using h)
      rw [r j, Finset.sum_range_succ, h0, add_zero]
    · rw [if_pos h]
      obtain ⟨l2, r2⟩ := forLoop_set (n * D) (fun d old => old + c k d)
        (forLoop 0 k (fun dC m =>
          if n ≠ m then
            forLoop 0 D (fun dC d => dC.set (n * D + d) (rd dC (n * D + d) + c m d)) dC
          else dC) dC) D
      refine ⟨l2.trans l, fun j => ?_⟩
      rw [r2 j, l, r j, Finset.sum_range_succ, if_pos h]
      split_ifs <;> ring

theorem gradRows_spec (c : Nat → Nat → Nat → ℚ) (N D : Nat) (dC : List ℚ) :
    ∀ k,
      (forLoop 0 k (fun dC n => forLoop 0 N (fun dC m =>
        if n ≠ m then
          forLoop 0 D (fun dC d => dC.set (n * D + d) (rd dC (n * D + d) + c n m d)) dC
        else dC) dC) dC).length = dC.length ∧
      ∀ n d, d < D → rd (forLoop 0 k (fun dC n => forLoop 0 N (fun dC m =>
        if n ≠ m then
          forLoop 0 D (fun dC d => dC.set (n * D + d) (rd dC (n * D + d) + c n m d)) dC
        else dC) dC) dC) (n * D + d)
        = if n < k ∧ n * D + d < dC.length then
            rd dC (n * D + d) + ∑ m ∈ Finset.range N, (if n ≠ m then c n m d else 0)
          else rd dC (n * D + d) := by
  intro k
  induction k with
  | zero => simp [forLoop]
  | succ k ih =>
    obtain ⟨l, r⟩ := ih
    rw [forLoop_zero_succ]
    obtain ⟨l2, r2⟩ := gradRow_spec (c k) D k
      (forLoop 0 k (fun dC n => forLoop 0 N (fun dC m =>
        if n ≠ m then
          forLoop 0 D (fun dC d => dC.set (n * D + d) (rd dC (n * D + d) + c n m d)) dC
        else dC) dC) dC) N
    refine ⟨l2.trans l, fun n d hd => ?_⟩
    rw [r2, l, r n d hd]
    by_cases h : n = k
    · subst h
      have h1 : n * D ≤ n * D + d ∧ n * D + d < n * D + D := ⟨by omega, by omega⟩
      by_cases h2 : n * D + d < dC.length
      · rw [if_pos ⟨h1.1, h1.2, h2⟩, if_neg (by omega), if_pos ⟨by omega, h2⟩]
        simp
      · rw [if_neg (by omega), if_neg (by omega), if_neg (by omega)]
    · have h1 : ¬ (k * D ≤ n * D + d ∧ n * D + d < k * D + D) := fun hh => h ((idx_row hd).1 hh)
      rw [if_neg (fun hh => h1 ⟨hh.1, hh.2.1⟩)]
      by_cases h3 : n < k ∧ n * D + d < dC.length
      · rw [if_pos h3, if_pos ⟨by omega, h3.2⟩]
      · rw [if_neg h3, if_neg (fun hh => h3 ⟨by omega, hh.2⟩)]

theorem computeExactGradient_eq (P Y : List ℚ) (N D : Nat) (dC : List ℚ) :
    computeExactGradient P Y N D dC
      = gradientLoops P Y
          (gradientQ (computeSquaredEuclideanDistance Y N D (List.replicate (N * N) 0)) N).1
          (gradientQ (computeSquaredEuclideanDistance Y N D (List.replicate (N * N) 0)) N).2
          N D (forLoop 0 (N * D) (fun dC i => dC.set i 0) dC) :=
  rfl

theorem gradientQ_spec (DD : List ℚ) (N : Nat) :
    (∀ n m, n < N → m < N →
      rd (gradientQ DD N).1 (n * N + m)
        = if n ≠ m then 1 / (1 + rd DD (n * N + m)) else 0) ∧
    (gradientQ DD N).2
      = ∑ n ∈ Finset.range N, ∑ m ∈ (Finset.range N).filter (fun m => m ≠ n),
          1 / (1 + rd DD (n * N + m)) := by
  have h := qOuter_spec (fun n m => 1 / (1 + rd DD (n * N + m))) N
    (List.replicate (N * N) 0) 0 (by simp) N (Nat.le_refl _)
  have hq : gradientQ DD N = _ := h
  rw [hq]
  refine ⟨fun n m hn hm => ?_, ?_⟩
  · exact qOuter_rd (fun n m => 1 / (1 + rd DD (n * N + m))) N n m hn hm
  · simp only [zero_add]
    refine Finset.sum_congr rfl (fun n _ => ?_)
    rw [Finset.sum_filter]
    refine Finset.sum_congr rfl (fun m _ => ?_)
    by_cases h : n = m
    · simp [h]
    · rw [if_pos h, if_pos (fun e => h e.symm)]

theorem gradientLoops_spec (P Y Q : List ℚ) (sum_Q : ℚ) (N D : Nat) (dC : List ℚ)
    (hlen : dC.length = N * D) (n d : Nat) (hn : n < N) (hd : d < D) :
    rd (gradientLoops P Y Q sum_Q N D dC) (n * D + d)
      = rd dC (n * D + d) + ∑ m ∈ (Finset.range N).filter (fun m => m ≠ n),
          (rd P (n * N + m) - rd Q (n * N + m) / sum_Q) * rd Q (n * N + m)
            * (rd Y (n * D + d) - rd Y (m * D + d)) := by
  have h := (gradRows_spec (fun n m d => (rd Y (n * D + d) - rd Y (m * D + d))
    * ((rd P (n * N + m) - rd Q (n * N + m) / sum_Q) * rd Q (n * N + m))) N D dC N).2 n d hd
  have hg : rd (gradientLoops P Y Q sum_Q N D dC) (n * D + d) = _ := h
  rw [hg, if_pos ⟨hn, by rw [hlen]; exact idx_lt hn hd⟩, Finset.sum_filter]
  congr 1
  refine Finset.sum_congr rfl (fun m _ => ?_)
  by_cases h : n = m
  · simp [h]
  · rw [if_pos h, if_pos (fun e => h e.symm)]
    ring

theorem length_gradientLoops (P Y Q : List ℚ) (sum_Q : ℚ) (N D : Nat) (dC : List ℚ) :
    (gradientLoops P Y Q sum_Q N D dC).length = dC.length :=
  (gradRows_spec (fun n m d => (rd Y (n * D + d) - rd Y (m * D + d))
    * ((rd P (n * N + m) - rd Q (n * N + m) / sum_Q) * rd Q (n * N + m))) N D dC N).1

theorem computeExactGradient_rd (P Y : List ℚ) (N D : Nat) (dC : List ℚ)
    (hlen : dC.length = N * D) (n d : Nat) (hn : n < N) (hd : d < D) :
    rd (computeExactGradient P Y N D dC) (n * D + d)
      = ∑ m ∈ (Finset.range N).filter (fun m => m ≠ n),
          (rd P (n * N + m)
            - 1 / (1 + rd (computeSquaredEuclideanDistance Y N D
                (List.replicate (N * N) 0)) (n * N + m))
              / (∑ a ∈ Finset.range N, ∑ b ∈ (Finset.range N).filter (fun b => b ≠ a),
                  1 / (1 + rd (computeSquaredEuclideanDistance Y N D
                    (List.replicate (N * N) 0)) (a * N + b))))
            * (1 / (1 + rd (computeSquaredEuclideanDistance Y N D
                (List.replicate (N * N) 0)) (n * N + m)))
            * (rd Y (n * D + d) - rd Y (m * D + d)) := by
  obtain ⟨hq, hs⟩ := gradientQ_spec
    (computeSquaredEuclideanDistance Y N D (List.replicate (N * N) 0)) N
  obtain ⟨l0, r0⟩ := forLoop_set0 (fun _ _ => (0 : ℚ)) dC (N * D)
  rw [computeExactGradient_eq, gradientLoops_spec _ _ _ _ _ _ _ (l0.trans hlen) n d hn hd, r0,
    if_pos ⟨idx_lt hn hd, by rw [hlen]; exact idx_lt hn hd⟩, zero_add, hs]
  refine Finset.sum_congr rfl (fun m hm => ?_)
  have hmn := Finset.mem_filter.1 hm
  rw [hq n m hn (Finset.mem_range.1 hmn.1), if_pos (fun e => hmn.2 e.symm)]

theorem length_computeExactGradient (P Y : List ℚ) (N D : Nat) (dC : List ℚ) :
    (computeExactGradient P Y N D dC).length = dC.length := by
  rw [computeExactGradient_eq, length_gradientLoops]
  exact (forLoop_set0 (fun _ _ => (0 : ℚ)) dC (N * D)).1

theorem forLoop_some {σ : Type} (body : Option σ → Nat → Option σ) (body' : σ → Nat → σ)
    (hi : Nat) (h : ∀ i, i < hi → ∀ s, body (some s) i = some (body' s i)) (s : σ) :
    forLoop 0 hi body (some s) = some (forLoop 0 hi body' s) := by
  induction hi with
  | zero => simp [forLoop]
  | succ k ih =>
    rw [forLoop_zero_succ, forLoop_zero_succ, ih (fun i hi => h i (by omega)), h k (by omega)]

/-- When no divisor of lines 386 and 399 vanishes, the checked gradient has a value, and
it is the one computed with the field's division. -/
theorem computeExactGradientChecked_some (P Y : List ℚ) (N D : Nat) (dC : List ℚ)
    (hq : ∀ n m, n < N → m < N → n ≠ m →
      1 + rd (computeSquaredEuclideanDistance Y N D (List.replicate (N * N) 0)) (n * N + m) ≠ 0)
    (hS : 2 ≤ N →
      (∑ a ∈ Finset.range N, ∑ b ∈ (Finset.range N).filter (fun b => b ≠ a),
        1 / (1 + rd (computeSquaredEuclideanDistance Y N D
          (List.replicate (N * N) 0)) (a * N + b))) ≠ 0) :
    computeExactGradientChecked P Y N D dC = some (computeExactGradient P Y N D dC) := by
  have hQ : forLoop 0 N
      (fun qs n => forLoop 0 N
        (fun (qs : Option (List ℚ × ℚ)) m =>
          if n ≠ m then
            qs.bind (fun qs => (checkedDiv 1
              (1 + rd (computeSquaredEuclideanDistance Y N D (List.replicate (N * N) 0))
                (n * N + m))).map (fun q =>
              ((qs.1.set (n * N + m) q, qs.2 + rd (qs.1.set (n * N + m) q) (n * N + m)))))
          else qs)
        qs)
      (some (List.replicate (N * N) 0, 0))
      = some (gradientQ (computeSquaredEuclideanDistance Y N D (List.replicate (N * N) 0)) N) := by
    unfold gradientQ
    refine forLoop_some _ _ N (fun n hn s => ?_) _
    refine forLoop_some _ _ N (fun m hm s => ?_) _
    by_cases h : n = m
    · simp [h]
    · simp [h, checkedDiv, hq n m hn hm h]
  have hsum := (gradientQ_spec
    (computeSquaredEuclideanDistance Y N D (List.replicate (N * N) 0)) N).2
  rw [computeExactGradient_eq]
  unfold computeExactGradientChecked
  simp only []
  rw [hQ, Option.some_bind]
  unfold gradientLoops
  refine forLoop_some _ _ N (fun n hn s => ?_) _
  refine forLoop_some _ _ N (fun m hm s => ?_) _
  by_cases h : n = m
  · simp [h]
  · have hN : 2 ≤ N := by omega
    have hs := hS hN
    rw [← hsum] at hs
    simp [h, checkedDiv, hs]

/-- C20, as stated, fails: it quantifies over every `Y`, but for `N = 2`, `D = 1` and
`Y = [1, 1/2]` the matrix that `computeSquaredEuclideanDistance` produces has
`DD[0*2+1] = -1`, so line 386 divides by `1 + DD[0*2+1] = 0`: the gradient has no value
(in binary64 the code returns NaN in both cells), while the claimed sum would be a
number. -/
theorem computeExactGradient_formula_counterexample :
    computeSquaredEuclideanDistance [1, 1 / 2] 2 1 (List.replicate (2 * 2) 0)
      = [-2, -1, -1, -1 / 2] ∧
    1 + rd (computeSquaredEuclideanDistance [1, 1 / 2] 2 1 (List.replicate (2 * 2) 0))
      (0 * 2 + 1) = 0 ∧
    computeExactGradientChecked [0, 1, 1, 0] [1, 1 / 2] 2 1 [0, 0] = none ∧
    computeExactGradient [0, 1, 1, 0] [1, 1 / 2] 2 1 [0, 0] = [0, 0] := by
  decide!

/-- C20 (amended): in exact arithmetic, for every `N`, `D`, `P`, every array `dC` of
`N * D` cells and every `Y` for which no divisor vanishes (with `DD` the matrix that
`computeSquaredEuclideanDistance(Y, N, D)` produces, `1 + DD[n*N+m] ≠ 0` for all `n ≠ m`,
and the sum `S` of `q[n,m] = 1 / (1 + DD[n*N+m])` over all `n ≠ m` is not `0` when
`N ≥ 2`), `computeExactGradient` divides by no zero and leaves
`dC[n*D+d] = Σ_{m ≠ n} (P[n*N+m] - q[n,m] / S) * q[n,m] * (Y[n*D+d] - Y[m*D+d])` for all
`n < N`, `d < D`; the result does not depend on the previous contents of `dC`. -/
theorem computeExactGradient_formula (P Y : List ℚ) (N D : Nat) (dC : List ℚ)
    (hlen : dC.length = N * D)
    (hq : ∀ n m, n < N → m < N → n ≠ m →
      1 + rd (computeSquaredEuclideanDistance Y N D (List.replicate (N * N) 0)) (n * N + m) ≠ 0)
    (hS : 2 ≤ N →
      (∑ a ∈ Finset.range N, ∑ b ∈ (Finset.range N).filter (fun b => b ≠ a),
        1 / (1 + rd (computeSquaredEuclideanDistance Y N D
          (List.replicate (N * N) 0)) (a * N + b))) ≠ 0) :
    computeExactGradientChecked P Y N D dC = some (computeExactGradient P Y N D dC) ∧
    (∀ n d, n < N → d < D →
      rd (computeExactGradient P Y N D dC) (n * D + d)
        = ∑ m ∈ (Finset.range N).filter (fun m => m ≠ n),
            (rd P (n * N + m)
              - 1 / (1 + rd (computeSquaredEuclideanDistance Y N D
                  (List.replicate (N * N) 0)) (n * N + m))
                / (∑ a ∈ Finset.range N, ∑ b ∈ (Finset.range N).filter (fun b => b ≠ a),
                    1 / (1 + rd (computeSquaredEuclideanDistance Y N D
                      (List.replicate (N * N) 0)) (a * N + b))))
              * (1 / (1 + rd (computeSquaredEuclideanDistance Y N D
                  (List.replicate (N * N) 0)) (n * N + m)))
              * (rd Y (n * D + d) - rd Y (m * D + d))) ∧
    (∀ dC0 : List ℚ, dC0.length = N * D →
      computeExactGradientChecked P Y N D dC0 = computeExactGradientChecked P Y N D dC) := by
  have hsome := computeExactGradientChecked_some P Y N D dC hq hS
  refine ⟨hsome, fun n d hn hd => computeExactGradient_rd P Y N D dC hlen n d hn hd, ?_⟩
  intro dC0 h0
  rw [hsome, computeExactGradientChecked_some P Y N D dC0 hq hS]
  congr 1
  apply ext_rd
  · rw [length_computeExactGradient, length_computeExactGradient, h0, hlen]
  · intro j hj
    rw [length_computeExactGradient, h0] at hj
    have hD : 0 < D := by
      rcases Nat.eq_zero_or_pos D with h | h
      · rw [h] at hj; simp at hj
      · exact h
    have hjd : j = j / D * D + j % D := by
      rw [Nat.mul_comm]; exact (Nat.div_add_mod j D).symm
    have hn : j / D < N := by
      rw [Nat.div_lt_iff_lt_mul hD]; exact hj
    rw [hjd, computeExactGradient_rd P Y N D dC0 h0 _ _ hn (Nat.mod_lt _ hD),
      computeExactGradient_rd P Y N D dC hlen _ _ hn (Nat.mod_lt _ hD)]

theorem computeExactGradient_formula_witness :
    computeExactGradientChecked [0, 1, 0, 0] [1, 2] 2 1 [7, 9] = some [1 / 6, 1 / 6] ∧
    rd (computeExactGradient [0, 1, 0, 0] [1, 2] 2 1 [7, 9]) (0 * 1 + 0) = 1 / 6 ∧
    computeExactGradientChecked [0, 1, 0, 0] [1, 2] 2 1 [0, 0]
      = computeExactGradientChecked [0, 1, 0, 0] [1, 2] 2 1 [7, 9] :=
  ⟨((computeExactGradient_formula [0, 1, 0, 0] [1, 2] 2 1 [7, 9] rfl
      (fun n m hn hm h => by
        interval_cases n <;> interval_cases m <;> first | exact absurd rfl h | decide!)
      (fun _ => by decide!)).1).trans (by decide!),
    ((computeExactGradient_formula [0, 1, 0, 0] [1, 2] 2 1 [7, 9] rfl
      (fun n m hn hm h => by
        interval_cases n <;> interval_cases m <;> first | exact absurd rfl h | decide!)
      (fun _ => by decide!)).2.1 0 0 (by decide) (by decide)).trans (by decide!),
    (computeExactGradient_formula [0, 1, 0, 0] [1, 2] 2 1 [7, 9] rfl
      (fun n m hn hm h => by
        interval_cases n <;> interval_cases m <;> first | exact absurd rfl h | decide!)
      (fun _ => by decide!)).2.2 [0, 0] rfl⟩

/-! ## The writes of the fill pass (C18) -/

theorem foldl_scanSlots_none (col_P sr off : List Nat) (n i : Nat) (l : List Nat)
    (hl : ∀ m ∈ l, rd col_P m ≠ n) (s : Bool × List Nat) :
    l.foldl (scanSlots col_P sr off n i) s = s := by
  induction l generalizing s with
  | nil => rfl
  | cons a l ih =>
    rw [List.foldl_cons]
    have h1 : scanSlots col_P sr off n i s a = s := by
      unfold scanSlots
      rw [if_neg (hl a (List.mem_cons_self _ _))]
    rw [h1]
    exact ih (fun m hm => hl m (List.mem_cons_of_mem _ hm)) s

theorem foldl_scanSlots_some (col_P sr off : List Nat) (n i : Nat) (l : List Nat)
    (hnd : (l.map (rd col_P)).Nodup) (m : Nat) (hm : m ∈ l) (hcol : rd col_P m = n)
    (s : Bool × List Nat) :
    l.foldl (scanSlots col_P sr off n i) s = scanSlots col_P sr off n i s m := by
  induction l generalizing s with
  | nil => simp at hm
  | cons a l ih =>
    rw [List.foldl_cons]
    rw [List.map_cons, List.nodup_cons] at hnd
    rcases List.mem_cons.1 hm with rfl | hm'
    · apply foldl_scanSlots_none
      intro x hx hxn
      exact hnd.1 (by rw [hcol, ← hxn]; exact List.mem_map_of_mem _ hx)
    · have hane : rd col_P a ≠ n := by
        intro han
        exact hnd.1 (by rw [han, ← hcol]; exact List.mem_map_of_mem _ hm')
      have h1 : scanSlots col_P sr off n i s a = s := by
        unfold scanSlots
        rw [if_neg hane]
      rw [h1]
      exact ih hnd.2 hm' s

theorem entrySlots_mem {N : Nat} {M : Csr} (h : Valid N M) (sr off : List Nat)
    {p : Nat × Nat} (hp : p ∈ steps M.row_P N) (s : Nat) :
    s ∈ entrySlots M.row_P M.col_P sr off p.1 p.2
      ↔ s ∈ pushSlots sr off (emit (entries N M) (p.1, rd M.col_P p.2, rd M.val_P p.2)) := by
  obtain ⟨n, i⟩ := p
  have ht : (n, rd M.col_P i, rd M.val_P i) ∈ entries N M := by
    rw [entries_eq_map_steps]
    exact List.mem_map_of_mem (fun p => (p.1, rd M.col_P p.2, rd M.val_P p.2)) hp
  have hc : rd M.col_P i < N := (h.lt ht).2
  have hn : n < N := (h.lt ht).1
  have hnd := h.2.2.2.2.2.2 (rd M.col_P i) hc
  simp only
  unfold entrySlots forLoop
  simp only
  rw [show List.range' (rd M.row_P (rd M.col_P i))
      (rd M.row_P (rd M.col_P i + 1) - rd M.row_P (rd M.col_P i))
      = rowIdx M.row_P (rd M.col_P i) from rfl]
  cases hm : mate (entries N M) n (rd M.col_P i) with
  | none =>
    have hno : ∀ m ∈ rowIdx M.row_P (rd M.col_P i), rd M.col_P m ≠ n := by
      intro m hmem hcol
      rw [mate_none] at hm
      rw [mem_rowIdx] at hmem
      exact hm (rd M.col_P i, n, rd M.val_P m)
        (mem_entries.2 ⟨m, hc, hmem.1, hmem.2, hcol, rfl⟩) ⟨rfl, rfl⟩
    have hne : rd M.col_P i ≠ n := by
      intro heq
      rw [mem_steps] at hp
      exact hno i (by rw [heq]; exact mem_rowIdx.2 hp.2) heq
    rw [foldl_scanSlots_none _ _ _ _ _ _ hno]
    unfold emit
    simp only [hm, pushSlots]
    simp [rd_incr, Ne.symm hne]
  | some u =>
    obtain ⟨hu, hu1, hu2⟩ := mate_some hm
    obtain ⟨m, -, hm2, hm3, hm4, hm5⟩ := mem_entries.1 hu
    rw [hu1] at hm2 hm3
    rw [hu2] at hm4
    rw [foldl_scanSlots_some _ _ _ _ _ _ hnd m (mem_rowIdx.2 ⟨hm2, hm3⟩) hm4]
    unfold emit scanSlots
    simp only [hm, hm4, if_true]
    rcases Nat.lt_trichotomy n (rd M.col_P i) with hlt | heq | hgt
    · have hne : rd M.col_P i ≠ n := by omega
      simp only [hlt, Nat.le_of_lt hlt, if_true, pushSlots]
      simp [rd_incr, Ne.symm hne]
    · simp only [← heq, Nat.lt_irrefl, if_false, if_true, Nat.le_refl, pushSlots]
      simp
    · have hnlt : ¬ n < rd M.col_P i := by omega
      have hnle : ¬ n ≤ rd M.col_P i := by omega
      have hne : ¬ n = rd M.col_P i := by omega
      simp [hnlt, hnle, hne, pushSlots]

theorem filled_push {sr off : List Nat} {N : Nat} (cap : Nat → Nat)
    (hsr : ∀ r, r < N → rd sr (r + 1) = rd sr r + cap r)
    (hoff : off.length = N) (hle : ∀ r, r < N → rd off r ≤ cap r)
    {a : Nat} (ha : a < N) (hlt : rd off a < cap a) :
    (∀ s, Filled sr (incr off a) N s ↔ Filled sr off N s ∨ s = rd sr a + rd off a) ∧
    ¬ Filled sr off N (rd sr a + rd off a) := by
  have hmono : ∀ k, k ≤ N → ∀ n, n ≤ k → rd sr n ≤ rd sr k :=
    row_le_of_mono (fun n hn => by rw [hsr n hn]; omega)
  constructor
  · intro s
    constructor
    · rintro ⟨r, hr, h1, h2⟩
      rw [rd_incr] at h2
      by_cases hra : a = r
      · subst hra
        rw [if_pos ⟨rfl, by omega⟩] at h2
        rcases Nat.lt_or_ge s (rd sr a + rd off a) with h | h
        · exact Or.inl ⟨a, hr, h1, h⟩
        · exact Or.inr (by omega)
      · rw [if_neg (fun hh => hra hh.1)] at h2
        exact Or.inl ⟨r, hr, h1, h2⟩
    · rintro (⟨r, hr, h1, h2⟩ | rfl)
      · refine ⟨r, hr, h1, ?_⟩
        rw [rd_incr]
        split_ifs <;> omega
      · refine ⟨a, ha, by omega, ?_⟩
        rw [rd_incr, if_pos ⟨rfl, by omega⟩]
        omega
  · rintro ⟨r, hr, h1, h2⟩
    rcases Nat.lt_trichotomy r a with h | h | h
    · have := hmono a (Nat.le_of_lt ha) (r + 1) h
      have := hsr r hr
      have := hle r hr
      omega
    · subst h; omega
    · have := hmono r (Nat.le_of_lt hr) (a + 1) h
      have := hsr a ha
      omega

theorem pushes_filled {sr : List Nat} {N L : Nat} (cap : Nat → Nat)
    (hsr : ∀ r, r < N → rd sr (r + 1) = rd sr r + cap r) (hL : rd sr N = L)
    (es : List (Nat × Nat × ℚ)) :
    ∀ (done : List (Nat × Nat × ℚ)) (st : FillState), FillInv sr N L done st →
      (∀ e ∈ es, e.1 < N) →
      (∀ r, r < N → (rowOf (done ++ es) r).length ≤ cap r) →
      FillInv sr N L (done ++ es) (es.foldl (push sr) st) ∧
      (∀ s, Filled sr (es.foldl (push sr) st).offset N s
        ↔ Filled sr st.offset N s ∨ s ∈ pushSlots sr st.offset es) ∧
      (∀ s, s ∈ pushSlots sr st.offset es → ¬ Filled sr st.offset N s) := by
  induction es with
  | nil =>
    intro done st hinv _ _
    refine ⟨by simpa using hinv, fun s => by simp [pushSlots], fun s hs => by simp [pushSlots] at hs⟩
  | cons e es ih =>
    intro done st hinv hlt hcap
    have happ : done ++ e :: es = (done ++ [e]) ++ es := by simp
    have he : e.1 < N := hlt e (List.mem_cons_self _ _)
    have hcap1 : ∀ r, r < N → (rowOf (done ++ [e]) r).length ≤ cap r := by
      intro r hr
      refine le_trans ?_ (hcap r hr)
      rw [happ]
      exact length_rowOf_append_le _ _ _
    have hinv1 := fillInv_push hinv e he cap hsr hL hcap1
    obtain ⟨i1, i2, i3⟩ := ih (done ++ [e]) (push sr st e) hinv1
      (fun x hx => hlt x (List.mem_cons_of_mem _ hx)) (by rw [← happ]; exact hcap)
    have hle : ∀ r, r < N → rd st.offset r ≤ cap r := by
      intro r hr
      rw [hinv.2.2.2.1 r hr]
      refine le_trans ?_ (hcap r hr)
      exact length_rowOf_append_le _ _ _
    have hlt1 : rd st.offset e.1 < cap e.1 := by
      rw [hinv.2.2.2.1 _ he]
      have := hcap1 _ he
      rw [rowOf_append, rowOf_single_eq, List.length_append, List.length_singleton] at this
      omega
    obtain ⟨f1, f2⟩ := filled_push cap hsr hinv.1 hle he hlt1
    have hpo : (push sr st e).offset = incr st.offset e.1 := rfl
    rw [List.foldl_cons, happ]
    refine ⟨i1, fun s => ?_, fun s hs => ?_⟩
    · rw [i2 s, hpo, f1 s]
      simp only [pushSlots, List.mem_cons]
      tauto
    · simp only [pushSlots, List.mem_cons] at hs
      rcases hs with rfl | hs
      · exact f2
      · intro hf
        exact i3 s (by rw [hpo]; exact hs) (by rw [hpo]; exact (f1 s).2 (Or.inl hf))

theorem foldl_split_inv {α σ : Type} (g : σ → α → σ) (J : List α → σ → Prop) (l : List α)
    (hstep : ∀ pre x post s, l = pre ++ x :: post → J pre s → J (pre ++ [x]) (g s x)) :
    ∀ rest pre s, l = pre ++ rest → J pre s → J l (rest.foldl g s) := by
  intro rest
  induction rest with
  | nil =>
    intro pre s hl hJ
    rw [List.append_nil] at hl
    rw [hl]
    exact hJ
  | cons x rest ih =>
    intro pre s hl hJ
    rw [List.foldl_cons]
    exact ih (pre ++ [x]) (g s x) (by rw [hl]; simp) (hstep pre x rest s hl hJ)

theorem length_writers_append (log : List (Nat × Nat × List Nat)) (e : Nat × Nat × List Nat)
    (s : Nat) :
    (writers (log ++ [e]) s).length
      = (writers log s).length + (if s ∈ e.2.2 then 1 else 0) := by
  unfold writers
  rw [List.filter_append, List.length_append]
  by_cases h : s ∈ e.2.2 <;> simp [h]

theorem fillLog_inv {N : Nat} {M : Csr} (h : Valid N M) (sr : List Nat) (L : Nat)
    (cap : Nat → Nat) (hsr : ∀ r, r < N → rd sr (r + 1) = rd sr r + cap r)
    (hL : rd sr N = L)
    (hcap : ∀ r, r < N → (rowOf (symSpec (entries N M)) r).length ≤ cap r) :
    FillInv sr N L (symSpec (entries N M)) (fillPassLog M.row_P M.col_P M.val_P sr L N).1 ∧
    (fillPassLog M.row_P M.col_P M.val_P sr L N).2.map (fun e => (e.1, e.2.1))
      = steps M.row_P N ∧
    ∀ s,
      (Filled sr (fillPassLog M.row_P M.col_P M.val_P sr L N).1.offset N s →
        (writers (fillPassLog M.row_P M.col_P M.val_P sr L N).2 s).length = 1) ∧
      (¬ Filled sr (fillPassLog M.row_P M.col_P M.val_P sr L N).1.offset N s →
        (writers (fillPassLog M.row_P M.col_P M.val_P sr L N).2 s).length = 0) := by
  unfold fillPassLog
  rw [forLoop_rows]
  have key := foldl_split_inv
    (fun (s : FillState × List (Nat × Nat × List Nat)) (p : Nat × Nat) =>
      (fillEntry M.row_P M.col_P M.val_P sr p.1 s.1 p.2,
        s.2 ++ [(p.1, p.2, entrySlots M.row_P M.col_P sr s.1.offset p.1 p.2)]))
    (fun pre s =>
      FillInv sr N L
        ((pre.map fun p => (p.1, rd M.col_P p.2, rd M.val_P p.2)).flatMap
          (emit (entries N M))) s.1 ∧
      s.2.map (fun e => (e.1, e.2.1)) = pre ∧
      ∀ x, (Filled sr s.1.offset N x → (writers s.2 x).length = 1) ∧
        (¬ Filled sr s.1.offset N x → (writers s.2 x).length = 0))
    (steps M.row_P N) ?_ (steps M.row_P N) []
    ({ sym_col_P := List.replicate L 0, sym_val_P := List.replicate L 0,
       offset := List.replicate N 0 }, []) (by simp) ?_
  · beta_reduce at key
    rw [← entries_eq_map_steps] at key
    exact key
  · rintro pre p post ⟨st, log⟩ hsplit ⟨hinv, hmap, hcnt⟩
    have hp : p ∈ steps M.row_P N := by rw [hsplit]; simp
    have ht : (p.1, rd M.col_P p.2, rd M.val_P p.2) ∈ entries N M := by
      rw [entries_eq_map_steps]
      exact List.mem_map_of_mem (fun p => (p.1, rd M.col_P p.2, rd M.val_P p.2)) hp
    have hsym : symSpec (entries N M)
        = ((pre.map fun p => (p.1, rd M.col_P p.2, rd M.val_P p.2)).flatMap
            (emit (entries N M))
          ++ emit (entries N M) (p.1, rd M.col_P p.2, rd M.val_P p.2))
          ++ ((post.map fun p => (p.1, rd M.col_P p.2, rd M.val_P p.2)).flatMap
            (emit (entries N M))) := by
      have hE : entries N M
          = (pre.map fun p => (p.1, rd M.col_P p.2, rd M.val_P p.2))
            ++ (p.1, rd M.col_P p.2, rd M.val_P p.2)
              :: (post.map fun p => (p.1, rd M.col_P p.2, rd M.val_P p.2)) := by
        rw [entries_eq_map_steps, hsplit]
        simp
      have hgen : ∀ (g : Nat × Nat × ℚ → List (Nat × Nat × ℚ)) (l A C : List (Nat × Nat × ℚ))
          (b : Nat × Nat × ℚ), l = A ++ b :: C →
          l.flatMap g = (A.flatMap g ++ g b) ++ C.flatMap g := by
        intro g l A C b hl
        rw [hl]
        simp [List.flatMap_append]
      exact hgen (emit (entries N M)) _ _ _ _ hE
    have hlt : ∀ e ∈ emit (entries N M) (p.1, rd M.col_P p.2, rd M.val_P p.2), e.1 < N := by
      intro e he
      have hes : e ∈ symSpec (entries N M) := List.mem_flatMap.2 ⟨_, ht, he⟩
      exact (mem_symSpec_lt (fun t ht => h.lt ht) hes).1
    have hcap1 : ∀ r, r < N →
        (rowOf (((pre.map fun p => (p.1, rd M.col_P p.2, rd M.val_P p.2)).flatMap
            (emit (entries N M)))
          ++ emit (entries N M) (p.1, rd M.col_P p.2, rd M.val_P p.2)) r).length ≤ cap r := by
      intro r hr
      refine le_trans ?_ (hcap r hr)
      rw [hsym]
      exact length_rowOf_append_le _ _ _
    obtain ⟨i1, i2, i3⟩ := pushes_filled cap hsr hL _ _ st hinv hlt hcap1
    have hfe := fillEntry_eq_push h sr st hp
    simp only
    rw [hfe]
    refine ⟨?_, by simp [hmap], fun x => ?_⟩
    · simpa [List.flatMap_append] using i1
    · rw [length_writers_append]
      simp only
      have hmem := entrySlots_mem h sr st.offset hp x
      by_cases hx : x ∈ entrySlots M.row_P M.col_P sr st.offset p.1 p.2
      · have hx2 := hmem.1 hx
        have hnf := i3 x hx2
        rw [if_pos hx, (hcnt x).2 hnf]
        exact ⟨fun _ => rfl, fun hn => absurd ((i2 x).2 (Or.inr hx2)) hn⟩
      · have hx2 : x ∉ pushSlots sr st.offset
            (emit (entries N M) (p.1, rd M.col_P p.2, rd M.val_P p.2)) :=
          fun hh => hx (hmem.2 hh)
        rw [if_neg hx, add_zero]
        constructor
        · intro hf
          rcases (i2 x).1 hf with hf1 | hf1
          · exact (hcnt x).1 hf1
          · exact absurd hf1 hx2
        · intro hf
          exact (hcnt x).2 (fun hf1 => hf ((i2 x).2 (Or.inl hf1)))
  · refine ⟨⟨by simp, by simp, by simp, fun r _ => by simp [rd_replicate, rowOf],
      fun r _ j hj => by simp [rowOf] at hj⟩, by simp, fun x => ⟨?_, fun _ => by simp [writers]⟩⟩
    rintro ⟨r, _, h1, h2⟩
    simp only [rd_replicate] at h2
    omega

theorem foldl_fst {α σ τ : Type} (F : σ → α → σ) (G : σ × τ → α → τ) (l : List α) :
    ∀ s : σ × τ, (l.foldl (fun s p => (F s.1 p, G s p)) s).1 = l.foldl F s.1 := by
  induction l with
  | nil => intro s; rfl
  | cons a l ih => intro s; rw [List.foldl_cons, List.foldl_cons, ih]

theorem fillPassLog_fst (row_P col_P : List Nat) (val_P : List ℚ) (sr : List Nat) (L N : Nat) :
    (fillPassLog row_P col_P val_P sr L N).1 = fillPass row_P col_P val_P sr L N := by
  unfold fillPassLog fillPass
  rw [forLoop_rows, forLoop_rows]
  exact foldl_fst (fun (st : FillState) (p : Nat × Nat) =>
      fillEntry row_P col_P val_P sr p.1 st p.2)
    (fun (s : FillState × List (Nat × Nat × List Nat)) (p : Nat × Nat) =>
      s.2 ++ [(p.1, p.2, entrySlots row_P col_P sr s.1.offset p.1 p.2)]) _ _

theorem psum_mono (rc : List Nat) {j k : Nat} (h : j ≤ k) : psum rc j ≤ psum rc k := by
  induction k with
  | zero => rw [Nat.le_zero.1 h]
  | succ k ih =>
    rcases Nat.eq_or_lt_of_le h with e | e
    · rw [e]
    · rw [psum_succ]
      have := ih (by omega)
      omega

theorem exists_row_of_lt_psum (rc : List Nat) (s : Nat) :
    ∀ N, s < psum rc N → ∃ r, r < N ∧ psum rc r ≤ s ∧ s < psum rc r + rd rc r := by
  intro N
  induction N with
  | zero => intro hs; simp [psum] at hs
  | succ N ih =>
    intro hs
    by_cases h : s < psum rc N
    · obtain ⟨r, hr, h1, h2⟩ := ih h
      exact ⟨r, by omega, h1, h2⟩
    · rw [psum_succ] at hs
      exact ⟨N, by omega, by omega, hs⟩

theorem filled_iff_lt (rc off : List Nat) (N : Nat) (hoff : ∀ r, r < N → rd off r = rd rc r)
    (s : Nat) : Filled (symRowP rc N) off N s ↔ s < psum rc N := by
  obtain ⟨-, hsr⟩ := symRowP_spec rc N
  constructor
  · rintro ⟨r, hr, h1, h2⟩
    rw [hsr r (Nat.le_of_lt hr), hoff r hr, ← psum_succ] at h2
    exact lt_of_lt_of_le h2 (psum_mono rc hr)
  · intro hs
    obtain ⟨r, hr, h1, h2⟩ := exists_row_of_lt_psum rc s N hs
    exact ⟨r, hr, by rw [hsr r (Nat.le_of_lt hr)]; exact h1,
      by rw [hsr r (Nat.le_of_lt hr), hoff r hr]; exact h2⟩

/-- C18: for every valid CSR input, the row offsets of the output of `symmetrizeMatrix`
start at `0`, do not decrease and end at `no_elem`, the allocated length of the column
and value arrays; at the end of the fill pass `offset[n] = row_counts[n]` for every row
`n`; the record of the fill pass has one item per step `(n, i)`, every index written is
below `no_elem`, and every index below `no_elem` is written by exactly one step. -/
theorem symmetrizeMatrix_in_bounds {N : Nat} {M : Csr} (h : Valid N M) :
    rd (symmetrizeMatrix M N).row_P 0 = 0 ∧
    (∀ n, n < N →
      rd (symmetrizeMatrix M N).row_P n ≤ rd (symmetrizeMatrix M N).row_P (n + 1)) ∧
    rd (symmetrizeMatrix M N).row_P N = noElem (rowCounts M.row_P M.col_P N) N ∧
    (symmetrizeMatrix M N).col_P.length = noElem (rowCounts M.row_P M.col_P N) N ∧
    (symmetrizeMatrix M N).val_P.length = noElem (rowCounts M.row_P M.col_P N) N ∧
    (fillPassLog M.row_P M.col_P M.val_P (symRowP (rowCounts M.row_P M.col_P N) N)
        (noElem (rowCounts M.row_P M.col_P N) N) N).1
      = fillPass M.row_P M.col_P M.val_P (symRowP (rowCounts M.row_P M.col_P N) N)
          (noElem (rowCounts M.row_P M.col_P N) N) N ∧
    (∀ n, n < N →
      rd (fillPass M.row_P M.col_P M.val_P (symRowP (rowCounts M.row_P M.col_P N) N)
          (noElem (rowCounts M.row_P M.col_P N) N) N).offset n
        = rd (rowCounts M.row_P M.col_P N) n) ∧
    (fillPassLog M.row_P M.col_P M.val_P (symRowP (rowCounts M.row_P M.col_P N) N)
        (noElem (rowCounts M.row_P M.col_P N) N) N).2.map (fun e => (e.1, e.2.1))
      = steps M.row_P N ∧
    (∀ e ∈ (fillPassLog M.row_P M.col_P M.val_P (symRowP (rowCounts M.row_P M.col_P N) N)
        (noElem (rowCounts M.row_P M.col_P N) N) N).2,
      ∀ s ∈ e.2.2, s < noElem (rowCounts M.row_P M.col_P N) N) ∧
    (∀ s, s < noElem (rowCounts M.row_P M.col_P N) N →
      (writers (fillPassLog M.row_P M.col_P M.val_P (symRowP (rowCounts M.row_P M.col_P N) N)
        (noElem (rowCounts M.row_P M.col_P N) N) N).2 s).length = 1) := by
  obtain ⟨hrc1, hrc2⟩ := rowCounts_spec h
  obtain ⟨hsr1, hsr2⟩ := symRowP_spec (rowCounts M.row_P M.col_P N) N
  have hfill := fill_spec h
  have hsrS : ∀ r, r < N → rd (symRowP (rowCounts M.row_P M.col_P N) N) (r + 1)
      = rd (symRowP (rowCounts M.row_P M.col_P N) N) r + rd (rowCounts M.row_P M.col_P N) r := by
    intro r hr
    rw [hsr2 (r + 1) hr, hsr2 r (Nat.le_of_lt hr), psum_succ]
  have hL : rd (symRowP (rowCounts M.row_P M.col_P N) N) N
      = noElem (rowCounts M.row_P M.col_P N) N := by
    rw [hsr2 N (Nat.le_refl _), noElem_eq]
  obtain ⟨-, l2, l3⟩ := fillLog_inv h (symRowP (rowCounts M.row_P M.col_P N) N)
    (noElem (rowCounts M.row_P M.col_P N) N) (fun r => rd (rowCounts M.row_P M.col_P N) r)
    hsrS hL (fun r _ => le_of_eq (hrc2 r).symm)
  have hoff : ∀ n, n < N →
      rd (fillPass M.row_P M.col_P M.val_P (symRowP (rowCounts M.row_P M.col_P N) N)
          (noElem (rowCounts M.row_P M.col_P N) N) N).offset n
        = rd (rowCounts M.row_P M.col_P N) n := by
    intro n hn
    rw [hfill.2.2.2.1 n hn, hrc2 n]
  have hF := fun s => filled_iff_lt (rowCounts M.row_P M.col_P N)
    (fillPass M.row_P M.col_P M.val_P (symRowP (rowCounts M.row_P M.col_P N) N)
      (noElem (rowCounts M.row_P M.col_P N) N) N).offset N hoff s
  rw [fillPassLog_fst] at l3
  refine ⟨?_, ?_, hL, hfill.2.1, ?_, fillPassLog_fst _ _ _ _ _ _, hoff, l2, ?_, ?_⟩
  · show rd (symRowP (rowCounts M.row_P M.col_P N) N) 0 = 0
    rw [hsr2 0 (Nat.zero_le _)]
    rfl
  · intro n hn
    show rd (symRowP (rowCounts M.row_P M.col_P N) N) n
      ≤ rd (symRowP (rowCounts M.row_P M.col_P N) N) (n + 1)
    rw [hsrS n hn]
    omega
  · exact (length_val_symmetrizeMatrix M N).trans hL
  · intro e he s hs
    rw [noElem_eq, ← hF s]
    by_contra hnf
    have h0 := (l3 s).2 hnf
    have hmem : e ∈ writers (fillPassLog M.row_P M.col_P M.val_P
        (symRowP (rowCounts M.row_P M.col_P N) N)
        (noElem (rowCounts M.row_P M.col_P N) N) N).2 s := by
      unfold writers
      exact List.mem_filter.2 ⟨he, by simpa using hs⟩
    rw [List.length_eq_zero] at h0
    rw [h0] at hmem
    simp at hmem
  · intro s hs
    rw [noElem_eq, ← hF s] at hs
    exact (l3 s).1 hs

theorem symmetrizeMatrix_in_bounds_witness :
    Valid 3 diagInput ∧
    noElem (rowCounts diagInput.row_P diagInput.col_P 3) 3 = 7 ∧
    (fillPassLog diagInput.row_P diagInput.col_P diagInput.val_P
        (symRowP (rowCounts diagInput.row_P diagInput.col_P 3) 3)
        (noElem (rowCounts diagInput.row_P diagInput.col_P 3) 3) 3).2
      = [(0, 0, [0, 0]), (0, 1, [1, 2]), (1, 2, []), (1, 3, [3, 3]), (1, 4, [4, 5]),
          (2, 5, [6, 6])] ∧
    (writers (fillPassLog diagInput.row_P diagInput.col_P diagInput.val_P
        (symRowP (rowCounts diagInput.row_P diagInput.col_P 3) 3)
        (noElem (rowCounts diagInput.row_P diagInput.col_P 3) 3) 3).2 5).length = 1 :=
  ⟨by decide, by decide, by decide!,
    (symmetrizeMatrix_in_bounds (by decide : Valid 3 diagInput)).2.2.2.2.2.2.2.2.2 5
      (by decide)⟩

/-! ## Convergence of the bandwidth search on an equidistant row (C11) -/

theorem betaStep_fields {α : Type} [LinearOrderedField α] (log : α → α)
    (DBL_MAX perplexity : α) (s : Search α) (P : List α) (sum_P H : α) :
    (H - log perplexity < 1 / 100000 ∧ -(H - log perplexity) < 1 / 100000 →
      (betaStep log DBL_MAX perplexity s P sum_P H).found = true ∧
      (betaStep log DBL_MAX perplexity s P sum_P H).beta = s.beta) ∧
    (¬ (H - log perplexity < 1 / 100000 ∧ -(H - log perplexity) < 1 / 100000) →
      H - log perplexity > 0 →
      (betaStep log DBL_MAX perplexity s P sum_P H).found = s.found ∧
      (betaStep log DBL_MAX perplexity s P sum_P H).min_beta = s.beta ∧
      (betaStep log DBL_MAX perplexity s P sum_P H).max_beta = s.max_beta ∧
      (betaStep log DBL_MAX perplexity s P sum_P H).beta
        = (if s.max_beta = DBL_MAX ∨ s.max_beta = -DBL_MAX then s.beta * 2
            else (s.beta + s.max_beta) / 2)) ∧
    (¬ (H - log perplexity < 1 / 100000 ∧ -(H - log perplexity) < 1 / 100000) →
      ¬ H - log perplexity > 0 →
      (betaStep log DBL_MAX perplexity s P sum_P H).found = s.found ∧
      (betaStep log DBL_MAX perplexity s P sum_P H).min_beta = s.min_beta ∧
      (betaStep log DBL_MAX perplexity s P sum_P H).max_beta = s.beta ∧
      (betaStep log DBL_MAX perplexity s P sum_P H).beta
        = (if s.min_beta = -DBL_MAX ∨ s.min_beta = DBL_MAX then s.beta / 2
            else (s.beta + s.min_beta) / 2)) := by
  refine ⟨fun h => ?_, fun h1 h2 => ?_, fun h1 h2 => ?_⟩
  · unfold betaStep
    simp only [h, and_self, if_true]
  · unfold betaStep
    simp only [h1, if_false, h2, if_true, and_self]
  · unfold betaStep
    simp only [h1, if_false, h2, and_self]

theorem search_converges {α : Type} [LinearOrderedField α] (log : α → α)
    (DBL_MAX perplexity : α) (Hf : α → α) (L : Nat) (body : Search α → Search α)
    (hbody : ∀ s, ∃ P sum_P H, body s = betaStep log DBL_MAX perplexity s P sum_P H)
    (hH : ∀ s, s.P.length = L → (body s).P.length = L ∧ (body s).H = Hf s.beta)
    (hmax : 1024 < DBL_MAX)
    (ha : ∀ k, k ≤ 9 → 1 / 100000 ≤ Hf (2 ^ k) - log perplexity)
    (hb : Hf 1024 - log perplexity ≤ -(1 / 100000))
    (hc : ∀ x y, 512 ≤ x → x ≤ y → y ≤ 1024 → Hf x - Hf y ≤ 1025 * (y - x))
    (P : List α) (hP : P.length = L) :
    (searchLoop body 200 (searchInit DBL_MAX P)).found = true ∧
    (searchLoop body 200 (searchInit DBL_MAX P)).iter ≤ 46 ∧
    (searchLoop body 200 (searchInit DBL_MAX P)).H
      = Hf (searchLoop body 200 (searchInit DBL_MAX P)).beta ∧
    512 < (searchLoop body 200 (searchInit DBL_MAX P)).beta ∧
    (searchLoop body 200 (searchInit DBL_MAX P)).beta < 1024 := by
  have hiter : ∀ s, (body s).iter = s.iter + 1 := by
    intro s
    obtain ⟨P', sum_P, H, h⟩ := hbody s
    rw [h, betaStep_iter]
  have hinv := searchLoop_inv body
    (fun s => s.P.length = L ∧
      (s.found = true → s.iter ≤ 46 ∧ s.H = Hf s.beta ∧ 512 < s.beta ∧ s.beta < 1024) ∧
      (s.found = false →
        (∃ k, k ≤ 10 ∧ s.iter = k ∧ s.beta = 2 ^ k ∧ s.max_beta = DBL_MAX ∧
          ((k = 0 ∧ s.min_beta = -DBL_MAX) ∨ (1 ≤ k ∧ s.min_beta = 2 ^ (k - 1)))) ∨
        (11 ≤ s.iter ∧ 512 ≤ s.min_beta ∧ s.max_beta ≤ 1024 ∧ s.min_beta < s.max_beta ∧
          s.beta = (s.min_beta + s.max_beta) / 2 ∧
          1 / 100000 ≤ Hf s.min_beta - log perplexity ∧
          Hf s.max_beta - log perplexity ≤ -(1 / 100000) ∧
          (s.max_beta - s.min_beta) * 2 ^ (s.iter - 11) = 512)))
    ?_ 200 (searchInit DBL_MAX P) ?_
  · have hexit := searchLoop_exit body hiter 200 (searchInit DBL_MAX P) (by omega)
    obtain ⟨-, h1, h2⟩ := hinv
    have hfound : (searchLoop body 200 (searchInit DBL_MAX P)).found = true := by
      rcases hexit with h | h
      · exact h
      · by_contra hf
        have hf' : (searchLoop body 200 (searchInit DBL_MAX P)).found = false := by
          simpa using hf
        rcases h2 hf' with ⟨k, hk, hik, -⟩ | ⟨-, hmin, hmaxb, hlt, -, hfa, hfb, hw⟩
        · omega
        · have hlip := hc _ _ hmin (le_of_lt hlt) hmaxb
          have hpow : (2 : α) ^ 35 ≤ 2 ^ ((searchLoop body 200 (searchInit DBL_MAX P)).iter - 11) :=
            pow_le_pow_right₀ (by norm_num) (by omega)
          have hwpos : 0 < (searchLoop body 200 (searchInit DBL_MAX P)).max_beta
              - (searchLoop body 200 (searchInit DBL_MAX P)).min_beta := by linarith
          have := mul_le_mul_of_nonneg_left hpow (le_of_lt hwpos)
          rw [hw] at this
          norm_num at this
          linarith
    obtain ⟨g1, g2, g3, g4⟩ := h1 hfound
    exact ⟨hfound, g1, g2, g3, g4⟩
  · rintro s ⟨hlen, -, hnf⟩ hf hi
    obtain ⟨P', sum_P, H, hb'⟩ := hbody s
    obtain ⟨hl', hH'⟩ := hH s hlen
    have hHv : H = Hf s.beta := by
      rw [← hH', hb', (betaStep_out log DBL_MAX perplexity s P' sum_P H).2.2]
    obtain ⟨c1, c2, c3⟩ := betaStep_fields log DBL_MAX perplexity s P' sum_P H
    have hit : (body s).iter = s.iter + 1 := hiter s
    rw [← hb'] at c1 c2 c3
    rw [hHv] at c1 c2 c3
    refine ⟨hl', ?_, ?_⟩
    · intro hfd
      by_cases hcase : Hf s.beta - log perplexity < 1 / 100000
          ∧ -(Hf s.beta - log perplexity) < 1 / 100000
      · rcases hnf hf with ⟨k, hk, hik, hbk, -, -⟩ | ⟨h11, hmin, hmaxb, hlt, hmid, hfa, hfb, hw⟩
        · exfalso
          rcases Nat.lt_or_ge k 10 with hk9 | hk10
          · have := ha k (by omega)
            rw [hbk] at hcase
            linarith [hcase.1]
          · have hk10' : k = 10 := by omega
            rw [hbk, hk10'] at hcase
            norm_num at hcase
            linarith [hcase.2]
        · have hlip := hc _ _ hmin (le_of_lt hlt) hmaxb
          have hwpos : 0 < s.max_beta - s.min_beta := by linarith
          have hi45 : s.iter ≤ 45 := by
            by_contra hgt
            have hpow : (2 : α) ^ 35 ≤ 2 ^ (s.iter - 11) :=
              pow_le_pow_right₀ (by norm_num) (by omega)
            have := mul_le_mul_of_nonneg_left hpow (le_of_lt hwpos)
            rw [hw] at this
            norm_num at this
            linarith
          refine ⟨by rw [hit]; omega, ?_, ?_, ?_⟩
          · rw [hH', (c1 hcase).2]
          · rw [(c1 hcase).2, hmid]; linarith
          · rw [(c1 hcase).2, hmid]; linarith
      · exfalso
        by_cases hpos : Hf s.beta - log perplexity > 0
        · rw [(c2 hcase hpos).1, hf] at hfd
          exact Bool.noConfusion hfd
        · rw [(c3 hcase hpos).1, hf] at hfd
          exact Bool.noConfusion hfd
    · intro hfd
      have hcase : ¬ (Hf s.beta - log perplexity < 1 / 100000
          ∧ -(Hf s.beta - log perplexity) < 1 / 100000) := by
        intro hh
        rw [(c1 hh).1] at hfd
        exact Bool.noConfusion hfd
      rcases hnf hf with ⟨k, hk, hik, hbk, hmx, hmn⟩ | ⟨h11, hmin, hmaxb, hlt, hmid, hfa, hfb, hw⟩
      · rcases Nat.lt_or_ge k 10 with hk9 | hk10
        · have hak := ha k (by omega)
          rw [← hbk] at hak
          have hpos : Hf s.beta - log perplexity > 0 := by linarith
          obtain ⟨-, d2, d3, d4⟩ := c2 hcase hpos
          left
          refine ⟨k + 1, by omega, by rw [hit, hik], ?_, by rw [d3, hmx], Or.inr ⟨by omega, ?_⟩⟩
          · rw [d4, if_pos (Or.inl hmx), hbk, pow_succ]
          · rw [d2, hbk]; simp
        · have hk10' : k = 10 := by omega
          subst hk10'
          have hb1024 : s.beta = 1024 := by rw [hbk]; norm_num
          have hpos : ¬ Hf s.beta - log perplexity > 0 := by
            rw [hb1024]; linarith
          obtain ⟨-, d2, d3, d4⟩ := c3 hcase hpos
          have hmn512 : s.min_beta = 512 := by
            rcases hmn with ⟨h, -⟩ | ⟨-, h⟩
            · omega
            · rw [h]; norm_num
          have hne : ¬ (s.min_beta = -DBL_MAX ∨ s.min_beta = DBL_MAX) := by
            rw [hmn512]
            rintro (h | h) <;> linarith
          rw [if_neg hne] at d4
          right
          refine ⟨by rw [hit, hik], by rw [d2, hmn512], by rw [d3, hb1024], ?_, ?_, ?_, ?_, ?_⟩
          · rw [d2, d3, hmn512, hb1024]; norm_num
          · rw [d4, d2, d3, add_comm]
          · rw [d2, hmn512]
            have := ha 9 (Nat.le_refl _)
            norm_num at this ⊢
            exact this
          · rw [d3, hb1024]; exact hb
          · rw [d2, d3, hmn512, hb1024, hit, hik]; norm_num
      · have hbm : s.min_beta < s.beta ∧ s.beta < s.max_beta := by
          rw [hmid]; constructor <;> linarith
        have hpw : (2 : α) ^ ((body s).iter - 11) = 2 ^ (s.iter - 11) * 2 := by
          rw [hit, show s.iter + 1 - 11 = (s.iter - 11) + 1 by omega, pow_succ]
        right
        by_cases hpos : Hf s.beta - log perplexity > 0
        · obtain ⟨-, d2, d3, d4⟩ := c2 hcase hpos
          have hne : ¬ (s.max_beta = DBL_MAX ∨ s.max_beta = -DBL_MAX) := by
            rintro (h | h) <;> linarith
          rw [if_neg hne] at d4
          have htol : 1 / 100000 ≤ Hf s.beta - log perplexity := by
            by_contra hlt'
            exact hcase ⟨lt_of_not_le hlt', by linarith⟩
          refine ⟨by rw [hit]; omega, by rw [d2]; linarith, by rw [d3]; exact hmaxb,
            by rw [d2, d3]; exact hbm.2, by rw [d4, d2, d3], by rw [d2]; exact htol,
            by rw [d3]; exact hfb, ?_⟩
          rw [d2, d3, hpw, hmid, ← hw]
          ring
        · obtain ⟨-, d2, d3, d4⟩ := c3 hcase hpos
          have hne : ¬ (s.min_beta = -DBL_MAX ∨ s.min_beta = DBL_MAX) := by
            rintro (h | h) <;> linarith
          rw [if_neg hne] at d4
          have htol : Hf s.beta - log perplexity ≤ -(1 / 100000) := by
            by_contra hlt'
            exact hcase ⟨by linarith [not_lt.1 hpos], by linarith [lt_of_not_le hlt']⟩
          refine ⟨by rw [hit]; omega, by rw [d2]; exact hmin, by rw [d3]; linarith,
            by rw [d2, d3]; exact hbm.1, by rw [d4, d2, d3, add_comm], by rw [d2]; exact hfa,
            by rw [d3]; exact htol, ?_⟩
          rw [d2, d3, hpw, hmid, ← hw]
          ring
  · refine ⟨hP, fun h => by simp [searchInit] at h, fun _ => Or.inl ⟨0, by omega, rfl, ?_, rfl,
      Or.inl ⟨rfl, rfl⟩⟩⟩
    simp [searchInit]

theorem denseBody_H {α : Type} [LinearOrderedField α] (exp log : α → α)
    (DBL_MIN DBL_MAX : α) (DD : List α) (N n : Nat) (perplexity : α) (s : Search α) :
    (denseBody exp log DBL_MIN DBL_MAX DD N n perplexity s).H
      = (∑ m ∈ Finset.range N, s.beta * (rd DD (n * N + m)
          * rd (denseBody exp log DBL_MIN DBL_MAX DD N n perplexity s).P (n * N + m)))
        / (denseBody exp log DBL_MIN DBL_MAX DD N n perplexity s).sum_P
        + log (denseBody exp log DBL_MIN DBL_MAX DD N n perplexity s).sum_P := by
  obtain ⟨o1, o2, o3⟩ := denseBody_out exp log DBL_MIN DBL_MAX DD N n perplexity s
  rw [o3, ← o2, ← o1, forLoop_acc, zero_add]

theorem denseBody_equidistant {α : Type} [LinearOrderedField α] (exp log : α → α)
    (DBL_MIN DBL_MAX : α) (DD : List α) (perplexity : α) (s : Search α)
    (h0 : rd DD 0 = 0) (h1 : rd DD 1 = 1) (h2 : rd DD 2 = 1) (h3 : rd DD 3 = 1)
    (hlen : s.P.length = 4 * 4) :
    (denseBody exp log DBL_MIN DBL_MAX DD 4 0 perplexity s).P.length = 4 * 4 ∧
    (denseBody exp log DBL_MIN DBL_MAX DD 4 0 perplexity s).H
      = equidistantH exp log DBL_MIN s.beta := by
  obtain ⟨r1, r2, -, r4⟩ := denseBody_row exp log DBL_MIN DBL_MAX DD 4 0 perplexity s
    (by norm_num) hlen
  refine ⟨r1, ?_⟩
  have p0 := r2 0 (by norm_num)
  have p1 := r2 1 (by norm_num)
  have p2 := r2 2 (by norm_num)
  have p3 := r2 3 (by norm_num)
  simp only [Nat.zero_mul, Nat.zero_add, if_true, Nat.succ_ne_zero, if_false, h1, h2, h3,
    mul_one, one_ne_zero, OfNat.ofNat_ne_zero] at p0 p1 p2 p3
  rw [denseBody_H, r4]
  simp only [Finset.sum_range_succ, Finset.sum_range_zero, Nat.zero_mul, Nat.zero_add, p0, p1,
    p2, p3, h0, h1, h2, h3]
  unfold equidistantH
  ring_nf

theorem exp_le_two_pow_768 (b : ℝ) (hb : b ≤ 512) : Real.exp b ≤ 2 ^ 768 := by
  have h1 : Real.exp b ≤ Real.exp 512 := Real.exp_le_exp.2 hb
  have h2 : Real.exp (512 : ℝ) = Real.exp 1 ^ 512 := by
    rw [← Real.exp_nat_mul]; norm_num
  have h3 : Real.exp 1 ^ 2 ≤ 8 := by
    have := Real.exp_one_lt_d9
    have hp := Real.exp_pos 1
    nlinarith
  have h4 : Real.exp 1 ^ 512 = (Real.exp 1 ^ 2) ^ 256 := by rw [← pow_mul]
  have h5 : (Real.exp 1 ^ 2) ^ 256 ≤ (8 : ℝ) ^ 256 := pow_le_pow_left₀ (by positivity) h3 256
  have h6 : (8 : ℝ) ^ 256 = 2 ^ 768 := by norm_num
  linarith

theorem two_pow_le_exp_1024 : (2 : ℝ) ^ 1024 ≤ Real.exp 1024 := by
  have h2 : Real.exp (1024 : ℝ) = Real.exp 1 ^ 1024 := by
    rw [← Real.exp_nat_mul]; norm_num
  rw [h2]
  have : (2 : ℝ) ≤ Real.exp 1 := by
    have := Real.add_one_le_exp (1 : ℝ)
    linarith
  exact pow_le_pow_left₀ (by norm_num) this 1024

theorem equidistantH_low (b : ℝ) (hb : b ≤ 512) :
    1 / 100000 ≤ equidistantH Real.exp Real.log dbl_min b - Real.log 2 := by
  unfold equidistantH dbl_min
  have he := exp_le_two_pow_768 b hb
  have hep := Real.exp_pos b
  have hg : 0 < 3 * Real.exp (-b) := by positivity
  have hm : (0 : ℝ) < 2 * (1 / 2 ^ 1022) := by positivity
  have hS : 0 < 2 * (1 / 2 ^ 1022) + 3 * Real.exp (-b) := by positivity
  have hlog : Real.log 3 - b ≤ Real.log (2 * (1 / 2 ^ 1022) + 3 * Real.exp (-b)) := by
    have h : Real.log (3 * Real.exp (-b)) = Real.log 3 - b := by
      rw [Real.log_mul (by norm_num) (Real.exp_pos _).ne', Real.log_exp]
      ring
    rw [← h]
    exact Real.log_le_log hg (by linarith)
  have hgl : (3 : ℝ) / 2 ^ 768 ≤ 3 * Real.exp (-b) := by
    rw [Real.exp_neg, div_eq_mul_inv]
    have : ((2 : ℝ) ^ 768)⁻¹ ≤ (Real.exp b)⁻¹ := inv_anti₀ hep he
    linarith
  have hfrac : b - 1 / 100
      ≤ b * (3 * Real.exp (-b)) / (2 * (1 / 2 ^ 1022) + 3 * Real.exp (-b)) := by
    rw [le_div_iff₀ hS]
    have h1 : b * (2 * (1 / 2 ^ 1022)) ≤ (3 : ℝ) / 2 ^ 768 / 100 := by
      have : b * (2 * (1 / 2 ^ 1022)) ≤ 512 * (2 * (1 / 2 ^ 1022)) :=
        mul_le_mul_of_nonneg_right hb (le_of_lt hm)
      have h2 : (512 : ℝ) * (2 * (1 / 2 ^ 1022)) ≤ 3 / 2 ^ 768 / 100 := by norm_num
      linarith
    nlinarith
  have hl3 : 1 < Real.log 3 := by
    rw [Real.lt_log_iff_exp_lt (by norm_num)]
    have := Real.exp_one_lt_d9
    linarith
  have hl2 := Real.log_two_lt_d9
  linarith

theorem equidistantH_high :
    equidistantH Real.exp Real.log dbl_min 1024 - Real.log 2 ≤ -(1 / 100000) := by
  unfold equidistantH dbl_min
  have he := two_pow_le_exp_1024
  have hep := Real.exp_pos 1024
  have hg : 0 < 3 * Real.exp (-1024) := by positivity
  have hm : (0 : ℝ) < 2 * (1 / 2 ^ 1022) := by positivity
  have hS : 0 < 2 * (1 / 2 ^ 1022) + 3 * Real.exp (-1024) := by positivity
  have hgu : 3 * Real.exp (-1024) ≤ (3 : ℝ) / 2 ^ 1024 := by
    rw [Real.exp_neg, div_eq_mul_inv]
    have : (Real.exp 1024)⁻¹ ≤ ((2 : ℝ) ^ 1024)⁻¹ := inv_anti₀ (by positivity) he
    linarith
  have hfrac : 1024 * (3 * Real.exp (-1024)) / (2 * (1 / 2 ^ 1022) + 3 * Real.exp (-1024))
      ≤ 384 := by
    rw [div_le_iff₀ hS]
    have h2 : (1024 : ℝ) * (3 / 2 ^ 1024) ≤ 384 * (2 * (1 / 2 ^ 1022)) := by norm_num
    nlinarith
  have hlog : Real.log (2 * (1 / 2 ^ 1022) + 3 * Real.exp (-1024))
      ≤ -(1020 * Real.log 2) := by
    have h1 : 2 * (1 / 2 ^ 1022) + 3 * Real.exp (-1024) ≤ ((2 : ℝ) ^ 1020)⁻¹ := by
      have h2 : (2 : ℝ) * (1 / 2 ^ 1022) + 3 / 2 ^ 1024 ≤ ((2 : ℝ) ^ 1020)⁻¹ := by norm_num
      linarith
    have h3 := Real.log_le_log hS h1
    rw [Real.log_inv, Real.log_pow] at h3
    norm_num at h3 ⊢
    exact h3
  have hl2 := Real.log_two_gt_d9
  linarith

theorem equidistantH_lipschitz (x y : ℝ) (hx : 0 ≤ x) (hxy : x ≤ y) (hy : y ≤ 1024) :
    equidistantH Real.exp Real.log dbl_min x - equidistantH Real.exp Real.log dbl_min y
      ≤ 1025 * (y - x) := by
  unfold equidistantH dbl_min
  have hm : (0 : ℝ) < 2 * (1 / 2 ^ 1022) := by positivity
  generalize (2 : ℝ) * (1 / 2 ^ 1022) = m at hm
  have hgx : 0 < 3 * Real.exp (-x) := by positivity
  have hgy : 0 < 3 * Real.exp (-y) := by positivity
  have hd : 0 ≤ y - x := by linarith
  have hrel : 3 * Real.exp (-y) * Real.exp (y - x) = 3 * Real.exp (-x) := by
    rw [mul_assoc, ← Real.exp_add]
    congr 2
    ring
  have hrel2 : 3 * Real.exp (-y) = 3 * Real.exp (-x) * Real.exp (-(y - x)) := by
    rw [mul_assoc, ← Real.exp_add]
    congr 2
    ring
  have hone : 1 ≤ Real.exp (y - x) := Real.one_le_exp hd
  have hSx : 0 < m + 3 * Real.exp (-x) := by positivity
  have hSy : 0 < m + 3 * Real.exp (-y) := by positivity
  have hlog : Real.log (m + 3 * Real.exp (-x)) ≤ Real.log (m + 3 * Real.exp (-y)) + (y - x) := by
    have h1 : m + 3 * Real.exp (-x) ≤ (m + 3 * Real.exp (-y)) * Real.exp (y - x) := by
      rw [add_mul, hrel]
      nlinarith
    have h2 := Real.log_le_log hSx h1
    rw [Real.log_mul hSy.ne' (Real.exp_pos _).ne', Real.log_exp] at h2
    exact h2
  have hexp : 1 - (y - x) ≤ Real.exp (-(y - x)) := by
    have := Real.add_one_le_exp (-(y - x))
    linarith
  have hfrac : 3 * Real.exp (-x) / (m + 3 * Real.exp (-x))
      ≤ 3 * Real.exp (-y) / (m + 3 * Real.exp (-y)) + (y - x) := by
    rw [div_add' _ _ _ hSy.ne', div_le_div_iff₀ hSx hSy]
    have hdiff : 3 * Real.exp (-x) - 3 * Real.exp (-y) ≤ (y - x) * (3 * Real.exp (-x)) := by
      rw [hrel2]
      nlinarith
    have hprod : m * ((y - x) * (3 * Real.exp (-x)))
        ≤ (y - x) * ((m + 3 * Real.exp (-y)) * (m + 3 * Real.exp (-x))) := by
      have : m * (3 * Real.exp (-x)) ≤ (m + 3 * Real.exp (-y)) * (m + 3 * Real.exp (-x)) := by
        nlinarith
      nlinarith
    nlinarith
  have hfy : 0 ≤ 3 * Real.exp (-y) / (m + 3 * Real.exp (-y)) := by positivity
  have e1 : x * (3 * Real.exp (-x)) / (m + 3 * Real.exp (-x))
      = x * (3 * Real.exp (-x) / (m + 3 * Real.exp (-x))) := mul_div_assoc _ _ _
  have e2 : y * (3 * Real.exp (-y)) / (m + 3 * Real.exp (-y))
      = y * (3 * Real.exp (-y) / (m + 3 * Real.exp (-y))) := mul_div_assoc _ _ _
  rw [e1, e2]
  have h1 := mul_le_mul_of_nonneg_left hfrac hx
  have h2 := mul_le_mul_of_nonneg_right hxy hfy
  have h3 : x * (y - x) ≤ 1024 * (y - x) := mul_le_mul_of_nonneg_right (by linarith) hd
  rw [mul_add] at h1
  linarith

/-- When the dense search of the equidistant row ends with `found`, its kernel row is
`[DBL_MIN, e, e, e]` with `e = exp (-beta)` for the returned `beta`. -/
theorem denseSearch_equidistant {α : Type} [LinearOrderedField α] (exp log : α → α)
    (DBL_MIN DBL_MAX : α) (DD : List α) (perplexity : α) (P : List α)
    (h1 : rd DD 1 = 1) (h2 : rd DD 2 = 1) (h3 : rd DD 3 = 1) (hlen : P.length = 4 * 4) :
    (denseSearch exp log DBL_MIN DBL_MAX DD 4 0 perplexity P).found = true →
      rd (denseSearch exp log DBL_MIN DBL_MAX DD 4 0 perplexity P).P 0 = DBL_MIN ∧
      (∀ m, 1 ≤ m → m < 4 →
        rd (denseSearch exp log DBL_MIN DBL_MAX DD 4 0 perplexity P).P m
          = exp (-(denseSearch exp log DBL_MIN DBL_MAX DD 4 0 perplexity P).beta)) ∧
      (denseSearch exp log DBL_MIN DBL_MAX DD 4 0 perplexity P).sum_P
        = 2 * DBL_MIN
          + 3 * exp (-(denseSearch exp log DBL_MIN DBL_MAX DD 4 0 perplexity P).beta) := by
  have hinv := searchLoop_inv (denseBody exp log DBL_MIN DBL_MAX DD 4 0 perplexity)
    (fun s => s.P.length = 4 * 4 ∧ (s.found = true →
      rd s.P 0 = DBL_MIN ∧ (∀ m, 1 ≤ m → m < 4 → rd s.P m = exp (-s.beta)) ∧
      s.sum_P = 2 * DBL_MIN + 3 * exp (-s.beta)))
    (fun s hs hf _ => by
      obtain ⟨r1, r2, -, r4⟩ := denseBody_row exp log DBL_MIN DBL_MAX DD 4 0 perplexity s
        (by norm_num) hs.1
      refine ⟨r1, fun hfound => ?_⟩
      have hbeta : (denseBody exp log DBL_MIN DBL_MAX DD 4 0 perplexity s).beta = s.beta := by
        obtain ⟨P', sum_P, H, h⟩ := denseBody_eq exp log DBL_MIN DBL_MAX DD 4 0 perplexity s
        rw [h] at hfound ⊢
        obtain ⟨b1, b2, b3⟩ := betaStep_fields log DBL_MAX perplexity s P' sum_P H
        by_cases c : H - log perplexity < 1 / 100000 ∧ -(H - log perplexity) < 1 / 100000
        · exact (b1 c).2
        · by_cases c2 : H - log perplexity > 0
          · rw [(b2 c c2).1, hf] at hfound
            exact absurd hfound (by simp)
          · rw [(b3 c c2).1, hf] at hfound
            exact absurd hfound (by simp)
      have p0 := r2 0 (by norm_num)
      have p1 := r2 1 (by norm_num)
      have p2 := r2 2 (by norm_num)
      have p3 := r2 3 (by norm_num)
      simp only [Nat.zero_mul, Nat.zero_add, if_true, Nat.succ_ne_zero, if_false, h1, h2, h3,
        mul_one, one_ne_zero, OfNat.ofNat_ne_zero] at p0 p1 p2 p3
      refine ⟨p0, fun m hm1 hm4 => ?_, ?_⟩
      · rw [hbeta]
        interval_cases m
        · exact p1
        · exact p2
        · exact p3
      · rw [r4, hbeta]
        simp only [Finset.sum_range_succ, Finset.sum_range_zero, Nat.zero_mul, Nat.zero_add, p0,
          p1, p2, p3]
        ring)
    200 (searchInit DBL_MAX P) ⟨hlen, fun h => by simp [searchInit] at h⟩
  exact hinv.2

theorem log_three_gt : (1095 : ℝ) / 1000 < Real.log 3 := by
  have h9 : Real.log 9 = 2 * Real.log 3 := by
    have : (9 : ℝ) = 3 ^ 2 := by norm_num
    rw [this, Real.log_pow]
    norm_num
  have h8 : Real.log 8 = 3 * Real.log 2 := by
    have : (8 : ℝ) = 2 ^ 3 := by norm_num
    rw [this, Real.log_pow]
    norm_num
  have hm : Real.log 9 = Real.log 8 + Real.log (9 / 8) := by
    rw [← Real.log_mul (by norm_num) (by norm_num)]
    norm_num
  have hl : 1 - ((9 : ℝ) / 8)⁻¹ ≤ Real.log (9 / 8) :=
    Real.one_sub_inv_le_log_of_pos (by norm_num)
  have h2 := Real.log_two_gt_d9
  norm_num at hl h2
  linarith

/-- The Shannon entropy of the row that the dense calibration returns for three
equidistant neighbours and target perplexity 2 (real arithmetic, `DBL_MIN = 2^-1022`)
exceeds `log 2` by more than `1/25`, with or without the cell of the point itself; the
three neighbours have equal weights. -/
theorem equidistant_row_entropy (DD P : List ℝ) (h0 : rd DD 0 = 0) (h1 : rd DD 1 = 1)
    (h2 : rd DD 2 = 1) (h3 : rd DD 3 = 1) (hlen : P.length = 4 * 4) :
    Real.log 2 + 1 / 25
      < shannonEntropy Real.log (denseRow Real.exp Real.log dbl_min dbl_max DD 4 2 P 0) 0 4 ∧
    Real.log 2 + 1 / 25
      < shannonEntropy Real.log (denseRow Real.exp Real.log dbl_min dbl_max DD 4 2 P 0) 1 3 ∧
    rd (denseRow Real.exp Real.log dbl_min dbl_max DD 4 2 P 0) 1
      = rd (denseRow Real.exp Real.log dbl_min dbl_max DD 4 2 P 0) 2 ∧
    rd (denseRow Real.exp Real.log dbl_min dbl_max DD 4 2 P 0) 2
      = rd (denseRow Real.exp Real.log dbl_min dbl_max DD 4 2 P 0) 3 := by
  have hconv := search_converges Real.log dbl_max 2 (equidistantH Real.exp Real.log dbl_min)
    (4 * 4) (denseBody Real.exp Real.log dbl_min dbl_max DD 4 0 2)
    (denseBody_eq Real.exp Real.log dbl_min dbl_max DD 4 0 2)
    (fun s hs => denseBody_equidistant Real.exp Real.log dbl_min dbl_max DD 2 s h0 h1 h2 h3 hs)
    (by unfold dbl_max; norm_num)
    (fun k hk => equidistantH_low _ (by
      have : (2 : ℝ) ^ k ≤ 2 ^ 9 := pow_le_pow_right₀ (by norm_num) hk
      norm_num at this ⊢
      exact this))
    equidistantH_high
    (fun x y hx hxy hy => equidistantH_lipschitz x y (by linarith) hxy hy)
    P hlen
  have hspec := searchLoop_spec Real.log dbl_max 2
    (denseBody Real.exp Real.log dbl_min dbl_max DD 4 0 2)
    (denseBody_eq Real.exp Real.log dbl_min dbl_max DD 4 0 2) P
  obtain ⟨c1, -, c3, c4, c5⟩ := hconv
  have hH := hspec.2.2.2.2 c1
  rw [c3] at hH
  have hrow := denseSearch_equidistant Real.exp Real.log dbl_min dbl_max DD 2 P h1 h2 h3 hlen c1
  obtain ⟨q0, q1, qs⟩ := hrow
  have r0 := denseRow_rd Real.exp Real.log dbl_min dbl_max DD 4 2 P 0 0 (by norm_num)
  have r1 := denseRow_rd Real.exp Real.log dbl_min dbl_max DD 4 2 P 0 1 (by norm_num)
  have r2 := denseRow_rd Real.exp Real.log dbl_min dbl_max DD 4 2 P 0 2 (by norm_num)
  have r3 := denseRow_rd Real.exp Real.log dbl_min dbl_max DD 4 2 P 0 3 (by norm_num)
  simp only [Nat.zero_mul, Nat.zero_add] at r0 r1 r2 r3
  rw [q0, qs] at r0
  rw [q1 1 (by norm_num) (by norm_num), qs] at r1
  rw [q1 2 (by norm_num) (by norm_num), qs] at r2
  rw [q1 3 (by norm_num) (by norm_num), qs] at r3
  change |equidistantH Real.exp Real.log dbl_min
    (denseSearch Real.exp Real.log dbl_min dbl_max DD 4 0 2 P).beta - Real.log 2|
      < 1 / 100000 at hH
  change 512 < (denseSearch Real.exp Real.log dbl_min dbl_max DD 4 0 2 P).beta at c4
  change (denseSearch Real.exp Real.log dbl_min dbl_max DD 4 0 2 P).beta < 1024 at c5
  generalize (denseSearch Real.exp Real.log dbl_min dbl_max DD 4 0 2 P).beta = β at *
  generalize hrowdef : denseRow Real.exp Real.log dbl_min dbl_max DD 4 2 P 0 = row at *
  unfold equidistantH at hH
  have hm : (0 : ℝ) < dbl_min := by unfold dbl_min; positivity
  have hm8 : 8 * (dbl_min : ℝ) = 1 / 2 ^ 1019 := by unfold dbl_min; norm_num
  generalize (dbl_min : ℝ) = mn at *
  have he : 0 < Real.exp (-β) := Real.exp_pos _
  generalize Real.exp (-β) = e at *
  have hS : 0 < 2 * mn + 3 * e := by positivity
  have hl2 := Real.log_two_gt_d9
  have hl2' := Real.log_two_lt_d9
  have hl3 := log_three_gt
  norm_num at hl2 hl2'
  obtain ⟨hHl, hHu⟩ := abs_lt.1 hH
  -- the three neighbours carry at least 68% of the normalizer
  have hu : 68 / 100 * (2 * mn + 3 * e) ≤ 3 * e := by
    by_contra hcon
    push_neg at hcon
    have hSlt : 2 * mn + 3 * e < 1 / 2 ^ 1019 := by
      rw [← hm8]
      linarith
    have hlog : Real.log (2 * mn + 3 * e) < -(1019 * Real.log 2) := by
      have h := Real.log_lt_log hS hSlt
      rw [one_div, Real.log_inv, Real.log_pow] at h
      push_cast at h
      exact h
    have hfrac : 3 * e / (2 * mn + 3 * e) < 68 / 100 := by
      rw [div_lt_iff₀ hS]
      exact hcon
    have hfrac0 : 0 ≤ 3 * e / (2 * mn + 3 * e) := by positivity
    have hprod : β * (3 * e) / (2 * mn + 3 * e) ≤ 1024 * (68 / 100) := by
      rw [mul_div_assoc]
      exact mul_le_mul (by linarith) (le_of_lt hfrac) hfrac0 (by norm_num)
    linarith
  have hp1 : 0 < e / (2 * mn + 3 * e) := by positivity
  have hp1le : e / (2 * mn + 3 * e) ≤ 1 / 3 := by
    rw [div_le_iff₀ hS]
    linarith
  have hlogp1 : Real.log (e / (2 * mn + 3 * e)) ≤ -Real.log 3 := by
    have h := Real.log_le_log hp1 hp1le
    rw [one_div, Real.log_inv] at h
    exact h
  have hp1ge : 68 / 300 ≤ e / (2 * mn + 3 * e) := by
    rw [le_div_iff₀ hS]
    linarith
  have hterm : e / (2 * mn + 3 * e) * Real.log (e / (2 * mn + 3 * e))
      ≤ -(68 / 300 * Real.log 3) := by
    have ha : e / (2 * mn + 3 * e) * Real.log (e / (2 * mn + 3 * e))
        ≤ e / (2 * mn + 3 * e) * (-Real.log 3) :=
      mul_le_mul_of_nonneg_left hlogp1 (le_of_lt hp1)
    have hb : 68 / 300 * Real.log 3 ≤ e / (2 * mn + 3 * e) * Real.log 3 :=
      mul_le_mul_of_nonneg_right hp1ge (by linarith)
    linarith
  have hp0 : 0 < mn / (2 * mn + 3 * e) := by positivity
  have hp0le : mn / (2 * mn + 3 * e) ≤ 1 := by
    rw [div_le_one hS]
    linarith
  have hterm0 : mn / (2 * mn + 3 * e) * Real.log (mn / (2 * mn + 3 * e)) ≤ 0 :=
    mul_nonpos_of_nonneg_of_nonpos (le_of_lt hp0) (Real.log_nonpos (le_of_lt hp0) hp0le)
  refine ⟨?_, ?_, by rw [r1, r2], by rw [r2, r3]⟩
  · unfold shannonEntropy
    simp only [Finset.sum_range_succ, Finset.sum_range_zero, Nat.zero_add, r0, r1, r2, r3]
    linarith
  · unfold shannonEntropy
    simp only [Finset.sum_range_succ, Finset.sum_range_zero, Nat.add_zero, r1, r2, r3]
    linarith

/-- C11, as stated, fails: for the row of squared distances `[0, 1, 1, 1]` and target
perplexity 2 (real arithmetic, `DBL_MIN = 2^-1022`) the entropy induced by the returned
bandwidth is not within `1e-5` of `log 2`.  The three neighbours are equidistant, so
they get equal weights for every bandwidth, and the Shannon entropy of the returned row
exceeds `log 2` by more than `1/25` (it is about `log 3`), whether the cell of the point
itself is counted or not.  The search ends all the same: the quantity `H` that the loop
compares with `log 2` is not the entropy of the row, because the cell of the point itself
and the initial value of `sum_P` are set to `DBL_MIN`. -/
theorem calibration_converges_counterexample :
    (denseSearch Real.exp Real.log dbl_min dbl_max equidistantDD 4 0 2
      (List.replicate 16 0)).found = true ∧
    Real.log 2 + 1 / 25
      < shannonEntropy Real.log (denseRow Real.exp Real.log dbl_min dbl_max equidistantDD 4 2
          (List.replicate 16 0) 0) 0 4 ∧
    Real.log 2 + 1 / 25
      < shannonEntropy Real.log (denseRow Real.exp Real.log dbl_min dbl_max equidistantDD 4 2
          (List.replicate 16 0) 0) 1 3 ∧
    rd (denseRow Real.exp Real.log dbl_min dbl_max equidistantDD 4 2 (List.replicate 16 0) 0) 1
      = rd (denseRow Real.exp Real.log dbl_min dbl_max equidistantDD 4 2
          (List.replicate 16 0) 0) 2 ∧
    rd (denseRow Real.exp Real.log dbl_min dbl_max equidistantDD 4 2 (List.replicate 16 0) 0) 2
      = rd (denseRow Real.exp Real.log dbl_min dbl_max equidistantDD 4 2
          (List.replicate 16 0) 0) 3 := by
  obtain ⟨e1, e2, e3, e4⟩ :=
    equidistant_row_entropy equidistantDD (List.replicate 16 0) rfl rfl rfl rfl rfl
  exact ⟨(search_converges Real.log dbl_max 2 (equidistantH Real.exp Real.log dbl_min)
    (4 * 4) (denseBody Real.exp Real.log dbl_min dbl_max equidistantDD 4 0 2)
    (denseBody_eq Real.exp Real.log dbl_min dbl_max equidistantDD 4 0 2)
    (fun s hs => denseBody_equidistant Real.exp Real.log dbl_min dbl_max equidistantDD 2 s
      rfl rfl rfl rfl hs)
    (by unfold dbl_max; norm_num)
    (fun k hk => equidistantH_low _ (by
      have : (2 : ℝ) ^ k ≤ 2 ^ 9 := pow_le_pow_right₀ (by norm_num) hk
      norm_num at this ⊢
      exact this))
    equidistantH_high
    (fun x y hx hxy hy => equidistantH_lipschitz x y (by linarith) hxy hy)
    (List.replicate 16 0) rfl).1, e1, e2, e3, e4⟩

/-- C11 (amended): in real arithmetic with `DBL_MIN = 2^-1022`, for every distance matrix
whose row `0` is `[0, 1, 1, 1]` and target perplexity 2, the dense calibration loop of row
`0` ends with `found = true` after fewer than 200 iterations (at most 46), and the loop
variable `H` computed for the returned bandwidth `beta`, which is `equidistantH beta`
(`beta * 3e / S + log S` with `e = exp (-beta)` and `S = 2 * DBL_MIN + 3e`, the two
`DBL_MIN` being the cell of the point itself and the initial value of `sum_P`), is within
`1e-5` of `log 2`. -/
theorem calibration_converges (DD P : List ℝ) (h0 : rd DD 0 = 0) (h1 : rd DD 1 = 1)
    (h2 : rd DD 2 = 1) (h3 : rd DD 3 = 1) (hlen : P.length = 4 * 4) :
    (denseSearch Real.exp Real.log dbl_min dbl_max DD 4 0 2 P).found = true ∧
    (denseSearch Real.exp Real.log dbl_min dbl_max DD 4 0 2 P).iter < 200 ∧
    (denseSearch Real.exp Real.log dbl_min dbl_max DD 4 0 2 P).iter ≤ 46 ∧
    (denseSearch Real.exp Real.log dbl_min dbl_max DD 4 0 2 P).H
      = equidistantH Real.exp Real.log dbl_min
          (denseSearch Real.exp Real.log dbl_min dbl_max DD 4 0 2 P).beta ∧
    |equidistantH Real.exp Real.log dbl_min
        (denseSearch Real.exp Real.log dbl_min dbl_max DD 4 0 2 P).beta - Real.log 2|
      < 1 / 100000 := by
  have hconv := search_converges Real.log dbl_max 2 (equidistantH Real.exp Real.log dbl_min)
    (4 * 4) (denseBody Real.exp Real.log dbl_min dbl_max DD 4 0 2)
    (denseBody_eq Real.exp Real.log dbl_min dbl_max DD 4 0 2)
    (fun s hs => denseBody_equidistant Real.exp Real.log dbl_min dbl_max DD 2 s h0 h1 h2 h3 hs)
    (by unfold dbl_max; norm_num)
    (fun k hk => equidistantH_low _ (by
      have : (2 : ℝ) ^ k ≤ 2 ^ 9 := pow_le_pow_right₀ (by norm_num) hk
      norm_num at this ⊢
      exact this))
    equidistantH_high
    (fun x y hx hxy hy => equidistantH_lipschitz x y (by linarith) hxy hy)
    P hlen
  have hspec := searchLoop_spec Real.log dbl_max 2
    (denseBody Real.exp Real.log dbl_min dbl_max DD 4 0 2)
    (denseBody_eq Real.exp Real.log dbl_min dbl_max DD 4 0 2) P
  obtain ⟨c1, c2, c3, -, -⟩ := hconv
  have hH : |(denseSearch Real.exp Real.log dbl_min dbl_max DD 4 0 2 P).H - Real.log 2|
      < 1 / 100000 := hspec.2.2.2.2 c1
  have c3' : (denseSearch Real.exp Real.log dbl_min dbl_max DD 4 0 2 P).H
      = equidistantH Real.exp Real.log dbl_min
          (denseSearch Real.exp Real.log dbl_min dbl_max DD 4 0 2 P).beta := c3
  have c2' : (denseSearch Real.exp Real.log dbl_min dbl_max DD 4 0 2 P).iter ≤ 46 := c2
  refine ⟨c1, by omega, c2', c3', ?_⟩
  rw [← c3']
  exact hH

theorem calibration_converges_witness :
    (denseSearch Real.exp Real.log dbl_min dbl_max equidistantDD 4 0 2
      (List.replicate 16 0)).found = true ∧
    (denseSearch Real.exp Real.log dbl_min dbl_max equidistantDD 4 0 2
      (List.replicate 16 0)).iter < 200 :=
  ⟨(calibration_converges equidistantDD (List.replicate 16 0) rfl rfl rfl rfl rfl).1,
    (calibration_converges equidistantDD (List.replicate 16 0) rfl rfl rfl rfl rfl).2.1⟩

/-! ## The distance matrix of the exact `evaluateError` (C21) -/

theorem length_computeSquaredEuclideanDistance (X : List ℚ) (N D : Nat) (DD : List ℚ) :
    (computeSquaredEuclideanDistance X N D DD).length = DD.length := by
  unfold computeSquaredEuclideanDistance
  simp only
  generalize forLoop 0 N (fun dataSums n => forLoop 0 D
      (fun dataSums d => dataSums.set n (rd dataSums n + rd X (n * D + d) * rd X (n * D + d)))
      dataSums) (List.replicate N 0) = dataSums
  obtain ⟨l1, -⟩ := forLoop_rows_set N (fun n m _ => rd dataSums n + rd dataSums m) DD N
  obtain ⟨l2, -⟩ := forLoop_rows_set N
    (fun m n _ => forLoop 0 D (fun acc d => acc + (-2 * rd X (n * D + d)) * rd X (m * D + d)) 0)
    (forLoop 0 N (fun DD n => forLoop 0 N
      (fun DD m => DD.set (n * N + m) (rd dataSums n + rd dataSums m)) DD) DD) N
  exact l2.trans l1

theorem rd_take {α : Type} [Zero α] (l : List α) (k i : Nat) (h : i < k) :
    rd (l.take k) i = rd l i := by
  unfold rd
  rw [List.getD_eq_getElem?_getD, List.getD_eq_getElem?_getD, List.getElem?_take_of_lt h]

theorem computeSquaredEuclideanDistance_take (Y : List ℚ) (N D : Nat) :
    computeSquaredEuclideanDistance (Y.take (N * D)) N D (List.replicate (N * N) 0)
      = computeSquaredEuclideanDistance Y N D (List.replicate (N * N) 0) := by
  apply ext_rd
  · rw [length_computeSquaredEuclideanDistance, length_computeSquaredEuclideanDistance]
  · intro j hj
    rw [length_computeSquaredEuclideanDistance, List.length_replicate] at hj
    have hN : 0 < N := by
      rcases Nat.eq_zero_or_pos N with h | h
      · rw [h] at hj; simp at hj
      · exact h
    have hjd : j = j / N * N + j % N := by
      rw [Nat.mul_comm]; exact (Nat.div_add_mod j N).symm
    have hm : j / N < N := by
      rw [Nat.div_lt_iff_lt_mul hN]; exact hj
    have hn : j % N < N := Nat.mod_lt _ hN
    rw [hjd, computeSquaredEuclideanDistance_spec _ N D _ (by simp) _ _ hm hn,
      computeSquaredEuclideanDistance_spec _ N D _ (by simp) _ _ hm hn]
    congr 2
    apply List.map_congr_left
    intro d hd
    have hd' : d < D := List.mem_range.1 hd
    rw [rd_take _ _ _ (idx_lt hn hd'), rd_take _ _ _ (idx_lt hm hd')]

/-- C21: the exact `evaluateError` reads only the first `2 * N` cells of `Y`, as `N` rows
of 2 coordinates, whatever the dimensionality of the embedding: its value is unchanged
when `Y` is cut after `N * 2` cells, and for `N = 2` points with 3 coordinates the last
two coordinates of the second point have no influence (the squared distance of the rows
`(0,0,0)`, `(0,0,1)` is 1, that of `(0,0,0)`, `(0,0,5)` is 25). -/
theorem evaluateError_two_columns (log : ℚ → ℚ) (DBL_MIN : ℚ) (P : List ℚ) :
    (∀ (Y : List ℚ) (N : Nat),
      evaluateError log DBL_MIN P Y N = evaluateError log DBL_MIN P (Y.take (N * 2)) N) ∧
    (∀ a b c d e f e0 f0 : ℚ,
      evaluateError log DBL_MIN P [a, b, c, d, e, f] 2
        = evaluateError log DBL_MIN P [a, b, c, d, e0, f0] 2) ∧
    evaluateError log DBL_MIN P [0, 0, 0, 0, 0, 1] 2
      = evaluateError log DBL_MIN P [0, 0, 0, 0, 0, 5] 2 := by
  have key : ∀ (Y : List ℚ) (N : Nat),
      evaluateError log DBL_MIN P Y N = evaluateError log DBL_MIN P (Y.take (N * 2)) N := by
    intro Y N
    unfold evaluateError
    rw [computeSquaredEuclideanDistance_take]
  have h2 : ∀ a b c d e f e0 f0 : ℚ,
      evaluateError log DBL_MIN P [a, b, c, d, e, f] 2
        = evaluateError log DBL_MIN P [a, b, c, d, e0, f0] 2 := by
    intro a b c d e f e0 f0
    rw [key [a, b, c, d, e, f] 2, key [a, b, c, d, e0, f0] 2]
    rfl
  exact ⟨key, h2, h2 0 0 0 0 0 1 0 5⟩

/-! ## The two passes of the threshold builder (C22) -/

theorem forLoop_cell {α : Type} [AddCommMonoid α] (c : Nat → α) (m : Nat) (a : List α) :
    ∀ D, forLoop 0 D (fun a d => a.set m (rd a m + c d)) a
      = a.set m (rd a m + ∑ d ∈ Finset.range D, c d) := by
  intro D
  induction D with
  | zero => simp [forLoop, set_rd_self]
  | succ D ih =>
    rw [forLoop_zero_succ, ih, Finset.sum_range_succ]
    by_cases h : m < a.length
    · rw [rd_set_eq _ _ (by simpa using h), List.set_set, add_assoc]
    · have h' : a.length ≤ m := by omega
      have e : ∀ v : α, a.set m v = a := fun v => List.set_eq_of_length_le h'
      rw [e, e, e]

theorem thresholdDistance_spec (X : List ℚ) (D n : Nat) (s : List ℚ × List ℚ) (m : Nat)
    (hb : s.1.length = D) :
    (thresholdDistance X D n s m).1.length = D ∧
    (thresholdDistance X D n s m).2
      = s.2.set m (∑ d ∈ Finset.range D,
          (rd X (n * D + d) - rd X (m * D + d)) * (rd X (n * D + d) - rd X (m * D + d))) := by
  obtain ⟨l1, r1⟩ := forLoop_set0 (fun d (_ : ℚ) => rd X (n * D + d)) s.1 D
  obtain ⟨l2, r2⟩ := forLoop_set0 (fun d (v : ℚ) => v - rd X (m * D + d))
    (forLoop 0 D (fun buff d => buff.set d (rd X (n * D + d))) s.1) D
  unfold thresholdDistance
  simp only
  refine ⟨by rw [l2, l1, hb], ?_⟩
  rw [forLoop_cell]
  have hsum : ∑ d ∈ Finset.range D,
      rd (forLoop 0 D (fun buff d => buff.set d (rd buff d - rd X (m * D + d)))
        (forLoop 0 D (fun buff d => buff.set d (rd X (n * D + d))) s.1)) d
      * rd (forLoop 0 D (fun buff d => buff.set d (rd buff d - rd X (m * D + d)))
        (forLoop 0 D (fun buff d => buff.set d (rd X (n * D + d))) s.1)) d
      = ∑ d ∈ Finset.range D,
          (rd X (n * D + d) - rd X (m * D + d)) * (rd X (n * D + d) - rd X (m * D + d)) := by
    refine Finset.sum_congr rfl (fun d hd => ?_)
    have hd' : d < D := Finset.mem_range.1 hd
    rw [r2 d, if_pos ⟨hd', by rw [l1, hb]; exact hd'⟩, r1 d, if_pos ⟨hd', by rw [hb]; exact hd'⟩]
  rw [hsum]
  by_cases h : m < s.2.length
  · rw [rd_set_eq _ _ h, List.set_set, zero_add]
  · have h' : s.2.length ≤ m := by omega
    have e : ∀ v : ℚ, s.2.set m v = s.2 := fun v => List.set_eq_of_length_le h'
    rw [e, e, e]

theorem thresholdDistances_spec (X : List ℚ) (D n : Nat) (s : List ℚ × List ℚ)
    (hb : s.1.length = D) :
    ∀ k, (forLoop 0 k (thresholdDistance X D n) s).1.length = D ∧
      (forLoop 0 k (thresholdDistance X D n) s).2.length = s.2.length ∧
      ∀ j, rd (forLoop 0 k (thresholdDistance X D n) s).2 j
        = if j < k ∧ j < s.2.length then
            ∑ d ∈ Finset.range D,
              (rd X (n * D + d) - rd X (j * D + d)) * (rd X (n * D + d) - rd X (j * D + d))
          else rd s.2 j := by
  intro k
  induction k with
  | zero => exact ⟨by simpa [forLoop] using hb, by simp [forLoop], fun j => by simp [forLoop]⟩
  | succ k ih =>
    obtain ⟨i1, i2, i3⟩ := ih
    obtain ⟨t1, t2⟩ := thresholdDistance_spec X D n (forLoop 0 k (thresholdDistance X D n) s) k i1
    rw [forLoop_zero_succ]
    refine ⟨t1, by rw [t2, List.length_set, i2], fun j => ?_⟩
    rw [t2, rd_set, i2, i3 j]
    by_cases hjk : k = j
    · subst hjk
      by_cases hl : k < s.2.length
      · rw [if_pos ⟨rfl, hl⟩, if_pos ⟨by omega, hl⟩]
      · rw [if_neg (fun h => hl h.2), if_neg (fun h => hl h.2), if_neg (fun h => hl h.2)]
    · rw [if_neg (fun h => hjk h.1)]
      by_cases hc : j < k ∧ j < s.2.length
      · rw [if_pos hc, if_pos ⟨by omega, hc.2⟩]
      · rw [if_neg hc, if_neg (fun h => hc ⟨by omega, h.2⟩)]

theorem thresholdDistances_eq (X : List ℚ) (N D n : Nat) (s : List ℚ × List ℚ)
    (hb : s.1.length = D) (hd : s.2.length = N) :
    (thresholdDistances X N D n s).1.length = D ∧
    (thresholdDistances X N D n s).2.length = N ∧
    (thresholdDistances X N D n s).2
      = (thresholdDistances X N D n (List.replicate D 0, List.replicate N 0)).2 := by
  obtain ⟨a1, a2, a3⟩ := thresholdDistances_spec X D n s hb N
  obtain ⟨b1, b2, b3⟩ := thresholdDistances_spec X D n
    (List.replicate D 0, List.replicate N 0) (by simp) N
  unfold thresholdDistances
  refine ⟨a1, a2.trans hd, ?_⟩
  apply ext_rd (by rw [a2, b2, hd]; simp)
  intro j hj
  rw [a2, hd] at hj
  rw [a3 j, b3 j, if_pos ⟨hj, by rw [hd]; exact hj⟩, if_pos ⟨hj, by simpa using hj⟩]

theorem betaStep_congr {α : Type} [LinearOrderedField α] (log : α → α)
    (DBL_MAX perplexity : α) (s : Search α) (P0 P : List α) (sum_P H : α) :
    betaStep log DBL_MAX perplexity { s with P := P0 } P sum_P H
      = betaStep log DBL_MAX perplexity s P sum_P H := by
  unfold betaStep
  simp only

theorem thresholdKernel_congr {α : Type} [LinearOrderedField α] (g : Nat → α) (N : Nat)
    (P P0 : List α) (hP : P.length = N) (hP0 : P0.length = N) :
    forLoop 0 N (fun cur_P m => cur_P.set m (g m)) P
      = forLoop 0 N (fun cur_P m => cur_P.set m (g m)) P0 := by
  obtain ⟨l1, r1⟩ := forLoop_set0 (fun m (_ : α) => g m) P N
  obtain ⟨l2, r2⟩ := forLoop_set0 (fun m (_ : α) => g m) P0 N
  apply ext_rd (by rw [l1, l2, hP, hP0])
  intro j hj
  rw [l1, hP] at hj
  rw [r1 j, r2 j, if_pos ⟨hj, by rw [hP]; exact hj⟩, if_pos ⟨hj, by rw [hP0]; exact hj⟩]

theorem thresholdBody_congr {α : Type} [LinearOrderedField α] (exp log : α → α)
    (DBL_MIN DBL_MAX : α) (DD : List α) (N n : Nat) (perplexity : α) (s : Search α)
    (P0 : List α) (hP : s.P.length = N) (hP0 : P0.length = N) :
    thresholdBody exp log DBL_MIN DBL_MAX DD N n perplexity { s with P := P0 }
      = thresholdBody exp log DBL_MIN DBL_MAX DD N n perplexity s := by
  unfold thresholdBody
  simp only
  rw [thresholdKernel_congr (fun m => exp (-s.beta * rd DD m)) N P0 s.P hP0 hP, betaStep_congr]

theorem thresholdBody_eq {α : Type} [LinearOrderedField α] (exp log : α → α)
    (DBL_MIN DBL_MAX : α) (DD : List α) (N n : Nat) (perplexity : α) (s : Search α) :
    ∃ P sum_P H, thresholdBody exp log DBL_MIN DBL_MAX DD N n perplexity s
      = betaStep log DBL_MAX perplexity s P sum_P H :=
  ⟨_, _, _, rfl⟩

theorem length_thresholdBody {α : Type} [LinearOrderedField α] (exp log : α → α)
    (DBL_MIN DBL_MAX : α) (DD : List α) (N n : Nat) (perplexity : α) (s : Search α) :
    (thresholdBody exp log DBL_MIN DBL_MAX DD N n perplexity s).P.length = s.P.length := by
  unfold thresholdBody
  simp only
  rw [(betaStep_out log DBL_MAX perplexity s _ _ _).1, List.length_set]
  exact (forLoop_set0 (fun m (_ : α) => exp (-s.beta * rd DD m)) s.P N).1

theorem thresholdRow_spec {α : Type} [LinearOrderedField α] (exp log : α → α)
    (DBL_MIN DBL_MAX : α) (DD : List α) (N n : Nat) (perplexity : α) (cur_P : List α)
    (hP : cur_P.length = N) :
    (thresholdRow exp log DBL_MIN DBL_MAX DD N n perplexity cur_P).length = N ∧
    thresholdRow exp log DBL_MIN DBL_MAX DD N n perplexity cur_P
      = thresholdRow exp log DBL_MIN DBL_MAX DD N n perplexity (List.replicate N 0) := by
  constructor
  · unfold thresholdRow
    simp only
    rw [(forLoop_set0 (fun _ (v : α) => v / _) _ N).1]
    exact searchLoop_inv _ (fun s => s.P.length = N)
      (fun s hs _ _ => (length_thresholdBody exp log DBL_MIN DBL_MAX DD N n perplexity s).trans
        hs) 200 _ hP
  · have h : searchLoop (thresholdBody exp log DBL_MIN DBL_MAX DD N n perplexity) 200
          (searchInit DBL_MAX cur_P)
        = searchLoop (thresholdBody exp log DBL_MIN DBL_MAX DD N n perplexity) 200
          (searchInit DBL_MAX (List.replicate N 0)) := by
      have hb := thresholdBody_congr exp log DBL_MIN DBL_MAX DD N n perplexity
        (searchInit DBL_MAX cur_P) (List.replicate N 0) hP (by simp)
      have hb' : thresholdBody exp log DBL_MIN DBL_MAX DD N n perplexity
            (searchInit DBL_MAX (List.replicate N 0))
          = thresholdBody exp log DBL_MIN DBL_MAX DD N n perplexity
            (searchInit DBL_MAX cur_P) := hb
      show searchLoop _ (199 + 1) _ = searchLoop _ (199 + 1) _
      unfold searchLoop
      simp only [searchInit, Bool.not_false, Bool.true_and, decide_eq_true_eq]
      simp only [searchInit] at hb'
      rw [hb', if_pos (by norm_num), if_pos (by norm_num)]
    unfold thresholdRow
    simp only
    rw [h]

theorem thresholdRow_canon (exp log : ℚ → ℚ) (DBL_MIN DBL_MAX : ℚ) (X : List ℚ) (N D : Nat)
    (perplexity : ℚ) (n : Nat) (buff DD cur_P : List ℚ) (hb : buff.length = D)
    (hd : DD.length = N) (hc : cur_P.length = N) :
    (thresholdDistances X N D n (buff, DD)).1.length = D ∧
    (thresholdDistances X N D n (buff, DD)).2.length = N ∧
    thresholdRow exp log DBL_MIN DBL_MAX (thresholdDistances X N D n (buff, DD)).2 N n
        perplexity cur_P
      = thresholdRowOf exp log DBL_MIN DBL_MAX X N D perplexity n ∧
    (thresholdRowOf exp log DBL_MIN DBL_MAX X N D perplexity n).length = N := by
  obtain ⟨d1, d2, d3⟩ := thresholdDistances_eq X N D n (buff, DD) hb hd
  refine ⟨d1, d2, ?_, ?_⟩
  · rw [d3, (thresholdRow_spec exp log DBL_MIN DBL_MAX _ N n perplexity cur_P hc).2]
    rfl
  · unfold thresholdRowOf
    exact (thresholdRow_spec exp log DBL_MIN DBL_MAX _ N n perplexity (List.replicate N 0)
      (by simp)).1

theorem count_loop (p : Nat → Prop) [DecidablePred p] (c0 : Nat) :
    ∀ N, forLoop 0 N (fun c m => if p m then c + 1 else c) c0
      = c0 + ((List.range N).filter fun m => decide (p m)).length := by
  intro N
  induction N with
  | zero => simp [forLoop]
  | succ N ih =>
    rw [forLoop_zero_succ, ih, List.range_succ, List.filter_append, List.length_append]
    by_cases h : p N
    · simp [h]; omega
    · simp [h]

theorem store_loop (threshold : ℚ) (N : Nat) (st : ThresholdState) :
    ∀ k,
      (forLoop 0 k (thresholdStore threshold N) st).buff = st.buff ∧
      (forLoop 0 k (thresholdStore threshold N) st).DD = st.DD ∧
      (forLoop 0 k (thresholdStore threshold N) st).cur_P = st.cur_P ∧
      (forLoop 0 k (thresholdStore threshold N) st).row_P = st.row_P ∧
      (forLoop 0 k (thresholdStore threshold N) st).count
        = st.count + ((List.range k).filter fun m =>
            decide (rd st.cur_P m > threshold / (N : ℚ))).length ∧
      (forLoop 0 k (thresholdStore threshold N) st).writes
        = st.writes ++ List.range' st.count ((List.range k).filter fun m =>
            decide (rd st.cur_P m > threshold / (N : ℚ))).length ∧
      (forLoop 0 k (thresholdStore threshold N) st).col_P.length = st.col_P.length ∧
      (forLoop 0 k (thresholdStore threshold N) st).val_P.length = st.val_P.length ∧
      (∀ j, rd (forLoop 0 k (thresholdStore threshold N) st).col_P j
        = if st.count ≤ j ∧ j < st.count + ((List.range k).filter fun m =>
              decide (rd st.cur_P m > threshold / (N : ℚ))).length ∧ j < st.col_P.length then
            rd ((List.range k).filter fun m =>
              decide (rd st.cur_P m > threshold / (N : ℚ))) (j - st.count)
          else rd st.col_P j) ∧
      (∀ j, rd (forLoop 0 k (thresholdStore threshold N) st).val_P j
        = if st.count ≤ j ∧ j < st.count + ((List.range k).filter fun m =>
              decide (rd st.cur_P m > threshold / (N : ℚ))).length ∧ j < st.val_P.length then
            rd st.cur_P (rd ((List.range k).filter fun m =>
              decide (rd st.cur_P m > threshold / (N : ℚ))) (j - st.count))
          else rd st.val_P j) := by
  intro k
  induction k with
  | zero =>
    simp only [forLoop, Nat.sub_zero, List.range'_zero, List.foldl_nil, List.range_zero,
      List.filter_nil, List.length_nil, Nat.add_zero, List.append_nil, true_and]
    exact ⟨fun j => by rw [if_neg (by omega)], fun j => by rw [if_neg (by omega)]⟩
  | succ k ih =>
    obtain ⟨i1, i2, i3, i4, i5, i6, i7, i8, i9, i10⟩ := ih
    rw [forLoop_zero_succ]
    generalize forLoop 0 k (thresholdStore threshold N) st = r at i1 i2 i3 i4 i5 i6 i7 i8 i9 i10
    rw [List.range_succ, List.filter_append]
    generalize hL : ((List.range k).filter fun m =>
      decide (rd st.cur_P m > threshold / (N : ℚ))) = L at i5 i6 i9 i10
    unfold thresholdStore
    rw [i3]
    by_cases h : rd st.cur_P k > threshold / (N : ℚ)
    · rw [if_pos h]
      have hf : ([k].filter fun m => decide (rd st.cur_P m > threshold / (N : ℚ))) = [k] := by
        simp [h]
      rw [hf]
      simp only [List.length_append, List.length_singleton, List.length_set]
      refine ⟨i1, i2, trivial, i4, by rw [i5]; omega, ?_, i7, i8, fun j => ?_, fun j => ?_⟩
      · rw [i6, i5, List.append_assoc]
        congr 1
        rw [List.range'_concat]
        simp
      · rw [rd_set, i5, i7, i9 j]
        by_cases hj : st.count + L.length = j
        · by_cases hl : j < st.col_P.length
          · rw [if_pos ⟨hj, by omega⟩, if_pos ⟨by omega, by omega, hl⟩]
            have : j - st.count = L.length := by omega
            rw [this, rd_append_length]
          · rw [if_neg (fun hh => hl (by omega)), if_neg (fun hh => hl hh.2.2),
              if_neg (fun hh => hl hh.2.2)]
        · rw [if_neg (fun hh => hj hh.1)]
          by_cases hc : st.count ≤ j ∧ j < st.count + L.length ∧ j < st.col_P.length
          · rw [if_pos hc, if_pos ⟨hc.1, by omega, hc.2.2⟩, rd_append_left _ _ (by omega)]
          · rw [if_neg hc, if_neg (fun hh => hc ⟨hh.1, by omega, hh.2.2⟩)]
      · rw [rd_set, i5, i8, i10 j]
        by_cases hj : st.count + L.length = j
        · by_cases hl : j < st.val_P.length
          · rw [if_pos ⟨hj, by omega⟩, if_pos ⟨by omega, by omega, hl⟩]
            have : j - st.count = L.length := by omega
            rw [this, rd_append_length]
          · rw [if_neg (fun hh => hl (by omega)), if_neg (fun hh => hl hh.2.2),
              if_neg (fun hh => hl hh.2.2)]
        · rw [if_neg (fun hh => hj hh.1)]
          by_cases hc : st.count ≤ j ∧ j < st.count + L.length ∧ j < st.val_P.length
          · rw [if_pos hc, if_pos ⟨hc.1, by omega, hc.2.2⟩, rd_append_left _ _ (by omega)]
          · rw [if_neg hc, if_neg (fun hh => hc ⟨hh.1, by omega, hh.2.2⟩)]
    · rw [if_neg h]
      have hf : ([k].filter fun m => decide (rd st.cur_P m > threshold / (N : ℚ))) = [] := by
        simp [h]
      rw [hf, List.append_nil]
      exact ⟨i1, i2, i3, i4, i5, i6, i7, i8, i9, i10⟩

theorem thresholdCount_spec (exp log : ℚ → ℚ) (DBL_MIN DBL_MAX : ℚ) (X : List ℚ) (N D : Nat)
    (perplexity threshold : ℚ) :
    ∀ k,
      (forLoop 0 k (thresholdCount exp log DBL_MIN DBL_MAX X N D perplexity threshold)
        ((List.replicate D 0, List.replicate N 0, List.replicate N 0), 0)).1.1.length = D ∧
      (forLoop 0 k (thresholdCount exp log DBL_MIN DBL_MAX X N D perplexity threshold)
        ((List.replicate D 0, List.replicate N 0, List.replicate N 0), 0)).1.2.1.length = N ∧
      (forLoop 0 k (thresholdCount exp log DBL_MIN DBL_MAX X N D perplexity threshold)
        ((List.replicate D 0, List.replicate N 0, List.replicate N 0), 0)).1.2.2.length = N ∧
      (forLoop 0 k (thresholdCount exp log DBL_MIN DBL_MAX X N D perplexity threshold)
        ((List.replicate D 0, List.replicate N 0, List.replicate N 0), 0)).2
        = ∑ r ∈ Finset.range k,
            (selected exp log DBL_MIN DBL_MAX X N D perplexity threshold r).length := by
  intro k
  induction k with
  | zero => simp [forLoop]
  | succ k ih =>
    obtain ⟨i1, i2, i3, i4⟩ := ih
    rw [forLoop_zero_succ]
    generalize forLoop 0 k (thresholdCount exp log DBL_MIN DBL_MAX X N D perplexity threshold)
      ((List.replicate D 0, List.replicate N 0, List.replicate N 0), 0) = s at i1 i2 i3 i4
    obtain ⟨c1, c2, c3, c4⟩ := thresholdRow_canon exp log DBL_MIN DBL_MAX X N D perplexity k
      s.1.1 s.1.2.1 s.1.2.2 i1 i2 i3
    unfold thresholdCount
    simp only
    rw [c3]
    refine ⟨c1, c2, c4, ?_⟩
    rw [count_loop (fun m => rd (thresholdRowOf exp log DBL_MIN DBL_MAX X N D perplexity k) m
      > threshold / (N : ℚ)) s.2 N, i4, Finset.sum_range_succ]
    rfl

theorem sum_range_mono (f : Nat → Nat) {j k : Nat} (h : j ≤ k) :
    ∑ r ∈ Finset.range j, f r ≤ ∑ r ∈ Finset.range k, f r :=
  Finset.sum_le_sum_of_subset (Finset.range_mono h)

theorem thresholdFill_spec (exp log : ℚ → ℚ) (DBL_MIN DBL_MAX : ℚ) (X : List ℚ) (N D : Nat)
    (perplexity threshold : ℚ) (st0 : ThresholdState) (hb : st0.buff.length = D)
    (hd : st0.DD.length = N) (hc : st0.cur_P.length = N) (h0 : st0.count = 0)
    (hr : st0.row_P.length = N + 1) (hr0 : rd st0.row_P 0 = 0)
    (hcol : st0.col_P.length
      = ∑ r ∈ Finset.range N,
          (selected exp log DBL_MIN DBL_MAX X N D perplexity threshold r).length)
    (hval : st0.val_P.length
      = ∑ r ∈ Finset.range N,
          (selected exp log DBL_MIN DBL_MAX X N D perplexity threshold r).length)
    (hw : st0.writes = []) :
    ∀ k, k ≤ N →
      (forLoop 0 k (thresholdFill exp log DBL_MIN DBL_MAX X N D perplexity threshold)
        st0).buff.length = D ∧
      (forLoop 0 k (thresholdFill exp log DBL_MIN DBL_MAX X N D perplexity threshold)
        st0).DD.length = N ∧
      (forLoop 0 k (thresholdFill exp log DBL_MIN DBL_MAX X N D perplexity threshold)
        st0).cur_P.length = N ∧
      (forLoop 0 k (thresholdFill exp log DBL_MIN DBL_MAX X N D perplexity threshold)
        st0).count
        = ∑ r ∈ Finset.range k,
            (selected exp log DBL_MIN DBL_MAX X N D perplexity threshold r).length ∧
      (forLoop 0 k (thresholdFill exp log DBL_MIN DBL_MAX X N D perplexity threshold)
        st0).row_P.length = N + 1 ∧
      (∀ j, j ≤ k →
        rd (forLoop 0 k (thresholdFill exp log DBL_MIN DBL_MAX X N D perplexity threshold)
          st0).row_P j
          = ∑ r ∈ Finset.range j,
              (selected exp log DBL_MIN DBL_MAX X N D perplexity threshold r).length) ∧
      (forLoop 0 k (thresholdFill exp log DBL_MIN DBL_MAX X N D perplexity threshold)
        st0).col_P.length = st0.col_P.length ∧
      (forLoop 0 k (thresholdFill exp log DBL_MIN DBL_MAX X N D perplexity threshold)
        st0).val_P.length = st0.val_P.length ∧
      (∀ n, n < k → ∀ j,
        j < (selected exp log DBL_MIN DBL_MAX X N D perplexity threshold n).length →
        rd (forLoop 0 k (thresholdFill exp log DBL_MIN DBL_MAX X N D perplexity threshold)
            st0).col_P
            ((∑ r ∈ Finset.range n,
              (selected exp log DBL_MIN DBL_MAX X N D perplexity threshold r).length) + j)
          = rd (selected exp log DBL_MIN DBL_MAX X N D perplexity threshold n) j ∧
        rd (forLoop 0 k (thresholdFill exp log DBL_MIN DBL_MAX X N D perplexity threshold)
            st0).val_P
            ((∑ r ∈ Finset.range n,
              (selected exp log DBL_MIN DBL_MAX X N D perplexity threshold r).length) + j)
          = rd (thresholdRowOf exp log DBL_MIN DBL_MAX X N D perplexity n)
              (rd (selected exp log DBL_MIN DBL_MAX X N D perplexity threshold n) j)) ∧
      (∀ i ∈ (forLoop 0 k (thresholdFill exp log DBL_MIN DBL_MAX X N D perplexity threshold)
          st0).writes,
        i < ∑ r ∈ Finset.range k,
            (selected exp log DBL_MIN DBL_MAX X N D perplexity threshold r).length) := by
  intro k
  induction k with
  | zero =>
    intro _
    simp only [forLoop, Nat.sub_zero, List.range'_zero, List.foldl_nil, Finset.range_zero,
      Finset.sum_empty]
    refine ⟨hb, hd, hc, h0, hr, fun j hj => ?_, trivial, trivial,
      fun n hn => absurd hn (by omega), fun i hi => ?_⟩
    · rw [Nat.le_zero.1 hj]; simpa using hr0
    · rw [hw] at hi; simp at hi
  | succ k ih =>
    intro hk
    obtain ⟨i1, i2, i3, i4, i5, i6, i7, i8, i9, i10⟩ := ih (by omega)
    rw [forLoop_zero_succ]
    generalize forLoop 0 k (thresholdFill exp log DBL_MIN DBL_MAX X N D perplexity threshold)
      st0 = st at i1 i2 i3 i4 i5 i6 i7 i8 i9 i10
    obtain ⟨c1, c2, c3, c4⟩ := thresholdRow_canon exp log DBL_MIN DBL_MAX X N D perplexity k
      st.buff st.DD st.cur_P i1 i2 i3
    unfold thresholdFill
    simp only
    rw [c3]
    obtain ⟨s1, s2, s3, s4, s5, s6, s7, s8, s9, s10⟩ := store_loop threshold N
      { st with
        buff := (thresholdDistances X N D k (st.buff, st.DD)).1
        DD := (thresholdDistances X N D k (st.buff, st.DD)).2
        cur_P := thresholdRowOf exp log DBL_MIN DBL_MAX X N D perplexity k } N
    simp only at s1 s2 s3 s4 s5 s6 s7 s8 s9 s10
    generalize forLoop 0 N (thresholdStore threshold N)
      { st with
        buff := (thresholdDistances X N D k (st.buff, st.DD)).1
        DD := (thresholdDistances X N D k (st.buff, st.DD)).2
        cur_P := thresholdRowOf exp log DBL_MIN DBL_MAX X N D perplexity k } = r
      at s1 s2 s3 s4 s5 s6 s7 s8 s9 s10
    have hsel : ((List.range N).filter fun m =>
        decide (rd (thresholdRowOf exp log DBL_MIN DBL_MAX X N D perplexity k) m
          > threshold / (N : ℚ)))
        = selected exp log DBL_MIN DBL_MAX X N D perplexity threshold k := rfl
    rw [hsel] at s5 s6 s9 s10
    have hcnt : r.count = ∑ r ∈ Finset.range (k + 1),
        (selected exp log DBL_MIN DBL_MAX X N D perplexity threshold r).length := by
      rw [s5, i4, Finset.sum_range_succ]
    have hcap : ∑ r ∈ Finset.range (k + 1),
        (selected exp log DBL_MIN DBL_MAX X N D perplexity threshold r).length
        ≤ st0.col_P.length := by
      rw [hcol]
      exact sum_range_mono _ hk
    have hsucc := Finset.sum_range_succ
      (fun r => (selected exp log DBL_MIN DBL_MAX X N D perplexity threshold r).length) k
    beta_reduce at hsucc
    refine ⟨by rw [s1]; exact c1, by rw [s2]; exact c2, by rw [s3]; exact c4, hcnt,
      by rw [List.length_set, s4]; exact i5, fun j hj => ?_, by rw [s7]; exact i7,
      by rw [s8]; exact i8, fun n hn j hj => ?_, fun i hi => ?_⟩
    · rw [rd_set, s4, i5]
      by_cases hjk : k + 1 = j
      · rw [if_pos ⟨hjk, by omega⟩, hcnt, hjk]
      · rw [if_neg (fun h => hjk h.1)]
        exact i6 j (by omega)
    · rw [s9, s10, i4, i7, i8, ← hcol.trans hval.symm] 
      rcases Nat.eq_or_lt_of_le (Nat.le_of_lt_succ hn) with e | e
      · subst e
        rw [if_pos ⟨by omega, by omega, by omega⟩, if_pos ⟨by omega, by omega, by omega⟩,
          Nat.add_sub_cancel_left]
        exact ⟨rfl, rfl⟩
      · have hle : ∑ r ∈ Finset.range (n + 1),
            (selected exp log DBL_MIN DBL_MAX X N D perplexity threshold r).length
            ≤ ∑ r ∈ Finset.range k,
              (selected exp log DBL_MIN DBL_MAX X N D perplexity threshold r).length :=
          sum_range_mono _ (by omega)
        have hs := Finset.sum_range_succ
          (fun r => (selected exp log DBL_MIN DBL_MAX X N D perplexity threshold r).length) n
        beta_reduce at hle hs
        rw [if_neg (by omega), if_neg (by omega)]
        exact i9 n e j hj
    · rw [s6] at hi
      rcases List.mem_append.1 hi with h | h
      · have := i10 i h
        omega
      · rw [List.mem_range'_1] at h
        omega

theorem map_rd_range' (a : List Nat) (L : List Nat) (o : Nat)
    (h : ∀ j, j < L.length → rd a (o + j) = rd L j) :
    (List.range' o L.length).map (rd a) = L := by
  apply List.ext_getElem (by simp)
  intro i h1 h2
  rw [List.getElem_map, List.getElem_range'_1, h i h2, rd_eq_getElem _ _ h2]

theorem map_rd_range'_val (a c : List ℚ) (L : List Nat) (o : Nat)
    (h : ∀ j, j < L.length → rd a (o + j) = rd c (rd L j)) :
    (List.range' o L.length).map (rd a) = L.map (rd c) := by
  apply List.ext_getElem (by simp)
  intro i h1 h2
  have h3 : i < L.length := by simpa using h2
  rw [List.getElem_map, List.getElem_range'_1, h i h3, List.getElem_map, rd_eq_getElem _ _ h3]

/-- C22: for every input of the threshold builder, with `total_count` and the variables
`st` it ends with: the second pass stores exactly what the first pass counted, the final
`count` is `total_count`; `row_P[0] = 0`, `row_P` does not decrease and `row_P[N] =
total_count`, the allocated length of `col_P` and `val_P`; every index written is below
`total_count`; and row `n` stores exactly the columns `m` whose normalized similarity is
above `threshold / N`, in strictly increasing order, with these similarities as values. -/
theorem computeGaussianPerplexityThreshold_two_pass (exp log : ℚ → ℚ) (DBL_MIN DBL_MAX : ℚ)
    (X : List ℚ) (N D : Nat) (perplexity threshold : ℚ) (total_count : Nat)
    (st : ThresholdState)
    (h : computeGaussianPerplexityThreshold exp log DBL_MIN DBL_MAX X N D perplexity threshold
      = (total_count, st)) :
    st.count = total_count ∧
    st.row_P.length = N + 1 ∧
    rd st.row_P 0 = 0 ∧
    (∀ n, n < N → rd st.row_P n ≤ rd st.row_P (n + 1)) ∧
    rd st.row_P N = total_count ∧
    st.col_P.length = total_count ∧
    st.val_P.length = total_count ∧
    (∀ i ∈ st.writes, i < total_count) ∧
    (∀ n, n < N →
      (rowIdx st.row_P n).map (rd st.col_P) = selected exp log DBL_MIN DBL_MAX X N D perplexity threshold n ∧
      (rowIdx st.row_P n).map (rd st.val_P)
        = (selected exp log DBL_MIN DBL_MAX X N D perplexity threshold n).map
            (rd (thresholdRowOf exp log DBL_MIN DBL_MAX X N D perplexity n)) ∧
      (selected exp log DBL_MIN DBL_MAX X N D perplexity threshold n).Pairwise (· < ·)) ∧
    (∀ n m, m ∈ selected exp log DBL_MIN DBL_MAX X N D perplexity threshold n
      ↔ m < N ∧ rd (thresholdRowOf exp log DBL_MIN DBL_MAX X N D perplexity n) m > threshold / (N : ℚ)) := by
  obtain ⟨p1, p2, p3, p4⟩ := thresholdCount_spec exp log DBL_MIN DBL_MAX X N D perplexity
    threshold N
  unfold computeGaussianPerplexityThreshold at h
  simp only at h
  generalize forLoop 0 N (thresholdCount exp log DBL_MIN DBL_MAX X N D perplexity threshold)
    ((List.replicate D 0, List.replicate N 0, List.replicate N 0), 0) = q at p1 p2 p3 p4 h
  obtain ⟨f1, f2, f3, f4, f5, f6, f7, f8, f9, f10⟩ := thresholdFill_spec exp log DBL_MIN
    DBL_MAX X N D perplexity threshold
    { buff := q.1.1, DD := q.1.2.1, cur_P := q.1.2.2, count := 0
      row_P := (List.replicate (N + 1) 0).set 0 0
      col_P := List.replicate q.2 0
      val_P := List.replicate q.2 0
      writes := [] }
    p1 p2 p3 rfl (by simp) (by simp [rd]) (by simp [p4]) (by simp [p4]) rfl N (Nat.le_refl _)
  simp only [List.length_replicate] at f7 f8
  generalize forLoop 0 N (thresholdFill exp log DBL_MIN DBL_MAX X N D perplexity threshold)
    { buff := q.1.1, DD := q.1.2.1, cur_P := q.1.2.2, count := 0
      row_P := (List.replicate (N + 1) 0).set 0 0
      col_P := List.replicate q.2 0
      val_P := List.replicate q.2 0
      writes := [] } = st0 at f1 f2 f3 f4 f5 f6 f7 f8 f9 f10 h
  obtain ⟨ht, hs⟩ := Prod.mk.inj h
  subst hs
  rw [← ht]
  have hsucc : ∀ n, ∑ r ∈ Finset.range (n + 1), (selected exp log DBL_MIN DBL_MAX X N D perplexity threshold r).length
      = ∑ r ∈ Finset.range n, (selected exp log DBL_MIN DBL_MAX X N D perplexity threshold r).length
        + (selected exp log DBL_MIN DBL_MAX X N D perplexity threshold n).length :=
    fun n => Finset.sum_range_succ _ n
  have hidx : ∀ n, n < N → rowIdx st0.row_P n
      = List.range' (∑ r ∈ Finset.range n, (selected exp log DBL_MIN DBL_MAX X N D perplexity threshold r).length)
          (selected exp log DBL_MIN DBL_MAX X N D perplexity threshold n).length := by
    intro n hn
    unfold rowIdx
    rw [f6 n (Nat.le_of_lt hn), f6 (n + 1) hn, hsucc n, Nat.add_sub_cancel_left]
  refine ⟨by rw [f4, p4], f5, by rw [f6 0 (Nat.zero_le _)]; simp, fun n hn => ?_,
    by rw [f6 N (Nat.le_refl _), p4], f7, f8, fun i hi => by rw [p4]; exact f10 i hi,
    fun n hn => ⟨?_, ?_, ?_⟩, fun n m => ?_⟩
  · rw [f6 n (Nat.le_of_lt hn), f6 (n + 1) hn, hsucc n]
    omega
  · rw [hidx n hn]
    exact map_rd_range' _ _ _ (fun j hj => (f9 n hn j hj).1)
  · rw [hidx n hn]
    exact map_rd_range'_val _ _ _ _ (fun j hj => (f9 n hn j hj).2)
  · unfold selected
    exact List.Pairwise.filter _ (List.pairwise_lt_range N)
  · unfold selected
    simp [List.mem_filter]

theorem computeGaussianPerplexityThreshold_two_pass_witness :
    computeGaussianPerplexityThreshold stepExp (fun _ => 0) (1 / 1000) 1000 [0, 0, 5] 3 1 2 1
      = (3, ⟨[0], [25, 25, 0], [0, 0, 1 / 2], 3, [0, 1, 2, 3], [1, 0, 2],
          [500 / 501, 500 / 501, 1 / 2], [0, 1, 2]⟩) ∧
    (3 : Nat) = 3 ∧
    (rowIdx [0, 1, 2, 3] 2).map (rd [1, 0, 2])
      = selected stepExp (fun _ => 0) (1 / 1000) 1000 [0, 0, 5] 3 1 2 1 2 :=
  ⟨by decide!,
    (computeGaussianPerplexityThreshold_two_pass stepExp (fun _ => 0) (1 / 1000) 1000
      [0, 0, 5] 3 1 2 1 3 ⟨[0], [25, 25, 0], [0, 0, 1 / 2], 3, [0, 1, 2, 3], [1, 0, 2],
          [500 / 501, 500 / 501, 1 / 2], [0, 1, 2]⟩ (by decide!)).1,
    ((computeGaussianPerplexityThreshold_two_pass stepExp (fun _ => 0) (1 / 1000) 1000
      [0, 0, 5] 3 1 2 1 3 ⟨[0], [25, 25, 0], [0, 0, 1 / 2], 3, [0, 1, 2, 3], [1, 0, 2],
          [500 / 501, 500 / 501, 1 / 2], [0, 1, 2]⟩ (by decide!)).2.2.2.2.2.2.2.2.1 2
      (by decide)).1⟩

/-! ## Degree and index bounds of the `K`-neighbour builder (C23) -/

theorem mem_knnPointLoop (row_P : List Nat) (acc : List (Nat × Nat × Nat × Nat))
    (n : Nat) (e : Nat × Nat × Nat × Nat) :
    ∀ k, e ∈ forLoop 0 k (fun acc m => acc ++ [(n, m, m + 1, rd row_P n + m)]) acc
      ↔ e ∈ acc ∨ ∃ m, m < k ∧ e = (n, m, m + 1, rd row_P n + m) := by
  intro k
  induction k with
  | zero => simp [forLoop]
  | succ k ih =>
    rw [forLoop_zero_succ, List.mem_append, ih, List.mem_singleton]
    constructor
    · rintro ((h | ⟨m, hm, h⟩) | h)
      · exact Or.inl h
      · exact Or.inr ⟨m, by omega, h⟩
      · exact Or.inr ⟨k, by omega, h⟩
    · rintro (h | ⟨m, hm, h⟩)
      · exact Or.inl (Or.inl h)
      · rcases Nat.eq_or_lt_of_le (Nat.le_of_lt_succ hm) with e1 | e1
        · subst e1; exact Or.inr h
        · exact Or.inl (Or.inr ⟨m, e1, h⟩)

theorem mem_knnPointIndices (K : Nat) (row_P : List Nat) (acc : List (Nat × Nat × Nat × Nat))
    (n : Nat) (e : Nat × Nat × Nat × Nat) :
    e ∈ knnPointIndices K row_P acc n
      ↔ e ∈ acc ∨ ∃ m, m < K ∧ e = (n, m, m + 1, rd row_P n + m) :=
  mem_knnPointLoop row_P acc n e K

theorem mem_knnIndices (N K : Nat) (row_P : List Nat) (e : Nat × Nat × Nat × Nat) :
    e ∈ knnIndices N K row_P
      ↔ ∃ n m, n < N ∧ m < K ∧ e = (n, m, m + 1, rd row_P n + m) := by
  unfold knnIndices
  have key : ∀ k, e ∈ forLoop 0 k (knnPointIndices K row_P) []
      ↔ ∃ n m, n < k ∧ m < K ∧ e = (n, m, m + 1, rd row_P n + m) := by
    intro k
    induction k with
    | zero => simp [forLoop]
    | succ k ih =>
      rw [forLoop_zero_succ, mem_knnPointIndices, ih]
      constructor
      · rintro (⟨n, m, hn, hm, h⟩ | ⟨m, hm, h⟩)
        · exact ⟨n, m, by omega, hm, h⟩
        · exact ⟨k, m, by omega, hm, h⟩
      · rintro ⟨n, m, hn, hm, h⟩
        rcases Nat.eq_or_lt_of_le (Nat.le_of_lt_succ hn) with e1 | e1
        · subst e1; exact Or.inr ⟨m, hm, h⟩
        · exact Or.inl ⟨n, m, e1, hm, h⟩
  exact key N

theorem length_knnPoint (exp log : ℚ → ℚ) (DBL_MIN DBL_MAX : ℚ)
    (search : Nat → List Nat × List ℚ) (perplexity : ℚ) (K : Nat) (row_P : List Nat)
    (st : List ℚ × List Nat × List ℚ) (n : Nat) :
    (knnPoint exp log DBL_MIN DBL_MAX search perplexity K row_P st n).2.1.length
      = st.2.1.length ∧
    (knnPoint exp log DBL_MIN DBL_MAX search perplexity K row_P st n).2.2.length
      = st.2.2.length := by
  unfold knnPoint
  simp only
  constructor
  · exact forLoop_inv (fun (l : List Nat) => l.length = st.2.1.length) _
      (fun s i h => by simpa using h) _ _ _ rfl
  · exact forLoop_inv (fun (l : List ℚ) => l.length = st.2.2.length) _
      (fun s i h => by simpa using h) _ _ _ rfl

theorem length_computeGaussianPerplexityKnn (exp log : ℚ → ℚ) (DBL_MIN DBL_MAX : ℚ)
    (search : Nat → List Nat × List ℚ) (N : Nat) (perplexity : ℚ) (K : Nat) :
    (computeGaussianPerplexityKnn exp log DBL_MIN DBL_MAX search N perplexity K).col_P.length
      = N * K ∧
    (computeGaussianPerplexityKnn exp log DBL_MIN DBL_MAX search N perplexity K).val_P.length
      = N * K := by
  unfold computeGaussianPerplexityKnn
  simp only
  have h := forLoop_inv
    (fun (st : List ℚ × List Nat × List ℚ) => st.2.1.length = N * K ∧ st.2.2.length = N * K)
    (knnPoint exp log DBL_MIN DBL_MAX search perplexity K
      (forLoop 0 N (fun row_P n => row_P.set (n + 1) (rd row_P n + K))
        ((List.replicate (N + 1) 0).set 0 0)))
    (fun s i hs => by
      obtain ⟨l1, l2⟩ := length_knnPoint exp log DBL_MIN DBL_MAX search perplexity K
        (forLoop 0 N (fun row_P n => row_P.set (n + 1) (rd row_P n + K))
          ((List.replicate (N + 1) 0).set 0 0)) s i
      exact ⟨l1.trans hs.1, l2.trans hs.2⟩)
    0 N (List.replicate (N - 1) 0, List.replicate (N * K) 0, List.replicate (N * K) 0)
    ⟨by simp, by simp⟩
  exact h

/-- C23: the `K`-neighbour builder sets `row_P[n] = n * K` for every `n ≤ N`, so every
row has exactly `K` entries, and allocates `N * K` cells for `col_P` and `val_P`; if
`K ≤ N - 1` and every neighbour search returns `K + 1` results, every index used by the
loops over `m` is in bounds: `cur_P` (`N - 1` cells) at `m`, the search results at
`m + 1`, `col_P` and `val_P` at `row_P[n] + m`. -/
theorem computeGaussianPerplexityKnn_in_bounds (exp log : ℚ → ℚ) (DBL_MIN DBL_MAX : ℚ)
    (search : Nat → List Nat × List ℚ) (N : Nat) (perplexity : ℚ) (K : Nat) :
    (computeGaussianPerplexityKnn exp log DBL_MIN DBL_MAX search N perplexity K).row_P.length
      = N + 1 ∧
    (∀ n, n ≤ N →
      rd (computeGaussianPerplexityKnn exp log DBL_MIN DBL_MAX search N perplexity K).row_P n
        = n * K) ∧
    (∀ n, n < N →
      rd (computeGaussianPerplexityKnn exp log DBL_MIN DBL_MAX search N perplexity K).row_P
          (n + 1)
        - rd (computeGaussianPerplexityKnn exp log DBL_MIN DBL_MAX search N perplexity K).row_P
          n = K) ∧
    (computeGaussianPerplexityKnn exp log DBL_MIN DBL_MAX search N perplexity K).col_P.length
      = N * K ∧
    (computeGaussianPerplexityKnn exp log DBL_MIN DBL_MAX search N perplexity K).val_P.length
      = N * K ∧
    (∀ e, e ∈ knnIndices N K
        (computeGaussianPerplexityKnn exp log DBL_MIN DBL_MAX search N perplexity K).row_P
      ↔ ∃ n m, n < N ∧ m < K ∧ e = (n, m, m + 1, n * K + m)) ∧
    (K ≤ N - 1 →
      (∀ n, n < N → (search n).1.length = K + 1 ∧ (search n).2.length = K + 1) →
      ∀ e ∈ knnIndices N K
        (computeGaussianPerplexityKnn exp log DBL_MIN DBL_MAX search N perplexity K).row_P,
        e.1 < N ∧ e.2.1 < N - 1 ∧ e.2.2.1 < (search e.1).1.length ∧
        e.2.2.1 < (search e.1).2.length ∧
        e.2.2.2 < (computeGaussianPerplexityKnn exp log DBL_MIN DBL_MAX search N perplexity
          K).col_P.length ∧
        e.2.2.2 < (computeGaussianPerplexityKnn exp log DBL_MIN DBL_MAX search N perplexity
          K).val_P.length) := by
  obtain ⟨r1, r2⟩ := computeGaussianPerplexityKnn_row_P exp log DBL_MIN DBL_MAX search N
    perplexity K
  obtain ⟨l1, l2⟩ := length_computeGaussianPerplexityKnn exp log DBL_MIN DBL_MAX search N
    perplexity K
  have hmem : ∀ e, e ∈ knnIndices N K
        (computeGaussianPerplexityKnn exp log DBL_MIN DBL_MAX search N perplexity K).row_P
      ↔ ∃ n m, n < N ∧ m < K ∧ e = (n, m, m + 1, n * K + m) := by
    intro e
    rw [mem_knnIndices]
    constructor
    · rintro ⟨n, m, hn, hm, h⟩
      exact ⟨n, m, hn, hm, by rw [h, r2 n (Nat.le_of_lt hn)]⟩
    · rintro ⟨n, m, hn, hm, h⟩
      exact ⟨n, m, hn, hm, by rw [h, r2 n (Nat.le_of_lt hn)]⟩
  refine ⟨r1, r2, fun n hn => ?_, l1, l2, hmem, ?_⟩
  · rw [r2 (n + 1) hn, r2 n (Nat.le_of_lt hn), Nat.succ_mul]
    omega
  · intro hK hs e he
    obtain ⟨n, m, hn, hm, rfl⟩ := (hmem e).1 he
    obtain ⟨s1, s2⟩ := hs n hn
    refine ⟨hn, by simp only; omega, by simp only; omega, by simp only; omega, ?_, ?_⟩
    · rw [l1]; exact idx_lt hn hm
    · rw [l2]; exact idx_lt hn hm

theorem computeGaussianPerplexityKnn_in_bounds_witness :
    (computeGaussianPerplexityKnn (fun _ => 1) (fun _ => 0) (1 / 1000) 1000 sampleSearch 3 2
      2).row_P = [0, 2, 4, 6] ∧
    (computeGaussianPerplexityKnn (fun _ => 1) (fun _ => 0) (1 / 1000) 1000 sampleSearch 3 2
      2).col_P = [1, 2, 2, 0, 0, 1] ∧
    knnIndices 3 2 [0, 2, 4, 6]
      = [(0, 0, 1, 0), (0, 1, 2, 1), (1, 0, 1, 2), (1, 1, 2, 3), (2, 0, 1, 4), (2, 1, 2, 5)] ∧
    (4 : Nat) < (computeGaussianPerplexityKnn (fun _ => 1) (fun _ => 0) (1 / 1000) 1000
      sampleSearch 3 2 2).col_P.length :=
  ⟨by decide!, by decide!, by decide,
    ((computeGaussianPerplexityKnn_in_bounds (fun _ => 1) (fun _ => 0) (1 / 1000) 1000
      sampleSearch 3 2 2).2.2.2.2.2.2 (by decide)
      (fun n hn => by interval_cases n <;> exact ⟨rfl, rfl⟩) (2, 0, 1, 4)
      (by decide!)).2.2.2.2.1⟩

/-! ## The symmetric closure (C24) -/

theorem mem_pos_iff {E : List (Nat × Nat × ℚ)} {i j : Nat} :
    (i, j) ∈ E.map pos ↔ ∃ w, (i, j, w) ∈ E := by
  rw [List.mem_map]
  constructor
  · rintro ⟨⟨a, b, w⟩, he, hp⟩
    simp only [pos, Prod.mk.injEq] at hp
    obtain ⟨rfl, rfl⟩ := hp
    exact ⟨w, he⟩
  · rintro ⟨w, he⟩
    exact ⟨(i, j, w), he, rfl⟩

theorem pos_mem_symSpec {T : List (Nat × Nat × ℚ)} (hT : (T.map pos).Nodup) {n m : Nat}
    {a : ℚ} (h : (n, m, a) ∈ T) :
    (n, m) ∈ (symSpec T).map pos ∧ (m, n) ∈ (symSpec T).map pos := by
  by_cases hrev : ∃ b, (m, n, b) ∈ T
  · obtain ⟨b, hb⟩ := hrev
    by_cases hne : n = m
    · subst hne
      have hm : mate T n n = some (n, n, a) := mate_of_mem hT h
      have he : (n, n, a + a) ∈ symSpec T := by
        unfold symSpec
        refine List.mem_flatMap.2 ⟨(n, n, a), h, ?_⟩
        unfold emit
        simp [hm]
      exact ⟨mem_pos_iff.2 ⟨_, he⟩, mem_pos_iff.2 ⟨_, he⟩⟩
    · obtain ⟨h1, h2⟩ := mem_symSpec_of_mutual hT h hb hne
      exact ⟨mem_pos_iff.2 ⟨_, h1⟩, mem_pos_iff.2 ⟨_, h2⟩⟩
  · obtain ⟨h1, h2⟩ := mem_symSpec_of_single h (fun b hb => hrev ⟨b, hb⟩)
    exact ⟨mem_pos_iff.2 ⟨_, h1⟩, mem_pos_iff.2 ⟨_, h2⟩⟩

theorem mem_pos_symSpec {T : List (Nat × Nat × ℚ)} (hT : (T.map pos).Nodup) (i j : Nat) :
    (i, j) ∈ (symSpec T).map pos ↔ ((i, j) ∈ T.map pos ∨ (j, i) ∈ T.map pos) := by
  constructor
  · intro h
    obtain ⟨w, hw⟩ := mem_pos_iff.1 h
    unfold symSpec at hw
    obtain ⟨t, ht, he⟩ := List.mem_flatMap.1 hw
    rcases (mem_emit he).1 with hp | hp
    · left
      exact List.mem_map.2 ⟨t, ht, hp.symm⟩
    · right
      simp only [pos, Prod.mk.injEq] at hp
      exact List.mem_map.2 ⟨t, ht, by simp only [pos, Prod.mk.injEq]; exact ⟨hp.2.symm, hp.1.symm⟩⟩
  · rintro (h | h)
    · obtain ⟨w, hw⟩ := mem_pos_iff.1 h
      exact (pos_mem_symSpec hT hw).1
    · obtain ⟨w, hw⟩ := mem_pos_iff.1 h
      exact (pos_mem_symSpec hT hw).2

theorem length_symEntries (N : Nat) (T : List (Nat × Nat × ℚ)) :
    (symEntries N T).length
      = ((List.range N).map fun r => (rowOf (symSpec T) r).length).sum := by
  unfold symEntries
  rw [List.length_flatMap]
  congr 1
  apply List.map_congr_left
  intro r _
  simp

theorem mem_pos_entries_symmetrizeMatrix {N : Nat} {M : Csr} (h : Valid N M) (i j : Nat) :
    (i, j) ∈ (entries N (symmetrizeMatrix M N)).map pos
      ↔ ((i, j) ∈ (entries N M).map pos ∨ (j, i) ∈ (entries N M).map pos) := by
  rw [← mem_pos_symSpec h.nodup_pos, entries_symmetrizeMatrix h, mem_pos_iff, mem_pos_iff]
  constructor
  · rintro ⟨w, hw⟩
    rw [mem_symEntries (fun t ht => h.lt ht)] at hw
    obtain ⟨e, he, hx⟩ := List.mem_map.1 hw
    refine ⟨e.2.2, ?_⟩
    have : (i, j) = pos e := by rw [← pos_half e, hx]; rfl
    simp only [pos, Prod.mk.injEq] at this
    rw [this.1, this.2]
    exact he
  · rintro ⟨w, hw⟩
    refine ⟨w / 2, ?_⟩
    rw [mem_symEntries (fun t ht => h.lt ht)]
    exact List.mem_map.2 ⟨(i, j, w), hw, rfl⟩

theorem length_entries_symmetrizeMatrix {N : Nat} {M : Csr} (h : Valid N M) :
    (entries N (symmetrizeMatrix M N)).length = noElem (rowCounts M.row_P M.col_P N) N := by
  rw [entries_symmetrizeMatrix h, length_symEntries, noElem_eq]
  unfold psum
  congr 1
  apply List.map_congr_left
  intro r _
  rw [(rowCounts_spec h).2 r]

/-- C24: for every valid CSR input, a pair `(i, j)` is stored in the output of
`symmetrizeMatrix` exactly when `(i, j)` or `(j, i)` is stored in the input; no pair is
stored twice; the output is again a valid CSR matrix (no repeated column in a row); and
`no_elem`, the number of stored entries, is the number of elements of that set of pairs. -/
theorem symmetrizeMatrix_closure {N : Nat} {M : Csr} (h : Valid N M) :
    (∀ i j, (i, j) ∈ (entries N (symmetrizeMatrix M N)).map pos
      ↔ ((i, j) ∈ (entries N M).map pos ∨ (j, i) ∈ (entries N M).map pos)) ∧
    ((entries N (symmetrizeMatrix M N)).map pos).Nodup ∧
    Valid N (symmetrizeMatrix M N) ∧
    (entries N (symmetrizeMatrix M N)).length = noElem (rowCounts M.row_P M.col_P N) N ∧
    (symmetrizeMatrix M N).col_P.length = noElem (rowCounts M.row_P M.col_P N) N ∧
    ∀ C : Finset (Nat × Nat),
      (∀ p, p ∈ C ↔ (p ∈ (entries N M).map pos ∨ (p.2, p.1) ∈ (entries N M).map pos)) →
      C.card = noElem (rowCounts M.row_P M.col_P N) N := by
  have hv := valid_symmetrizeMatrix h
  refine ⟨mem_pos_entries_symmetrizeMatrix h, hv.nodup_pos, hv,
    length_entries_symmetrizeMatrix h, (fill_spec h).2.1, ?_⟩
  intro C hC
  have hCe : C = ((entries N (symmetrizeMatrix M N)).map pos).toFinset := by
    ext p
    rw [hC p, List.mem_toFinset]
    exact (mem_pos_entries_symmetrizeMatrix h p.1 p.2).symm
  rw [hCe, List.toFinset_card_of_nodup hv.nodup_pos, List.length_map,
    length_entries_symmetrizeMatrix h]

theorem symmetrizeMatrix_closure_witness :
    Valid 3 sampleInput ∧
    (entries 3 sampleInput).map pos = [(0, 1), (0, 2), (1, 0)] ∧
    (entries 3 (symmetrizeMatrix sampleInput 3)).map pos = [(0, 1), (0, 2), (1, 0), (2, 0)] ∧
    (entries 3 (symmetrizeMatrix sampleInput 3)).length
      = noElem (rowCounts sampleInput.row_P sampleInput.col_P 3) 3 :=
  ⟨by decide, by decide!, by decide!,
    (symmetrizeMatrix_closure (by decide : Valid 3 sampleInput)).2.2.2.1⟩

/-! ## Zero net force of the exact gradient (C25) -/

theorem computeSquaredEuclideanDistance_symm (X : List ℚ) (N D : Nat) (DD : List ℚ)
    (hlen : DD.length = N * N) (m n : Nat) (hm : m < N) (hn : n < N) :
    rd (computeSquaredEuclideanDistance X N D DD) (m * N + n)
      = rd (computeSquaredEuclideanDistance X N D DD) (n * N + m) := by
  rw [computeSquaredEuclideanDistance_spec X N D DD hlen m n hm hn,
    computeSquaredEuclideanDistance_spec X N D DD hlen n m hn hm]
  have h : (fun d => rd X (n * D + d) * rd X (m * D + d))
      = (fun d => rd X (m * D + d) * rd X (n * D + d)) := by
    funext d
    ring
  rw [h]

theorem sum_antisymm (N : Nat) (a : Nat → Nat → ℚ)
    (h : ∀ n m, n < N → m < N → a m n = -a n m) :
    ∑ n ∈ Finset.range N, ∑ m ∈ (Finset.range N).filter (fun m => m ≠ n), a n m = 0 := by
  have e1 : ∑ n ∈ Finset.range N, ∑ m ∈ (Finset.range N).filter (fun m => m ≠ n), a n m
      = ∑ n ∈ Finset.range N, ∑ m ∈ Finset.range N, if m ≠ n then a n m else 0 :=
    Finset.sum_congr rfl (fun n _ => Finset.sum_filter _ _)
  have e2 : ∑ n ∈ Finset.range N, ∑ m ∈ Finset.range N, (if m ≠ n then a n m else 0)
      = -∑ n ∈ Finset.range N, ∑ m ∈ Finset.range N, (if m ≠ n then a n m else 0) := by
    conv_lhs => rw [Finset.sum_comm]
    rw [← Finset.sum_neg_distrib]
    refine Finset.sum_congr rfl (fun m hm => ?_)
    rw [← Finset.sum_neg_distrib]
    refine Finset.sum_congr rfl (fun n hn => ?_)
    by_cases hmn : m = n
    · simp [hmn]
    · rw [if_pos hmn, if_pos (fun e => hmn e.symm),
        h m n (Finset.mem_range.1 hm) (Finset.mem_range.1 hn)]
  rw [e1]
  linarith

/-- C25, as stated, fails: it quantifies over every `Y`, but for the centred
`Y = [1, 1/2, -3/2]` (`N = 3`, `D = 1`) and the symmetric `P` with `1` off the diagonal,
the matrix that `computeSquaredEuclideanDistance` produces has `DD[0*3+1] = -1`, so
line 386 divides by `1 + DD[0*3+1] = 0`: exact arithmetic gives the gradient no value
(binary64 gives NaN), and there is no sum that could be `0`. -/
theorem computeExactGradient_net_force_counterexample :
    (∀ n, n < 3 → ∀ m, m < 3 →
      rd [0, 1, 1, 1, 0, 1, 1, 1, (0 : ℚ)] (n * 3 + m)
        = rd [0, 1, 1, 1, 0, 1, 1, 1, (0 : ℚ)] (m * 3 + n)) ∧
    ([1, 1 / 2, -3 / 2] : List ℚ).sum = 0 ∧
    1 + rd (computeSquaredEuclideanDistance [1, 1 / 2, -3 / 2] 3 1 (List.replicate (3 * 3) 0))
      (0 * 3 + 1) = 0 ∧
    computeExactGradientChecked [0, 1, 1, 1, 0, 1, 1, 1, 0] [1, 1 / 2, -3 / 2] 3 1 [0, 0, 0]
      = none := by
  decide!

/-- C25 (amended): in exact arithmetic, for every `N`, `D`, every array `dC` of `N * D`
cells, every symmetric `P` (`P[n*N+m] = P[m*N+n]`) and every `Y` for which no divisor of
`computeExactGradient` vanishes (`1 + DD[n*N+m] ≠ 0` for all `n ≠ m`, and the sum `S` of
the `1 / (1 + DD[n*N+m])` is not `0` when `N ≥ 2`), the gradient has a value and zero net
force in every dimension: the sum over `n` of `dC[n*D+d]` is `0` for every `d < D`; the
matrix `DD` that the code computes from `Y` is symmetric. -/
theorem computeExactGradient_net_force (P Y : List ℚ) (N D : Nat) (dC : List ℚ)
    (hlen : dC.length = N * D)
    (hP : ∀ n m, n < N → m < N → rd P (n * N + m) = rd P (m * N + n))
    (hq : ∀ n m, n < N → m < N → n ≠ m →
      1 + rd (computeSquaredEuclideanDistance Y N D (List.replicate (N * N) 0)) (n * N + m) ≠ 0)
    (hS : 2 ≤ N →
      (∑ a ∈ Finset.range N, ∑ b ∈ (Finset.range N).filter (fun b => b ≠ a),
        1 / (1 + rd (computeSquaredEuclideanDistance Y N D
          (List.replicate (N * N) 0)) (a * N + b))) ≠ 0) :
    (∀ n m, n < N → m < N →
      rd (computeSquaredEuclideanDistance Y N D (List.replicate (N * N) 0)) (n * N + m)
        = rd (computeSquaredEuclideanDistance Y N D (List.replicate (N * N) 0)) (m * N + n)) ∧
    computeExactGradientChecked P Y N D dC = some (computeExactGradient P Y N D dC) ∧
    ∀ d, d < D → ∑ n ∈ Finset.range N, rd (computeExactGradient P Y N D dC) (n * D + d) = 0 := by
  have hDD : ∀ n m, n < N → m < N →
      rd (computeSquaredEuclideanDistance Y N D (List.replicate (N * N) 0)) (n * N + m)
        = rd (computeSquaredEuclideanDistance Y N D (List.replicate (N * N) 0)) (m * N + n) :=
    fun n m hn hm => computeSquaredEuclideanDistance_symm Y N D _ (by simp) n m hn hm
  refine ⟨hDD, computeExactGradientChecked_some P Y N D dC hq hS, fun d hd => ?_⟩
  rw [Finset.sum_congr rfl (fun n hn =>
    computeExactGradient_rd P Y N D dC hlen n d (Finset.mem_range.1 hn) hd)]
  apply sum_antisymm
  intro n m hn hm
  rw [hP m n hm hn, hDD m n hm hn]
  ring

theorem computeExactGradient_net_force_witness :
    computeExactGradientChecked [0, 1, 1, 0] [1, 2] 2 1 [7, 9] = some [1 / 6, -1 / 6] ∧
    ∑ n ∈ Finset.range 2, rd (computeExactGradient [0, 1, 1, 0] [1, 2] 2 1 [7, 9]) (n * 1 + 0)
      = 0 :=
  ⟨((computeExactGradient_net_force [0, 1, 1, 0] [1, 2] 2 1 [7, 9] rfl
      (fun n m hn hm => by interval_cases n <;> interval_cases m <;> rfl)
      (fun n m hn hm h => by
        interval_cases n <;> interval_cases m <;> first | exact absurd rfl h | decide!)
      (fun _ => by decide!)).2.1).trans (by decide!),
    (computeExactGradient_net_force [0, 1, 1, 0] [1, 2] 2 1 [7, 9] rfl
      (fun n m hn hm => by interval_cases n <;> interval_cases m <;> rfl)
      (fun n m hn hm h => by
        interval_cases n <;> interval_cases m <;> first | exact absurd rfl h | decide!)
      (fun _ => by decide!)).2.2 0 (by decide)⟩

/-! ## The bracket invariant of the bandwidth search (C26) -/

theorem betaStep_found_fields {α : Type} [LinearOrderedField α] (log : α → α)
    (DBL_MAX perplexity : α) (s : Search α) (P : List α) (sum_P H : α)
    (h : H - log perplexity < 1 / 100000 ∧ -(H - log perplexity) < 1 / 100000) :
    (betaStep log DBL_MAX perplexity s P sum_P H).found = true ∧
    (betaStep log DBL_MAX perplexity s P sum_P H).beta = s.beta ∧
    (betaStep log DBL_MAX perplexity s P sum_P H).min_beta = s.min_beta ∧
    (betaStep log DBL_MAX perplexity s P sum_P H).max_beta = s.max_beta := by
  unfold betaStep
  simp only [h, and_self, if_true]

theorem bracket_order {α : Type} [LinearOrderedField α] (DBL_MAX : α)
    (hmax : 2 ^ 200 < DBL_MAX) (s : Search α) (hb : Bracket DBL_MAX s) (hi : s.iter ≤ 200) :
    0 < s.beta ∧ s.min_beta < s.beta ∧ s.beta < s.max_beta := by
  have h1 : (1 : α) ≤ 2 ^ 200 := one_le_pow₀ (by norm_num)
  rcases hb with ⟨b1, b2, b3⟩ | ⟨k, k1, k2, b1, b2, b3⟩ | ⟨k, k1, k2, b1, b2, b3⟩ |
    ⟨b1, b2, b3, b4⟩
  · rw [b1, b2, b3]
    refine ⟨by norm_num, by linarith, by linarith⟩
  · have hk : (2 : α) ^ k ≤ 2 ^ 200 := pow_le_pow_right₀ (by norm_num) (by omega)
    have hp : (0 : α) < 2 ^ (k - 1) := by positivity
    have hs : (2 : α) ^ k = 2 ^ (k - 1) * 2 := by
      rw [← pow_succ]; congr 1; omega
    rw [b1, b2, b3]
    refine ⟨by positivity, by rw [hs]; linarith, by linarith⟩
  · have hp : (0 : α) < (1 / 2) ^ k := by positivity
    have hs : ((1 : α) / 2) ^ (k - 1) = (1 / 2) ^ k * 2 := by
      have : k = (k - 1) + 1 := by omega
      conv_rhs => rw [this, pow_succ]
      ring
    rw [b1, b2, b3]
    refine ⟨hp, by linarith, by rw [hs]; linarith⟩
  · rw [b4]
    refine ⟨by linarith, by linarith, by linarith⟩

theorem bracket_step {α : Type} [LinearOrderedField α] (log : α → α)
    (DBL_MAX perplexity : α) (hmax : 2 ^ 200 < DBL_MAX) (s : Search α) (P : List α)
    (sum_P H : α) (hb : Bracket DBL_MAX s) (hi : s.iter < 200) :
    Bracket DBL_MAX (betaStep log DBL_MAX perplexity s P sum_P H) ∧
    ((betaStep log DBL_MAX perplexity s P sum_P H).found = false → s.found = false →
      ((betaStep log DBL_MAX perplexity s P sum_P H).max_beta = DBL_MAX →
        (betaStep log DBL_MAX perplexity s P sum_P H).beta = s.beta * 2) ∧
      ((betaStep log DBL_MAX perplexity s P sum_P H).min_beta = -DBL_MAX →
        (betaStep log DBL_MAX perplexity s P sum_P H).beta = s.beta / 2) ∧
      ((betaStep log DBL_MAX perplexity s P sum_P H).min_beta ≠ -DBL_MAX →
        (betaStep log DBL_MAX perplexity s P sum_P H).max_beta ≠ DBL_MAX →
        (betaStep log DBL_MAX perplexity s P sum_P H).beta
          = ((betaStep log DBL_MAX perplexity s P sum_P H).min_beta
            + (betaStep log DBL_MAX perplexity s P sum_P H).max_beta) / 2 ∧
        (s.min_beta ≠ -DBL_MAX → s.max_beta ≠ DBL_MAX →
          (betaStep log DBL_MAX perplexity s P sum_P H).max_beta
            - (betaStep log DBL_MAX perplexity s P sum_P H).min_beta
            = (s.max_beta - s.min_beta) / 2))) := by
  have h1 : (1 : α) ≤ 2 ^ 200 := one_le_pow₀ (by norm_num)
  have hM : (0 : α) < DBL_MAX := by linarith
  obtain ⟨o1, o2, o3⟩ := bracket_order DBL_MAX hmax s hb (by omega)
  have hit := betaStep_iter log DBL_MAX perplexity s P sum_P H
  obtain ⟨-, c2, c3⟩ := betaStep_fields log DBL_MAX perplexity s P sum_P H
  by_cases hcase : H - log perplexity < 1 / 100000 ∧ -(H - log perplexity) < 1 / 100000
  · obtain ⟨f1, f2, f3, f4⟩ := betaStep_found_fields log DBL_MAX perplexity s P sum_P H hcase
    constructor
    · rcases hb with ⟨b1, b2, b3⟩ | ⟨k, k1, k2, b1, b2, b3⟩ | ⟨k, k1, k2, b1, b2, b3⟩ |
        ⟨b1, b2, b3, b4⟩
      · exact Or.inl ⟨by rw [f2, b1], by rw [f3, b2], by rw [f4, b3]⟩
      · exact Or.inr (Or.inl ⟨k, k1, by rw [hit]; omega, by rw [f2, b1], by rw [f3, b2],
          by rw [f4, b3]⟩)
      · exact Or.inr (Or.inr (Or.inl ⟨k, k1, by rw [hit]; omega, by rw [f2, b1],
          by rw [f4, b2], by rw [f3, b3]⟩))
      · exact Or.inr (Or.inr (Or.inr ⟨by rw [f3]; exact b1, by rw [f3, f4]; exact b2,
          by rw [f4]; exact b3, by rw [f2, f3, f4]; exact b4⟩))
    · intro hf
      rw [f1] at hf
      exact Bool.noConfusion hf
  · by_cases hpos : H - log perplexity > 0
    · obtain ⟨-, d2, d3, d4⟩ := c2 hcase hpos
      rcases hb with ⟨b1, b2, b3⟩ | ⟨k, k1, k2, b1, b2, b3⟩ | ⟨k, k1, k2, b1, b2, b3⟩ |
        ⟨b1, b2, b3, b4⟩
      · rw [if_pos (Or.inl b3)] at d4
        refine ⟨Or.inr (Or.inl ⟨1, le_refl _, by rw [hit]; omega, by rw [d4, b1]; norm_num,
          by rw [d2, b1]; norm_num, by rw [d3, b3]⟩), fun _ _ => ⟨fun _ => d4, fun h => ?_,
          fun _ h => absurd (by rw [d3, b3]) h⟩⟩
        rw [d2] at h
        linarith
      · rw [if_pos (Or.inl b3)] at d4
        refine ⟨Or.inr (Or.inl ⟨k + 1, by omega, by rw [hit]; omega, by rw [d4, b1, pow_succ],
          by rw [d2, b1]; simp, by rw [d3, b3]⟩), fun _ _ => ⟨fun _ => d4, fun h => ?_,
          fun _ h => absurd (by rw [d3, b3]) h⟩⟩
        rw [d2] at h
        linarith
      · have hmx : ¬ (s.max_beta = DBL_MAX ∨ s.max_beta = -DBL_MAX) := by
          have hp : (0 : α) < (1 / 2) ^ (k - 1) := by positivity
          have hle : ((1 : α) / 2) ^ (k - 1) ≤ 1 := pow_le_one₀ (by norm_num) (by norm_num)
          rw [b2]
          rintro (h | h) <;> linarith
        rw [if_neg hmx] at d4
        refine ⟨Or.inr (Or.inr (Or.inr ⟨by rw [d2]; exact o1, by rw [d2, d3]; exact o3, ?_,
          by rw [d4, d2, d3]⟩)), fun _ _ => ⟨fun h => ?_, fun h => ?_,
          fun _ _ => ⟨by rw [d4, d2, d3], fun h => absurd b3 h⟩⟩⟩
        · rw [d3, b2]
          have hle : ((1 : α) / 2) ^ (k - 1) ≤ 1 := pow_le_one₀ (by norm_num) (by norm_num)
          linarith
        · rw [d3] at h
          exact absurd (Or.inl h) hmx
        · rw [d2] at h
          linarith
      · have hmx : ¬ (s.max_beta = DBL_MAX ∨ s.max_beta = -DBL_MAX) := by
          rintro (h | h) <;> linarith
        rw [if_neg hmx] at d4
        refine ⟨Or.inr (Or.inr (Or.inr ⟨by rw [d2]; exact o1, by rw [d2, d3]; exact o3,
          by rw [d3]; exact b3, by rw [d4, d2, d3]⟩)), fun _ _ => ⟨fun h => ?_, fun h => ?_,
          fun _ _ => ⟨by rw [d4, d2, d3], fun _ _ => ?_⟩⟩⟩
        · rw [d3] at h
          exact absurd (Or.inl h) hmx
        · rw [d2] at h
          linarith
        · rw [d2, d3, b4]
          ring
    · obtain ⟨-, d2, d3, d4⟩ := c3 hcase hpos
      rcases hb with ⟨b1, b2, b3⟩ | ⟨k, k1, k2, b1, b2, b3⟩ | ⟨k, k1, k2, b1, b2, b3⟩ |
        ⟨b1, b2, b3, b4⟩
      · rw [if_pos (Or.inl b2)] at d4
        refine ⟨Or.inr (Or.inr (Or.inl ⟨1, le_refl _, by rw [hit]; omega,
          by rw [d4, b1]; norm_num, by rw [d3, b1]; norm_num, by rw [d2, b2]⟩)),
          fun _ _ => ⟨fun h => ?_, fun _ => d4, fun h _ => absurd (by rw [d2, b2]) h⟩⟩
        rw [d3] at h
        linarith
      · have hk : (2 : α) ^ k ≤ 2 ^ 200 := pow_le_pow_right₀ (by norm_num) (by omega)
        have hp : (0 : α) < 2 ^ (k - 1) := by positivity
        have hmn : ¬ (s.min_beta = -DBL_MAX ∨ s.min_beta = DBL_MAX) := by
          rw [b1] at o2
          rintro (h | h) <;> rw [b2] at h <;> linarith
        rw [if_neg hmn] at d4
        refine ⟨Or.inr (Or.inr (Or.inr ⟨by rw [d2, b2]; exact hp, by rw [d2, d3]; exact o2,
          by rw [d3, b1]; exact hk, by rw [d4, d2, d3, add_comm]⟩)), fun _ _ => ⟨fun h => ?_,
          fun h => ?_, fun _ _ => ⟨by rw [d4, d2, d3, add_comm], fun _ h => absurd b3 h⟩⟩⟩
        · rw [d3] at h
          linarith
        · rw [d2] at h
          exact absurd (Or.inl h) hmn
      · rw [if_pos (Or.inl b3)] at d4
        refine ⟨Or.inr (Or.inr (Or.inl ⟨k + 1, by omega, by rw [hit]; omega,
          by rw [d4, b1, pow_succ]; ring, by rw [d3, b1]; simp, by rw [d2, b3]⟩)),
          fun _ _ => ⟨fun h => ?_, fun _ => d4, fun h _ => absurd (by rw [d2, b3]) h⟩⟩
        have hle : ((1 : α) / 2) ^ (k - 1) ≤ 1 := pow_le_one₀ (by norm_num) (by norm_num)
        rw [b2] at o3
        rw [d3] at h
        linarith
      · have hmn : ¬ (s.min_beta = -DBL_MAX ∨ s.min_beta = DBL_MAX) := by
          rintro (h | h) <;> linarith
        rw [if_neg hmn] at d4
        refine ⟨Or.inr (Or.inr (Or.inr ⟨by rw [d2]; exact b1, by rw [d2, d3]; exact o2,
          by rw [d3]; linarith, by rw [d4, d2, d3, add_comm]⟩)), fun _ _ => ⟨fun h => ?_,
          fun h => ?_, fun _ _ => ⟨by rw [d4, d2, d3, add_comm], fun _ _ => ?_⟩⟩⟩
        · rw [d3] at h
          linarith
        · rw [d2] at h
          exact absurd (Or.inl h) hmn
        · rw [d2, d3, b4]
          ring

/-- C26, as stated, fails in the program's binary64 arithmetic: for the sequence of
entropy comparisons `>, <, >, >, ...` the search doubles `beta` to `2`, bisects to `1.5`
and then moves `min_beta` up; after 54 steps (of at most 200) the midpoint
`(beta + max_beta) / 2` is rounded to `max_beta = 2`, so `beta < max_beta` fails, and after
55 steps `min_beta = beta = max_beta = 2`: step 55 does not halve the width
`max_beta - min_beta = 2^-52` to `2^-53` but makes it `0`, and `min_beta < beta` fails as
well.  In exact arithmetic the same comparisons give `beta = 2 - 2^-53` after 54 steps. -/
theorem bracket_invariant_counterexample :
    (searchLoop bracketBodyD 53 (searchInit dbl_max [])).found = false ∧
    (searchLoop bracketBodyD 53 (searchInit dbl_max [])).min_beta = 2 - 1 / 2 ^ 51 ∧
    (searchLoop bracketBodyD 53 (searchInit dbl_max [])).beta = 2 - 1 / 2 ^ 52 ∧
    (searchLoop bracketBodyD 53 (searchInit dbl_max [])).max_beta = 2 ∧
    (searchLoop bracketBodyD 54 (searchInit dbl_max [])).found = false ∧
    (searchLoop bracketBodyD 54 (searchInit dbl_max [])).iter = 54 ∧
    (searchLoop bracketBodyD 54 (searchInit dbl_max [])).min_beta = 2 - 1 / 2 ^ 52 ∧
    (searchLoop bracketBodyD 54 (searchInit dbl_max [])).beta = 2 ∧
    (searchLoop bracketBodyD 54 (searchInit dbl_max [])).max_beta = 2 ∧
    ¬ ((searchLoop bracketBodyD 54 (searchInit dbl_max [])).beta
        < (searchLoop bracketBodyD 54 (searchInit dbl_max [])).max_beta) ∧
    (searchLoop bracketBodyD 55 (searchInit dbl_max [])).found = false ∧
    (searchLoop bracketBodyD 55 (searchInit dbl_max [])).iter = 55 ∧
    (searchLoop bracketBodyD 55 (searchInit dbl_max [])).min_beta = 2 ∧
    (searchLoop bracketBodyD 55 (searchInit dbl_max [])).beta = 2 ∧
    (searchLoop bracketBodyD 55 (searchInit dbl_max [])).max_beta = 2 ∧
    (searchLoop bracketBody 54 (searchInit dbl_max [])).beta = 2 - 1 / 2 ^ 53 ∧
    (searchLoop bracketBody 54 (searchInit dbl_max [])).max_beta = 2 := by
  decide!

/-- C26 (amended): in exact arithmetic (every linearly ordered field), for every sequence
of entropy values (every loop body that ends in the update of `betaStep`) and every number
of steps, the state of the search that starts from
`beta = 1`, `min_beta = -DBL_MAX`, `max_beta = DBL_MAX` (with `DBL_MAX > 2^200`) has one
of the shapes of `Bracket` and satisfies `0 < beta` and `min_beta < beta < max_beta`; a
step that does not terminate doubles `beta` if `max_beta` is still at its sentinel
afterwards, halves `beta` if `min_beta` is, and otherwise leaves `beta = (min_beta +
max_beta) / 2`, halving `max_beta - min_beta` when both bounds were already set. -/
theorem bracket_invariant {α : Type} [LinearOrderedField α] (log : α → α)
    (DBL_MAX perplexity : α) (hmax : 2 ^ 200 < DBL_MAX) (body : Search α → Search α)
    (hbody : ∀ s, ∃ P sum_P H, body s = betaStep log DBL_MAX perplexity s P sum_P H)
    (P : List α) (fuel : Nat) :
    Bracket DBL_MAX (searchLoop body fuel (searchInit DBL_MAX P)) ∧
    (searchLoop body fuel (searchInit DBL_MAX P)).iter ≤ 200 ∧
    0 < (searchLoop body fuel (searchInit DBL_MAX P)).beta ∧
    (searchLoop body fuel (searchInit DBL_MAX P)).min_beta
      < (searchLoop body fuel (searchInit DBL_MAX P)).beta ∧
    (searchLoop body fuel (searchInit DBL_MAX P)).beta
      < (searchLoop body fuel (searchInit DBL_MAX P)).max_beta ∧
    ((searchLoop body fuel (searchInit DBL_MAX P)).found = false →
      (searchLoop body fuel (searchInit DBL_MAX P)).iter < 200 →
      (body (searchLoop body fuel (searchInit DBL_MAX P))).found = false →
      ((body (searchLoop body fuel (searchInit DBL_MAX P))).max_beta = DBL_MAX →
        (body (searchLoop body fuel (searchInit DBL_MAX P))).beta
          = (searchLoop body fuel (searchInit DBL_MAX P)).beta * 2) ∧
      ((body (searchLoop body fuel (searchInit DBL_MAX P))).min_beta = -DBL_MAX →
        (body (searchLoop body fuel (searchInit DBL_MAX P))).beta
          = (searchLoop body fuel (searchInit DBL_MAX P)).beta / 2) ∧
      ((body (searchLoop body fuel (searchInit DBL_MAX P))).min_beta ≠ -DBL_MAX →
        (body (searchLoop body fuel (searchInit DBL_MAX P))).max_beta ≠ DBL_MAX →
        (body (searchLoop body fuel (searchInit DBL_MAX P))).beta
          = ((body (searchLoop body fuel (searchInit DBL_MAX P))).min_beta
            + (body (searchLoop body fuel (searchInit DBL_MAX P))).max_beta) / 2 ∧
        ((searchLoop body fuel (searchInit DBL_MAX P)).min_beta ≠ -DBL_MAX →
          (searchLoop body fuel (searchInit DBL_MAX P)).max_beta ≠ DBL_MAX →
          (body (searchLoop body fuel (searchInit DBL_MAX P))).max_beta
            - (body (searchLoop body fuel (searchInit DBL_MAX P))).min_beta
            = ((searchLoop body fuel (searchInit DBL_MAX P)).max_beta
              - (searchLoop body fuel (searchInit DBL_MAX P)).min_beta) / 2))) := by
  have hinv := searchLoop_inv body (fun s => Bracket DBL_MAX s ∧ s.iter ≤ 200)
    (fun s hs _ hi => by
      obtain ⟨P', sum_P, H, h⟩ := hbody s
      rw [h]
      exact ⟨(bracket_step log DBL_MAX perplexity hmax s P' sum_P H hs.1 hi).1,
        by rw [betaStep_iter]; omega⟩)
    fuel (searchInit DBL_MAX P) ⟨Or.inl ⟨rfl, rfl, rfl⟩, by simp [searchInit]⟩
  obtain ⟨o1, o2, o3⟩ := bracket_order DBL_MAX hmax _ hinv.1 hinv.2
  refine ⟨hinv.1, hinv.2, o1, o2, o3, fun hf hi hf2 => ?_⟩
  obtain ⟨P', sum_P, H, h⟩ := hbody (searchLoop body fuel (searchInit DBL_MAX P))
  rw [h] at hf2 ⊢
  exact (bracket_step log DBL_MAX perplexity hmax _ P' sum_P H hinv.1 hi).2 hf2 hf

theorem bracket_invariant_witness :
    (searchLoop sampleBody 3 (searchInit dbl_max [0, 0, 0, 0])).beta = 8 ∧
    (searchLoop sampleBody 3 (searchInit dbl_max [0, 0, 0, 0])).min_beta
      < (searchLoop sampleBody 3 (searchInit dbl_max [0, 0, 0, 0])).beta ∧
    (searchLoop bracketBody 54 (searchInit dbl_max [])).min_beta = 2 - 1 / 2 ^ 52 ∧
    (searchLoop bracketBody 54 (searchInit dbl_max [])).beta = 2 - 1 / 2 ^ 53 ∧
    (searchLoop bracketBody 54 (searchInit dbl_max [])).max_beta = 2 ∧
    (searchLoop bracketBody 54 (searchInit dbl_max [])).beta
      < (searchLoop bracketBody 54 (searchInit dbl_max [])).max_beta ∧
    (bracketBody (searchLoop bracketBody 54 (searchInit dbl_max []))).max_beta
        - (bracketBody (searchLoop bracketBody 54 (searchInit dbl_max []))).min_beta
      = ((searchLoop bracketBody 54 (searchInit dbl_max [])).max_beta
          - (searchLoop bracketBody 54 (searchInit dbl_max [])).min_beta) / 2 :=
  ⟨by decide!,
    (bracket_invariant (fun _ => (0 : ℚ)) dbl_max 2 (by unfold dbl_max; norm_num) sampleBody
      (denseBody_eq (fun _ => 1) (fun _ => 0) (1 / 1000) dbl_max [0, 1, 1, 0] 2 0 2)
      [0, 0, 0, 0] 3).2.2.2.1,
    by decide!, by decide!, by decide!,
    (bracket_invariant (fun _ => (0 : ℚ)) dbl_max 1 (by unfold dbl_max; norm_num) bracketBody
      (fun s => ⟨s.P, 0, _, rfl⟩) [] 54).2.2.2.2.1,
    ((((bracket_invariant (fun _ => (0 : ℚ)) dbl_max 1 (by unfold dbl_max; norm_num) bracketBody
      (fun s => ⟨s.P, 0, _, rfl⟩) [] 54).2.2.2.2.2 (by decide!) (by decide!) (by decide!)).2.2
        (by decide!) (by decide!)).2 (by decide!) (by decide!))⟩

/-! ## `zeroMean` as a translation (C27) -/

/-- C27: for every `N ≥ 1`, `D` and every array `X` of `N * D` cells, `zeroMean` leaves
every pairwise difference within a dimension unchanged, `X'[n*D+d] - X'[m*D+d] =
X[n*D+d] - X[m*D+d]`, and applying `zeroMean` a second time changes nothing. -/
theorem zeroMean_translation (X : List ℚ) (N D : Nat) (hN : 1 ≤ N) (hlen : X.length = N * D) :
    (∀ n m d, n < N → m < N → d < D →
      rd (zeroMean X N D) (n * D + d) - rd (zeroMean X N D) (m * D + d)
        = rd X (n * D + d) - rd X (m * D + d)) ∧
    zeroMean (zeroMean X N D) N D = zeroMean X N D := by
  obtain ⟨l1, s1⟩ := zeroMean_spec X N D hlen
  obtain ⟨l2, s2⟩ := zeroMean_spec (zeroMean X N D) N D l1
  constructor
  · intro n m d hn hm hd
    rw [s1 n d hn hd, s1 m d hm hd]
    ring
  · apply ext_rd (by rw [l2, l1])
    intro j hj
    rw [l2] at hj
    have hD : 0 < D := by
      rcases Nat.eq_zero_or_pos D with h | h
      · rw [h] at hj; simp at hj
      · exact h
    have hjd : j = j / D * D + j % D := by
      rw [Nat.mul_comm]; exact (Nat.div_add_mod j D).symm
    have hn : j / D < N := by
      rw [Nat.div_lt_iff_lt_mul hD]; exact hj
    rw [hjd, s2 _ _ hn (Nat.mod_lt _ hD), zeroMean_sum X N D hN hlen _ (Nat.mod_lt _ hD)]
    simp

theorem zeroMean_translation_witness :
    zeroMean [1, 2, 3, 4, 5, 9] 3 2 = [-2, -3, 0, -1, 2, 4] ∧
    zeroMean (zeroMean [1, 2, 3, 4, 5, 9] 3 2) 3 2 = zeroMean [1, 2, 3, 4, 5, 9] 3 2 :=
  ⟨by decide!, (zeroMean_translation [1, 2, 3, 4, 5, 9] 3 2 (by decide) (by decide)).2⟩

/-! ## Methods outside the `switch` of `embedUsing` (C28) -/

/-- C28: for every method value that is not one of the twenty cases of the `switch` in
`embedUsing`, if the context is not cancelled then `embedUsing` throws nothing, takes no
step of any case (no capability check, no implementation) and returns the
default-constructed `TapkeeOutput()`. -/
theorem embedUsing_unhandled {TapkeeOutput : Type} [Inhabited TapkeeOutput]
    (self : Implementation TapkeeOutput) (method : DimensionReductionMethod)
    (hc : self.is_cancelled = false) (hm : handled method = false) :
    (embedUsing self method).result = Except.ok default ∧
    (embedUsing self method).trace = [] := by
  cases method
  all_goals first | (simp [handled] at hm; done) | simp [embedUsing, hc]

theorem embedUsing_unhandled_witness :
    handled (DimensionReductionMethod.unhandled 99) = false ∧
    (embedUsing (sampleImplementation false) (.unhandled 99)).result = Except.ok [] ∧
    (embedUsing (sampleImplementation false) (.unhandled 99)).trace = [] :=
  ⟨rfl, (embedUsing_unhandled (sampleImplementation false) (.unhandled 99) rfl rfl).1,
    (embedUsing_unhandled (sampleImplementation false) (.unhandled 99) rfl rfl).2⟩

end tsne
